import Mathlib

/-!
# sjson: a flat-token JSON parser (`JSON.h`)

Shallow embedding of the C function `JSON` and of its helper `whitespace`.

Memory model.  The C function receives a pointer `json` and a length
`jsonsize`; the parameter is declared `json[static jsonsize]`, so the object
behind the pointer has *at least* `jsonsize` bytes and may have more (the
recursive calls of `JSON` itself pass a pointer into the middle of the
caller's buffer).  The byte memory behind the pointer is therefore a total
function `Nat → Nat` (index relative to the pointer, value of the byte), and
`jsonsize` is a separate number: `end = &json[jsonsize]` is the index
`jsonsize`.  The descriptor buffer behind `dest` is a function
`Nat → struct_JSON` in the same way, with `destsize` a separate number.
A pointer `&p[k]` passed to a callee is the shifted function
`fun i => p (k + i)`.

Machine integers.  `unsigned` is 32 bits wide: every value stored in an
`unsigned` variable, field or parameter is reduced modulo `2^32`.  Pointers
are positions of type `Nat`.

Loops.  Every loop of the source is a function that recurses on a fuel
argument; `none` means that the fuel ran out before the loop was left.

The read behind the input.  In the string branch, line 225 tests `pos < end`
and then line 227 reads `*pos` after `++pos`: when the last byte of the input
is a backslash that starts an escape, the byte read is `json[jsonsize]`.  The
embedding keeps this read (`string_loop`), and what the source does with a
position behind `end` afterwards.

Organisation.  First the embedding of the source: `whitespace`, the branches
of `JSON`, and `JSON` itself.  Then the definitions that follow the
specification: well-formedness of the descriptor array (`Forest`, `Region`,
`Post`), the enumeration of children, the grammar (`Derives`), and the
predicates in which the results are stated.  Then the theorems: every result
is well formed (`JSON_sound`), successful results do not depend on the
capacity or on the previous content of `dest` (`JSON_indep`), completeness
against the grammar (`Derives.goal`), and, for inputs on which the string
branch does not read behind the input, soundness against the grammar
(`JSON_grammatical`), re-slicing (`JSON_reslice`) and dependence on the bytes of
the input only (`JSON_reads_within`).  The statements `C1` to `C10` of the
specification come last.
-/

namespace SJson

/-- The enumeration `JSON_type_t`. -/
inductive JSON_type_t where
  | JSON_NULL_TYPE
  | JSON_BOOLEAN_TYPE
  | JSON_NUMBER_TYPE
  | JSON_STRING_TYPE
  | JSON_ARRAY_TYPE
  | JSON_OBJECT_TYPE
  deriving DecidableEq, Repr

/-- The record `struct JSON`: one token descriptor. -/
structure struct_JSON where
  offset : Nat
  size : Nat
  treesize : Nat
  type : JSON_type_t
  deriving DecidableEq, Repr

/-- The enumeration `JSON_errno_t`. -/
inductive JSON_errno_t where
  | JSON_EOK
  | JSON_EEOT
  | JSON_ENOMEM
  | JSON_EILL
  | JSON_EINVAL
  | JSON_ENDIG
  | JSON_ESTERM
  | JSON_ESILL
  | JSON_ESESC
  deriving DecidableEq, Repr

open JSON_type_t JSON_errno_t

/-- Conversion of a non-negative value to `unsigned`. -/
def u32 (x : Nat) : Nat := x % 4294967296

/-- The difference `a - b` converted to `unsigned` (also when `a < b`). -/
def usub (a b : Nat) : Nat := (((a : Int) - (b : Int)) % 4294967296).toNat

/-- Result of `JSON`: the error code and the descriptor memory after the call. -/
abbrev Outcome := JSON_errno_t × (Nat → struct_JSON)

/-- Type of `JSON` once its fuel is fixed:
`baseoffset jsonsize json destsize dest`. -/
abbrev Callee := Nat → Nat → (Nat → Nat) → Nat → (Nat → struct_JSON) → Option Outcome

/-- The pointer `&p[k]`. -/
def shift {α : Type} (p : Nat → α) (k : Nat) : Nat → α := fun i => p (k + i)

/-- Descriptor memory of the caller after a callee that was given `&dest[k]`
left `sub` behind that pointer. -/
def unshift (dest : Nat → struct_JSON) (k : Nat) (sub : Nat → struct_JSON) : Nat → struct_JSON :=
  fun i => if i < k then dest i else sub (i - k)

/-- The assignment `dest[i] = v`. -/
def store (dest : Nat → struct_JSON) (i : Nat) (v : struct_JSON) : Nat → struct_JSON :=
  fun k => if k = i then v else dest k

/-- The test `c == ' ' || c == '\t' || c == '\r' || c == '\n'`. -/
def isws (c : Nat) : Bool := c == 32 || c == 9 || c == 13 || c == 10

/-- The test `c >= '0' && c <= '9'`. -/
def isdig (c : Nat) : Bool := decide (48 ≤ c) && decide (c ≤ 57)

/-- The test of line 244 on a byte after `\u`:
`(c >= '0' && c <= '9') || (c >= 'a' && c <= 'z') || (c >= 'A' && c <= 'Z')`. -/
def ishex (c : Nat) : Bool :=
  (decide (48 ≤ c) && decide (c ≤ 57)) || (decide (97 ≤ c) && decide (c ≤ 122))
    || (decide (65 ≤ c) && decide (c ≤ 90))

/-- The function `whitespace(begin, end)`:
`while(begin != end && (*begin is one of ' ', '\t', '\r', '\n')) ++begin;`. -/
def whitespace (json : Nat → Nat) : Nat → Nat → Nat → Option Nat
  | 0, _, _ => none
  | fuel + 1, begin, end_ =>
    if begin ≠ end_ ∧ isws (json begin) = true then whitespace json fuel (begin + 1) end_
    else some begin

/-- The loop `while(pos != end && *pos >= '0' && *pos <= '9') ++pos;` of the
number branch (lines 295, 309, 325). -/
def digits (json : Nat → Nat) : Nat → Nat → Nat → Option Nat
  | 0, _, _ => none
  | fuel + 1, pos, end_ =>
    if pos ≠ end_ ∧ isdig (json pos) = true then digits json fuel (pos + 1) end_
    else some pos

/-- The string loop, lines 212-260.  `Except.error e` is `return e`,
`Except.ok pos` is the `break` after the closing quote, with `pos` behind it. -/
def string_loop (json : Nat → Nat) (end_ : Nat) : Nat → Nat → Option (Except JSON_errno_t Nat)
  | 0, _ => none
  | fuel + 1, pos =>
    if pos = end_ then some (.error JSON_ESTERM)
    else if json pos = 34 then some (.ok (pos + 1))
    else if json pos = 92 ∧ pos < end_ then
      -- `++pos; switch(*pos)`
      let c := json (pos + 1)
      if c = 34 ∨ c = 92 ∨ c = 47 ∨ c = 98 ∨ c = 102 ∨ c = 110 ∨ c = 114 ∨ c = 116 then
        string_loop json end_ fuel (pos + 2)
      else if c = 117 then
        if pos + 2 + 4 > end_ then some (.error JSON_ESESC)
        else if ishex (json (pos + 2)) = false then some (.error JSON_ESESC)
        else if ishex (json (pos + 3)) = false then some (.error JSON_ESESC)
        else if ishex (json (pos + 4)) = false then some (.error JSON_ESESC)
        else if ishex (json (pos + 5)) = false then some (.error JSON_ESESC)
        else string_loop json end_ fuel (pos + 6)
      else some (.error JSON_ESESC)
    else if json pos ≤ 31 ∨ json pos = 127 then some (.error JSON_ESILL)
    else string_loop json end_ fuel (pos + 1)

/-- The string branch, lines 207-265 (`destpos` is 0 there). -/
def JSON_string (fuel baseoffset jsonsize : Nat) (json : Nat → Nat)
    (dest : Nat → struct_JSON) (start : Nat) : Option Outcome :=
  match string_loop json jsonsize fuel (start + 1) with
  | none => none
  | some (.error e) => some (e, dest)
  | some (.ok pos) =>
    some (JSON_EOK, store dest 0
      { offset := u32 (start + baseoffset), size := u32 (pos - start), treesize := 0,
        type := JSON_STRING_TYPE })

/-- The exponent part of the number branch, lines 314-328: the position
behind the number, or the error returned. -/
def number_exponent (fuel jsonsize : Nat) (json : Nat → Nat) (pos : Nat) :
    Option (Except JSON_errno_t Nat) :=
  if pos ≠ jsonsize ∧ (json pos = 101 ∨ json pos = 69) then
    let pos := pos + 1
    if pos = jsonsize then some (.error JSON_ENDIG)
    else
      let pos := if json pos = 45 then pos + 1 else pos
      if pos = jsonsize then some (.error JSON_ENDIG)
      else if pos = jsonsize ∨ json pos < 48 ∨ json pos > 57 then some (.error JSON_ENDIG)
      else (digits json fuel pos jsonsize).map .ok
  else some (.ok pos)

/-- The fraction part of the number branch, lines 302-312. -/
def number_fraction (fuel jsonsize : Nat) (json : Nat → Nat) (pos : Nat) :
    Option (Except JSON_errno_t Nat) :=
  if pos ≠ jsonsize ∧ json pos = 46 then
    let pos := pos + 1
    if pos = jsonsize ∨ json pos < 48 ∨ json pos > 57 then some (.error JSON_ENDIG)
    else (digits json fuel pos jsonsize).map .ok
  else some (.ok pos)

/-- The sign and integer part of the number branch, lines 281-300. -/
def number_integer (fuel jsonsize : Nat) (json : Nat → Nat) (start : Nat) :
    Option (Except JSON_errno_t Nat) :=
  let pos := if json start = 45 then start + 1 else start
  if json start = 45 ∧ pos = jsonsize then some (.error JSON_ENDIG)
  else if pos = jsonsize then some (.error JSON_ENDIG)
  else if json pos = 48 then some (.ok (pos + 1))
  else if 49 ≤ json pos ∧ json pos ≤ 57 then (digits json fuel pos jsonsize).map .ok
  else some (.error JSON_ENDIG)

/-- The scan of the number branch, lines 279-328. -/
def number_scan (fuel jsonsize : Nat) (json : Nat → Nat) (start : Nat) :
    Option (Except JSON_errno_t Nat) :=
  match number_integer fuel jsonsize json start with
  | none => none
  | some (.error e) => some (.error e)
  | some (.ok pos) =>
    match number_fraction fuel jsonsize json pos with
    | none => none
    | some (.error e) => some (.error e)
    | some (.ok pos) => number_exponent fuel jsonsize json pos

/-- The number branch, lines 267-333. -/
def JSON_number (fuel baseoffset jsonsize : Nat) (json : Nat → Nat)
    (dest : Nat → struct_JSON) (start : Nat) : Option Outcome :=
  match number_scan fuel jsonsize json start with
  | none => none
  | some (.error e) => some (e, dest)
  | some (.ok pos) =>
    some (JSON_EOK, store dest 0
      { offset := u32 (start + baseoffset), size := u32 (pos - start), treesize := 0,
        type := JSON_NUMBER_TYPE })

/-- The keyword branches, lines 335-366: `rest` are the bytes expected at
`pos[1]`, `pos[2]`, ..., and `ty` is the type stored. -/
def JSON_keyword (baseoffset jsonsize : Nat) (json : Nat → Nat)
    (dest : Nat → struct_JSON) (pos : Nat) (rest : List Nat) (ty : JSON_type_t) : Outcome :=
  let len := rest.length + 1
  if pos + len > jsonsize then (JSON_EILL, dest)
  else if (List.range rest.length).all (fun i => json (pos + 1 + i) == rest.getD i 0) then
    (JSON_EOK, store dest 0
      { offset := u32 ((pos + len) - len + baseoffset), size := len, treesize := 0, type := ty })
  else (JSON_EILL, dest)

/-- The recursive call of lines 119, 139 and 184,
`JSON(baseoffset + pos - json, end - pos, pos, destsize - destpos, &dest[destpos])`,
seen from the caller: the error code and the caller's descriptor memory after
the call. -/
def subcall (self : Callee) (baseoffset jsonsize : Nat) (json : Nat → Nat)
    (destsize pos destpos : Nat) (dest : Nat → struct_JSON) : Option Outcome :=
  match self (u32 (baseoffset + pos)) (usub jsonsize pos) (shift json pos)
      (usub destsize destpos) (shift dest destpos) with
  | none => none
  | some (e, sub) => some (e, unshift dest destpos sub)

/-- The variables `pos`, `destpos`, `treesize` of the object and array
branches, together with the descriptor memory. -/
structure Frame where
  pos : Nat
  destpos : Nat
  treesize : Nat
  dest : Nat → struct_JSON

/-- The block `// element` of the array loop (lines 183-190), which is also the
block `// value` of the object loop (lines 138-145).  `Except.error r` is a
`return` from `JSON` with outcome `r`. -/
def value_block (self : Callee) (baseoffset jsonsize : Nat) (json : Nat → Nat)
    (destsize : Nat) (s : Frame) : Option (Except Outcome Frame) :=
  match subcall self baseoffset jsonsize json destsize s.pos s.destpos s.dest with
  | none => none
  | some (e, dest) =>
    if e ≠ JSON_EOK then some (.error (e, dest))
    else
      some (.ok
        { pos := s.pos + (dest s.destpos).size,
          treesize := u32 (s.treesize + u32 ((dest s.destpos).treesize + 1)),
          destpos := u32 (s.destpos + u32 ((dest s.destpos).treesize + 1)),
          dest := dest })

/-- The block `// key` of the object loop (lines 118-126). -/
def key_block (self : Callee) (baseoffset jsonsize : Nat) (json : Nat → Nat)
    (destsize : Nat) (s : Frame) : Option (Except Outcome Frame) :=
  match subcall self baseoffset jsonsize json destsize s.pos s.destpos s.dest with
  | none => none
  | some (e, dest) =>
    if e ≠ JSON_EOK then some (.error (e, dest))
    else if (dest s.destpos).type ≠ JSON_STRING_TYPE then some (.error (JSON_EINVAL, dest))
    else
      some (.ok
        { pos := s.pos + (dest s.destpos).size,
          destpos := u32 (s.destpos + 1),
          treesize := u32 (s.treesize + 1),
          dest := dest })

/-- The loop of the array branch, lines 179-198, followed by lines 200-204.
`self` is the function called recursively, `fuel` bounds the inner
`whitespace` loops, the first explicit argument bounds the iterations. -/
def array_loop (self : Callee) (fuel baseoffset jsonsize : Nat) (json : Nat → Nat)
    (destsize start : Nat) : Nat → Frame → Option Outcome
  | 0, _ => none
  | iter + 1, s =>
    match whitespace json fuel s.pos jsonsize with
    | none => none
    | some pos =>
    match value_block self baseoffset jsonsize json destsize { s with pos := pos } with
    | none => none
    | some (.error r) => some r
    | some (.ok s) =>
    match whitespace json fuel s.pos jsonsize with
    | none => none
    | some pos =>
    if pos = jsonsize then some (JSON_EEOT, s.dest)
    else if json pos = 44 then
      array_loop self fuel baseoffset jsonsize json destsize start iter { s with pos := pos + 1 }
    else if json pos ≠ 93 then some (JSON_EINVAL, s.dest)
    else
      some (JSON_EOK, store s.dest 0
        { offset := u32 (start + baseoffset), size := u32 (pos + 1 - start),
          treesize := s.treesize, type := JSON_ARRAY_TYPE })

/-- The array branch, lines 162-205. -/
def JSON_array (self : Callee) (fuel baseoffset jsonsize : Nat) (json : Nat → Nat)
    (destsize : Nat) (dest : Nat → struct_JSON) (start : Nat) : Option Outcome :=
  match whitespace json fuel (start + 1) jsonsize with
  | none => none
  | some pos =>
    if pos = jsonsize then some (JSON_EEOT, dest)
    else if json pos = 93 then
      some (JSON_EOK, store dest 0
        { offset := u32 (start + baseoffset), size := u32 (pos + 1 - start), treesize := 0,
          type := JSON_ARRAY_TYPE })
    else
      array_loop self fuel baseoffset jsonsize json destsize start fuel
        { pos := pos, destpos := u32 (0 + 1), treesize := 0, dest := dest }

/-- The loop of the object branch, lines 114-153, followed by lines 155-159. -/
def object_loop (self : Callee) (fuel baseoffset jsonsize : Nat) (json : Nat → Nat)
    (destsize start : Nat) : Nat → Frame → Option Outcome
  | 0, _ => none
  | iter + 1, s =>
    match whitespace json fuel s.pos jsonsize with
    | none => none
    | some pos =>
    match key_block self baseoffset jsonsize json destsize { s with pos := pos } with
    | none => none
    | some (.error r) => some r
    | some (.ok s) =>
    match whitespace json fuel s.pos jsonsize with
    | none => none
    | some pos =>
    -- key-value separator
    if pos = jsonsize then some (JSON_EEOT, s.dest)
    else if json pos ≠ 58 then some (JSON_EINVAL, s.dest)
    else
    match whitespace json fuel (pos + 1) jsonsize with
    | none => none
    | some pos =>
    match value_block self baseoffset jsonsize json destsize { s with pos := pos } with
    | none => none
    | some (.error r) => some r
    | some (.ok s) =>
    match whitespace json fuel s.pos jsonsize with
    | none => none
    | some pos =>
    if pos = jsonsize then some (JSON_EEOT, s.dest)
    else if json pos = 44 then
      object_loop self fuel baseoffset jsonsize json destsize start iter { s with pos := pos + 1 }
    else if json pos ≠ 125 then some (JSON_EINVAL, s.dest)
    else
      some (JSON_EOK, store s.dest 0
        { offset := u32 (start + baseoffset), size := u32 (pos + 1 - start),
          treesize := s.treesize, type := JSON_OBJECT_TYPE })

/-- The object branch, lines 97-160. -/
def JSON_object (self : Callee) (fuel baseoffset jsonsize : Nat) (json : Nat → Nat)
    (destsize : Nat) (dest : Nat → struct_JSON) (start : Nat) : Option Outcome :=
  match whitespace json fuel (start + 1) jsonsize with
  | none => none
  | some pos =>
    if pos = jsonsize then some (JSON_EEOT, dest)
    else if json pos = 125 then
      some (JSON_EOK, store dest 0
        { offset := u32 (start + baseoffset), size := u32 (pos + 1 - start), treesize := 0,
          type := JSON_OBJECT_TYPE })
    else
      object_loop self fuel baseoffset jsonsize json destsize start fuel
        { pos := pos, destpos := u32 (0 + 1), treesize := 0, dest := dest }

/-- The function `JSON(baseoffset, jsonsize, json, destsize, dest)`, lines
87-374.  The first argument is the fuel: it bounds the depth of the recursion
and the number of iterations of every loop. -/
def JSON : Nat → Callee
  | 0, _, _, _, _, _ => none
  | fuel + 1, baseoffset, jsonsize, json, destsize, dest =>
    match whitespace json fuel 0 jsonsize with
    | none => none
    | some pos =>
      if pos = jsonsize then some (JSON_EEOT, dest)
      else if 0 = destsize then some (JSON_ENOMEM, dest)
      else if json pos = 123 then
        JSON_object (JSON fuel) fuel baseoffset jsonsize json destsize dest pos
      else if json pos = 91 then
        JSON_array (JSON fuel) fuel baseoffset jsonsize json destsize dest pos
      else if json pos = 34 then JSON_string fuel baseoffset jsonsize json dest pos
      else if json pos = 45 ∨ (48 ≤ json pos ∧ json pos ≤ 57) then
        JSON_number fuel baseoffset jsonsize json dest pos
      else if json pos = 116 then
        some (JSON_keyword baseoffset jsonsize json dest pos [114, 117, 101] JSON_BOOLEAN_TYPE)
      else if json pos = 102 then
        some (JSON_keyword baseoffset jsonsize json dest pos [97, 108, 115, 101] JSON_BOOLEAN_TYPE)
      else if json pos = 110 then
        some (JSON_keyword baseoffset jsonsize json dest pos [117, 108, 108] JSON_NULL_TYPE)
      else some (JSON_EILL, dest)

/-- Byte memory holding the bytes `l`, followed by bytes of value `fill`. -/
def bytes (l : List Nat) (fill : Nat) : Nat → Nat := fun i => l.getD i fill

/-- Descriptor memory in which every entry is `d`. -/
def blank (d : struct_JSON) : Nat → struct_JSON := fun _ => d

/-! ### Well-formedness of the descriptor array -/

/-- Sibling chain: starting at index `j` and advancing by `1 + treesize`, the
indices `l` are visited in this order and `stop` is reached exactly. -/
inductive Forest (d : Nat → struct_JSON) : Nat → Nat → List Nat → Prop
  | nil (j : Nat) : Forest d j j []
  | cons (j stop : Nat) (l : List Nat) :
      Forest d (j + 1 + (d j).treesize) stop l → Forest d j stop (j :: l)

/-- The children `l` of an object come in pairs whose first member is a string. -/
def Keys (d : Nat → struct_JSON) : List Nat → Prop
  | [] => True
  | [_] => False
  | k :: _ :: rest => (d k).type = JSON_STRING_TYPE ∧ Keys d rest

/-- What a descriptor says about the descriptors behind it. -/
def Local (d : Nat → struct_JSON) (i : Nat) : Prop :=
  match (d i).type with
  | JSON_ARRAY_TYPE => ∃ l, Forest d (i + 1) (i + 1 + (d i).treesize) l
  | JSON_OBJECT_TYPE => ∃ l, Forest d (i + 1) (i + 1 + (d i).treesize) l ∧ Keys d l
  | _ => (d i).treesize = 0

/-- Every descriptor with index in `[lo, hi)` has its subtree inside `[lo, hi)`
and is locally well formed. -/
def Region (d : Nat → struct_JSON) (lo hi : Nat) : Prop :=
  ∀ i, lo ≤ i → i < hi → i + (d i).treesize < hi ∧ Local d i

/-- Effect of a call on the descriptor memory: nothing at or above the
capacity is touched; on `JSON_EOK` the subtree of `d 0` fits the capacity,
nothing above it is touched and everything within is well formed. -/
def Post (m : Nat) (dest : Nat → struct_JSON) (e : JSON_errno_t) (d : Nat → struct_JSON) : Prop :=
  (∀ i, m ≤ i → d i = dest i) ∧
  (e = JSON_EOK → (d 0).treesize < m ∧ (∀ i, (d 0).treesize < i → d i = dest i) ∧
    Region d 0 ((d 0).treesize + 1))

/-- A callee all of whose results satisfy `Post`. -/
def Sound (self : Callee) : Prop :=
  ∀ b n json m dest e d, m < 4294967296 → self b n json m dest = some (e, d) → Post m dest e d

/-- Invariant of the object and array loops: the descriptors written so far
behind slot 0 are the sibling chain `l`, each with a well-formed subtree. -/
def Inv (destsize : Nat) (s : Frame) (l : List Nat) : Prop :=
  1 ≤ s.destpos ∧ s.destpos ≤ destsize ∧ s.treesize + 1 = s.destpos ∧
  Region s.dest 1 s.destpos ∧ Forest s.dest 1 s.destpos l

/-! ### Enumeration of children -/

/-- Enumeration of siblings as a consumer of the descriptor array does it:
start at index `j` and, while the index is below `stop`, record it and
advance by `1 + treesize`.  The first argument bounds the number of steps. -/
def children (d : Nat → struct_JSON) : Nat → Nat → Nat → List Nat
  | 0, _, _ => []
  | fuel + 1, j, stop =>
    if j < stop then j :: children d fuel (j + 1 + (d j).treesize) stop else []

/-- The index at which the enumeration of `children` stops. -/
def walk_end (d : Nat → struct_JSON) : Nat → Nat → Nat → Nat
  | 0, j, _ => j
  | fuel + 1, j, stop =>
    if j < stop then walk_end d fuel (j + 1 + (d j).treesize) stop else j

/-- The immediate children of the descriptor at index `i`: the enumeration
from `i + 1` up to `i + 1 + treesize`. -/
def immediate_children (d : Nat → struct_JSON) (i : Nat) : List Nat :=
  children d (d i).treesize (i + 1) (i + 1 + (d i).treesize)

/-- The index at which the enumeration of the immediate children of the
descriptor at index `i` stops. -/
def children_end (d : Nat → struct_JSON) (i : Nat) : Nat :=
  walk_end d (d i).treesize (i + 1) (i + 1 + (d i).treesize)

/-- The scalar types. -/
def is_scalar (t : JSON_type_t) : Prop :=
  t = JSON_NULL_TYPE ∨ t = JSON_BOOLEAN_TYPE ∨ t = JSON_NUMBER_TYPE ∨ t = JSON_STRING_TYPE

/-- The composite types. -/
def is_composite (t : JSON_type_t) : Prop :=
  t = JSON_ARRAY_TYPE ∨ t = JSON_OBJECT_TYPE

/-- Descriptor memory used in the examples: every entry holds the same junk. -/
def junk : Nat → struct_JSON := blank ⟨7, 7, 7, JSON_NULL_TYPE⟩

/-! ### Independence of the capacity and of the previous content of `dest` -/

/-- A callee whose successful results depend neither on the previous content
of the descriptor memory nor on the capacity, as long as the capacity
suffices, and which returns `JSON_ENOMEM` as soon as it does not. -/
def Indep (self : Callee) : Prop :=
  ∀ b n json m1 dest1 d1, m1 < 4294967296 → self b n json m1 dest1 = some (JSON_EOK, d1) →
    ∀ m2 dest2, m2 < 4294967296 →
      ((d1 0).treesize < m2 → ∃ d2, self b n json m2 dest2 = some (JSON_EOK, d2) ∧
          ∀ i, i ≤ (d1 0).treesize → d2 i = d1 i) ∧
      (m2 ≤ (d1 0).treesize → ∃ d2, self b n json m2 dest2 = some (JSON_ENOMEM, d2))

/-! ### The grammar of the specification -/

/-- Whitespace of the grammar (spec 4.2): space, tab, CR, LF. -/
def is_space (c : Nat) : Prop := c = 32 ∨ c = 9 ∨ c = 13 ∨ c = 10

/-- The phrase `WS` of the grammar: any run of whitespace bytes. -/
def WS (w : List Nat) : Prop := ∀ c ∈ w, is_space c

/-- A decimal digit `[0-9]`. -/
def is_digit (c : Nat) : Prop := 48 ≤ c ∧ c ≤ 57

/-- A byte accepted after `\u` (spec 4.5): `[0-9a-zA-Z]`. -/
def is_alnum (c : Nat) : Prop := (48 ≤ c ∧ c ≤ 57) ∨ (97 ≤ c ∧ c ≤ 122) ∨ (65 ≤ c ∧ c ≤ 90)

/-- A byte that may follow a backslash on its own (spec 4.5):
one of `"`, `\`, `/`, `b`, `f`, `n`, `r`, `t`. -/
def is_escape (c : Nat) : Prop :=
  c = 34 ∨ c = 92 ∨ c = 47 ∨ c = 98 ∨ c = 102 ∨ c = 110 ∨ c = 114 ∨ c = 116

/-- The body of a string (spec 4.5), `( unescaped | '\' escape )*`: unescaped
bytes other than `"`, `\`, `0x00-0x1F` and `0x7F`; escapes from the escape
set; `\u` followed by four bytes of `[0-9a-zA-Z]`. -/
inductive StrBody : List Nat → Prop
  | nil : StrBody []
  | plain (c : Nat) (rest : List Nat) :
      c ≠ 34 → c ≠ 92 → 31 < c → c ≠ 127 → StrBody rest → StrBody (c :: rest)
  | escape (c : Nat) (rest : List Nat) :
      is_escape c → StrBody rest → StrBody (92 :: c :: rest)
  | unicode (h1 h2 h3 h4 : Nat) (rest : List Nat) :
      is_alnum h1 → is_alnum h2 → is_alnum h3 → is_alnum h4 → StrBody rest →
      StrBody (92 :: 117 :: h1 :: h2 :: h3 :: h4 :: rest)

/-- The phrase `string` (spec 4.5): `'"' body '"'`. -/
def IsString (t : List Nat) : Prop := ∃ body, t = 34 :: (body ++ [34]) ∧ StrBody body

/-- The integer part of a number (spec 4.6): `'0' | [1-9][0-9]*`. -/
def IsInt (t : List Nat) : Prop :=
  t = [48] ∨ ∃ c ds, t = c :: ds ∧ 49 ≤ c ∧ c ≤ 57 ∧ ∀ x ∈ ds, is_digit x

/-- The optional fraction of a number (spec 4.6): `( '.' [0-9]+ )?`. -/
def IsFrac (t : List Nat) : Prop :=
  t = [] ∨ ∃ c ds, t = 46 :: c :: ds ∧ ∀ x ∈ c :: ds, is_digit x

/-- The optional exponent of a number (spec 4.6): `( [eE] '-'? [0-9]+ )?`. -/
def IsExp (t : List Nat) : Prop :=
  t = [] ∨ ∃ x s c ds, t = x :: (s ++ c :: ds) ∧ (x = 101 ∨ x = 69) ∧ (s = [] ∨ s = [45]) ∧
    ∀ y ∈ c :: ds, is_digit y

/-- The phrase `number` (spec 4.6):
`'-'? ( '0' | [1-9][0-9]* ) ( '.' [0-9]+ )? ( [eE] '-'? [0-9]+ )?`. -/
def IsNumber (t : List Nat) : Prop :=
  ∃ sign int frac exp, t = sign ++ (int ++ (frac ++ exp)) ∧ (sign = [] ∨ sign = [45]) ∧
    IsInt int ∧ IsFrac frac ∧ IsExp exp

/-- The descriptor `s` moved `k` bytes to the right. -/
def move (k : Nat) (s : struct_JSON) : struct_JSON := { s with offset := s.offset + k }

/-- The kinds of phrases of the grammar of composites: a value, the element
list of an array, the member list of an object. -/
inductive Phrase where
  | value
  | elements
  | members

/-- The grammar of the spec (4.3 to 4.7).  `Derives k t ds`: the bytes `t` are
a phrase of kind `k`, and `ds` is the pre-order listing of the nodes of its
value tree (object keys are nodes): each descriptor has the type of its node,
`offset` and `size` delimit the text of the node within `t`, and `treesize`
counts its descendants. -/
inductive Derives : Phrase → List Nat → List struct_JSON → Prop
  | null : Derives .value [110, 117, 108, 108] [⟨0, 4, 0, JSON_NULL_TYPE⟩]
  | true_ : Derives .value [116, 114, 117, 101] [⟨0, 4, 0, JSON_BOOLEAN_TYPE⟩]
  | false_ : Derives .value [102, 97, 108, 115, 101] [⟨0, 5, 0, JSON_BOOLEAN_TYPE⟩]
  | number (t : List Nat) : IsNumber t → Derives .value t [⟨0, t.length, 0, JSON_NUMBER_TYPE⟩]
  | string (t : List Nat) : IsString t → Derives .value t [⟨0, t.length, 0, JSON_STRING_TYPE⟩]
  | array_empty (w : List Nat) : WS w →
      Derives .value (91 :: (w ++ [93])) [⟨0, w.length + 2, 0, JSON_ARRAY_TYPE⟩]
  | array (w t : List Nat) (ds : List struct_JSON) : WS w → Derives .elements t ds →
      Derives .value (91 :: (w ++ (t ++ [93])))
        (⟨0, w.length + t.length + 2, ds.length, JSON_ARRAY_TYPE⟩ :: ds.map (move (1 + w.length)))
  | object_empty (w : List Nat) : WS w →
      Derives .value (123 :: (w ++ [125])) [⟨0, w.length + 2, 0, JSON_OBJECT_TYPE⟩]
  | object (w t : List Nat) (ds : List struct_JSON) : WS w → Derives .members t ds →
      Derives .value (123 :: (w ++ (t ++ [125])))
        (⟨0, w.length + t.length + 2, ds.length, JSON_OBJECT_TYPE⟩ :: ds.map (move (1 + w.length)))
  | elements_one (v w : List Nat) (ds : List struct_JSON) : Derives .value v ds → WS w →
      Derives .elements (v ++ w) ds
  | elements_cons (v w w' t : List Nat) (ds ds' : List struct_JSON) :
      Derives .value v ds → WS w → WS w' → Derives .elements t ds' →
      Derives .elements (v ++ (w ++ 44 :: (w' ++ t)))
        (ds ++ ds'.map (move (v.length + w.length + 1 + w'.length)))
  | members_one (k w1 w2 v w3 : List Nat) (ds : List struct_JSON) :
      IsString k → WS w1 → WS w2 → Derives .value v ds → WS w3 →
      Derives .members (k ++ (w1 ++ 58 :: (w2 ++ (v ++ w3))))
        (⟨0, k.length, 0, JSON_STRING_TYPE⟩ ::
          ds.map (move (k.length + w1.length + 1 + w2.length)))
  | members_cons (k w1 w2 v w3 w4 t : List Nat) (ds ds' : List struct_JSON) :
      IsString k → WS w1 → WS w2 → Derives .value v ds → WS w3 → WS w4 →
      Derives .members t ds' →
      Derives .members (k ++ (w1 ++ 58 :: (w2 ++ (v ++ (w3 ++ 44 :: (w4 ++ t))))))
        (⟨0, k.length, 0, JSON_STRING_TYPE⟩ ::
          (ds.map (move (k.length + w1.length + 1 + w2.length)) ++
            ds'.map (move (k.length + w1.length + 1 + w2.length + v.length + w3.length + 1
              + w4.length))))

/-- The memory `json` holds the bytes `t` from index `q` on. -/
def Holds (json : Nat → Nat) : Nat → List Nat → Prop
  | _, [] => True
  | q, c :: t => json q = c ∧ Holds json (q + 1) t

/-- The descriptor memory `dest` after the descriptors `ds` have been written
from index `k` on. -/
def write (dest : Nat → struct_JSON) (k : Nat) (ds : List struct_JSON) : Nat → struct_JSON :=
  fun i => if i < k then dest i else (ds.get? (i - k)).getD (dest i)

/-- The descriptor `s` of the listing as the parser stores it when the phrase
starts at byte `x` of the document: the offset is an `unsigned`. -/
def reloc (x : Nat) (s : struct_JSON) : struct_JSON := { s with offset := u32 (x + s.offset) }

/-- A byte that would extend a number: a digit, `.`, `e` or `E`. -/
def extends_number (c : Nat) : Prop := is_digit c ∨ c = 46 ∨ c = 101 ∨ c = 69

/-- What follows a phrase ending at index `p`: the end of the input, or a byte
that does not extend a number. -/
def Follow (json : Nat → Nat) (n p : Nat) : Prop := p = n ∨ ¬ extends_number (json p)

/-! ### Statements of completeness -/

/-- Completeness of `JSON` on one value: when the input holds whitespace `w`,
then the value `v`, and what follows does not extend a number, `JSON` returns
`JSON_EOK` and has written the listing `ds`, relocated to the position of `v`. -/
def ValueGoal (v : List Nat) (ds : List struct_JSON) : Prop :=
  ∀ (fuel b n : Nat) (json : Nat → Nat) (m : Nat) (dest : Nat → struct_JSON) (w : List Nat),
    WS w → Holds json 0 (w ++ v) → w.length + v.length ≤ n →
    Follow json n (w.length + v.length) →
    n < 4294967296 → m < 4294967296 → ds.length ≤ m → n + 1 < fuel →
    JSON fuel b n json m dest = some (JSON_EOK, write dest 0 (ds.map (reloc (b + w.length))))

/-- Completeness of the array loop on an element list: from a frame whose
position holds whitespace `w`, the elements `t` and the closing bracket, the
loop returns `JSON_EOK`, has written the listing `ds` from `destpos` on and the
array descriptor in slot 0. -/
def ElementsGoal (t : List Nat) (ds : List struct_JSON) : Prop :=
  ∀ (fuel b n : Nat) (json : Nat → Nat) (m start iter : Nat) (s : Frame) (w : List Nat),
    WS w → Holds json s.pos (w ++ (t ++ [93])) → s.pos + w.length + t.length + 1 ≤ n →
    n < 4294967296 → m < 4294967296 → 1 ≤ s.pos → s.treesize + 1 = s.destpos →
    s.destpos + ds.length ≤ m → n + 1 ≤ fuel → t.length ≤ iter →
    array_loop (JSON fuel) fuel b n json m start iter s =
      some (JSON_EOK, store (write s.dest s.destpos (ds.map (reloc (b + s.pos + w.length)))) 0
        ⟨u32 (start + b), u32 (s.pos + w.length + t.length + 1 - start),
          s.treesize + ds.length, JSON_ARRAY_TYPE⟩)

/-- Completeness of the object loop on a member list, as `ElementsGoal`. -/
def MembersGoal (t : List Nat) (ds : List struct_JSON) : Prop :=
  ∀ (fuel b n : Nat) (json : Nat → Nat) (m start iter : Nat) (s : Frame) (w : List Nat),
    WS w → Holds json s.pos (w ++ (t ++ [125])) → s.pos + w.length + t.length + 1 ≤ n →
    n < 4294967296 → m < 4294967296 → 1 ≤ s.pos → s.treesize + 1 = s.destpos →
    s.destpos + ds.length ≤ m → n + 1 ≤ fuel → t.length ≤ iter →
    object_loop (JSON fuel) fuel b n json m start iter s =
      some (JSON_EOK, store (write s.dest s.destpos (ds.map (reloc (b + s.pos + w.length)))) 0
        ⟨u32 (start + b), u32 (s.pos + w.length + t.length + 1 - start),
          s.treesize + ds.length, JSON_OBJECT_TYPE⟩)

/-- The statement proved about a phrase of each kind. -/
def Goal : Phrase → List Nat → List struct_JSON → Prop
  | .value => ValueGoal
  | .elements => ElementsGoal
  | .members => MembersGoal

/-- The shape of a phrase and of its listing: a phrase starts with a byte
that is neither whitespace nor a closing bracket or brace; the listing of a
value starts with the descriptor of the whole value. -/
def Shape : Phrase → List Nat → List struct_JSON → Prop
  | .value, t, ds =>
    ∃ c t' d0 rest, t = c :: t' ∧ ¬ is_space c ∧ c ≠ 93 ∧ c ≠ 125 ∧ ds = d0 :: rest ∧
      d0.offset = 0 ∧ d0.size = t.length ∧ d0.treesize = rest.length
  | _, t, _ => ∃ c t', t = c :: t' ∧ ¬ is_space c ∧ c ≠ 93 ∧ c ≠ 125

/-- The `k` bytes of `json` from index `p` on. -/
def slice (json : Nat → Nat) (p k : Nat) : List Nat := (List.range k).map (fun i => json (p + i))

/-! ### Inputs without overrun -/

/-- The input does not end right behind a backslash whose escape the byte
behind the input would complete. -/
def NoOverrun (json : Nat → Nat) (n : Nat) : Prop :=
  n = 0 ∨ json (n - 1) ≠ 92 ∨ ¬ is_escape (json n)

/-- The input starts with whitespace and a value of the grammar, both within
the first `n` bytes, and `d` is `dest` with the listing of the value written
from slot 0 on, the offsets relocated by `b` and the position of the value. -/
def Parsed (b n : Nat) (json : Nat → Nat) (m : Nat) (dest d : Nat → struct_JSON) : Prop :=
  ∃ w v ds, WS w ∧ Derives .value v ds ∧ Holds json 0 (w ++ v) ∧ w.length + v.length ≤ n ∧
    ds.length ≤ m ∧ d = write dest 0 (ds.map (reloc (b + w.length)))

/-- A callee that accepts, on an input without overrun, only what the grammar
derives, and then has written the listing of the value. -/
def Grammatical (self : Callee) : Prop :=
  ∀ (b n : Nat) (json : Nat → Nat) (m : Nat) (dest d : Nat → struct_JSON),
    n < 4294967296 → m < 4294967296 → NoOverrun json n →
    self b n json m dest = some (JSON_EOK, d) → Parsed b n json m dest d

/-- Entry `i` of the listing `ds` of the phrase `t` is the root of a value of
the grammar: its text `v` lies in `t` at the descriptor's offset, and the
listing of `v`, moved to that offset, is the part of `ds` from `i` on. -/
def Subtree (t : List Nat) (ds : List struct_JSON) (i : Nat) (s : struct_JSON) : Prop :=
  ∃ pre v post dsi, t = pre ++ (v ++ post) ∧ pre.length = s.offset ∧ v.length = s.size ∧
    dsi.length = s.treesize + 1 ∧ Derives .value v dsi ∧
    ∀ j s', dsi.get? j = some s' → ds.get? (i + j) = some (move s.offset s')

/-- The byte memories `j1` and `j2` hold the same first `n` bytes. -/
def Agree (j1 j2 : Nat → Nat) (n : Nat) : Prop := ∀ i, i < n → j1 i = j2 i

/-- The input does not end right behind a backslash. -/
def CleanEnd (json : Nat → Nat) (n : Nat) : Prop := n = 0 ∨ json (n - 1) ≠ 92

/-- A callee whose result depends on the first `jsonsize` bytes only, on inputs
that do not end right behind a backslash. -/
def ReadsWithin (self : Callee) : Prop :=
  ∀ (b n : Nat) (j1 j2 : Nat → Nat) (m : Nat) (dest : Nat → struct_JSON),
    n < 4294967296 → m < 4294967296 → Agree j1 j2 n → CleanEnd j1 n →
    self b n j1 m dest = self b n j2 m dest

/-! ### Change of the base offset -/

/-- The descriptor `s` with its offset increased by `c`, as an `unsigned`. -/
def rebase (c : Nat) (s : struct_JSON) : struct_JSON := { s with offset := u32 (s.offset + c) }

/-- A callee for which a change of the base offset by `c` (modulo `2^32`)
changes neither the error code nor, on `JSON_EOK`, anything but the offsets of
the descriptors written, which increase by `c`; the previous content of the
descriptor memory plays no role. -/
def Rebasing (self : Callee) : Prop :=
  ∀ (b1 b2 c n : Nat) (json : Nat → Nat) (m : Nat) (dest1 dest2 : Nat → struct_JSON)
    (e : JSON_errno_t) (d1 : Nat → struct_JSON),
    m < 4294967296 → u32 b2 = u32 (b1 + c) →
    self b1 n json m dest1 = some (e, d1) →
    ∃ d2, self b2 n json m dest2 = some (e, d2) ∧
      (e = JSON_EOK → ∀ i, i ≤ (d1 0).treesize → d2 i = rebase c (d1 i))

/-! ### The dispatcher -/

/-- A byte with which a value starts (spec 4.1): `{`, `[`, `"`, `-`, a digit,
`t`, `f` or `n`. -/
def is_value_start (c : Nat) : Prop :=
  c = 123 ∨ c = 91 ∨ c = 34 ∨ c = 45 ∨ is_digit c ∨ c = 116 ∨ c = 102 ∨ c = 110

/-! ### The scan of a string, event by event -/

/-- The scan of a string as the specification describes it (spec 4.5), on the
bytes `rest` between the opening quote and the end of the input: behind a
body `pre` of ordinary bytes and legal escapes comes the first of these
events, which decides the result: a raw control byte or `0x7F`; a backslash
followed by a byte that starts no escape; `\u` followed by fewer than four
bytes; `\u` followed by four bytes that are not all in `[0-9a-zA-Z]`; the end
of the input; the closing quote.  The result is the error, or the size of the
token, both quotes included. -/
inductive StringScan : List Nat → Except JSON_errno_t Nat → Prop
  | control (pre : List Nat) (c : Nat) (post : List Nat) :
      StrBody pre → (c ≤ 31 ∨ c = 127) → StringScan (pre ++ c :: post) (.error JSON_ESILL)
  | escape (pre : List Nat) (c : Nat) (post : List Nat) :
      StrBody pre → ¬ is_escape c → c ≠ 117 →
      StringScan (pre ++ 92 :: c :: post) (.error JSON_ESESC)
  | short (pre t : List Nat) :
      StrBody pre → t.length < 4 → StringScan (pre ++ 92 :: 117 :: t) (.error JSON_ESESC)
  | hex (pre : List Nat) (h1 h2 h3 h4 : Nat) (post : List Nat) :
      StrBody pre → ¬ (is_alnum h1 ∧ is_alnum h2 ∧ is_alnum h3 ∧ is_alnum h4) →
      StringScan (pre ++ 92 :: 117 :: h1 :: h2 :: h3 :: h4 :: post) (.error JSON_ESESC)
  | unterminated (pre : List Nat) : StrBody pre → StringScan pre (.error JSON_ESTERM)
  | closed (pre post : List Nat) :
      StrBody pre → StringScan (pre ++ 34 :: post) (.ok (pre.length + 2))

/-! ### The parts of a number and the missing digits -/

/-- The text `t` does not start with a digit: it is empty or its first byte is
no digit. -/
def NoDigit (t : List Nat) : Prop := ∀ c t', t = c :: t' → ¬ is_digit c

/-- The text `t` does not start with the byte `x`. -/
def NoHead (x : Nat) (t : List Nat) : Prop := ∀ t', t ≠ x :: t'

/-- The integer part of a number in front of the text `tail` (spec 4.6): `0`,
or a digit `1..9` and all the digits that follow it. -/
def IntPart (int tail : List Nat) : Prop :=
  int = [48] ∨ ∃ c ds, int = c :: ds ∧ 49 ≤ c ∧ c ≤ 57 ∧ (∀ x ∈ ds, is_digit x) ∧ NoDigit tail

/-- The fraction of a number in front of the text `tail` (spec 4.6): `.` and
all the digits that follow, at least one. -/
def FracPart (frac tail : List Nat) : Prop :=
  ∃ c ds, frac = 46 :: c :: ds ∧ (∀ x ∈ c :: ds, is_digit x) ∧ NoDigit tail

/-- The exponent of a number in front of the text `tail` (spec 4.6): `e` or
`E`, at most one `-`, and all the digits that follow, at least one. -/
def ExpPart (exp tail : List Nat) : Prop :=
  ∃ x s c ds, exp = x :: (s ++ c :: ds) ∧ (x = 101 ∨ x = 69) ∧ (s = [] ∨ s = [45]) ∧
    (∀ y ∈ c :: ds, is_digit y) ∧ NoDigit tail

/-- The number `num` at the head of a text, `tail` being the rest of the text:
sign, integer part, fraction and exponent, each as far as it goes. -/
def NumberAt (num tail : List Nat) : Prop :=
  ∃ sign int frac exp, num = sign ++ (int ++ (frac ++ exp)) ∧ (sign = [] ∨ sign = [45]) ∧
    IntPart int (frac ++ (exp ++ tail)) ∧
    ((frac = [] ∧ NoHead 46 (exp ++ tail)) ∨ FracPart frac (exp ++ tail)) ∧
    ((exp = [] ∧ NoHead 101 tail ∧ NoHead 69 tail) ∨ ExpPart exp tail)

/-- Case (a) of "expected digits": a leading `-` is not followed by a digit. -/
def SignError (rest : List Nat) : Prop := ∃ t, rest = 45 :: t ∧ NoDigit t

/-- Case (b) of "expected digits": the integer part is followed by a `.` that
is not followed by a digit. -/
def FractionError (rest : List Nat) : Prop :=
  ∃ sign int t, (sign = [] ∨ sign = [45]) ∧ rest = sign ++ (int ++ 46 :: t) ∧
    IntPart int (46 :: t) ∧ NoDigit t

/-- Case (c) of "expected digits": the integer part or the fraction is followed
by `e` or `E`, and what follows that, behind a `-` if there is one, is no digit. -/
def ExponentError (rest : List Nat) : Prop :=
  ∃ sign int frac x s t, (sign = [] ∨ sign = [45]) ∧
    rest = sign ++ (int ++ (frac ++ x :: (s ++ t))) ∧ IntPart int (frac ++ x :: (s ++ t)) ∧
    ((frac = [] ∧ NoHead 46 (x :: (s ++ t))) ∨ FracPart frac (x :: (s ++ t))) ∧
    (x = 101 ∨ x = 69) ∧ (s = [45] ∨ (s = [] ∧ NoHead 45 t)) ∧ NoDigit t

/-- The three cases in which the specification expects digits and finds none. -/
def NumberError (rest : List Nat) : Prop :=
  SignError rest ∨ FractionError rest ∨ ExponentError rest

/-! ### Members and elements followed by a comma -/

/-- The frame of the array or object loop behind whitespace `w`, a list `t` of
elements or members with listing `ds`, and the comma that follows it. -/
def behindComma (b : Nat) (s : Frame) (w t : List Nat) (ds : List struct_JSON) : Frame :=
  ⟨s.pos + w.length + t.length + 1, s.destpos + ds.length, s.treesize + ds.length,
    write s.dest s.destpos (ds.map (reloc (b + s.pos + w.length)))⟩

/-- The array loop on an element list followed by a comma: after as many
iterations as the list has elements the loop stands behind the comma. -/
def ElementsReach (t : List Nat) (ds : List struct_JSON) : Prop :=
  ∃ k, k ≤ t.length ∧
    ∀ (fuel b n : Nat) (json : Nat → Nat) (m start iter : Nat) (s : Frame) (w r : List Nat),
      WS w → Holds json s.pos (w ++ (t ++ 44 :: r)) → s.pos + w.length + t.length < n →
      n < 4294967296 → m < 4294967296 → 1 ≤ s.pos → s.treesize + 1 = s.destpos →
      s.destpos + ds.length ≤ m → n + 1 ≤ fuel →
      array_loop (JSON fuel) fuel b n json m start (iter + k) s =
        array_loop (JSON fuel) fuel b n json m start iter (behindComma b s w t ds)

/-- The object loop on a member list followed by a comma, as `ElementsReach`. -/
def MembersReach (t : List Nat) (ds : List struct_JSON) : Prop :=
  ∃ k, k ≤ t.length ∧
    ∀ (fuel b n : Nat) (json : Nat → Nat) (m start iter : Nat) (s : Frame) (w r : List Nat),
      WS w → Holds json s.pos (w ++ (t ++ 44 :: r)) → s.pos + w.length + t.length < n →
      n < 4294967296 → m < 4294967296 → 1 ≤ s.pos → s.treesize + 1 = s.destpos →
      s.destpos + ds.length ≤ m → n + 1 ≤ fuel →
      object_loop (JSON fuel) fuel b n json m start (iter + k) s =
        object_loop (JSON fuel) fuel b n json m start iter (behindComma b s w t ds)

/-- The statement proved about a phrase of each kind that a comma follows. -/
def Reach : Phrase → List Nat → List struct_JSON → Prop
  | .value => fun _ _ => True
  | .elements => ElementsReach
  | .members => MembersReach

/-! ### Key positions of an object -/

/-- What stands between the opening brace (and the whitespace behind it) and
a key position of an object: nothing, or a list of members of the grammar, a
comma and whitespace.  `ds` is the listing of the members. -/
def MembersPrefix (pre : List Nat) (ds : List struct_JSON) : Prop :=
  (pre = [] ∧ ds = []) ∨ ∃ t w, Derives .members t ds ∧ WS w ∧ pre = t ++ 44 :: w

/-! ### Completeness whatever follows the value -/

/-- Completeness of `JSON` on a value that is no number: when the input holds
whitespace `w` and then the value `v`, whatever follows it, `JSON` returns
`JSON_EOK` and has written the listing `ds`, relocated to the position of `v`. -/
def ValueFree (v : List Nat) (ds : List struct_JSON) : Prop :=
  ∀ (fuel b n : Nat) (json : Nat → Nat) (m : Nat) (dest : Nat → struct_JSON) (w : List Nat),
    WS w → Holds json 0 (w ++ v) → w.length + v.length ≤ n →
    n < 4294967296 → m < 4294967296 → ds.length ≤ m → n + 1 < fuel →
    JSON fuel b n json m dest = some (JSON_EOK, write dest 0 (ds.map (reloc (b + w.length))))

/-! ### Termination and progress -/

/-- The callee `self` restricted to byte ranges strictly shorter than `n`: a
call on a longer range does not return. -/
def shorter (n : Nat) (self : Callee) : Callee :=
  fun b n' json m dest => if n' < n then self b n' json m dest else none

/-- A callee that returns on every input of fewer than `k` bytes without
overrun. -/
def Returns (self : Callee) (k : Nat) : Prop :=
  ∀ (b n : Nat) (json : Nat → Nat) (m : Nat) (dest : Nat → struct_JSON),
    n < k → n < 4294967296 → m < 4294967296 → NoOverrun json n →
    ∃ r, self b n json m dest = some r

/-- The body of `JSON`, lines 87-374, with the function called recursively as
the parameter `self`; `fuel` bounds the iterations of the loops. -/
def JSON_body (self : Callee) (fuel : Nat) : Callee :=
  fun baseoffset jsonsize json destsize dest =>
    match whitespace json fuel 0 jsonsize with
    | none => none
    | some pos =>
      if pos = jsonsize then some (JSON_EEOT, dest)
      else if 0 = destsize then some (JSON_ENOMEM, dest)
      else if json pos = 123 then
        JSON_object self fuel baseoffset jsonsize json destsize dest pos
      else if json pos = 91 then
        JSON_array self fuel baseoffset jsonsize json destsize dest pos
      else if json pos = 34 then JSON_string fuel baseoffset jsonsize json dest pos
      else if json pos = 45 ∨ (48 ≤ json pos ∧ json pos ≤ 57) then
        JSON_number fuel baseoffset jsonsize json dest pos
      else if json pos = 116 then
        some (JSON_keyword baseoffset jsonsize json dest pos [114, 117, 101] JSON_BOOLEAN_TYPE)
      else if json pos = 102 then
        some (JSON_keyword baseoffset jsonsize json dest pos [97, 108, 115, 101] JSON_BOOLEAN_TYPE)
      else if json pos = 110 then
        some (JSON_keyword baseoffset jsonsize json dest pos [117, 108, 108] JSON_NULL_TYPE)
      else some (JSON_EILL, dest)

/-- The function `JSON` with a bound on the depth of the recursion: in
`JSON_depth fuel k` the recursive calls nest at most `k` deep below the call
itself, and a call that would nest deeper does not return. -/
def JSON_depth : Nat → Nat → Callee
  | 0, _ => fun _ _ _ _ _ => none
  | fuel + 1, 0 => JSON_body (fun _ _ _ _ _ => none) fuel
  | fuel + 1, k + 1 => JSON_body (JSON_depth fuel k) fuel

/-- The callees `self1` and `self2` return the same on every input of fewer
than `n` bytes without overrun. -/
def AgreeBelow (self1 self2 : Callee) (n : Nat) : Prop :=
  ∀ (b n' : Nat) (json : Nat → Nat) (m : Nat) (dest : Nat → struct_JSON),
    n' < n → n' < 4294967296 → m < 4294967296 → NoOverrun json n' →
    self1 b n' json m dest = self2 b n' json m dest

/-! ### Strings that end right behind a backslash -/

/-- The states of a scan of the input for strings: outside a string, inside a
string, and inside a string right behind a backslash. -/
inductive Lex where
  | out
  | str
  | esc
  deriving DecidableEq

/-- One byte of the scan for strings: a quote opens or closes a string, a
backslash inside a string escapes the byte behind it. -/
def lex_step : Lex → Nat → Lex
  | .out, c => if c = 34 then .str else .out
  | .str, c => if c = 34 then .out else if c = 92 then .esc else .str
  | .esc, _ => .str

/-- The state of the scan for strings behind the bytes `t`, from state `s`. -/
def lex (s : Lex) (t : List Nat) : Lex := t.foldl lex_step s

/-- No string of the input ends right behind a backslash: the scan of the
bytes from index `p` to the end of the input, started outside a string, does
not end behind an escaping backslash. -/
def NoDangling (json : Nat → Nat) (p n : Nat) : Prop := lex .out (slice json p (n - p)) ≠ .esc

/-- The first `n` bytes of `json`, followed by zero bytes. -/
def fence (json : Nat → Nat) (n : Nat) : Nat → Nat := fun i => if i < n then json i else 0

/-- A callee whose result is the same on two byte memories that agree on the
input, when the second memory gives no overrun and no string of the input ends
right behind a backslash. -/
def ReadsSafely (self : Callee) : Prop :=
  ∀ (b n : Nat) (j1 j2 : Nat → Nat) (m : Nat) (dest : Nat → struct_JSON),
    n < 4294967296 → m < 4294967296 → Agree j1 j2 n → NoOverrun j2 n → NoDangling j2 0 n →
    self b n j1 m dest = self b n j2 m dest

/-! ## Theorems -/

/-! ### Machine arithmetic, sibling chains and regions -/

theorem u32_of_lt {x : Nat} (h : x < 4294967296) : u32 x = x := Nat.mod_eq_of_lt h

theorem usub_of_le {a b : Nat} (h : b ≤ a) (ha : a < 4294967296) : usub a b = a - b := by
  unfold usub
  have h1 : ((a : Int) - (b : Int)) = ((a - b : Nat) : Int) := by omega
  rw [h1]
  have h2 : (((a - b : Nat) : Int) % 4294967296) = ((a - b : Nat) : Int) := by omega
  rw [h2]; simp

theorem Forest.le {d : Nat → struct_JSON} {j stop : Nat} {l : List Nat}
    (h : Forest d j stop l) : j ≤ stop := by
  induction h with
  | nil j => exact Nat.le_refl j
  | cons j stop l _ ih => omega

theorem Forest.mem {d : Nat → struct_JSON} {j stop : Nat} {l : List Nat}
    (h : Forest d j stop l) : ∀ x ∈ l, j ≤ x ∧ x + (d x).treesize < stop := by
  induction h with
  | nil j => intro x hx; cases hx
  | cons j stop l h ih =>
    intro x hx
    rcases List.mem_cons.1 hx with rfl | hx
    · have := h.le; omega
    · have := ih x hx; omega

theorem Forest.snocF {d : Nat → struct_JSON} {j k : Nat} {l : List Nat}
    (h : Forest d j k l) : Forest d j (k + 1 + (d k).treesize) (l ++ [k]) := by
  induction h with
  | nil j => exact Forest.cons _ _ _ (Forest.nil _)
  | cons j stop l _ ih => exact Forest.cons _ _ _ ih

theorem Forest.moveF {d : Nat → struct_JSON} (d2 : Nat → struct_JSON) {a b : Nat}
    {l : List Nat} (δ : Nat)
    (h : Forest d a b l) (hd : ∀ k, a ≤ k → k < b → d2 (k + δ) = d k) :
    Forest d2 (a + δ) (b + δ) (l.map (· + δ)) := by
  induction h with
  | nil j => exact Forest.nil _
  | cons j stop l h ih =>
    have hle := h.le
    have e := hd j (Nat.le_refl j) (by omega)
    have ih2 := ih (fun k hk1 hk2 => hd k (by omega) hk2)
    simp only [List.map_cons]
    apply Forest.cons
    rw [e]
    have : j + δ + 1 + (d j).treesize = j + 1 + (d j).treesize + δ := by omega
    rw [this]; exact ih2

theorem Keys.moveK {d : Nat → struct_JSON} (d2 : Nat → struct_JSON) (δ : Nat) :
    ∀ (l : List Nat), Keys d l → (∀ x ∈ l, d2 (x + δ) = d x) → Keys d2 (l.map (· + δ))
  | [], _, _ => trivial
  | [_], h, _ => h.elim
  | k :: v :: rest, h, hd => by
    refine ⟨?_, Keys.moveK d2 δ rest h.2 (fun x hx => hd x (by simp [hx]))⟩
    rw [hd k (by simp)]; exact h.1

theorem Keys.snocK {d : Nat → struct_JSON} (k v : Nat) (hk : (d k).type = JSON_STRING_TYPE) :
    ∀ (l : List Nat), Keys d l → Keys d (l ++ [k, v])
  | [], _ => ⟨hk, trivial⟩
  | [_], h => h.elim
  | _ :: _ :: rest, h => ⟨h.1, Keys.snocK k v hk rest h.2⟩

theorem Local.moveL {d : Nat → struct_JSON} (d2 : Nat → struct_JSON) {i : Nat} (δ : Nat)
    (h : Local d i) (hd : ∀ k, i ≤ k → k ≤ i + (d i).treesize → d2 (k + δ) = d k) :
    Local d2 (i + δ) := by
  have e := hd i (Nat.le_refl i) (by omega)
  unfold Local at h ⊢
  rw [e]
  have key : ∀ l, Forest d (i + 1) (i + 1 + (d i).treesize) l →
      Forest d2 (i + δ + 1) (i + δ + 1 + (d i).treesize) (l.map (· + δ)) := by
    intro l hl
    have := hl.moveF d2 δ (fun k hk1 hk2 => hd k (by omega) (by omega))
    have e1 : i + δ + 1 = i + 1 + δ := by omega
    have e2 : i + δ + 1 + (d i).treesize = i + 1 + (d i).treesize + δ := by omega
    rw [e2, e1]; exact this
  cases hty : (d i).type <;> simp only [hty] at h ⊢
  · exact h
  · exact h
  · exact h
  · exact h
  · obtain ⟨l, hl⟩ := h
    exact ⟨_, key l hl⟩
  · obtain ⟨l, hl, hk⟩ := h
    refine ⟨_, key l hl, hk.moveK d2 δ l (fun x hx => ?_)⟩
    have := hl.mem x hx
    exact hd x (by omega) (by omega)

theorem Region.moveR {d : Nat → struct_JSON} (d2 : Nat → struct_JSON) {lo hi : Nat}
    (δ : Nat)
    (h : Region d lo hi) (hd : ∀ k, lo ≤ k → k < hi → d2 (k + δ) = d k) :
    Region d2 (lo + δ) (hi + δ) := by
  intro i h1 h2
  obtain ⟨j, rfl⟩ : ∃ j, i = j + δ := ⟨i - δ, by omega⟩
  have hj := h j (by omega) (by omega)
  have e := hd j (by omega) (by omega)
  refine ⟨by rw [e]; omega, hj.2.moveL d2 δ (fun k hk1 hk2 => hd k (by omega) (by omega))⟩

theorem Region.append {d : Nat → struct_JSON} {lo mid hi : Nat}
    (h1 : Region d lo mid) (h2 : Region d mid hi) (hle : mid ≤ hi) : Region d lo hi := by
  intro i hi1 hi2
  by_cases hm : i < mid
  · have := h1 i hi1 hm
    exact ⟨by omega, this.2⟩
  · exact h2 i (by omega) hi2

theorem subcall_post {self : Callee} (hs : Sound self) {b n : Nat} {json : Nat → Nat}
    {destsize pos destpos : Nat} {dest d : Nat → struct_JSON} {e : JSON_errno_t}
    (hm : destsize < 4294967296) (hle : destpos ≤ destsize)
    (h : subcall self b n json destsize pos destpos dest = some (e, d)) :
    (∀ i, i < destpos → d i = dest i) ∧ (∀ i, destsize ≤ i → d i = dest i) ∧
    (e = JSON_EOK → destpos + (d destpos).treesize < destsize ∧
      (∀ i, destpos + (d destpos).treesize < i → d i = dest i) ∧
      Region d destpos (destpos + (d destpos).treesize + 1)) := by
  unfold subcall at h
  split at h
  · cases h
  · rename_i e1 sub heq
    simp only [Option.some.injEq, Prod.mk.injEq] at h
    obtain ⟨rfl, rfl⟩ := h
    have hu : usub destsize destpos = destsize - destpos := usub_of_le hle hm
    rw [hu] at heq
    have hp := hs _ _ _ _ _ _ _ (by omega) heq
    have h0 : unshift dest destpos sub destpos = sub 0 := by simp [unshift]
    refine ⟨fun i hi => by simp [unshift, hi], fun i hi => ?_, fun he => ?_⟩
    · have := hp.1 (i - destpos) (by omega)
      simp only [unshift, shift] at this ⊢
      rw [if_neg (by omega), this]; congr 1; omega
    · obtain ⟨h1, h2, h3⟩ := hp.2 he
      rw [h0]
      refine ⟨by omega, fun i hi => ?_, ?_⟩
      · have := h2 (i - destpos) (by omega)
        simp only [unshift, shift] at this ⊢
        rw [if_neg (by omega), this]; congr 1; omega
      · have := h3.moveR (unshift dest destpos sub) destpos
          (fun k _ _ => by simp [unshift])
        have e1 : destpos + (sub 0).treesize + 1 = (sub 0).treesize + 1 + destpos := by omega
        rw [e1]; simpa using this

theorem store_zero (dest : Nat → struct_JSON) (v : struct_JSON) : store dest 0 v 0 = v := by
  simp [store]

theorem store_pos (dest : Nat → struct_JSON) (v : struct_JSON) {k : Nat} (hk : 1 ≤ k) :
    store dest 0 v k = dest k := by
  simp only [store]; rw [if_neg (by omega)]

/-- Writing the descriptor of a composite in front of its finished children. -/
theorem Region.close (dest : Nat → struct_JSON) {hi : Nat} {l : List Nat} (v : struct_JSON)
    (hR : Region dest 1 hi) (hF : Forest dest 1 hi l) (hv : v.treesize + 1 = hi)
    (hty : v.type = JSON_ARRAY_TYPE ∨ (v.type = JSON_OBJECT_TYPE ∧ Keys dest l)) :
    Region (store dest 0 v) 0 (v.treesize + 1) := by
  have hR2 := hR.moveR (store dest 0 v) 0 (fun k hk _ => store_pos dest v hk)
  have hF2 := hF.moveF (store dest 0 v) 0 (fun k hk _ => store_pos dest v hk)
  simp only [Nat.add_zero, List.map_id'] at hR2 hF2
  intro i _ hi2
  by_cases hi0 : i = 0
  · subst hi0
    rw [store_zero]
    refine ⟨by omega, ?_⟩
    unfold Local
    rw [store_zero]
    have e1 : 0 + 1 + v.treesize = hi := by omega
    rcases hty with hty | ⟨hty, hk⟩
    · simp only [hty]
      exact ⟨l, by rw [e1]; exact hF2⟩
    · simp only [hty]
      refine ⟨l, by rw [e1]; exact hF2, ?_⟩
      have := hk.moveK (store dest 0 v) 0 l (fun x hx => by
        have := hF.mem x hx
        exact store_pos dest v (by omega))
      simpa using this
  · have h1 : 1 ≤ i := by omega
    have h2 : i < hi := by omega
    have := hR2 i h1 h2
    exact ⟨by omega, this.2⟩

/-- The invariant of the composite loops after one more successful sub-parse
at `destpos`. -/
theorem loop_step {dest dest1 : Nat → struct_JSON} {destpos : Nat} {l : List Nat}
    (hR : Region dest 1 destpos) (hF : Forest dest 1 destpos l)
    (hlow : ∀ i, i < destpos → dest1 i = dest i)
    (hreg : Region dest1 destpos (destpos + (dest1 destpos).treesize + 1)) :
    Region dest1 1 (destpos + (dest1 destpos).treesize + 1) ∧
    Forest dest1 1 (destpos + (dest1 destpos).treesize + 1) (l ++ [destpos]) ∧
    (∀ x ∈ l, dest1 x = dest x) := by
  have hR1 := hR.moveR dest1 0 (fun k _ hk => by simpa using hlow k hk)
  have hF1 := hF.moveF dest1 0 (fun k _ hk => by simpa using hlow k hk)
  simp only [Nat.add_zero, List.map_id'] at hR1 hF1
  refine ⟨Region.append hR1 hreg (by omega), ?_, fun x hx => ?_⟩
  · have := hF1.snocF
    have e : destpos + (dest1 destpos).treesize + 1 = destpos + 1 + (dest1 destpos).treesize := by
      omega
    rw [e]; exact this
  · have := hF.mem x hx
    exact hlow x (by omega)

theorem Keys.congr {d d2 : Nat → struct_JSON} {l : List Nat} (h : Keys d l)
    (hd : ∀ x ∈ l, d2 x = d x) : Keys d2 l := by
  have := h.moveK d2 0 l (fun x hx => by simpa using hd x hx)
  simpa using this

/-! ### The blocks and loops of the composite branches -/

theorem value_block_error {self : Callee} (hs : Sound self) {b n : Nat} {json : Nat → Nat}
    {destsize : Nat} {s : Frame} {l : List Nat} {e : JSON_errno_t} {d : Nat → struct_JSON}
    (hm : destsize < 4294967296) (hinv : Inv destsize s l)
    (h : value_block self b n json destsize s = some (.error (e, d))) :
    e ≠ JSON_EOK ∧ (∀ i, destsize ≤ i → d i = s.dest i) := by
  unfold value_block at h
  split at h
  · cases h
  rename_i e1 dest1 hsub
  have hp := subcall_post hs hm hinv.2.1 hsub
  split at h
  · rename_i hne
    simp only [Option.some.injEq, Except.error.injEq, Prod.mk.injEq] at h
    obtain ⟨rfl, rfl⟩ := h
    exact ⟨hne, hp.2.1⟩
  · cases h

theorem value_block_ok {self : Callee} (hs : Sound self) {b n : Nat} {json : Nat → Nat}
    {destsize : Nat} {s s' : Frame} {l : List Nat}
    (hm : destsize < 4294967296) (hinv : Inv destsize s l)
    (h : value_block self b n json destsize s = some (.ok s')) :
    subcall self b n json destsize s.pos s.destpos s.dest = some (JSON_EOK, s'.dest) ∧
    Inv destsize s' (l ++ [s.destpos]) ∧
    s'.destpos = s.destpos + (s'.dest s.destpos).treesize + 1 ∧
    s'.treesize = s.treesize + (s'.dest s.destpos).treesize + 1 ∧
    s'.pos = s.pos + (s'.dest s.destpos).size ∧
    (∀ i, i < s.destpos → s'.dest i = s.dest i) ∧
    (∀ i, s'.destpos ≤ i → s'.dest i = s.dest i) := by
  obtain ⟨h1, h2, h3, hR, hF⟩ := hinv
  unfold value_block at h
  split at h
  · cases h
  rename_i e1 dest1 hsub
  obtain ⟨hlow, hhigh, hok⟩ := subcall_post hs hm h2 hsub
  split at h
  · cases h
  rename_i heq
  have he1 : e1 = JSON_EOK := by simpa using heq
  subst he1
  obtain ⟨hfit, hframe, hreg⟩ := hok rfl
  have hu1 : u32 ((dest1 s.destpos).treesize + 1) = (dest1 s.destpos).treesize + 1 :=
    u32_of_lt (by omega)
  have hu2 : u32 (s.destpos + ((dest1 s.destpos).treesize + 1)) =
      s.destpos + (dest1 s.destpos).treesize + 1 := by
    rw [u32_of_lt (by omega)]; omega
  have hu3 : u32 (s.treesize + ((dest1 s.destpos).treesize + 1)) =
      s.treesize + (dest1 s.destpos).treesize + 1 := by
    rw [u32_of_lt (by omega)]; omega
  rw [hu1, hu2, hu3] at h
  simp only [Option.some.injEq, Except.ok.injEq] at h
  subst h
  dsimp only
  obtain ⟨hR1, hF1, -⟩ := loop_step hR hF hlow hreg
  exact ⟨hsub, ⟨by dsimp only; omega, by dsimp only; omega, by dsimp only; omega, hR1, hF1⟩,
    rfl, rfl, rfl, hlow,
    fun i hi => hframe i (by omega)⟩

theorem key_block_error {self : Callee} (hs : Sound self) {b n : Nat} {json : Nat → Nat}
    {destsize : Nat} {s : Frame} {l : List Nat} {e : JSON_errno_t} {d : Nat → struct_JSON}
    (hm : destsize < 4294967296) (hinv : Inv destsize s l)
    (h : key_block self b n json destsize s = some (.error (e, d))) :
    e ≠ JSON_EOK ∧ (∀ i, destsize ≤ i → d i = s.dest i) := by
  unfold key_block at h
  split at h
  · cases h
  rename_i e1 dest1 hsub
  have hp := subcall_post hs hm hinv.2.1 hsub
  split at h
  · rename_i hne
    simp only [Option.some.injEq, Except.error.injEq, Prod.mk.injEq] at h
    obtain ⟨rfl, rfl⟩ := h
    exact ⟨hne, hp.2.1⟩
  split at h
  · simp only [Option.some.injEq, Except.error.injEq, Prod.mk.injEq] at h
    obtain ⟨rfl, rfl⟩ := h
    exact ⟨by decide, hp.2.1⟩
  · cases h

theorem key_block_ok {self : Callee} (hs : Sound self) {b n : Nat} {json : Nat → Nat}
    {destsize : Nat} {s s' : Frame} {l : List Nat}
    (hm : destsize < 4294967296) (hinv : Inv destsize s l)
    (h : key_block self b n json destsize s = some (.ok s')) :
    subcall self b n json destsize s.pos s.destpos s.dest = some (JSON_EOK, s'.dest) ∧
    Inv destsize s' (l ++ [s.destpos]) ∧
    (s'.dest s.destpos).type = JSON_STRING_TYPE ∧ (s'.dest s.destpos).treesize = 0 ∧
    s'.destpos = s.destpos + 1 ∧ s'.treesize = s.treesize + 1 ∧
    s'.pos = s.pos + (s'.dest s.destpos).size ∧
    (∀ i, i < s.destpos → s'.dest i = s.dest i) ∧
    (∀ i, s'.destpos ≤ i → s'.dest i = s.dest i) := by
  obtain ⟨h1, h2, h3, hR, hF⟩ := hinv
  unfold key_block at h
  split at h
  · cases h
  rename_i e1 dest1 hsub
  obtain ⟨hlow, hhigh, hok⟩ := subcall_post hs hm h2 hsub
  split at h
  · cases h
  rename_i heq
  have he1 : e1 = JSON_EOK := by simpa using heq
  subst he1
  obtain ⟨hfit, hframe, hreg⟩ := hok rfl
  split at h
  · cases h
  rename_i hstr
  have hstr : (dest1 s.destpos).type = JSON_STRING_TYPE := by simpa using hstr
  have hkt : (dest1 s.destpos).treesize = 0 := by
    have := (hreg s.destpos (Nat.le_refl _) (by omega)).2
    unfold Local at this
    rw [hstr] at this
    exact this
  obtain ⟨hR1, hF1, -⟩ := loop_step hR hF hlow hreg
  rw [hkt] at hR1 hF1 hfit hframe
  simp only [Nat.add_zero] at hR1 hF1 hfit hframe
  have hu1 : u32 (s.destpos + 1) = s.destpos + 1 := u32_of_lt (by omega)
  have hu2 : u32 (s.treesize + 1) = s.treesize + 1 := u32_of_lt (by omega)
  rw [hu1, hu2] at h
  simp only [Option.some.injEq, Except.ok.injEq] at h
  subst h
  dsimp only
  exact ⟨hsub, ⟨by dsimp only; omega, by dsimp only; omega, by dsimp only; omega, hR1, hF1⟩,
    hstr, hkt, rfl, rfl, rfl, hlow,
    fun i hi => hframe i (by omega)⟩

theorem array_loop_post {self : Callee} (hs : Sound self) (fuel b n : Nat) (json : Nat → Nat)
    (destsize start : Nat) (hm : destsize < 4294967296) :
    ∀ (iter : Nat) (s : Frame) (l : List Nat) (d : Nat → struct_JSON) (e : JSON_errno_t),
      Inv destsize s l →
      array_loop self fuel b n json destsize start iter s = some (e, d) →
      Post destsize s.dest e d ∧
        (e = JSON_EOK → s.treesize ≤ (d 0).treesize ∧ (d 0).type = JSON_ARRAY_TYPE) := by
  intro iter
  induction iter with
  | zero => intro s l d e _ h; simp [array_loop] at h
  | succ iter ih =>
    intro s l d e hinv h
    rw [array_loop] at h
    split at h
    · cases h
    rename_i pos1 hw1
    have hinv1 : Inv destsize { s with pos := pos1 } l := hinv
    split at h
    · cases h
    · -- error in the element
      rename_i r hb
      simp only [Option.some.injEq] at h
      subst h
      obtain ⟨hne, hhigh⟩ := value_block_error hs hm hinv1 hb
      exact ⟨⟨hhigh, fun he => absurd he hne⟩, fun he => absurd he hne⟩
    rename_i s1 hb
    obtain ⟨-, hinv2, hdp, hts, -, hlow, hfr⟩ := value_block_ok hs hm hinv1 hb
    simp only [] at hdp hts hlow hfr
    have hhigh : ∀ i, destsize ≤ i → s1.dest i = s.dest i :=
      fun i hi => hfr i (by have := hinv2.2.1; omega)
    split at h
    · cases h
    rename_i pos2 hw2
    split at h
    · simp only [Option.some.injEq, Prod.mk.injEq] at h
      obtain ⟨rfl, rfl⟩ := h
      exact ⟨⟨hhigh, fun he => by cases he⟩, fun he => by cases he⟩
    split at h
    · have hinv3 : Inv destsize { s1 with pos := pos2 + 1 } (l ++ [s.destpos]) := hinv2
      obtain ⟨q, r⟩ := ih _ _ _ _ hinv3 h
      simp only [] at q r
      refine ⟨⟨fun i hi => by rw [q.1 i hi, hhigh i hi], fun he => ?_⟩, fun he => ?_⟩
      · obtain ⟨q1, q2, q3⟩ := q.2 he
        have r1 := (r he).1
        have i3 := hinv2.2.2.1
        exact ⟨q1, fun i hi => by rw [q2 i hi, hfr i (by omega)], q3⟩
      · exact ⟨by have := (r he).1; omega, (r he).2⟩
    split at h
    · simp only [Option.some.injEq, Prod.mk.injEq] at h
      obtain ⟨rfl, rfl⟩ := h
      exact ⟨⟨hhigh, fun he => by cases he⟩, fun he => by cases he⟩
    simp only [Option.some.injEq, Prod.mk.injEq] at h
    obtain ⟨rfl, rfl⟩ := h
    obtain ⟨i1, i2, i3, hR2, hF2⟩ := hinv2
    refine ⟨⟨fun i hi => by rw [store_pos _ _ (by omega), hhigh i hi], fun _ => ?_⟩, fun _ => ?_⟩
    · have hcl := Region.close s1.dest
        { offset := u32 (start + b), size := u32 (pos2 + 1 - start),
          treesize := s1.treesize, type := JSON_ARRAY_TYPE }
        hR2 hF2 i3 (Or.inl rfl)
      simp only [store_zero]
      exact ⟨by omega, fun i hi => by rw [store_pos _ _ (by omega), hfr i (by omega)], hcl⟩
    · simp only [store_zero]; exact ⟨by omega, trivial⟩

/-- The key/value pairing of the children survives one more pair. -/
theorem Keys.pair {d d1 d2 : Nat → struct_JSON} {l : List Nat} {k k1 : Nat}
    (hF : Forest d 1 k l) (hkeys : Keys d l) (hstr : (d1 k).type = JSON_STRING_TYPE)
    (hk1 : k1 = k + 1) (hlow : ∀ i, i < k → d1 i = d i) (hlow2 : ∀ i, i < k1 → d2 i = d1 i) :
    Keys d2 (l ++ [k] ++ [k1]) := by
  have hk : Keys d2 l := hkeys.congr (fun x hx => by
    have := hF.mem x hx
    rw [hlow2 x (by omega), hlow x (by omega)])
  have := Keys.snocK (d := d2) k k1 (by rw [hlow2 k (by omega)]; exact hstr) l hk
  simpa using this

theorem object_loop_post {self : Callee} (hs : Sound self) (fuel b n : Nat) (json : Nat → Nat)
    (destsize start : Nat) (hm : destsize < 4294967296) :
    ∀ (iter : Nat) (s : Frame) (l : List Nat) (d : Nat → struct_JSON) (e : JSON_errno_t),
      Inv destsize s l → Keys s.dest l →
      object_loop self fuel b n json destsize start iter s = some (e, d) →
      Post destsize s.dest e d ∧
        (e = JSON_EOK → s.treesize ≤ (d 0).treesize ∧ (d 0).type = JSON_OBJECT_TYPE) := by
  intro iter
  induction iter with
  | zero => intro s l d e _ _ h; simp [object_loop] at h
  | succ iter ih =>
    intro s l d e hinv hkeys h
    rw [object_loop] at h
    split at h
    · cases h
    rename_i pos1 hw1
    have hinv1 : Inv destsize { s with pos := pos1 } l := hinv
    split at h
    · cases h
    · -- error in the key
      rename_i r hb
      simp only [Option.some.injEq] at h
      subst h
      obtain ⟨hne, hhigh⟩ := key_block_error hs hm hinv1 hb
      exact ⟨⟨hhigh, fun he => absurd he hne⟩, fun he => absurd he hne⟩
    rename_i s1 hb
    obtain ⟨-, hinv2, hstr, -, hdp, hts, -, hlow, hfr⟩ := key_block_ok hs hm hinv1 hb
    simp only [] at hdp hts hlow hfr hstr
    have hhigh : ∀ i, destsize ≤ i → s1.dest i = s.dest i :=
      fun i hi => hfr i (by have := hinv2.2.1; omega)
    split at h
    · cases h
    rename_i pos2 hw2
    split at h
    · simp only [Option.some.injEq, Prod.mk.injEq] at h
      obtain ⟨rfl, rfl⟩ := h
      exact ⟨⟨hhigh, fun he => by cases he⟩, fun he => by cases he⟩
    split at h
    · simp only [Option.some.injEq, Prod.mk.injEq] at h
      obtain ⟨rfl, rfl⟩ := h
      exact ⟨⟨hhigh, fun he => by cases he⟩, fun he => by cases he⟩
    split at h
    · cases h
    rename_i pos3 hw3
    have hinv3 : Inv destsize { s1 with pos := pos3 } (l ++ [s.destpos]) := hinv2
    split at h
    · cases h
    · -- error in the value
      rename_i r hb2
      simp only [Option.some.injEq] at h
      subst h
      obtain ⟨hne, hhigh2⟩ := value_block_error hs hm hinv3 hb2
      simp only [] at hhigh2
      exact ⟨⟨fun i hi => by rw [hhigh2 i hi, hhigh i hi], fun he => absurd he hne⟩,
        fun he => absurd he hne⟩
    rename_i s2 hb2
    obtain ⟨-, hinv4, hdp2, hts2, -, hlow2, hfr2⟩ := value_block_ok hs hm hinv3 hb2
    simp only [] at hdp2 hts2 hlow2 hfr2
    have hkeys2 : Keys s2.dest (l ++ [s.destpos] ++ [s1.destpos]) :=
      Keys.pair hinv.2.2.2.2 hkeys hstr hdp hlow hlow2
    have hfr3 : ∀ i, s2.destpos ≤ i → s2.dest i = s.dest i :=
      fun i hi => by rw [hfr2 i hi, hfr i (by omega)]
    have hhi : ∀ i, destsize ≤ i → s2.dest i = s.dest i :=
      fun i hi => hfr3 i (by have := hinv4.2.1; omega)
    split at h
    · cases h
    rename_i pos4 hw4
    split at h
    · simp only [Option.some.injEq, Prod.mk.injEq] at h
      obtain ⟨rfl, rfl⟩ := h
      exact ⟨⟨hhi, fun he => by cases he⟩, fun he => by cases he⟩
    split at h
    · have hinv5 : Inv destsize { s2 with pos := pos4 + 1 }
          (l ++ [s.destpos] ++ [s1.destpos]) := hinv4
      obtain ⟨q, r⟩ := ih _ _ _ _ hinv5 hkeys2 h
      simp only [] at q r
      refine ⟨⟨fun i hi => by rw [q.1 i hi, hhi i hi], fun he => ?_⟩, fun he => ?_⟩
      · obtain ⟨q1, q2, q3⟩ := q.2 he
        have r1 := (r he).1
        have i3 := hinv4.2.2.1
        exact ⟨q1, fun i hi => by rw [q2 i hi, hfr3 i (by omega)], q3⟩
      · exact ⟨by have := (r he).1; omega, (r he).2⟩
    split at h
    · simp only [Option.some.injEq, Prod.mk.injEq] at h
      obtain ⟨rfl, rfl⟩ := h
      exact ⟨⟨hhi, fun he => by cases he⟩, fun he => by cases he⟩
    simp only [Option.some.injEq, Prod.mk.injEq] at h
    obtain ⟨rfl, rfl⟩ := h
    obtain ⟨i1, i2, i3, hR2, hF2⟩ := hinv4
    refine ⟨⟨fun i hi => by rw [store_pos _ _ (by omega), hhi i hi], fun _ => ?_⟩, fun _ => ?_⟩
    · have hcl := Region.close s2.dest
        { offset := u32 (start + b), size := u32 (pos4 + 1 - start),
          treesize := s2.treesize, type := JSON_OBJECT_TYPE }
        hR2 hF2 i3 (Or.inr ⟨rfl, hkeys2⟩)
      simp only [store_zero]
      exact ⟨by omega, fun i hi => by rw [store_pos _ _ (by omega), hfr3 i (by omega)], hcl⟩
    · simp only [store_zero]; exact ⟨by omega, trivial⟩

/-! ### The leaf branches -/

theorem string_loop_error (json : Nat → Nat) (end_ : Nat) :
    ∀ (fuel pos : Nat) (e : JSON_errno_t),
      string_loop json end_ fuel pos = some (.error e) → e ≠ JSON_EOK := by
  intro fuel
  induction fuel with
  | zero => intro pos e h; simp [string_loop] at h
  | succ fuel ih =>
    intro pos e h
    rw [string_loop] at h
    simp only [] at h
    repeat' split at h
    all_goals first
      | exact ih _ _ h
      | (simp only [Option.some.injEq, Except.error.injEq] at h; subst h; decide)
      | (simp at h)

theorem number_scan_error (fuel jsonsize : Nat) (json : Nat → Nat) (start : Nat)
    (e : JSON_errno_t) (h : number_scan fuel jsonsize json start = some (.error e)) :
    e = JSON_ENDIG := by
  have hd : ∀ p, (digits json fuel p jsonsize).map (Except.ok (ε := JSON_errno_t)) ≠
      some (.error e) := by
    intro p; cases digits json fuel p jsonsize <;> simp
  unfold number_scan at h
  split at h
  · cases h
  · rename_i e1 hi
    simp only [Option.some.injEq, Except.error.injEq] at h; subst h
    unfold number_integer at hi
    simp only [] at hi
    repeat' split at hi
    all_goals first
      | (simp only [Option.some.injEq, Except.error.injEq] at hi; exact hi.symm)
      | exact absurd hi (hd _)
      | (simp at hi)
  · rename_i p1 hi
    split at h
    · cases h
    · rename_i e1 hf
      simp only [Option.some.injEq, Except.error.injEq] at h; subst h
      unfold number_fraction at hf
      simp only [] at hf
      repeat' split at hf
      all_goals first
        | (simp only [Option.some.injEq, Except.error.injEq] at hf; exact hf.symm)
        | exact absurd hf (hd _)
        | (simp at hf)
    · rename_i p2 hf
      unfold number_exponent at h
      simp only [] at h
      repeat' split at h
      all_goals first
        | (simp only [Option.some.injEq, Except.error.injEq] at h; exact h.symm)
        | exact absurd h (hd _)
        | (simp at h)

theorem Post.error {m : Nat} {dest : Nat → struct_JSON} {e : JSON_errno_t} (he : e ≠ JSON_EOK) :
    Post m dest e dest :=
  ⟨fun _ _ => rfl, fun h => absurd h he⟩

theorem Post.leaf {m : Nat} (dest : Nat → struct_JSON) (v : struct_JSON) (hm : 0 < m)
    (hv : v.treesize = 0) (hty : v.type ≠ JSON_OBJECT_TYPE) :
    Post m dest JSON_EOK (store dest 0 v) := by
  refine ⟨fun i hi => store_pos _ _ (by omega), fun _ => ?_⟩
  rw [store_zero, hv]
  refine ⟨hm, fun i hi => store_pos _ _ (by omega), fun i _ hi => ?_⟩
  have : i = 0 := by omega
  subst this
  rw [store_zero]
  refine ⟨by omega, ?_⟩
  unfold Local
  rw [store_zero, hv]
  cases hty2 : v.type
  · simp
  · simp
  · simp
  · simp
  · exact ⟨[], Forest.nil _⟩
  · exact absurd hty2 hty

theorem Post.empty_object {m : Nat} (dest : Nat → struct_JSON) (v : struct_JSON) (hm : 0 < m)
    (hv : v.treesize = 0) (hty : v.type = JSON_OBJECT_TYPE) :
    Post m dest JSON_EOK (store dest 0 v) := by
  refine ⟨fun i hi => store_pos _ _ (by omega), fun _ => ?_⟩
  rw [store_zero, hv]
  refine ⟨hm, fun i hi => store_pos _ _ (by omega), fun i _ hi => ?_⟩
  have : i = 0 := by omega
  subst this
  rw [store_zero]
  refine ⟨by omega, ?_⟩
  unfold Local
  rw [store_zero, hv]
  simp only [hty]
  exact ⟨[], Forest.nil _, trivial⟩

theorem JSON_keyword_post (b n : Nat) (json : Nat → Nat) (dest : Nat → struct_JSON) (pos : Nat)
    (rest : List Nat) (ty : JSON_type_t) (m : Nat) (hm : 0 < m)
    (hty : ty ≠ JSON_OBJECT_TYPE) :
    Post m dest (JSON_keyword b n json dest pos rest ty).1
      (JSON_keyword b n json dest pos rest ty).2 := by
  unfold JSON_keyword
  simp only []
  split
  · exact Post.error (e := JSON_EILL) (by decide)
  split
  · exact Post.leaf dest _ hm rfl hty
  · exact Post.error (e := JSON_EILL) (by decide)

/-! ### Well-formedness of every result -/

theorem Inv.init (destsize : Nat) (pos : Nat) (dest : Nat → struct_JSON) (hm : 0 < destsize) :
    Inv destsize { pos := pos, destpos := u32 (0 + 1), treesize := 0, dest := dest } [] := by
  have e : u32 (0 + 1) = 1 := by decide
  refine ⟨by simp only [e]; omega, by simp only [e]; omega, by simp only [e], ?_, ?_⟩
  · intro i h1 h2
    simp only [e] at h2
    omega
  · simp only [e]
    exact Forest.nil 1

theorem JSON_sound : ∀ fuel, Sound (JSON fuel) := by
  intro fuel
  induction fuel with
  | zero => intro b n json m dest e d _ h; simp [JSON] at h
  | succ fuel ih =>
    intro b n json m dest e d hm h
    rw [JSON] at h
    split at h
    · cases h
    rename_i pos hw
    split at h
    · simp only [Option.some.injEq, Prod.mk.injEq] at h
      obtain ⟨rfl, rfl⟩ := h
      exact Post.error (by decide)
    split at h
    · simp only [Option.some.injEq, Prod.mk.injEq] at h
      obtain ⟨rfl, rfl⟩ := h
      exact Post.error (by decide)
    rename_i hm0
    have hm1 : 0 < m := by omega
    split at h
    · -- object
      unfold JSON_object at h
      split at h
      · cases h
      split at h
      · simp only [Option.some.injEq, Prod.mk.injEq] at h
        obtain ⟨rfl, rfl⟩ := h
        exact Post.error (by decide)
      split at h
      · simp only [Option.some.injEq, Prod.mk.injEq] at h
        obtain ⟨rfl, rfl⟩ := h
        exact Post.empty_object dest _ hm1 rfl rfl
      · exact (object_loop_post ih fuel b n json m pos hm _ _ _ _ _
          (Inv.init m _ dest hm1) trivial h).1
    split at h
    · -- array
      unfold JSON_array at h
      split at h
      · cases h
      split at h
      · simp only [Option.some.injEq, Prod.mk.injEq] at h
        obtain ⟨rfl, rfl⟩ := h
        exact Post.error (by decide)
      split at h
      · simp only [Option.some.injEq, Prod.mk.injEq] at h
        obtain ⟨rfl, rfl⟩ := h
        exact Post.leaf dest _ hm1 rfl (by simp)
      · exact (array_loop_post ih fuel b n json m pos hm _ _ _ _ _
          (Inv.init m _ dest hm1) h).1
    split at h
    · -- string
      unfold JSON_string at h
      split at h
      · cases h
      · rename_i e1 hl
        simp only [Option.some.injEq, Prod.mk.injEq] at h
        obtain ⟨rfl, rfl⟩ := h
        exact Post.error (string_loop_error _ _ _ _ _ hl)
      · simp only [Option.some.injEq, Prod.mk.injEq] at h
        obtain ⟨rfl, rfl⟩ := h
        exact Post.leaf dest _ hm1 rfl (by simp)
    split at h
    · -- number
      unfold JSON_number at h
      split at h
      · cases h
      · rename_i e1 hl
        simp only [Option.some.injEq, Prod.mk.injEq] at h
        obtain ⟨rfl, rfl⟩ := h
        have := number_scan_error _ _ _ _ _ hl
        subst this
        exact Post.error (by decide)
      · simp only [Option.some.injEq, Prod.mk.injEq] at h
        obtain ⟨rfl, rfl⟩ := h
        exact Post.leaf dest _ hm1 rfl (by simp)
    split at h
    · simp only [Option.some.injEq] at h
      have := JSON_keyword_post b n json dest pos [114, 117, 101] JSON_BOOLEAN_TYPE m hm1
        (by decide)
      rw [h] at this
      exact this
    split at h
    · simp only [Option.some.injEq] at h
      have := JSON_keyword_post b n json dest pos [97, 108, 115, 101] JSON_BOOLEAN_TYPE m hm1
        (by decide)
      rw [h] at this
      exact this
    split at h
    · simp only [Option.some.injEq] at h
      have := JSON_keyword_post b n json dest pos [117, 108, 108] JSON_NULL_TYPE m hm1
        (by decide)
      rw [h] at this
      exact this
    · simp only [Option.some.injEq, Prod.mk.injEq] at h
      obtain ⟨rfl, rfl⟩ := h
      exact Post.error (by decide)

/-! ### The enumeration of children on a well-formed result -/

theorem Forest.children_eq {d : Nat → struct_JSON} {j stop : Nat} {l : List Nat}
    (h : Forest d j stop l) :
    ∀ fuel, stop - j ≤ fuel → children d fuel j stop = l ∧ walk_end d fuel j stop = stop := by
  induction h with
  | nil j =>
    intro fuel _
    cases fuel <;> simp [SJson.children, walk_end]
  | cons j stop l h ih =>
    intro fuel hf
    have hle := h.le
    cases fuel with
    | zero => omega
    | succ fuel =>
      have := ih fuel (by omega)
      simp only [SJson.children, walk_end]
      rw [if_pos (by omega), if_pos (by omega), this.1, this.2]
      exact ⟨rfl, rfl⟩

theorem Forest.sum {d : Nat → struct_JSON} {j stop : Nat} {l : List Nat}
    (h : Forest d j stop l) : (l.map (fun x => 1 + (d x).treesize)).sum = stop - j := by
  induction h with
  | nil j => simp
  | cons j stop l h ih =>
    have hle := h.le
    simp only [List.map_cons, List.sum_cons, ih]
    omega

theorem Forest.length_add_sum {d : Nat → struct_JSON} {j stop : Nat} {l : List Nat}
    (h : Forest d j stop l) : l.length + (l.map (fun x => (d x).treesize)).sum = stop - j := by
  induction h with
  | nil j => simp
  | cons j stop l h ih =>
    have hle := h.le
    simp only [List.map_cons, List.sum_cons, List.length_cons]
    omega

theorem Keys.even {d : Nat → struct_JSON} : ∀ (l : List Nat), Keys d l → Even l.length
  | [], _ => by simp
  | [_], h => h.elim
  | _ :: _ :: rest, h => by
    have := Keys.even rest h.2
    simp only [List.length_cons]
    obtain ⟨r, hr⟩ := this
    exact ⟨r + 1, by omega⟩

theorem Keys.get {d : Nat → struct_JSON} :
    ∀ (l : List Nat), Keys d l → ∀ k j, l.get? (2 * k) = some j → (d j).type = JSON_STRING_TYPE
  | [], _, k, j, hj => by simp at hj
  | [_], h, _, _, _ => h.elim
  | a :: _ :: rest, h, k, j, hj => by
    cases k with
    | zero =>
      simp only [Nat.mul_zero, List.get?_cons_zero, Option.some.injEq] at hj
      subst hj; exact h.1
    | succ k =>
      have e : 2 * (k + 1) = 2 * k + 1 + 1 := by omega
      rw [e] at hj
      simp only [List.get?_cons_succ] at hj
      exact Keys.get rest h.2 k j hj

/-- Everything the claims on the descriptor tree need, for one written index. -/
theorem JSON_region {fuel b n : Nat} {json : Nat → Nat} {m : Nat} {dest d : Nat → struct_JSON}
    (hm : m < 4294967296) (h : JSON fuel b n json m dest = some (JSON_EOK, d)) :
    (d 0).treesize < m ∧ (∀ i, (d 0).treesize < i → d i = dest i) ∧
      Region d 0 ((d 0).treesize + 1) :=
  (JSON_sound fuel b n json m dest JSON_EOK d hm h).2 rfl

theorem Local.scalar {d : Nat → struct_JSON} {i : Nat} (h : Local d i)
    (hs : is_scalar (d i).type) : (d i).treesize = 0 := by
  unfold Local at h
  rcases hs with hs | hs | hs | hs <;> (rw [hs] at h; exact h)

theorem Local.forest {d : Nat → struct_JSON} {i : Nat} (h : Local d i)
    (hs : is_composite (d i).type) :
    ∃ l, Forest d (i + 1) (i + 1 + (d i).treesize) l ∧
      ((d i).type = JSON_OBJECT_TYPE → Keys d l) := by
  unfold Local at h
  rcases hs with hs | hs
  · simp only [hs] at h
    obtain ⟨l, hl⟩ := h
    exact ⟨l, hl, fun h2 => by rw [hs] at h2; cases h2⟩
  · simp only [hs] at h
    obtain ⟨l, hl, hk⟩ := h
    exact ⟨l, hl, fun _ => hk⟩

theorem Local.children_spec {d : Nat → struct_JSON} {i : Nat} (h : Local d i)
    (hs : is_composite (d i).type) :
    Forest d (i + 1) (i + 1 + (d i).treesize) (immediate_children d i) ∧
      children_end d i = i + (d i).treesize + 1 ∧
      ((d i).type = JSON_OBJECT_TYPE → Keys d (immediate_children d i)) := by
  obtain ⟨l, hl, hk⟩ := h.forest hs
  have := hl.children_eq (d i).treesize (by omega)
  unfold immediate_children children_end
  rw [this.1, this.2]
  exact ⟨hl, by omega, hk⟩

/-! ### Two runs on the same input with different capacities -/

theorem subcall_indep {self : Callee} (hi : Indep self) {b n : Nat}
    {json : Nat → Nat} {m1 m2 pos destpos : Nat} {dest1 d1 : Nat → struct_JSON}
    (dest2 : Nat → struct_JSON)
    (hm1 : m1 < 4294967296) (hm2 : m2 < 4294967296) (h1 : destpos ≤ m1) (h2 : destpos ≤ m2)
    (h : subcall self b n json m1 pos destpos dest1 = some (JSON_EOK, d1)) :
    (destpos + (d1 destpos).treesize < m2 →
      ∃ d2, subcall self b n json m2 pos destpos dest2 = some (JSON_EOK, d2) ∧
        (∀ i, destpos ≤ i → i ≤ destpos + (d1 destpos).treesize → d2 i = d1 i) ∧
        (∀ i, i < destpos → d2 i = dest2 i)) ∧
    (m2 ≤ destpos + (d1 destpos).treesize →
      ∃ d2, subcall self b n json m2 pos destpos dest2 = some (JSON_ENOMEM, d2)) := by
  unfold subcall at h ⊢
  split at h
  · cases h
  rename_i e1 sub heq
  simp only [Option.some.injEq, Prod.mk.injEq] at h
  obtain ⟨rfl, rfl⟩ := h
  rw [usub_of_le h1 hm1] at heq
  rw [usub_of_le h2 hm2]
  have h0 : unshift dest1 destpos sub destpos = sub 0 := by simp [unshift]
  rw [h0]
  obtain ⟨ha, hb⟩ := hi _ _ _ _ _ _ (by omega) heq (m2 - destpos) (shift dest2 destpos) (by omega)
  refine ⟨fun hc => ?_, fun hc => ?_⟩
  · obtain ⟨d2, hd2, hag⟩ := ha (by omega)
    rw [hd2]
    refine ⟨_, rfl, fun i hi1 hi2 => ?_, fun i hi => by simp [unshift, hi]⟩
    simp only [unshift]
    rw [if_neg (by omega), if_neg (by omega)]
    exact hag _ (by omega)
  · obtain ⟨d2, hd2⟩ := hb (by omega)
    rw [hd2]
    exact ⟨_, rfl⟩

theorem value_block_indep {self : Callee} (hs : Sound self) (hi : Indep self) {b n : Nat}
    {json : Nat → Nat} {m1 m2 : Nat} {s1 s1' : Frame} {l : List Nat}
    (dest2 : Nat → struct_JSON)
    (hm1 : m1 < 4294967296) (hm2 : m2 < 4294967296) (hinv : Inv m1 s1 l)
    (h2 : s1.destpos ≤ m2)
    (hag : ∀ i, 1 ≤ i → i < s1.destpos → dest2 i = s1.dest i)
    (h : value_block self b n json m1 s1 = some (.ok s1')) :
    (s1'.destpos ≤ m2 →
      ∃ d2, value_block self b n json m2 { s1 with dest := dest2 }
          = some (.ok { s1' with dest := d2 }) ∧
        ∀ i, 1 ≤ i → i < s1'.destpos → d2 i = s1'.dest i) ∧
    (m2 < s1'.destpos →
      ∃ d2, value_block self b n json m2 { s1 with dest := dest2 }
          = some (.error (JSON_ENOMEM, d2))) := by
  obtain ⟨hsub, hinv', hdp, hts, hpos, hlow, hfr⟩ := value_block_ok hs hm1 hinv h
  obtain ⟨ha, hb⟩ := subcall_indep hi dest2 hm1 hm2 hinv.2.1 h2 hsub
  refine ⟨fun hc => ?_, fun hc => ?_⟩
  · obtain ⟨d2, hd2, hag1, hag2⟩ := ha (by omega)
    refine ⟨d2, ?_, fun i hi1 hi2 => ?_⟩
    · unfold value_block
      dsimp only
      rw [hd2]
      dsimp only
      have e0 : d2 s1.destpos = s1'.dest s1.destpos := hag1 _ (Nat.le_refl _) (by omega)
      rw [if_neg (by simp), e0]
      have i3 := hinv.2.2.1
      have hu1 : u32 ((s1'.dest s1.destpos).treesize + 1) = (s1'.dest s1.destpos).treesize + 1 :=
        u32_of_lt (by omega)
      have hu2 : u32 (s1.destpos + ((s1'.dest s1.destpos).treesize + 1)) = s1'.destpos := by
        rw [u32_of_lt (by omega)]; omega
      have hu3 : u32 (s1.treesize + ((s1'.dest s1.destpos).treesize + 1)) = s1'.treesize := by
        rw [u32_of_lt (by omega)]; omega
      rw [hu1, hu2, hu3, ← hpos]
    · by_cases hlt : i < s1.destpos
      · rw [hag2 i hlt, hag i hi1 hlt, hlow i hlt]
      · exact hag1 i (by omega) (by omega)
  · obtain ⟨d2, hd2⟩ := hb (by omega)
    refine ⟨d2, ?_⟩
    unfold value_block
    dsimp only
    rw [hd2]
    dsimp only
    rw [if_pos (by decide)]

theorem key_block_indep {self : Callee} (hs : Sound self) (hi : Indep self) {b n : Nat}
    {json : Nat → Nat} {m1 m2 : Nat} {s1 s1' : Frame} {l : List Nat}
    (dest2 : Nat → struct_JSON)
    (hm1 : m1 < 4294967296) (hm2 : m2 < 4294967296) (hinv : Inv m1 s1 l)
    (h2 : s1.destpos ≤ m2)
    (hag : ∀ i, 1 ≤ i → i < s1.destpos → dest2 i = s1.dest i)
    (h : key_block self b n json m1 s1 = some (.ok s1')) :
    (s1'.destpos ≤ m2 →
      ∃ d2, key_block self b n json m2 { s1 with dest := dest2 }
          = some (.ok { s1' with dest := d2 }) ∧
        ∀ i, 1 ≤ i → i < s1'.destpos → d2 i = s1'.dest i) ∧
    (m2 < s1'.destpos →
      ∃ d2, key_block self b n json m2 { s1 with dest := dest2 }
          = some (.error (JSON_ENOMEM, d2))) := by
  obtain ⟨hsub, hinv', hstr, hkt, hdp, hts, hpos, hlow, hfr⟩ := key_block_ok hs hm1 hinv h
  obtain ⟨ha, hb⟩ := subcall_indep hi dest2 hm1 hm2 hinv.2.1 h2 hsub
  refine ⟨fun hc => ?_, fun hc => ?_⟩
  · obtain ⟨d2, hd2, hag1, hag2⟩ := ha (by omega)
    refine ⟨d2, ?_, fun i hi1 hi2 => ?_⟩
    · unfold key_block
      dsimp only
      rw [hd2]
      dsimp only
      have e0 : d2 s1.destpos = s1'.dest s1.destpos := hag1 _ (Nat.le_refl _) (by omega)
      rw [if_neg (by simp), e0, if_neg (by simp [hstr])]
      have i3 := hinv.2.2.1
      have hu2 : u32 (s1.destpos + 1) = s1'.destpos := by
        rw [u32_of_lt (by omega)]; omega
      have hu3 : u32 (s1.treesize + 1) = s1'.treesize := by
        rw [u32_of_lt (by omega)]; omega
      rw [hu2, hu3, ← hpos]
    · by_cases hlt : i < s1.destpos
      · rw [hag2 i hlt, hag i hi1 hlt, hlow i hlt]
      · exact hag1 i (by omega) (by omega)
  · obtain ⟨d2, hd2⟩ := hb (by omega)
    refine ⟨d2, ?_⟩
    unfold key_block
    dsimp only
    rw [hd2]
    dsimp only
    rw [if_pos (by decide)]

theorem array_loop_indep {self : Callee} (hs : Sound self) (hi : Indep self)
    (fuel b n : Nat) (json : Nat → Nat) (m1 m2 start : Nat)
    (hm1 : m1 < 4294967296) (hm2 : m2 < 4294967296) :
    ∀ (iter : Nat) (s1 : Frame) (l : List Nat) (dest2 d1 : Nat → struct_JSON),
      Inv m1 s1 l → s1.destpos ≤ m2 →
      (∀ i, 1 ≤ i → i < s1.destpos → dest2 i = s1.dest i) →
      array_loop self fuel b n json m1 start iter s1 = some (JSON_EOK, d1) →
      ((d1 0).treesize < m2 →
        ∃ d2, array_loop self fuel b n json m2 start iter { s1 with dest := dest2 }
            = some (JSON_EOK, d2) ∧ ∀ i, i ≤ (d1 0).treesize → d2 i = d1 i) ∧
      (m2 ≤ (d1 0).treesize →
        ∃ d2, array_loop self fuel b n json m2 start iter { s1 with dest := dest2 }
            = some (JSON_ENOMEM, d2)) := by
  intro iter
  induction iter with
  | zero => intro s1 l dest2 d1 _ _ _ h; simp [array_loop] at h
  | succ iter ih =>
    intro s1 l dest2 d1 hinv h2 hag h
    have hpost := array_loop_post hs fuel b n json m1 start hm1 _ _ _ _ _ hinv h
    rw [array_loop] at h
    rw [array_loop]
    dsimp only
    split at h
    · cases h
    rename_i pos1 hw1
    have hinv1 : Inv m1 { s1 with pos := pos1 } l := hinv
    split at h
    · cases h
    · rename_i r hb
      simp only [Option.some.injEq] at h
      subst h
      exact absurd rfl (value_block_error hs hm1 hinv1 hb).1
    rename_i s1' hb
    obtain ⟨-, hinv2, hdp, hts, -, hlow, hfr⟩ := value_block_ok hs hm1 hinv1 hb
    dsimp only at hdp hts hlow hfr
    obtain ⟨ha, hbm⟩ := value_block_indep hs hi dest2 hm1 hm2 hinv1 h2 hag hb
    dsimp only at ha hbm
    have i3 := hinv2.2.2.1
    -- the rest of the first run
    have hrest : s1'.treesize ≤ (d1 0).treesize := by
      split at h
      · cases h
      rename_i pos2 _
      split at h
      · cases h
      split at h
      · have hinv3 : Inv m1 { s1' with pos := pos2 + 1 } (l ++ [s1.destpos]) := hinv2
        exact ((array_loop_post hs fuel b n json m1 start hm1 _ _ _ _ _ hinv3 h).2 rfl).1
      split at h
      · cases h
      simp only [Option.some.injEq, Prod.mk.injEq, true_and] at h
      subst h
      rw [store_zero]
    by_cases hc : s1'.destpos ≤ m2
    · obtain ⟨d2', hvb2, hag2⟩ := ha hc
      simp only [hw1, hvb2]
      split at h
      · cases h
      rename_i pos2 hw2
      split at h
      · cases h
      rename_i hne
      simp only [if_neg hne]
      split at h
      · rename_i hcomma
        simp only [if_pos hcomma]
        have hinv3 : Inv m1 { s1' with pos := pos2 + 1 } (l ++ [s1.destpos]) := hinv2
        exact ih _ _ d2' _ hinv3 hc hag2 h
      rename_i hcomma
      simp only [if_neg hcomma]
      split at h
      · cases h
      rename_i hclose
      simp only [if_neg hclose]
      simp only [Option.some.injEq, Prod.mk.injEq, true_and] at h
      subst h
      simp only [store_zero]
      refine ⟨fun _ => ⟨_, rfl, fun i hi => ?_⟩, fun hle => by omega⟩
      by_cases h0 : i = 0
      · subst h0; simp [store_zero]
      · rw [store_pos _ _ (by omega), store_pos _ _ (by omega)]
        exact hag2 i (by omega) (by omega)
    · obtain ⟨d2', hvb2⟩ := hbm (by omega)
      simp only [hw1, hvb2]
      exact ⟨fun hlt => by omega, fun _ => ⟨_, rfl⟩⟩

theorem object_loop_indep {self : Callee} (hs : Sound self) (hi : Indep self)
    (fuel b n : Nat) (json : Nat → Nat) (m1 m2 start : Nat)
    (hm1 : m1 < 4294967296) (hm2 : m2 < 4294967296) :
    ∀ (iter : Nat) (s1 : Frame) (l : List Nat) (dest2 d1 : Nat → struct_JSON),
      Inv m1 s1 l → Keys s1.dest l → s1.destpos ≤ m2 →
      (∀ i, 1 ≤ i → i < s1.destpos → dest2 i = s1.dest i) →
      object_loop self fuel b n json m1 start iter s1 = some (JSON_EOK, d1) →
      ((d1 0).treesize < m2 →
        ∃ d2, object_loop self fuel b n json m2 start iter { s1 with dest := dest2 }
            = some (JSON_EOK, d2) ∧ ∀ i, i ≤ (d1 0).treesize → d2 i = d1 i) ∧
      (m2 ≤ (d1 0).treesize →
        ∃ d2, object_loop self fuel b n json m2 start iter { s1 with dest := dest2 }
            = some (JSON_ENOMEM, d2)) := by
  intro iter
  induction iter with
  | zero => intro s1 l dest2 d1 _ _ _ _ h; simp [object_loop] at h
  | succ iter ih =>
    intro s1 l dest2 d1 hinv hkeys h2 hag h
    rw [object_loop] at h
    rw [object_loop]
    dsimp only
    split at h
    · cases h
    rename_i pos1 hw1
    have hinv1 : Inv m1 { s1 with pos := pos1 } l := hinv
    split at h
    · cases h
    · rename_i r hb
      simp only [Option.some.injEq] at h
      subst h
      exact absurd rfl (key_block_error hs hm1 hinv1 hb).1
    rename_i s1' hb
    obtain ⟨-, hinv2, hstr, -, hdp, hts, -, hlow, hfr⟩ := key_block_ok hs hm1 hinv1 hb
    dsimp only at hdp hts hlow hfr hstr
    obtain ⟨ha, hbm⟩ := key_block_indep hs hi dest2 hm1 hm2 hinv1 h2 hag hb
    dsimp only at ha hbm
    have i3 := hinv2.2.2.1
    split at h
    · cases h
    rename_i pos2 hw2
    split at h
    · cases h
    rename_i hne2
    split at h
    · cases h
    rename_i hcolon
    split at h
    · cases h
    rename_i pos3 hw3
    have hinv3 : Inv m1 { s1' with pos := pos3 } (l ++ [s1.destpos]) := hinv2
    split at h
    · cases h
    · rename_i r hb2
      simp only [Option.some.injEq] at h
      subst h
      exact absurd rfl (value_block_error hs hm1 hinv3 hb2).1
    rename_i s2' hb2
    obtain ⟨-, hinv4, hdp2, hts2, -, hlow2, hfr2⟩ := value_block_ok hs hm1 hinv3 hb2
    dsimp only at hdp2 hts2 hlow2 hfr2
    have j3 := hinv4.2.2.1
    have hkeys2 : Keys s2'.dest (l ++ [s1.destpos] ++ [s1'.destpos]) :=
      Keys.pair hinv.2.2.2.2 hkeys hstr hdp hlow hlow2
    -- the rest of the first run
    have hrest : s2'.treesize ≤ (d1 0).treesize := by
      split at h
      · cases h
      rename_i pos4 _
      split at h
      · cases h
      split at h
      · have hinv5 : Inv m1 { s2' with pos := pos4 + 1 }
            (l ++ [s1.destpos] ++ [s1'.destpos]) := hinv4
        exact ((object_loop_post hs fuel b n json m1 start hm1 _ _ _ _ _ hinv5 hkeys2 h).2 rfl).1
      split at h
      · cases h
      simp only [Option.some.injEq, Prod.mk.injEq, true_and] at h
      subst h
      rw [store_zero]
    by_cases hc : s1'.destpos ≤ m2
    · obtain ⟨d2', hvb2, hag2⟩ := ha hc
      simp only [hw1, hvb2, hw2, if_neg hne2, if_neg hcolon, hw3]
      obtain ⟨ha2, hbm2⟩ := value_block_indep hs hi d2' hm1 hm2 hinv3 hc hag2 hb2
      dsimp only at ha2 hbm2
      by_cases hc2 : s2'.destpos ≤ m2
      · obtain ⟨d3', hvb3, hag3⟩ := ha2 hc2
        simp only [hvb3]
        split at h
        · cases h
        rename_i pos4 hw4
        split at h
        · cases h
        rename_i hne
        simp only [if_neg hne]
        split at h
        · rename_i hcomma
          simp only [if_pos hcomma]
          have hinv5 : Inv m1 { s2' with pos := pos4 + 1 }
              (l ++ [s1.destpos] ++ [s1'.destpos]) := hinv4
          exact ih _ _ d3' _ hinv5 hkeys2 hc2 hag3 h
        rename_i hcomma
        simp only [if_neg hcomma]
        split at h
        · cases h
        rename_i hclose
        simp only [if_neg hclose]
        simp only [Option.some.injEq, Prod.mk.injEq, true_and] at h
        subst h
        simp only [store_zero]
        refine ⟨fun _ => ⟨_, rfl, fun i hi => ?_⟩, fun hle => by omega⟩
        by_cases h0 : i = 0
        · subst h0; simp [store_zero]
        · rw [store_pos _ _ (by omega), store_pos _ _ (by omega)]
          exact hag3 i (by omega) (by omega)
      · obtain ⟨d3', hvb3⟩ := hbm2 (by omega)
        simp only [hvb3]
        exact ⟨fun hlt => by omega, fun _ => ⟨_, rfl⟩⟩
    · obtain ⟨d2', hvb2⟩ := hbm (by omega)
      simp only [hw1, hvb2]
      exact ⟨fun hlt => by omega, fun _ => ⟨_, rfl⟩⟩

theorem JSON_indep : ∀ fuel, Indep (JSON fuel) := by
  intro fuel
  induction fuel with
  | zero => intro b n json m1 dest1 d1 _ h; simp [JSON] at h
  | succ fuel ih =>
    intro b n json m1 dest1 d1 hm1 h m2 dest2 hm2
    have hs := JSON_sound fuel
    rw [JSON] at h
    rw [JSON]
    split at h
    · cases h
    rename_i pos hw
    split at h
    · cases h
    rename_i hne
    split at h
    · cases h
    rename_i hm0
    have hm1' : 0 < m1 := by omega
    simp only [if_neg hne]
    by_cases hz : 0 = m2
    · simp only [if_pos hz]
      exact ⟨fun hlt => by omega, fun _ => ⟨_, rfl⟩⟩
    simp only [if_neg hz]
    have hm2' : 0 < m2 := by omega
    -- a leaf: the descriptor stored does not depend on `dest`
    have leaf : ∀ (v : struct_JSON), v.treesize = 0 → d1 = store dest1 0 v →
        ((d1 0).treesize < m2 → ∃ d2, some (JSON_EOK, store dest2 0 v) = some (JSON_EOK, d2) ∧
          ∀ i, i ≤ (d1 0).treesize → d2 i = d1 i) ∧
        (m2 ≤ (d1 0).treesize →
          ∃ d2, some (JSON_EOK, store dest2 0 v) = some (JSON_ENOMEM, d2)) := by
      intro v hv hd
      subst hd
      rw [store_zero, hv]
      refine ⟨fun _ => ⟨_, rfl, fun i hi => ?_⟩, fun hle => by omega⟩
      have : i = 0 := by omega
      subst this
      rw [store_zero, store_zero]
    split at h
    · -- object
      rename_i hc
      simp only [if_pos hc]
      unfold JSON_object at h ⊢
      split at h
      · cases h
      split at h
      · cases h
      rename_i hne2
      simp only [if_neg hne2]
      split at h
      · rename_i hcl
        simp only [if_pos hcl]
        simp only [Option.some.injEq, Prod.mk.injEq, true_and] at h
        exact leaf _ rfl h.symm
      · rename_i hcl
        simp only [if_neg hcl]
        have e : u32 (0 + 1) = 1 := by decide
        exact object_loop_indep hs ih fuel b n json m1 m2 pos hm1 hm2 _ _ [] dest2 d1
          (Inv.init m1 _ dest1 hm1') trivial (by dsimp only; omega)
          (fun i h1 h2 => by dsimp only at h2; omega) h
    rename_i hc1
    simp only [if_neg hc1]
    split at h
    · -- array
      rename_i hc
      simp only [if_pos hc]
      unfold JSON_array at h ⊢
      split at h
      · cases h
      split at h
      · cases h
      rename_i hne2
      simp only [if_neg hne2]
      split at h
      · rename_i hcl
        simp only [if_pos hcl]
        simp only [Option.some.injEq, Prod.mk.injEq, true_and] at h
        exact leaf _ rfl h.symm
      · rename_i hcl
        simp only [if_neg hcl]
        have e : u32 (0 + 1) = 1 := by decide
        exact array_loop_indep hs ih fuel b n json m1 m2 pos hm1 hm2 _ _ [] dest2 d1
          (Inv.init m1 _ dest1 hm1') (by dsimp only; omega)
          (fun i h1 h2 => by dsimp only at h2; omega) h
    rename_i hc2
    simp only [if_neg hc2]
    split at h
    · -- string
      rename_i hc
      simp only [if_pos hc]
      unfold JSON_string at h ⊢
      split at h
      · cases h
      · simp only [Option.some.injEq, Prod.mk.injEq] at h
        exact absurd h.1 (string_loop_error _ _ _ _ _ (by assumption))
      · simp only [Option.some.injEq, Prod.mk.injEq, true_and] at h
        exact leaf _ rfl h.symm
    rename_i hc3
    simp only [if_neg hc3]
    split at h
    · -- number
      rename_i hc
      simp only [if_pos hc]
      unfold JSON_number at h ⊢
      split at h
      · cases h
      · rename_i e1 hl
        simp only [Option.some.injEq, Prod.mk.injEq] at h
        have := number_scan_error _ _ _ _ _ hl
        rw [this] at h
        exact absurd h.1 (by decide)
      · simp only [Option.some.injEq, Prod.mk.injEq, true_and] at h
        exact leaf _ rfl h.symm
    rename_i hc4
    simp only [if_neg hc4]
    -- keywords
    have kw : ∀ (rest : List Nat) (ty : JSON_type_t),
        JSON_keyword b n json dest1 pos rest ty = (JSON_EOK, d1) →
        ((d1 0).treesize < m2 →
          ∃ d2, some (JSON_keyword b n json dest2 pos rest ty) = some (JSON_EOK, d2) ∧
            ∀ i, i ≤ (d1 0).treesize → d2 i = d1 i) ∧
        (m2 ≤ (d1 0).treesize →
          ∃ d2, some (JSON_keyword b n json dest2 pos rest ty) = some (JSON_ENOMEM, d2)) := by
      intro rest ty hk
      unfold JSON_keyword at hk ⊢
      dsimp only at hk ⊢
      split at hk
      · cases hk
      rename_i hlen
      simp only [if_neg hlen]
      split at hk
      · rename_i hall
        simp only [if_pos hall]
        simp only [Prod.mk.injEq, true_and] at hk
        exact leaf _ rfl hk.symm
      · cases hk
    split at h
    · rename_i hc
      simp only [if_pos hc]
      simp only [Option.some.injEq] at h
      exact kw _ _ h
    rename_i hc5
    simp only [if_neg hc5]
    split at h
    · rename_i hc
      simp only [if_pos hc]
      simp only [Option.some.injEq] at h
      exact kw _ _ h
    rename_i hc6
    simp only [if_neg hc6]
    split at h
    · rename_i hc
      simp only [if_pos hc]
      simp only [Option.some.injEq] at h
      exact kw _ _ h
    · cases h

/-! ### The scanners on phrases of the grammar -/

theorem isws_iff (c : Nat) : isws c = true ↔ is_space c := by
  simp [isws, is_space, or_assoc]

theorem isdig_iff (c : Nat) : isdig c = true ↔ is_digit c := by
  simp [isdig, is_digit]

theorem ishex_of_alnum {c : Nat} (h : is_alnum c) : ishex c = true := by
  simp only [ishex, Bool.or_eq_true, Bool.and_eq_true, decide_eq_true_eq]
  rcases h with h | h | h
  · exact Or.inl (Or.inl h)
  · exact Or.inl (Or.inr h)
  · exact Or.inr h

theorem Holds_append (json : Nat → Nat) :
    ∀ (a b : List Nat) (q : Nat),
      Holds json q (a ++ b) ↔ Holds json q a ∧ Holds json (q + a.length) b
  | [], b, q => by simp [Holds]
  | c :: a, b, q => by
    show (json q = c ∧ Holds json (q + 1) (a ++ b)) ↔
      (json q = c ∧ Holds json (q + 1) a) ∧ Holds json (q + (a.length + 1)) b
    rw [Holds_append json a b (q + 1)]
    have e : q + 1 + a.length = q + (a.length + 1) := by omega
    rw [e, and_assoc]

theorem Holds_shift (json : Nat → Nat) (p : Nat) :
    ∀ (t : List Nat) (q : Nat), Holds (shift json p) q t ↔ Holds json (p + q) t
  | [], q => by simp [Holds]
  | c :: t, q => by
    simp only [Holds, Holds_shift json p t (q + 1)]
    rfl

theorem Holds_get (json : Nat → Nat) :
    ∀ (t : List Nat) (q i : Nat) (c : Nat), Holds json q t → t.get? i = some c → json (q + i) = c
  | [], _, _, _, _, h => by simp at h
  | a :: t, q, 0, c, hh, h => by
    simp only [List.get?_cons_zero, Option.some.injEq] at h
    subst h; exact hh.1
  | a :: t, q, i + 1, c, hh, h => by
    simp only [List.get?_cons_succ] at h
    have := Holds_get json t (q + 1) i c hh.2 h
    have e : q + (i + 1) = q + 1 + i := by omega
    rw [e]; exact this

/-- `whitespace` skips a run of whitespace that ends before `end_` at a byte
that is not whitespace, or at `end_`. -/
theorem whitespace_skip (json : Nat → Nat) (n : Nat) :
    ∀ (w : List Nat) (fuel q : Nat), WS w → Holds json q w →
      (q + w.length = n ∨ ¬ is_space (json (q + w.length))) → q + w.length ≤ n →
      w.length < fuel → whitespace json fuel q n = some (q + w.length)
  | [], fuel, q, _, _, hstop, _, hf => by
    cases fuel with
    | zero => omega
    | succ fuel =>
      simp only [whitespace, List.length_nil, Nat.add_zero] at hstop ⊢
      rw [if_neg]
      rintro ⟨h1, h2⟩
      rcases hstop with h | h
      · exact h1 h
      · exact h ((isws_iff _).1 h2)
  | c :: w, fuel, q, hw, hh, hstop, hle, hf => by
    cases fuel with
    | zero => omega
    | succ fuel =>
      simp only [List.length_cons] at hstop hle hf
      have hc : is_space c := hw c (by simp)
      have e : q + (w.length + 1) = q + 1 + w.length := by omega
      rw [e] at hstop hle
      have := whitespace_skip json n w fuel (q + 1) (fun x hx => hw x (by simp [hx])) hh.2
        hstop hle (by omega)
      simp only [whitespace, List.length_cons]
      rw [if_pos ⟨by omega, by rw [hh.1]; exact (isws_iff c).2 hc⟩, this, e]

/-- `digits` skips a run of digits that ends before `end_` at a byte that is
not a digit, or at `end_`. -/
theorem digits_skip (json : Nat → Nat) (n : Nat) :
    ∀ (ds : List Nat) (fuel q : Nat), (∀ x ∈ ds, is_digit x) → Holds json q ds →
      (q + ds.length = n ∨ ¬ is_digit (json (q + ds.length))) → q + ds.length ≤ n →
      ds.length < fuel → digits json fuel q n = some (q + ds.length)
  | [], fuel, q, _, _, hstop, _, hf => by
    cases fuel with
    | zero => omega
    | succ fuel =>
      simp only [digits, List.length_nil, Nat.add_zero] at hstop ⊢
      rw [if_neg]
      rintro ⟨h1, h2⟩
      rcases hstop with h | h
      · exact h1 h
      · exact h ((isdig_iff _).1 h2)
  | c :: w, fuel, q, hw, hh, hstop, hle, hf => by
    cases fuel with
    | zero => omega
    | succ fuel =>
      simp only [List.length_cons] at hstop hle hf
      have hc : is_digit c := hw c (by simp)
      have e : q + (w.length + 1) = q + 1 + w.length := by omega
      rw [e] at hstop hle
      have := digits_skip json n w fuel (q + 1) (fun x hx => hw x (by simp [hx])) hh.2
        hstop hle (by omega)
      simp only [digits, List.length_cons]
      rw [if_pos ⟨by omega, by rw [hh.1]; exact (isdig_iff c).2 hc⟩, this, e]

/-- The string loop accepts a body of the grammar followed by the closing
quote, when both lie before `end_`. -/
theorem string_loop_body (json : Nat → Nat) (n : Nat) {body : List Nat} (hb : StrBody body) :
    ∀ (fuel p : Nat), Holds json p (body ++ [34]) → p + body.length + 1 ≤ n →
      body.length < fuel → string_loop json n fuel p = some (.ok (p + body.length + 1)) := by
  induction hb with
  | nil =>
    intro fuel p hh hle hf
    cases fuel with
    | zero => omega
    | succ fuel =>
      simp only [List.nil_append, Holds] at hh
      simp only [List.length_nil, Nat.add_zero] at hle ⊢
      rw [string_loop, if_neg (by omega), if_pos hh.1]
  | plain c rest h1 h2 h3 h4 _ ih =>
    intro fuel p hh hle hf
    cases fuel with
    | zero => omega
    | succ fuel =>
      simp only [List.cons_append, Holds] at hh
      simp only [List.length_cons] at hle hf ⊢
      rw [string_loop, if_neg (by omega), if_neg (by rw [hh.1]; exact h1),
        if_neg (by rw [hh.1]; exact fun h => h2 h.1),
        if_neg (by rw [hh.1]; omega), ih fuel (p + 1) hh.2 (by omega) (by omega)]
      congr 2; omega
  | escape c rest hc _ ih =>
    intro fuel p hh hle hf
    cases fuel with
    | zero => omega
    | succ fuel =>
      simp only [List.cons_append, Holds] at hh
      simp only [List.length_cons] at hle hf ⊢
      obtain ⟨e1, e2, hrest⟩ := hh
      rw [string_loop, if_neg (by omega), if_neg (by rw [e1]; decide),
        if_pos ⟨e1, by omega⟩]
      simp only []
      have hc' : c = 34 ∨ c = 92 ∨ c = 47 ∨ c = 98 ∨ c = 102 ∨ c = 110 ∨ c = 114 ∨ c = 116 := hc
      rw [e2, if_pos hc', ih fuel (p + 2) hrest (by omega) (by omega)]
      congr 2; omega
  | unicode a b c d rest ha hb hc hd _ ih =>
    intro fuel p hh hle hf
    cases fuel with
    | zero => omega
    | succ fuel =>
      simp only [List.cons_append, Holds] at hh
      simp only [List.length_cons] at hle hf ⊢
      obtain ⟨e1, e2, e3, e4, e5, e6, hrest⟩ := hh
      rw [string_loop, if_neg (by omega), if_neg (by rw [e1]; decide),
        if_pos ⟨e1, by omega⟩]
      simp only []
      rw [e2, if_neg (by decide), if_pos rfl, if_neg (by omega), e3, e4, e5, e6,
        if_neg (by simp [ishex_of_alnum ha]), if_neg (by simp [ishex_of_alnum hb]),
        if_neg (by simp [ishex_of_alnum hc]), if_neg (by simp [ishex_of_alnum hd]),
        ih fuel (p + 6) hrest (by omega) (by omega)]
      congr 2; omega

theorem number_integer_ok (json : Nat → Nat) (n fuel p : Nat) {sign int : List Nat}
    (hs : sign = [] ∨ sign = [45]) (hi : IsInt int) (hh : Holds json p (sign ++ int))
    (hle : p + sign.length + int.length ≤ n)
    (hstop : p + sign.length + int.length = n ∨ ¬ is_digit (json (p + sign.length + int.length)))
    (hf : int.length < fuel) :
    number_integer fuel n json p = some (.ok (p + sign.length + int.length)) ∧
      (json p = 45 ∨ (48 ≤ json p ∧ json p ≤ 57)) := by
  have key : ∀ q, Holds json q int → q + int.length ≤ n →
      (q + int.length = n ∨ ¬ is_digit (json (q + int.length))) →
      (48 ≤ json q ∧ json q ≤ 57) ∧ q ≠ n ∧
      (if json q = 48 then some (Except.ok (q + 1))
        else if 49 ≤ json q ∧ json q ≤ 57 then
          (digits json fuel q n).map (Except.ok (ε := JSON_errno_t))
        else some (.error JSON_ENDIG)) = some (.ok (q + int.length)) := by
    intro q hq hle hstop
    rcases hi with rfl | ⟨c, ds, rfl, h1, h2, h3⟩
    · simp only [Holds] at hq
      simp only [List.length_cons, List.length_nil] at hle ⊢
      rw [hq.1, if_pos rfl]
      exact ⟨by omega, by omega, rfl⟩
    · have hall : ∀ x ∈ c :: ds, is_digit x := by
        intro x hx
        rcases List.mem_cons.1 hx with rfl | hx
        · exact ⟨by omega, h2⟩
        · exact h3 x hx
      have hd := digits_skip json n (c :: ds) fuel q hall hq hstop hle hf
      simp only [Holds] at hq
      simp only [List.length_cons] at hle
      rw [hq.1, if_neg (by omega), if_pos ⟨h1, h2⟩, hd]
      exact ⟨by omega, by omega, rfl⟩
  unfold number_integer
  simp only []
  rcases hs with rfl | rfl
  · simp only [List.nil_append, List.length_nil, Nat.add_zero] at hh hle hstop ⊢
    obtain ⟨k1, k2, k3⟩ := key p hh hle hstop
    rw [if_neg (by omega : ¬ json p = 45), if_neg (by rintro ⟨h, -⟩; omega), if_neg k2, k3]
    exact ⟨rfl, Or.inr k1⟩
  · simp only [List.singleton_append, Holds, List.length_cons, List.length_nil] at hh hle hstop ⊢
    obtain ⟨k1, k2, k3⟩ := key (p + 1) hh.2 (by omega) (by
      have e : p + 1 + int.length = p + (0 + 1) + int.length := by omega
      rw [e]; exact hstop)
    rw [if_pos hh.1, if_neg (by rintro ⟨-, h⟩; exact k2 h), if_neg k2, k3]
    exact ⟨rfl, Or.inl hh.1⟩

theorem number_fraction_ok (json : Nat → Nat) (n fuel p : Nat) {frac : List Nat}
    (hfr : IsFrac frac) (hh : Holds json p frac) (hle : p + frac.length ≤ n)
    (hnone : frac = [] → p = n ∨ json p ≠ 46)
    (hstop : p + frac.length = n ∨ ¬ is_digit (json (p + frac.length)))
    (hf : frac.length < fuel) :
    number_fraction fuel n json p = some (.ok (p + frac.length)) := by
  unfold number_fraction
  simp only []
  rcases hfr with rfl | ⟨c, ds, rfl, hall⟩
  · rw [if_neg]
    · rfl
    · rintro ⟨h1, h2⟩
      rcases hnone rfl with h | h
      · exact h1 h
      · exact h h2
  · simp only [Holds, List.length_cons] at hh hle hstop hf ⊢
    have hc := hall c (by simp)
    have hd := digits_skip json n (c :: ds) fuel (p + 1) hall hh.2 (by
      simp only [List.length_cons]
      have e : p + 1 + (ds.length + 1) = p + (ds.length + 1 + 1) := by omega
      rw [e]; exact hstop) (by simp only [List.length_cons]; omega)
      (by simp only [List.length_cons]; omega)
    rw [if_pos ⟨by omega, hh.1⟩, if_neg, hd]
    · simp only [List.length_cons, Option.map_some']
      congr 2; omega
    · have := hh.2.1
      unfold is_digit at hc
      omega

theorem number_exponent_ok (json : Nat → Nat) (n fuel p : Nat) {exp : List Nat}
    (hex : IsExp exp) (hh : Holds json p exp) (hle : p + exp.length ≤ n)
    (hnone : exp = [] → p = n ∨ (json p ≠ 101 ∧ json p ≠ 69))
    (hstop : p + exp.length = n ∨ ¬ is_digit (json (p + exp.length)))
    (hf : exp.length < fuel) :
    number_exponent fuel n json p = some (.ok (p + exp.length)) := by
  unfold number_exponent
  simp only []
  rcases hex with rfl | ⟨x, s, c, ds, rfl, hx, hs, hall⟩
  · rw [if_neg]
    · rfl
    · rintro ⟨h1, h2⟩
      rcases hnone rfl with h | h
      · exact h1 h
      · omega
  · have hc := hall c (by simp)
    unfold is_digit at hc
    rcases hs with rfl | rfl
    · simp only [List.nil_append, Holds, List.length_cons] at hh hle hstop hf ⊢
      have hd := digits_skip json n (c :: ds) fuel (p + 1) hall hh.2 (by
        simp only [List.length_cons]
        have e : p + 1 + (ds.length + 1) = p + (ds.length + 1 + 1) := by omega
        rw [e]; exact hstop) (by simp only [List.length_cons]; omega)
        (by simp only [List.length_cons]; omega)
      have h1 := hh.2.1
      rw [if_pos ⟨by omega, by rw [hh.1]; exact hx⟩, if_neg (by omega),
        if_neg (by omega : ¬ json (p + 1) = 45), if_neg (by omega), if_neg (by omega), hd]
      simp only [List.length_cons, Option.map_some']
      congr 2; omega
    · simp only [List.singleton_append, Holds, List.length_cons] at hh hle hstop hf ⊢
      have hd := digits_skip json n (c :: ds) fuel (p + 1 + 1) hall hh.2.2 (by
        simp only [List.length_cons]
        have e : p + 1 + 1 + (ds.length + 1) = p + (ds.length + 1 + 1 + 1) := by omega
        rw [e]; exact hstop) (by simp only [List.length_cons]; omega)
        (by simp only [List.length_cons]; omega)
      have h1 := hh.2.2.1
      rw [if_pos ⟨by omega, by rw [hh.1]; exact hx⟩, if_neg (by omega),
        if_pos hh.2.1, if_neg (by omega), if_neg (by omega), hd]
      simp only [List.length_cons, Option.map_some']
      congr 2; omega

theorem number_scan_ok (json : Nat → Nat) (n fuel p : Nat) {t : List Nat}
    (ht : IsNumber t) (hh : Holds json p t) (hle : p + t.length ≤ n)
    (hfo : Follow json n (p + t.length)) (hf : t.length < fuel) :
    number_scan fuel n json p = some (.ok (p + t.length)) ∧
      (json p = 45 ∨ (48 ≤ json p ∧ json p ≤ 57)) := by
  obtain ⟨sign, int, frac, exp, rfl, hs, hi, hfr, hex⟩ := ht
  simp only [List.length_append] at hle hfo hf ⊢
  rw [Holds_append, Holds_append, Holds_append] at hh
  obtain ⟨h1, h2, h3, h4⟩ := hh
  -- what follows the exponent, the fraction, the integer part
  have nd : ¬ extends_number (json (p + (sign.length + (int.length + (frac.length + exp.length)))))
      → ∀ c, json (p + (sign.length + (int.length + (frac.length + exp.length)))) = c →
        ¬ is_digit c ∧ c ≠ 46 ∧ c ≠ 101 ∧ c ≠ 69 := by
    intro h c hc
    rw [hc] at h
    exact ⟨fun x => h (Or.inl x), fun x => h (Or.inr (Or.inl x)),
      fun x => h (Or.inr (Or.inr (Or.inl x))), fun x => h (Or.inr (Or.inr (Or.inr x)))⟩
  have e3 : p + sign.length + int.length + frac.length + exp.length =
      p + (sign.length + (int.length + (frac.length + exp.length))) := by omega
  have stop3 : p + sign.length + int.length + frac.length + exp.length = n ∨
      ¬ is_digit (json (p + sign.length + int.length + frac.length + exp.length)) := by
    rw [e3]
    rcases hfo with h | h
    · exact Or.inl h
    · exact Or.inr (nd h _ rfl).1
  have none3 : exp = [] → p + sign.length + int.length + frac.length = n ∨
      (json (p + sign.length + int.length + frac.length) ≠ 101 ∧
        json (p + sign.length + int.length + frac.length) ≠ 69) := by
    intro he
    subst he
    simp only [List.length_nil, Nat.add_zero] at hfo
    have e : p + sign.length + int.length + frac.length =
        p + (sign.length + (int.length + frac.length)) := by omega
    rw [e]
    rcases hfo with h | h
    · exact Or.inl h
    · have := nd (by simpa using h) _ rfl
      simp only [List.length_nil, Nat.add_zero] at this
      exact Or.inr ⟨this.2.2.1, this.2.2.2⟩
  have stop2 : p + sign.length + int.length + frac.length = n ∨
      ¬ is_digit (json (p + sign.length + int.length + frac.length)) := by
    rcases hex with rfl | ⟨x, s, c, ds, rfl, hx, -, -⟩
    · simpa using stop3
    · simp only [Holds] at h4
      have e : p + sign.length + int.length + frac.length =
          p + sign.length + int.length + frac.length := rfl
      refine Or.inr ?_
      rw [h4.1]
      unfold is_digit
      omega
  have none2 : frac = [] → p + sign.length + int.length = n ∨
      json (p + sign.length + int.length) ≠ 46 := by
    intro he
    subst he
    simp only [List.length_nil, Nat.add_zero] at none3 h4
    rcases hex with rfl | ⟨x, s, c, ds, rfl, hx, -, -⟩
    · simp only [List.length_nil, Nat.add_zero, List.nil_append] at hfo
      have e : p + sign.length + int.length = p + (sign.length + int.length) := by omega
      rw [e]
      rcases hfo with h | h
      · exact Or.inl h
      · refine Or.inr (fun h46 => h (Or.inr (Or.inl ?_)))
        simpa using h46
    · simp only [Holds] at h4
      refine Or.inr ?_
      rw [h4.1]
      omega
  have stop1 : p + sign.length + int.length = n ∨
      ¬ is_digit (json (p + sign.length + int.length)) := by
    rcases hfr with rfl | ⟨c, ds, rfl, -⟩
    · simpa using stop2
    · simp only [Holds] at h3
      refine Or.inr ?_
      rw [h3.1]
      unfold is_digit
      omega
  have a1 := number_integer_ok json n fuel p hs hi ((Holds_append json sign int p).2 ⟨h1, h2⟩)
    (by omega) stop1 (by omega)
  have a2 := number_fraction_ok json n fuel (p + sign.length + int.length) hfr h3 (by omega)
    none2 stop2 (by omega)
  have a3 := number_exponent_ok json n fuel (p + sign.length + int.length + frac.length) hex h4
    (by omega) none3 stop3 (by omega)
  unfold number_scan
  rw [a1.1]
  simp only []
  rw [a2]
  simp only []
  rw [a3, e3]
  exact ⟨rfl, a1.2⟩

/-! ### Writing a listing -/

theorem write_nil (dest : Nat → struct_JSON) (k : Nat) : write dest k [] = dest := by
  funext i
  simp [write]

theorem write_single (dest : Nat → struct_JSON) (d : struct_JSON) :
    write dest 0 [d] = store dest 0 d := by
  funext i
  cases i with
  | zero => simp [write, store]
  | succ i => simp [write, store]

theorem write_cons_zero (dest : Nat → struct_JSON) (d : struct_JSON) (l : List struct_JSON) :
    store (write dest 1 l) 0 d = write dest 0 (d :: l) := by
  funext i
  cases i with
  | zero => simp [write, store]
  | succ i => simp [write, store]

theorem unshift_write (dest : Nat → struct_JSON) (k : Nat) (l : List struct_JSON) :
    unshift dest k (write (shift dest k) 0 l) = write dest k l := by
  funext i
  simp only [unshift, write, shift, Nat.not_lt_zero, if_false, Nat.sub_zero]
  by_cases h : i < k
  · simp [h]
  · simp only [h, if_false]
    have : k + (i - k) = i := by omega
    rw [this]

theorem write_append (dest : Nat → struct_JSON) (k : Nat) (l1 l2 : List struct_JSON) :
    write (write dest k l1) (k + l1.length) l2 = write dest k (l1 ++ l2) := by
  funext i
  simp only [write]
  by_cases h1 : i < k
  · simp [h1, show i < k + l1.length by omega]
  · by_cases h2 : i < k + l1.length
    · simp only [h1, h2, if_true, if_false]
      rw [List.get?_eq_getElem?, List.get?_eq_getElem?, List.getElem?_append_left (by omega)]
    · simp only [h1, h2, if_false]
      rw [List.get?_eq_getElem?, List.get?_eq_getElem?, List.get?_eq_getElem?,
        List.getElem?_append_right (by omega)]
      have e : i - k - l1.length = i - (k + l1.length) := by omega
      rw [e]
      cases l2[i - (k + l1.length)]? with
      | none =>
        simp only [Option.getD_none]
        rw [List.getElem?_eq_none (by omega)]
        rfl
      | some s => rfl

theorem write_at (dest : Nat → struct_JSON) (k j : Nat) (l : List struct_JSON) (s : struct_JSON)
    (h : l.get? j = some s) : write dest k l (k + j) = s := by
  simp only [write]
  rw [if_neg (by omega)]
  have : k + j - k = j := by omega
  rw [this, h]
  rfl

theorem u32_add_u32 (x y : Nat) : u32 (u32 x + y) = u32 (x + y) := by
  unfold u32
  exact Nat.mod_add_mod x 4294967296 y

theorem reloc_u32 (x : Nat) (s : struct_JSON) : reloc (u32 x) s = reloc x s := by
  simp only [reloc, u32_add_u32]

theorem reloc_move (x k : Nat) (s : struct_JSON) : reloc x (move k s) = reloc (x + k) s := by
  simp only [reloc, move]
  have : x + (s.offset + k) = x + k + s.offset := by omega
  rw [this]

theorem map_reloc_u32 (x : Nat) (l : List struct_JSON) :
    l.map (reloc (u32 x)) = l.map (reloc x) := by
  congr 1
  funext s
  exact reloc_u32 x s

theorem map_reloc_move (x k : Nat) (l : List struct_JSON) :
    (l.map (move k)).map (reloc x) = l.map (reloc (x + k)) := by
  rw [List.map_map]
  congr 1
  funext s
  exact reloc_move x k s

/-- The dispatch of `JSON` once the leading whitespace is skipped. -/
theorem JSON_enter (fuel b n : Nat) (json : Nat → Nat) (m : Nat) (dest : Nat → struct_JSON)
    (pos : Nat) (hw : whitespace json fuel 0 n = some pos) (h1 : pos ≠ n) (h2 : 0 ≠ m) :
    JSON (fuel + 1) b n json m dest =
      if json pos = 123 then JSON_object (JSON fuel) fuel b n json m dest pos
      else if json pos = 91 then JSON_array (JSON fuel) fuel b n json m dest pos
      else if json pos = 34 then JSON_string fuel b n json dest pos
      else if json pos = 45 ∨ (48 ≤ json pos ∧ json pos ≤ 57) then
        JSON_number fuel b n json dest pos
      else if json pos = 116 then
        some (JSON_keyword b n json dest pos [114, 117, 101] JSON_BOOLEAN_TYPE)
      else if json pos = 102 then
        some (JSON_keyword b n json dest pos [97, 108, 115, 101] JSON_BOOLEAN_TYPE)
      else if json pos = 110 then
        some (JSON_keyword b n json dest pos [117, 108, 108] JSON_NULL_TYPE)
      else some (JSON_EILL, dest) := by
  rw [JSON]
  simp only [hw, if_neg h1, if_neg h2]

/-- The leading whitespace of an input `w ++ c :: v` is skipped. -/
theorem whitespace_lead (json : Nat → Nat) (n fuel : Nat) (w : List Nat) (c : Nat) (v : List Nat)
    (hw : WS w) (hh : Holds json 0 (w ++ c :: v)) (hc : ¬ is_space c)
    (hle : w.length + (c :: v).length ≤ n) (hf : n ≤ fuel) :
    whitespace json fuel 0 n = some w.length ∧ w.length ≠ n ∧ json w.length = c ∧
      Holds json w.length (c :: v) := by
  rw [Holds_append] at hh
  simp only [Nat.zero_add] at hh
  simp only [List.length_cons] at hle
  have h1 : json w.length = c := hh.2.1
  have := whitespace_skip json n w fuel 0 hw hh.1 (Or.inr (by
    simp only [Nat.zero_add]; rw [h1]; exact hc)) (by omega) (by omega)
  simp only [Nat.zero_add] at this
  exact ⟨this, by omega, h1, hh.2⟩

theorem JSON_keyword_ok (b n : Nat) (json : Nat → Nat) (dest : Nat → struct_JSON) (pos : Nat)
    (rest : List Nat) (ty : JSON_type_t) (hh : Holds json (pos + 1) rest)
    (hle : pos + (rest.length + 1) ≤ n) :
    JSON_keyword b n json dest pos rest ty =
      (JSON_EOK, store dest 0 ⟨u32 (pos + b), rest.length + 1, 0, ty⟩) := by
  unfold JSON_keyword
  simp only []
  rw [if_neg (by omega), if_pos]
  · have : pos + (rest.length + 1) - (rest.length + 1) + b = pos + b := by omega
    rw [this]
  · rw [List.all_eq_true]
    intro i hi
    have hi' : i < rest.length := List.mem_range.1 hi
    have hg : rest.get? i = some (rest.getD i 0) := by
      rw [List.getD_eq_getElem?_getD, List.get?_eq_getElem?, List.getElem?_eq_getElem hi']
      rfl
    have := Holds_get json rest (pos + 1) i _ hh hg
    rw [this]
    exact beq_self_eq_true _

theorem write_leaf (dest : Nat → struct_JSON) (x size : Nat) (ty : JSON_type_t) :
    write dest 0 ([⟨0, size, 0, ty⟩].map (reloc x)) = store dest 0 ⟨u32 x, size, 0, ty⟩ := by
  simp only [List.map_cons, List.map_nil, write_single, reloc, Nat.add_zero]

theorem keyword_free (c : Nat) (rest : List Nat) (ty : JSON_type_t)
    (hk : (c = 116 ∧ rest = [114, 117, 101] ∧ ty = JSON_BOOLEAN_TYPE) ∨
      (c = 102 ∧ rest = [97, 108, 115, 101] ∧ ty = JSON_BOOLEAN_TYPE) ∨
      (c = 110 ∧ rest = [117, 108, 108] ∧ ty = JSON_NULL_TYPE)) :
    ValueFree (c :: rest) [⟨0, rest.length + 1, 0, ty⟩] := by
  intro fuel b n json m dest w hw hh hle hn hm hds hf
  cases fuel with
  | zero => omega
  | succ fuel =>
    have hc : ¬ is_space c := by
      unfold is_space
      rcases hk with ⟨h, -⟩ | ⟨h, -⟩ | ⟨h, -⟩ <;> omega
    obtain ⟨k1, k2, k3, k4⟩ := whitespace_lead json n fuel w c rest hw hh hc hle (by omega)
    simp only [List.length_cons, List.length_nil] at hds hle
    rw [JSON_enter fuel b n json m dest w.length k1 k2 (by omega), k3]
    have hkw := JSON_keyword_ok b n json dest w.length rest ty k4.2 (by omega)
    have e : w.length + b = b + w.length := by omega
    rw [write_leaf, ← e]
    rcases hk with ⟨h, h2, h3⟩ | ⟨h, h2, h3⟩ | ⟨h, h2, h3⟩
    · subst h h2 h3
      simp only [show ¬ (116 = 123) by decide, show ¬ (116 = 91) by decide,
        show ¬ (116 = 34) by decide, show ¬ (116 = 45 ∨ 48 ≤ 116 ∧ 116 ≤ 57) by decide,
        if_false, if_true, hkw]
    · subst h h2 h3
      simp only [show ¬ (102 = 123) by decide, show ¬ (102 = 91) by decide,
        show ¬ (102 = 34) by decide, show ¬ (102 = 45 ∨ 48 ≤ 102 ∧ 102 ≤ 57) by decide,
        show ¬ (102 = 116) by decide, if_false, if_true, hkw]
    · subst h h2 h3
      simp only [show ¬ (110 = 123) by decide, show ¬ (110 = 91) by decide,
        show ¬ (110 = 34) by decide, show ¬ (110 = 45 ∨ 48 ≤ 110 ∧ 110 ≤ 57) by decide,
        show ¬ (110 = 116) by decide, show ¬ (110 = 102) by decide, if_false, if_true, hkw]

theorem value_keyword (c : Nat) (rest : List Nat) (ty : JSON_type_t)
    (hk : (c = 116 ∧ rest = [114, 117, 101] ∧ ty = JSON_BOOLEAN_TYPE) ∨
      (c = 102 ∧ rest = [97, 108, 115, 101] ∧ ty = JSON_BOOLEAN_TYPE) ∨
      (c = 110 ∧ rest = [117, 108, 108] ∧ ty = JSON_NULL_TYPE)) :
    ValueGoal (c :: rest) [⟨0, rest.length + 1, 0, ty⟩] :=
  fun fuel b n json m dest w hw hh hle _ hn hm hds hf =>
    keyword_free c rest ty hk fuel b n json m dest w hw hh hle hn hm hds hf

theorem IsNumber.head {t : List Nat} (h : IsNumber t) :
    ∃ c v, t = c :: v ∧ (c = 45 ∨ (48 ≤ c ∧ c ≤ 57)) := by
  obtain ⟨sign, int, frac, exp, rfl, hs, hi, -, -⟩ := h
  rcases hs with rfl | rfl
  · rcases hi with rfl | ⟨c, ds, rfl, h1, h2, -⟩
    · exact ⟨48, _, rfl, Or.inr (by omega)⟩
    · exact ⟨c, _, rfl, Or.inr (by omega)⟩
  · exact ⟨45, _, rfl, Or.inl rfl⟩

theorem value_number {t : List Nat} (ht : IsNumber t) :
    ValueGoal t [⟨0, t.length, 0, JSON_NUMBER_TYPE⟩] := by
  intro fuel b n json m dest w hw hh hle hfo hn hm hds hf
  cases fuel with
  | zero => omega
  | succ fuel =>
    obtain ⟨c, v, rfl, hc⟩ := ht.head
    have hsp : ¬ is_space c := by
      unfold is_space
      omega
    obtain ⟨k1, k2, k3, k4⟩ := whitespace_lead json n fuel w c v hw hh hsp hle (by omega)
    simp only [List.length_cons, List.length_nil] at hds
    rw [JSON_enter fuel b n json m dest w.length k1 k2 (by omega), k3]
    have hsc := number_scan_ok json n fuel w.length ht k4 hle hfo (by
      simp only [List.length_cons] at hle ⊢; omega)
    rw [if_neg (by omega), if_neg (by omega), if_neg (by omega), if_pos hc]
    unfold JSON_number
    rw [hsc.1]
    simp only []
    have e : w.length + b = b + w.length := by omega
    have e2 : u32 (w.length + (c :: v).length - w.length) = (c :: v).length := by
      rw [u32_of_lt (by omega)]; omega
    rw [write_leaf, e, e2]

theorem string_free {t : List Nat} (ht : IsString t) :
    ValueFree t [⟨0, t.length, 0, JSON_STRING_TYPE⟩] := by
  intro fuel b n json m dest w hw hh hle hn hm hds hf
  cases fuel with
  | zero => omega
  | succ fuel =>
    obtain ⟨body, rfl, hb⟩ := ht
    have hsp : ¬ is_space 34 := by unfold is_space; omega
    obtain ⟨k1, k2, k3, k4⟩ := whitespace_lead json n fuel w 34 _ hw hh hsp hle (by omega)
    simp only [List.length_cons, List.length_nil] at hds
    rw [JSON_enter fuel b n json m dest w.length k1 k2 (by omega), k3]
    simp only [List.length_cons, List.length_append, List.length_nil] at hle
    have hl := string_loop_body json n hb fuel (w.length + 1) k4.2 (by omega) (by omega)
    rw [if_neg (by decide), if_neg (by decide), if_pos rfl]
    unfold JSON_string
    rw [hl]
    simp only []
    have e : w.length + b = b + w.length := by omega
    have e2 : u32 (w.length + 1 + body.length + 1 - w.length) = (34 :: (body ++ [34])).length := by
      simp only [List.length_cons, List.length_append, List.length_nil]
      rw [u32_of_lt (by omega)]; omega
    rw [write_leaf, e, e2]

theorem value_string {t : List Nat} (ht : IsString t) :
    ValueGoal t [⟨0, t.length, 0, JSON_STRING_TYPE⟩] :=
  fun fuel b n json m dest w hw hh hle _ hn hm hds hf =>
    string_free ht fuel b n json m dest w hw hh hle hn hm hds hf
/-! ### Completeness against the grammar -/

theorem Derives.shape {k : Phrase} {t : List Nat} {ds : List struct_JSON}
    (h : Derives k t ds) : Shape k t ds := by
  have sp : ∀ c, (c = 110 ∨ c = 116 ∨ c = 102 ∨ c = 91 ∨ c = 123 ∨ c = 34 ∨ c = 45 ∨
      (48 ≤ c ∧ c ≤ 57)) → ¬ is_space c ∧ c ≠ 93 ∧ c ≠ 125 := by
    intro c hc
    unfold is_space
    omega
  induction h with
  | null => exact ⟨110, _, _, [], rfl, (sp _ (by omega)).1, by omega, by omega, rfl, rfl, rfl, rfl⟩
  | true_ => exact ⟨116, _, _, [], rfl, (sp _ (by omega)).1, by omega, by omega, rfl, rfl, rfl, rfl⟩
  | false_ => exact ⟨102, _, _, [], rfl, (sp _ (by omega)).1, by omega, by omega, rfl, rfl, rfl, rfl⟩
  | number t ht =>
    obtain ⟨c, v, rfl, hc⟩ := ht.head
    have := sp c (by omega)
    exact ⟨c, v, _, [], rfl, this.1, this.2.1, this.2.2, rfl, rfl, rfl, rfl⟩
  | string t ht =>
    obtain ⟨body, rfl, -⟩ := ht
    exact ⟨34, _, _, [], rfl, (sp _ (by omega)).1, by omega, by omega, rfl, rfl, rfl, rfl⟩
  | array_empty w _ =>
    refine ⟨91, _, _, [], rfl, (sp _ (by omega)).1, by omega, by omega, rfl, rfl, ?_, rfl⟩
    simp only [List.length_cons, List.length_append, List.length_nil]
  | array w t ds _ _ _ =>
    refine ⟨91, _, _, _, rfl, (sp _ (by omega)).1, by omega, by omega, rfl, rfl, ?_, ?_⟩
    · simp only [List.length_cons, List.length_append, List.length_nil]; omega
    · simp only [List.length_map]
  | object_empty w _ =>
    refine ⟨123, _, _, [], rfl, (sp _ (by omega)).1, by omega, by omega, rfl, rfl, ?_, rfl⟩
    simp only [List.length_cons, List.length_append, List.length_nil]
  | object w t ds _ _ _ =>
    refine ⟨123, _, _, _, rfl, (sp _ (by omega)).1, by omega, by omega, rfl, rfl, ?_, ?_⟩
    · simp only [List.length_cons, List.length_append, List.length_nil]; omega
    · simp only [List.length_map]
  | elements_one v w ds _ _ ih =>
    obtain ⟨c, t', _, _, rfl, h1, h2, h3, -⟩ := ih
    exact ⟨c, _, rfl, h1, h2, h3⟩
  | elements_cons v w w' t ds ds' _ _ _ _ ih _ =>
    obtain ⟨c, t', _, _, rfl, h1, h2, h3, -⟩ := ih
    exact ⟨c, _, rfl, h1, h2, h3⟩
  | members_one k w1 w2 v w3 ds hk _ _ _ _ _ =>
    obtain ⟨body, rfl, -⟩ := hk
    exact ⟨34, _, rfl, (sp _ (by omega)).1, by omega, by omega⟩
  | members_cons k w1 w2 v w3 w4 t ds ds' hk _ _ _ _ _ _ _ _ =>
    obtain ⟨body, rfl, -⟩ := hk
    exact ⟨34, _, rfl, (sp _ (by omega)).1, by omega, by omega⟩

/-- After a phrase inside a composite come whitespace and a byte that does
not extend a number. -/
theorem follow_inside (json : Nat → Nat) (n p : Nat) (w : List Nat) (c : Nat) (r : List Nat)
    (hw : WS w) (hh : Holds json p (w ++ c :: r)) (hc : c = 44 ∨ c = 93 ∨ c = 125 ∨ c = 58) :
    Follow json n p := by
  refine Or.inr ?_
  have nosp : ∀ x, is_space x → ¬ extends_number x := by
    intro x hx
    unfold is_space at hx
    unfold extends_number is_digit
    omega
  cases w with
  | nil =>
    simp only [List.nil_append, Holds] at hh
    rw [hh.1]
    unfold extends_number is_digit
    omega
  | cons a w =>
    simp only [List.cons_append, Holds] at hh
    rw [hh.1]
    exact nosp a (hw a (by simp))

/-- The recursive call on a value that `JSON` parses completely. -/
theorem subcall_complete {v : List Nat} {ds : List struct_JSON} (hv : ValueGoal v ds)
    (fuel b n : Nat) (json : Nat → Nat) (m pos destpos : Nat) (dest : Nat → struct_JSON)
    (hh : Holds json pos v) (hle : pos + v.length ≤ n) (hfo : Follow json n (pos + v.length))
    (hn : n < 4294967296) (hm : m < 4294967296) (hp : 1 ≤ pos) (hd : destpos + ds.length ≤ m)
    (hf : n + 1 ≤ fuel) :
    subcall (JSON fuel) b n json m pos destpos dest =
      some (JSON_EOK, write dest destpos (ds.map (reloc (b + pos)))) := by
  unfold subcall
  rw [usub_of_le (by omega) hn, usub_of_le (by omega) hm]
  have := hv fuel (u32 (b + pos)) (n - pos) (shift json pos) (m - destpos) (shift dest destpos) []
    (fun c hc => by cases hc) (by
      simp only [List.nil_append]
      exact (Holds_shift json pos v 0).2 hh) (by simp only [List.length_nil]; omega) (by
      simp only [List.length_nil, Nat.zero_add]
      rcases hfo with h | h
      · exact Or.inl (by omega)
      · exact Or.inr h) (by omega) (by omega) (by omega) (by omega)
  rw [this]
  simp only [List.length_nil, Nat.add_zero, map_reloc_u32, unshift_write]

theorem value_block_complete {v : List Nat} {ds : List struct_JSON} (hv : ValueGoal v ds)
    (hs : Shape .value v ds)
    (fuel b n : Nat) (json : Nat → Nat) (m : Nat) (s : Frame)
    (hh : Holds json s.pos v) (hle : s.pos + v.length ≤ n)
    (hfo : Follow json n (s.pos + v.length))
    (hn : n < 4294967296) (hm : m < 4294967296) (hp : 1 ≤ s.pos)
    (ht : s.treesize + 1 = s.destpos) (hd : s.destpos + ds.length ≤ m)
    (hf : n + 1 ≤ fuel) :
    value_block (JSON fuel) b n json m s =
      some (.ok ⟨s.pos + v.length, s.destpos + ds.length, s.treesize + ds.length,
        write s.dest s.destpos (ds.map (reloc (b + s.pos)))⟩) := by
  unfold value_block
  rw [subcall_complete hv fuel b n json m s.pos s.destpos s.dest hh hle hfo hn hm hp hd hf]
  obtain ⟨c, t', d0, rest, -, -, -, -, rfl, h1, h2, h3⟩ := hs
  simp only [List.length_cons] at hd ⊢
  have h0 : write s.dest s.destpos ((d0 :: rest).map (reloc (b + s.pos))) s.destpos =
      reloc (b + s.pos) d0 := by
    have := write_at s.dest s.destpos 0 ((d0 :: rest).map (reloc (b + s.pos)))
      (reloc (b + s.pos) d0) (by simp)
    simpa using this
  rw [if_neg (by simp), h0]
  simp only [reloc, h2, h3]
  rw [u32_of_lt (by omega : rest.length + 1 < 4294967296), u32_of_lt (by omega),
    u32_of_lt (by omega)]

theorem key_block_complete {k : List Nat} (hk : IsString k)
    (fuel b n : Nat) (json : Nat → Nat) (m : Nat) (s : Frame)
    (hh : Holds json s.pos k) (hle : s.pos + k.length ≤ n)
    (hfo : Follow json n (s.pos + k.length))
    (hn : n < 4294967296) (hm : m < 4294967296) (hp : 1 ≤ s.pos)
    (ht : s.treesize + 1 = s.destpos) (hd : s.destpos + 1 ≤ m)
    (hf : n + 1 ≤ fuel) :
    key_block (JSON fuel) b n json m s =
      some (.ok ⟨s.pos + k.length, s.destpos + 1, s.treesize + 1,
        write s.dest s.destpos [reloc (b + s.pos) ⟨0, k.length, 0, JSON_STRING_TYPE⟩]⟩) := by
  unfold key_block
  rw [subcall_complete (value_string hk) fuel b n json m s.pos s.destpos s.dest hh hle hfo hn hm
    hp (by simpa using hd) hf]
  have h0 : write s.dest s.destpos ([⟨0, k.length, 0, JSON_STRING_TYPE⟩].map (reloc (b + s.pos)))
      s.destpos = reloc (b + s.pos) ⟨0, k.length, 0, JSON_STRING_TYPE⟩ := by
    have := write_at s.dest s.destpos 0
      ([⟨0, k.length, 0, JSON_STRING_TYPE⟩].map (reloc (b + s.pos)))
      (reloc (b + s.pos) ⟨0, k.length, 0, JSON_STRING_TYPE⟩) (by simp)
    simpa using this
  dsimp only
  rw [if_neg (by simp), h0]
  simp only [reloc, List.map_cons, List.map_nil]
  rw [if_neg (by simp), u32_of_lt (by omega), u32_of_lt (by omega)]

/-- One iteration of the array loop on `w0 value w` followed by a byte that is
not whitespace. -/
theorem array_step {v : List Nat} {ds : List struct_JSON} (hv : ValueGoal v ds)
    (hs : Shape .value v ds) (fuel b n : Nat) (json : Nat → Nat) (m start iter : Nat) (s : Frame)
    (w0 w : List Nat) (c : Nat) (r : List Nat) (hw0 : WS w0) (hw : WS w)
    (hh : Holds json s.pos (w0 ++ (v ++ (w ++ c :: r))))
    (hc : c = 44 ∨ c = 93 ∨ c = 125 ∨ c = 58)
    (hle : s.pos + w0.length + v.length + w.length < n)
    (hn : n < 4294967296) (hm : m < 4294967296) (hp : 1 ≤ s.pos)
    (ht : s.treesize + 1 = s.destpos) (hd : s.destpos + ds.length ≤ m)
    (hf : n + 1 ≤ fuel) :
    array_loop (JSON fuel) fuel b n json m start (iter + 1) s =
      if c = 44 then
        array_loop (JSON fuel) fuel b n json m start iter
          ⟨s.pos + w0.length + v.length + w.length + 1, s.destpos + ds.length,
            s.treesize + ds.length, write s.dest s.destpos (ds.map (reloc (b + s.pos + w0.length)))⟩
      else if c ≠ 93 then
        some (JSON_EINVAL, write s.dest s.destpos (ds.map (reloc (b + s.pos + w0.length))))
      else
        some (JSON_EOK, store (write s.dest s.destpos (ds.map (reloc (b + s.pos + w0.length)))) 0
          ⟨u32 (start + b), u32 (s.pos + w0.length + v.length + w.length + 1 - start),
            s.treesize + ds.length, JSON_ARRAY_TYPE⟩) := by
  rw [Holds_append, Holds_append, Holds_append] at hh
  obtain ⟨h1, h2, h3, h4⟩ := hh
  obtain ⟨c0, v', d0, rest, hveq, hnsp, -⟩ := id hs
  have hc0 : json (s.pos + w0.length) = c0 := by
    rw [hveq] at h2
    exact h2.1
  have hcc : json (s.pos + w0.length + v.length + w.length) = c := h4.1
  have hcsp : ¬ is_space c := by unfold is_space; omega
  have hvlen : 1 ≤ v.length := by rw [hveq]; simp
  have k1 := whitespace_skip json n w0 fuel s.pos hw0 h1 (Or.inr (by rw [hc0]; exact hnsp))
    (by omega) (by omega)
  have hfo : Follow json n (s.pos + w0.length + v.length) :=
    follow_inside json n _ w c r hw ((Holds_append json w (c :: r) _).2 ⟨h3, h4⟩) hc
  have k2 := value_block_complete hv hs fuel b n json m
    { s with pos := s.pos + w0.length } h2 (by dsimp only; omega) hfo hn hm
    (by dsimp only; omega) ht hd hf
  dsimp only at k2
  rw [← Nat.add_assoc b] at k2
  have k3 := whitespace_skip json n w fuel (s.pos + w0.length + v.length) hw h3
    (Or.inr (by rw [hcc]; exact hcsp)) (by omega) (by omega)
  rw [array_loop]
  simp only [k1, k2, k3, hcc]
  rw [if_neg (by omega)]

theorem elements_one_goal {v w : List Nat} {ds : List struct_JSON} (hv : ValueGoal v ds)
    (hs : Shape .value v ds) (hw : WS w) : ElementsGoal (v ++ w) ds := by
  intro fuel b n json m start iter s w0 hw0 hh hle hn hm hp ht hd hf hiter
  obtain ⟨c0, v', d0, rest, hveq, -⟩ := id hs
  have hvlen : 1 ≤ v.length := by rw [hveq]; simp
  simp only [List.length_append] at hle hiter
  cases iter with
  | zero => omega
  | succ iter =>
    have hh' : Holds json s.pos (w0 ++ (v ++ (w ++ 93 :: []))) := by
      simpa [List.append_assoc] using hh
    rw [array_step hv hs fuel b n json m start iter s w0 w 93 [] hw0 hw hh' (by omega) (by omega)
      hn hm hp ht hd hf]
    rw [if_neg (by decide), if_neg (by simp)]
    simp only [List.length_append]
    have e : s.pos + w0.length + v.length + w.length + 1 =
        s.pos + w0.length + (v.length + w.length) + 1 := by omega
    rw [e]

theorem elements_cons_goal {v w w' t : List Nat} {ds ds' : List struct_JSON}
    (hv : ValueGoal v ds) (hs : Shape .value v ds) (hw : WS w) (hw' : WS w')
    (ht : ElementsGoal t ds') :
    ElementsGoal (v ++ (w ++ 44 :: (w' ++ t)))
      (ds ++ ds'.map (move (v.length + w.length + 1 + w'.length))) := by
  intro fuel b n json m start iter s w0 hw0 hh hle hn hm hp hts hd hf hiter
  obtain ⟨c0, v', d0, rest, hveq, -⟩ := id hs
  have hvlen : 1 ≤ v.length := by rw [hveq]; simp
  simp only [List.length_append, List.length_cons, List.length_map] at hle hiter hd
  cases iter with
  | zero => omega
  | succ iter =>
    have hh' : Holds json s.pos (w0 ++ (v ++ (w ++ 44 :: (w' ++ (t ++ [93]))))) := by
      simpa [List.append_assoc] using hh
    rw [array_step hv hs fuel b n json m start iter s w0 w 44 (w' ++ (t ++ [93])) hw0 hw hh'
      (by omega) (by omega) hn hm hp hts (by omega) hf]
    rw [if_pos rfl]
    rw [Holds_append, Holds_append, Holds_append] at hh'
    have hrest := hh'.2.2.2.2
    have := ht fuel b n json m start iter
      ⟨s.pos + w0.length + v.length + w.length + 1, s.destpos + ds.length,
        s.treesize + ds.length, write s.dest s.destpos (ds.map (reloc (b + s.pos + w0.length)))⟩
      w' hw' hrest (by dsimp only; omega) hn hm (by dsimp only; omega) (by dsimp only; omega)
      (by dsimp only; omega) hf (by omega)
    rw [this]
    dsimp only
    have e1 : s.destpos + ds.length = s.destpos + (ds.map (reloc (b + s.pos + w0.length))).length := by
      rw [List.length_map]
    rw [e1, write_append, List.map_append, map_reloc_move]
    simp only [List.length_append, List.length_cons, List.length_map]
    have e2 : b + (s.pos + w0.length + v.length + w.length + 1) + w'.length =
        b + s.pos + w0.length + (v.length + w.length + 1 + w'.length) := by omega
    have e3 : s.pos + w0.length + v.length + w.length + 1 + w'.length + t.length + 1 =
        s.pos + w0.length + (v.length + (w.length + (w'.length + t.length + 1))) + 1 := by omega
    have e4 : s.treesize + ds.length + ds'.length = s.treesize + (ds.length + ds'.length) := by
      omega
    rw [e2, e3, e4]

theorem array_empty_free {w : List Nat} (hw : WS w) :
    ValueFree (91 :: (w ++ [93])) [⟨0, w.length + 2, 0, JSON_ARRAY_TYPE⟩] := by
  intro fuel b n json m dest w0 hw0 hh hle hn hm hds hf
  cases fuel with
  | zero => omega
  | succ fuel =>
    have hsp : ¬ is_space 91 := by unfold is_space; omega
    obtain ⟨k1, k2, k3, k4⟩ := whitespace_lead json n fuel w0 91 _ hw0 hh hsp hle (by omega)
    simp only [List.length_cons, List.length_append, List.length_nil] at hds hle
    rw [JSON_enter fuel b n json m dest w0.length k1 k2 (by omega), k3]
    rw [if_neg (by decide), if_pos rfl]
    simp only [Holds] at k4
    rw [Holds_append] at k4
    have hcl : json (w0.length + 1 + w.length) = 93 := k4.2.2.1
    have k5 := whitespace_skip json n w fuel (w0.length + 1) hw k4.2.1
      (Or.inr (by rw [hcl]; unfold is_space; omega)) (by omega) (by omega)
    unfold JSON_array
    rw [k5]
    dsimp only
    rw [if_neg (by omega), if_pos hcl, write_leaf]
    have e1 : w0.length + b = b + w0.length := by omega
    have e2 : u32 (w0.length + 1 + w.length + 1 - w0.length) = w.length + 2 := by
      rw [u32_of_lt (by omega)]; omega
    rw [e1, e2]

theorem array_empty_goal {w : List Nat} (hw : WS w) :
    ValueGoal (91 :: (w ++ [93])) [⟨0, w.length + 2, 0, JSON_ARRAY_TYPE⟩] :=
  fun fuel b n json m dest w0 hw0 hh hle _ hn hm hds hf =>
    array_empty_free hw fuel b n json m dest w0 hw0 hh hle hn hm hds hf

theorem array_free {w t : List Nat} {ds : List struct_JSON} (hw : WS w)
    (ht : ElementsGoal t ds) (hs : Shape .elements t ds) :
    ValueFree (91 :: (w ++ (t ++ [93])))
      (⟨0, w.length + t.length + 2, ds.length, JSON_ARRAY_TYPE⟩ :: ds.map (move (1 + w.length))) := by
  intro fuel b n json m dest w0 hw0 hh hle hn hm hds hf
  cases fuel with
  | zero => omega
  | succ fuel =>
    have hsp : ¬ is_space 91 := by unfold is_space; omega
    obtain ⟨k1, k2, k3, k4⟩ := whitespace_lead json n fuel w0 91 _ hw0 hh hsp hle (by omega)
    simp only [List.length_cons, List.length_append, List.length_nil, List.length_map] at hds hle
    rw [JSON_enter fuel b n json m dest w0.length k1 k2 (by omega), k3]
    rw [if_neg (by decide), if_pos rfl]
    obtain ⟨c, t', hteq, hcsp, hc93, -⟩ := id hs
    simp only [Holds] at k4
    have k4' := k4.2
    rw [Holds_append] at k4'
    have hc : json (w0.length + 1 + w.length) = c := by
      have := k4'.2
      rw [hteq] at this
      exact this.1
    have k5 := whitespace_skip json n w fuel (w0.length + 1) hw k4'.1
      (Or.inr (by rw [hc]; exact hcsp)) (by omega) (by omega)
    unfold JSON_array
    rw [k5]
    dsimp only
    rw [if_neg (by omega), if_neg (by rw [hc]; exact hc93)]
    have := ht fuel b n json m w0.length fuel
      ⟨w0.length + 1 + w.length, u32 (0 + 1), 0, dest⟩ [] (fun x hx => by cases hx)
      (by simpa using k4'.2) (by dsimp only; simp only [List.length_nil]; omega) hn hm
      (by dsimp only; omega) (by dsimp only; decide)
      (by dsimp only; rw [show u32 (0 + 1) = 1 from rfl]; omega) (by omega) (by omega)
    rw [this]
    dsimp only
    rw [show u32 (0 + 1) = 1 from rfl]
    simp only [List.map_cons, map_reloc_move, ← write_cons_zero, List.length_nil, Nat.add_zero,
      Nat.zero_add, reloc]
    have e1 : w0.length + b = b + w0.length := by omega
    have e2 : u32 (w0.length + 1 + w.length + t.length + 1 - w0.length) =
        w.length + t.length + 2 := by
      rw [u32_of_lt (by omega)]; omega
    have e3 : b + (w0.length + 1 + w.length) = b + w0.length + (1 + w.length) := by omega
    rw [e1, e2, e3]

theorem array_goal {w t : List Nat} {ds : List struct_JSON} (hw : WS w)
    (ht : ElementsGoal t ds) (hs : Shape .elements t ds) :
    ValueGoal (91 :: (w ++ (t ++ [93])))
      (⟨0, w.length + t.length + 2, ds.length, JSON_ARRAY_TYPE⟩ :: ds.map (move (1 + w.length))) :=
  fun fuel b n json m dest w0 hw0 hh hle _ hn hm hds hf =>
    array_free hw ht hs fuel b n json m dest w0 hw0 hh hle hn hm hds hf
/-- One iteration of the object loop on `w0 key w1 ':' w2 value w3` followed
by a byte that is not whitespace. -/
theorem object_step {k v : List Nat} {ds : List struct_JSON} (hk : IsString k)
    (hv : ValueGoal v ds) (hs : Shape .value v ds) (fuel b n : Nat) (json : Nat → Nat)
    (m start iter : Nat) (s : Frame) (w0 w1 w2 w3 : List Nat) (c : Nat) (r : List Nat)
    (hw0 : WS w0) (hw1 : WS w1) (hw2 : WS w2) (hw3 : WS w3)
    (hh : Holds json s.pos (w0 ++ (k ++ (w1 ++ 58 :: (w2 ++ (v ++ (w3 ++ c :: r)))))))
    (hc : c = 44 ∨ c = 93 ∨ c = 125 ∨ c = 58)
    (hle : s.pos + w0.length + k.length + w1.length + 1 + w2.length + v.length + w3.length < n)
    (hn : n < 4294967296) (hm : m < 4294967296) (hp : 1 ≤ s.pos)
    (ht : s.treesize + 1 = s.destpos) (hd : s.destpos + 1 + ds.length ≤ m)
    (hf : n + 1 ≤ fuel) :
    object_loop (JSON fuel) fuel b n json m start (iter + 1) s =
      if c = 44 then
        object_loop (JSON fuel) fuel b n json m start iter
          ⟨s.pos + w0.length + k.length + w1.length + 1 + w2.length + v.length + w3.length + 1,
            s.destpos + 1 + ds.length, s.treesize + 1 + ds.length,
            write s.dest s.destpos
              ((⟨0, k.length, 0, JSON_STRING_TYPE⟩ ::
                ds.map (move (k.length + w1.length + 1 + w2.length))).map
                  (reloc (b + s.pos + w0.length)))⟩
      else if c ≠ 125 then
        some (JSON_EINVAL, write s.dest s.destpos
          ((⟨0, k.length, 0, JSON_STRING_TYPE⟩ ::
            ds.map (move (k.length + w1.length + 1 + w2.length))).map
              (reloc (b + s.pos + w0.length))))
      else
        some (JSON_EOK, store (write s.dest s.destpos
          ((⟨0, k.length, 0, JSON_STRING_TYPE⟩ ::
            ds.map (move (k.length + w1.length + 1 + w2.length))).map
              (reloc (b + s.pos + w0.length)))) 0
          ⟨u32 (start + b),
            u32 (s.pos + w0.length + k.length + w1.length + 1 + w2.length + v.length + w3.length
              + 1 - start),
            s.treesize + 1 + ds.length, JSON_OBJECT_TYPE⟩) := by
  rw [Holds_append, Holds_append, Holds_append] at hh
  obtain ⟨h1, h2, h3, h4⟩ := hh
  simp only [Holds] at h4
  obtain ⟨hcolon, h5⟩ := h4
  rw [Holds_append, Holds_append, Holds_append] at h5
  obtain ⟨h6, h7, h8, h9⟩ := h5
  obtain ⟨body, hkeq, -⟩ := id hk
  obtain ⟨c0, v', d0, rest, hveq, hnsp, -⟩ := id hs
  have hq : json (s.pos + w0.length) = 34 := by
    rw [hkeq] at h2
    exact h2.1
  have hc0 : json (s.pos + w0.length + k.length + w1.length + 1 + w2.length) = c0 := by
    rw [hveq] at h7
    exact h7.1
  have hcc : json (s.pos + w0.length + k.length + w1.length + 1 + w2.length + v.length
      + w3.length) = c := h9.1
  have hcsp : ¬ is_space c := by unfold is_space; omega
  have hvlen : 1 ≤ v.length := by rw [hveq]; simp
  have hklen : 1 ≤ k.length := by rw [hkeq]; simp
  have k1 := whitespace_skip json n w0 fuel s.pos hw0 h1
    (Or.inr (by rw [hq]; unfold is_space; omega)) (by omega) (by omega)
  have hfo1 : Follow json n (s.pos + w0.length + k.length) :=
    follow_inside json n _ w1 58 [] hw1
      ((Holds_append json w1 [58] _).2 ⟨h3, hcolon, trivial⟩) (by omega)
  have k2 := key_block_complete hk fuel b n json m { s with pos := s.pos + w0.length } h2
    (by dsimp only; omega) hfo1 hn hm (by dsimp only; omega) ht (by dsimp only; omega) hf
  dsimp only at k2
  rw [← Nat.add_assoc b] at k2
  have k3 := whitespace_skip json n w1 fuel (s.pos + w0.length + k.length) hw1 h3
    (Or.inr (by rw [hcolon]; unfold is_space; omega)) (by omega) (by omega)
  have k4 := whitespace_skip json n w2 fuel (s.pos + w0.length + k.length + w1.length + 1) hw2 h6
    (Or.inr (by rw [hc0]; exact hnsp)) (by omega) (by omega)
  have hfo2 : Follow json n
      (s.pos + w0.length + k.length + w1.length + 1 + w2.length + v.length) :=
    follow_inside json n _ w3 c r hw3 ((Holds_append json w3 (c :: r) _).2 ⟨h8, h9⟩) hc
  have k5 := value_block_complete hv hs fuel b n json m
    ⟨s.pos + w0.length + k.length + w1.length + 1 + w2.length, s.destpos + 1, s.treesize + 1,
      write s.dest s.destpos [reloc (b + s.pos + w0.length) ⟨0, k.length, 0, JSON_STRING_TYPE⟩]⟩
    h7 (by dsimp only; omega) hfo2 hn hm (by dsimp only; omega) (by dsimp only; omega)
    (by dsimp only; omega) hf
  dsimp only at k5
  have k6 := whitespace_skip json n w3 fuel
    (s.pos + w0.length + k.length + w1.length + 1 + w2.length + v.length) hw3 h8
    (Or.inr (by rw [hcc]; exact hcsp)) (by omega) (by omega)
  have hD : write (write s.dest s.destpos
        [reloc (b + s.pos + w0.length) ⟨0, k.length, 0, JSON_STRING_TYPE⟩]) (s.destpos + 1)
        (ds.map (reloc (b + (s.pos + w0.length + k.length + w1.length + 1 + w2.length)))) =
      write s.dest s.destpos
        ((⟨0, k.length, 0, JSON_STRING_TYPE⟩ ::
          ds.map (move (k.length + w1.length + 1 + w2.length))).map
            (reloc (b + s.pos + w0.length))) := by
    have := write_append s.dest s.destpos
      [reloc (b + s.pos + w0.length) ⟨0, k.length, 0, JSON_STRING_TYPE⟩]
      (ds.map (reloc (b + (s.pos + w0.length + k.length + w1.length + 1 + w2.length))))
    simp only [List.length_cons, List.length_nil, Nat.zero_add] at this
    rw [this, List.map_cons, map_reloc_move]
    have e : b + (s.pos + w0.length + k.length + w1.length + 1 + w2.length) =
        b + s.pos + w0.length + (k.length + w1.length + 1 + w2.length) := by omega
    rw [e]
    rfl
  rw [hD] at k5
  rw [object_loop]
  simp only [k1, k2, k3, hcolon, k4, k5, k6, hcc]
  rw [if_neg (by omega), if_neg (by simp), if_neg (by omega)]

theorem members_one_goal {k w1 w2 v w3 : List Nat} {ds : List struct_JSON} (hk : IsString k)
    (hw1 : WS w1) (hw2 : WS w2) (hv : ValueGoal v ds) (hs : Shape .value v ds) (hw3 : WS w3) :
    MembersGoal (k ++ (w1 ++ 58 :: (w2 ++ (v ++ w3))))
      (⟨0, k.length, 0, JSON_STRING_TYPE⟩ ::
        ds.map (move (k.length + w1.length + 1 + w2.length))) := by
  intro fuel b n json m start iter s w0 hw0 hh hle hn hm hp ht hd hf hiter
  obtain ⟨c0, v', d0, rest, hveq, -⟩ := id hs
  have hvlen : 1 ≤ v.length := by rw [hveq]; simp
  simp only [List.length_append, List.length_cons, List.length_map] at hle hiter hd
  cases iter with
  | zero => omega
  | succ iter =>
    have hh' : Holds json s.pos
        (w0 ++ (k ++ (w1 ++ 58 :: (w2 ++ (v ++ (w3 ++ 125 :: [])))))) := by
      simpa [List.append_assoc] using hh
    rw [object_step hk hv hs fuel b n json m start iter s w0 w1 w2 w3 125 [] hw0 hw1 hw2 hw3 hh'
      (by omega) (by omega) hn hm hp ht (by omega) hf]
    rw [if_neg (by decide), if_neg (by simp)]
    simp only [List.length_append, List.length_cons, List.length_map]
    have e : s.pos + w0.length + k.length + w1.length + 1 + w2.length + v.length + w3.length + 1 =
        s.pos + w0.length + (k.length + (w1.length + (w2.length + (v.length + w3.length) + 1)))
          + 1 := by omega
    have e2 : s.treesize + 1 + ds.length = s.treesize + (ds.length + 1) := by omega
    rw [e, e2]

theorem members_cons_goal {k w1 w2 v w3 w4 t : List Nat} {ds ds' : List struct_JSON}
    (hk : IsString k) (hw1 : WS w1) (hw2 : WS w2) (hv : ValueGoal v ds)
    (hs : Shape .value v ds) (hw3 : WS w3) (hw4 : WS w4) (ht : MembersGoal t ds') :
    MembersGoal (k ++ (w1 ++ 58 :: (w2 ++ (v ++ (w3 ++ 44 :: (w4 ++ t))))))
      (⟨0, k.length, 0, JSON_STRING_TYPE⟩ ::
        (ds.map (move (k.length + w1.length + 1 + w2.length)) ++
          ds'.map (move (k.length + w1.length + 1 + w2.length + v.length + w3.length + 1
            + w4.length)))) := by
  intro fuel b n json m start iter s w0 hw0 hh hle hn hm hp hts hd hf hiter
  obtain ⟨c0, v', d0, rest, hveq, -⟩ := id hs
  have hvlen : 1 ≤ v.length := by rw [hveq]; simp
  simp only [List.length_append, List.length_cons, List.length_map] at hle hiter hd
  cases iter with
  | zero => omega
  | succ iter =>
    have hh' : Holds json s.pos
        (w0 ++ (k ++ (w1 ++ 58 :: (w2 ++ (v ++ (w3 ++ 44 :: (w4 ++ (t ++ [125])))))))) := by
      simpa [List.append_assoc] using hh
    rw [object_step hk hv hs fuel b n json m start iter s w0 w1 w2 w3 44 (w4 ++ (t ++ [125]))
      hw0 hw1 hw2 hw3 hh' (by omega) (by omega) hn hm hp hts (by omega) hf]
    rw [if_pos rfl]
    rw [Holds_append, Holds_append, Holds_append] at hh'
    have h4 := hh'.2.2.2
    simp only [Holds] at h4
    have h5 := h4.2
    rw [Holds_append, Holds_append, Holds_append] at h5
    have hrest := h5.2.2.2.2
    have := ht fuel b n json m start iter
      ⟨s.pos + w0.length + k.length + w1.length + 1 + w2.length + v.length + w3.length + 1,
        s.destpos + 1 + ds.length, s.treesize + 1 + ds.length,
        write s.dest s.destpos
          ((⟨0, k.length, 0, JSON_STRING_TYPE⟩ ::
            ds.map (move (k.length + w1.length + 1 + w2.length))).map
              (reloc (b + s.pos + w0.length)))⟩
      w4 hw4 hrest (by dsimp only; omega) hn hm (by dsimp only; omega) (by dsimp only; omega)
      (by dsimp only; omega) hf (by omega)
    rw [this]
    dsimp only
    have hW : write (write s.dest s.destpos
          ((⟨0, k.length, 0, JSON_STRING_TYPE⟩ ::
            ds.map (move (k.length + w1.length + 1 + w2.length))).map
              (reloc (b + s.pos + w0.length)))) (s.destpos + 1 + ds.length)
          (ds'.map (reloc (b + (s.pos + w0.length + k.length + w1.length + 1 + w2.length
            + v.length + w3.length + 1) + w4.length))) =
        write s.dest s.destpos
          ((⟨0, k.length, 0, JSON_STRING_TYPE⟩ ::
            (ds.map (move (k.length + w1.length + 1 + w2.length)) ++
              ds'.map (move (k.length + w1.length + 1 + w2.length + v.length + w3.length + 1
                + w4.length)))).map (reloc (b + s.pos + w0.length))) := by
      have e1 : s.destpos + 1 + ds.length = s.destpos +
          ((⟨0, k.length, 0, JSON_STRING_TYPE⟩ ::
            ds.map (move (k.length + w1.length + 1 + w2.length))).map
              (reloc (b + s.pos + w0.length))).length := by
        simp only [List.length_map, List.length_cons]; omega
      have e2 : b + (s.pos + w0.length + k.length + w1.length + 1 + w2.length
            + v.length + w3.length + 1) + w4.length =
          b + s.pos + w0.length + (k.length + w1.length + 1 + w2.length + v.length + w3.length
            + 1 + w4.length) := by omega
      rw [e1, write_append, e2, ← map_reloc_move (b + s.pos + w0.length)
        (k.length + w1.length + 1 + w2.length + v.length + w3.length + 1 + w4.length) ds',
        ← List.map_append]
      rfl
    rw [hW]
    simp only [List.length_append, List.length_cons, List.length_map]
    have e3 : s.pos + w0.length + k.length + w1.length + 1 + w2.length + v.length + w3.length + 1
          + w4.length + t.length + 1 =
        s.pos + w0.length + (k.length + (w1.length + (w2.length + (v.length + (w3.length
          + (w4.length + t.length + 1))) + 1))) + 1 := by omega
    have e4 : s.treesize + 1 + ds.length + ds'.length =
        s.treesize + (ds.length + ds'.length + 1) := by omega
    rw [e3, e4]

theorem object_empty_free {w : List Nat} (hw : WS w) :
    ValueFree (123 :: (w ++ [125])) [⟨0, w.length + 2, 0, JSON_OBJECT_TYPE⟩] := by
  intro fuel b n json m dest w0 hw0 hh hle hn hm hds hf
  cases fuel with
  | zero => omega
  | succ fuel =>
    have hsp : ¬ is_space 123 := by unfold is_space; omega
    obtain ⟨k1, k2, k3, k4⟩ := whitespace_lead json n fuel w0 123 _ hw0 hh hsp hle (by omega)
    simp only [List.length_cons, List.length_append, List.length_nil] at hds hle
    rw [JSON_enter fuel b n json m dest w0.length k1 k2 (by omega), k3]
    rw [if_pos rfl]
    simp only [Holds] at k4
    rw [Holds_append] at k4
    have hcl : json (w0.length + 1 + w.length) = 125 := k4.2.2.1
    have k5 := whitespace_skip json n w fuel (w0.length + 1) hw k4.2.1
      (Or.inr (by rw [hcl]; unfold is_space; omega)) (by omega) (by omega)
    unfold JSON_object
    rw [k5]
    dsimp only
    rw [if_neg (by omega), if_pos hcl, write_leaf]
    have e1 : w0.length + b = b + w0.length := by omega
    have e2 : u32 (w0.length + 1 + w.length + 1 - w0.length) = w.length + 2 := by
      rw [u32_of_lt (by omega)]; omega
    rw [e1, e2]

theorem object_empty_goal {w : List Nat} (hw : WS w) :
    ValueGoal (123 :: (w ++ [125])) [⟨0, w.length + 2, 0, JSON_OBJECT_TYPE⟩] :=
  fun fuel b n json m dest w0 hw0 hh hle _ hn hm hds hf =>
    object_empty_free hw fuel b n json m dest w0 hw0 hh hle hn hm hds hf

theorem object_free {w t : List Nat} {ds : List struct_JSON} (hw : WS w)
    (ht : MembersGoal t ds) (hs : Shape .members t ds) :
    ValueFree (123 :: (w ++ (t ++ [125])))
      (⟨0, w.length + t.length + 2, ds.length, JSON_OBJECT_TYPE⟩ ::
        ds.map (move (1 + w.length))) := by
  intro fuel b n json m dest w0 hw0 hh hle hn hm hds hf
  cases fuel with
  | zero => omega
  | succ fuel =>
    have hsp : ¬ is_space 123 := by unfold is_space; omega
    obtain ⟨k1, k2, k3, k4⟩ := whitespace_lead json n fuel w0 123 _ hw0 hh hsp hle (by omega)
    simp only [List.length_cons, List.length_append, List.length_nil, List.length_map] at hds hle
    rw [JSON_enter fuel b n json m dest w0.length k1 k2 (by omega), k3]
    rw [if_pos rfl]
    obtain ⟨c, t', hteq, hcsp, -, hc125⟩ := id hs
    simp only [Holds] at k4
    have k4' := k4.2
    rw [Holds_append] at k4'
    have hc : json (w0.length + 1 + w.length) = c := by
      have := k4'.2
      rw [hteq] at this
      exact this.1
    have k5 := whitespace_skip json n w fuel (w0.length + 1) hw k4'.1
      (Or.inr (by rw [hc]; exact hcsp)) (by omega) (by omega)
    unfold JSON_object
    rw [k5]
    dsimp only
    rw [if_neg (by omega), if_neg (by rw [hc]; exact hc125)]
    have := ht fuel b n json m w0.length fuel
      ⟨w0.length + 1 + w.length, u32 (0 + 1), 0, dest⟩ [] (fun x hx => by cases hx)
      (by simpa using k4'.2) (by dsimp only; simp only [List.length_nil]; omega) hn hm
      (by dsimp only; omega) (by dsimp only; decide)
      (by dsimp only; rw [show u32 (0 + 1) = 1 from rfl]; omega) (by omega) (by omega)
    rw [this]
    dsimp only
    rw [show u32 (0 + 1) = 1 from rfl]
    simp only [List.map_cons, map_reloc_move, ← write_cons_zero, List.length_nil, Nat.add_zero,
      Nat.zero_add, reloc]
    have e1 : w0.length + b = b + w0.length := by omega
    have e2 : u32 (w0.length + 1 + w.length + t.length + 1 - w0.length) =
        w.length + t.length + 2 := by
      rw [u32_of_lt (by omega)]; omega
    have e3 : b + (w0.length + 1 + w.length) = b + w0.length + (1 + w.length) := by omega
    rw [e1, e2, e3]

theorem object_goal {w t : List Nat} {ds : List struct_JSON} (hw : WS w)
    (ht : MembersGoal t ds) (hs : Shape .members t ds) :
    ValueGoal (123 :: (w ++ (t ++ [125])))
      (⟨0, w.length + t.length + 2, ds.length, JSON_OBJECT_TYPE⟩ ::
        ds.map (move (1 + w.length))) :=
  fun fuel b n json m dest w0 hw0 hh hle _ hn hm hds hf =>
    object_free hw ht hs fuel b n json m dest w0 hw0 hh hle hn hm hds hf

/-- Completeness, for every kind of phrase. -/
theorem Derives.goal {k : Phrase} {t : List Nat} {ds : List struct_JSON}
    (h : Derives k t ds) : Goal k t ds := by
  induction h with
  | null => exact value_keyword 110 [117, 108, 108] JSON_NULL_TYPE (by simp)
  | true_ => exact value_keyword 116 [114, 117, 101] JSON_BOOLEAN_TYPE (by simp)
  | false_ => exact value_keyword 102 [97, 108, 115, 101] JSON_BOOLEAN_TYPE (by simp)
  | number t ht => exact value_number ht
  | string t ht => exact value_string ht
  | array_empty w hw => exact array_empty_goal hw
  | array w t ds hw ht ih => exact array_goal hw ih ht.shape
  | object_empty w hw => exact object_empty_goal hw
  | object w t ds hw ht ih => exact object_goal hw ih ht.shape
  | elements_one v w ds hv hw ih => exact elements_one_goal ih hv.shape hw
  | elements_cons v w w' t ds ds' hv hw hw' _ ih1 ih2 =>
    exact elements_cons_goal ih1 hv.shape hw hw' ih2
  | members_one k w1 w2 v w3 ds hk hw1 hw2 hv hw3 ih =>
    exact members_one_goal hk hw1 hw2 ih hv.shape hw3
  | members_cons k w1 w2 v w3 w4 t ds ds' hk hw1 hw2 hv hw3 hw4 _ ih1 ih2 =>
    exact members_cons_goal hk hw1 hw2 ih1 hv.shape hw3 hw4 ih2

theorem follow_trailing (json : Nat → Nat) (p : Nat) (w : List Nat) (hw : WS w)
    (hh : Holds json p w) : Follow json (p + w.length) p := by
  cases w with
  | nil => exact Or.inl rfl
  | cons a w =>
    refine Or.inr ?_
    simp only [Holds] at hh
    rw [hh.1]
    have := hw a (by simp)
    unfold is_space at this
    unfold extends_number is_digit
    omega

theorem StrBody.not_bad : ¬ StrBody [92, 34, 92, 120] := by
  intro h
  cases h with
  | plain c rest h1 h2 h3 h4 h5 => exact h2 rfl
  | escape c rest hc hr =>
    cases hr with
    | plain c rest h1 h2 h3 h4 h5 => exact h2 rfl
    | escape c rest hc hr =>
      unfold is_escape at hc
      omega

/-! ### Soundness against the grammar on inputs without overrun -/

theorem alnum_of_ishex {c : Nat} (h : ishex c = true) : is_alnum c := by
  unfold ishex at h
  unfold is_alnum
  simp only [Bool.or_eq_true, Bool.and_eq_true, decide_eq_true_eq] at h
  omega

/-- What `whitespace` has skipped is whitespace, and it stops at the end of the
input or on a byte that is no whitespace. -/
theorem whitespace_inv (json : Nat → Nat) (n : Nat) :
    ∀ (fuel p q : Nat), whitespace json fuel p n = some q → p ≤ n →
      ∃ w, WS w ∧ Holds json p w ∧ q = p + w.length ∧ q ≤ n ∧ (q = n ∨ ¬ is_space (json q))
  | 0, _, _, h, _ => by simp [whitespace] at h
  | fuel + 1, p, q, h, hp => by
    rw [whitespace] at h
    by_cases hc : p ≠ n ∧ isws (json p) = true
    · rw [if_pos hc] at h
      obtain ⟨w, hw, hh, hq, hle, hstop⟩ := whitespace_inv json n fuel (p + 1) q h (by omega)
      refine ⟨json p :: w, ?_, ⟨rfl, hh⟩, by simp only [List.length_cons]; omega, hle, hstop⟩
      intro c hc'
      rcases List.mem_cons.1 hc' with rfl | h'
      · exact (isws_iff _).1 hc.2
      · exact hw c h'
    · rw [if_neg hc] at h
      cases h
      refine ⟨[], fun c hc' => (by cases hc'), trivial, rfl, hp, ?_⟩
      by_cases hpn : p = n
      · exact Or.inl hpn
      · exact Or.inr fun hs => hc ⟨hpn, (isws_iff _).2 hs⟩

/-- What the digit loop has skipped are digits, and it stops at the end of the
input or on a byte that is no digit. -/
theorem digits_inv (json : Nat → Nat) (n : Nat) :
    ∀ (fuel p q : Nat), digits json fuel p n = some q → p ≤ n →
      ∃ ds, (∀ x ∈ ds, is_digit x) ∧ Holds json p ds ∧ q = p + ds.length ∧ q ≤ n ∧
        (q = n ∨ ¬ is_digit (json q))
  | 0, _, _, h, _ => by simp [digits] at h
  | fuel + 1, p, q, h, hp => by
    rw [digits] at h
    by_cases hc : p ≠ n ∧ isdig (json p) = true
    · rw [if_pos hc] at h
      obtain ⟨w, hw, hh, hq, hle, hstop⟩ := digits_inv json n fuel (p + 1) q h (by omega)
      refine ⟨json p :: w, ?_, ⟨rfl, hh⟩, by simp only [List.length_cons]; omega, hle, hstop⟩
      intro c hc'
      rcases List.mem_cons.1 hc' with rfl | h'
      · exact (isdig_iff _).1 hc.2
      · exact hw c h'
    · rw [if_neg hc] at h
      cases h
      refine ⟨[], fun c hc' => (by cases hc'), trivial, rfl, hp, ?_⟩
      by_cases hpn : p = n
      · exact Or.inl hpn
      · exact Or.inr fun hs => hc ⟨hpn, (isdig_iff _).2 hs⟩

/-- A digit run that starts on a digit is not empty. -/
theorem digits_inv_cons (json : Nat → Nat) (n fuel p q : Nat)
    (h : digits json fuel p n = some q) (hp : p < n) (hd : is_digit (json p)) :
    ∃ ds, (∀ x ∈ json p :: ds, is_digit x) ∧ Holds json p (json p :: ds) ∧
      q = p + (ds.length + 1) ∧ q ≤ n ∧ (q = n ∨ ¬ is_digit (json q)) := by
  obtain ⟨ds, h1, h2, h3, h4, h5⟩ := digits_inv json n fuel p q h (by omega)
  cases ds with
  | nil =>
    simp only [List.length_nil, Nat.add_zero] at h3
    subst h3
    rcases h5 with h5 | h5
    · omega
    · exact (h5 hd).elim
  | cons c ds =>
    have hc : json p = c := h2.1
    subst hc
    exact ⟨ds, h1, h2, by simpa using h3, h4, h5⟩

/-- On an input without overrun, a string loop that reaches the closing quote
has read a body of the grammar and stays within the input. -/
theorem string_loop_inv (json : Nat → Nat) (n : Nat) (hb : NoOverrun json n) :
    ∀ (fuel p q : Nat), string_loop json n fuel p = some (.ok q) → p ≤ n →
      ∃ body, StrBody body ∧ Holds json p (body ++ [34]) ∧ q = p + body.length + 1 ∧ q ≤ n
  | 0, _, _, h, _ => by simp [string_loop] at h
  | fuel + 1, p, q, h, hp => by
    rw [string_loop] at h
    by_cases h1 : p = n
    · rw [if_pos h1] at h
      simp at h
    rw [if_neg h1] at h
    by_cases h2 : json p = 34
    · rw [if_pos h2] at h
      simp only [Option.some.injEq, Except.ok.injEq] at h
      subst h
      exact ⟨[], StrBody.nil, ⟨h2, trivial⟩, by simp, by omega⟩
    rw [if_neg h2] at h
    by_cases h3 : json p = 92 ∧ p < n
    · rw [if_pos h3] at h
      dsimp only at h
      by_cases h4 : json (p + 1) = 34 ∨ json (p + 1) = 92 ∨ json (p + 1) = 47 ∨
          json (p + 1) = 98 ∨ json (p + 1) = 102 ∨ json (p + 1) = 110 ∨ json (p + 1) = 114 ∨
          json (p + 1) = 116
      · rw [if_pos h4] at h
        have h4' : is_escape (json (p + 1)) := h4
        have hin : p + 2 ≤ n := by
          by_contra hcon
          have e : p + 1 = n := by omega
          rcases hb with hb | hb | hb
          · omega
          · apply hb
            rw [← e]
            exact h3.1
          · apply hb
            rw [← e]
            exact h4'
        obtain ⟨body, hbody, hh, hq, hle⟩ := string_loop_inv json n hb fuel (p + 2) q h hin
        refine ⟨92 :: json (p + 1) :: body, StrBody.escape _ _ h4' hbody, ⟨h3.1, rfl, hh⟩, ?_, hle⟩
        simp only [List.length_cons]
        omega
      · rw [if_neg h4] at h
        by_cases h5 : json (p + 1) = 117
        · rw [if_pos h5] at h
          by_cases h6 : p + 2 + 4 > n
          · rw [if_pos h6] at h
            simp at h
          rw [if_neg h6] at h
          by_cases a1 : ishex (json (p + 2)) = false
          · rw [if_pos a1] at h
            simp at h
          rw [if_neg a1] at h
          by_cases a2 : ishex (json (p + 3)) = false
          · rw [if_pos a2] at h
            simp at h
          rw [if_neg a2] at h
          by_cases a3 : ishex (json (p + 4)) = false
          · rw [if_pos a3] at h
            simp at h
          rw [if_neg a3] at h
          by_cases a4 : ishex (json (p + 5)) = false
          · rw [if_pos a4] at h
            simp at h
          rw [if_neg a4] at h
          obtain ⟨body, hbody, hh, hq, hle⟩ :=
            string_loop_inv json n hb fuel (p + 6) q h (by omega)
          refine ⟨92 :: 117 :: json (p + 2) :: json (p + 3) :: json (p + 4) :: json (p + 5) :: body,
            StrBody.unicode _ _ _ _ _ (alnum_of_ishex (by simpa using a1))
              (alnum_of_ishex (by simpa using a2)) (alnum_of_ishex (by simpa using a3))
              (alnum_of_ishex (by simpa using a4)) hbody,
            ⟨h3.1, h5, rfl, rfl, rfl, rfl, hh⟩, ?_, hle⟩
          simp only [List.length_cons]
          omega
        · rw [if_neg h5] at h
          simp at h
    · rw [if_neg h3] at h
      by_cases h7 : json p ≤ 31 ∨ json p = 127
      · rw [if_pos h7] at h
        simp at h
      rw [if_neg h7] at h
      obtain ⟨body, hbody, hh, hq, hle⟩ := string_loop_inv json n hb fuel (p + 1) q h (by omega)
      refine ⟨json p :: body, StrBody.plain _ _ h2 ?_ (by omega) (by omega) hbody, ⟨rfl, hh⟩, ?_,
        hle⟩
      · intro h92
        exact h3 ⟨h92, by omega⟩
      · simp only [List.length_cons]
        omega

theorem map_ok_inv {o : Option Nat} {q : Nat}
    (h : o.map (Except.ok : Nat → Except JSON_errno_t Nat) = some (.ok q)) : o = some q := by
  cases o with
  | none => simp at h
  | some a =>
    simp only [Option.map_some', Option.some.injEq, Except.ok.injEq] at h
    rw [h]

/-- An accepted sign and integer part are those of the grammar. -/
theorem number_integer_inv (json : Nat → Nat) (n fuel p q : Nat)
    (h : number_integer fuel n json p = some (.ok q)) (hp : p < n) :
    ∃ sign int, (sign = [] ∨ sign = [45]) ∧ IsInt int ∧ Holds json p (sign ++ int) ∧
      q = p + sign.length + int.length ∧ q ≤ n := by
  unfold number_integer at h
  dsimp only at h
  have hsign : ∃ sign, (sign = [] ∨ sign = [45]) ∧ Holds json p sign ∧
      (if json p = 45 then p + 1 else p) = p + sign.length := by
    by_cases hs : json p = 45
    · exact ⟨[45], Or.inr rfl, ⟨hs, trivial⟩, by rw [if_pos hs]; rfl⟩
    · exact ⟨[], Or.inl rfl, trivial, by rw [if_neg hs]; rfl⟩
  obtain ⟨sign, hs1, hs2, hs3⟩ := hsign
  have hlen : sign.length ≤ 1 := by
    rcases hs1 with rfl | rfl <;> simp
  rw [hs3] at h
  by_cases c1 : json p = 45 ∧ p + sign.length = n
  · rw [if_pos c1] at h
    simp at h
  rw [if_neg c1] at h
  by_cases c2 : p + sign.length = n
  · rw [if_pos c2] at h
    simp at h
  rw [if_neg c2] at h
  by_cases c3 : json (p + sign.length) = 48
  · rw [if_pos c3] at h
    simp only [Option.some.injEq, Except.ok.injEq] at h
    refine ⟨sign, [48], hs1, Or.inl rfl, ?_, ?_, by omega⟩
    · rw [Holds_append]
      exact ⟨hs2, c3, trivial⟩
    · simp only [List.length_cons, List.length_nil]
      omega
  rw [if_neg c3] at h
  by_cases c4 : 49 ≤ json (p + sign.length) ∧ json (p + sign.length) ≤ 57
  · rw [if_pos c4] at h
    have hd := map_ok_inv h
    obtain ⟨ds, h1, h2, h3, h4, -⟩ := digits_inv_cons json n fuel (p + sign.length) q hd
      (by omega) ⟨by omega, c4.2⟩
    refine ⟨sign, json (p + sign.length) :: ds, hs1,
      Or.inr ⟨_, ds, rfl, c4.1, c4.2, fun x hx => h1 x (List.mem_cons_of_mem _ hx)⟩, ?_, ?_, h4⟩
    · rw [Holds_append]
      exact ⟨hs2, h2⟩
    · simp only [List.length_cons]
      omega
  · rw [if_neg c4] at h
    simp at h

/-- An accepted fraction is one of the grammar, or empty. -/
theorem number_fraction_inv (json : Nat → Nat) (n fuel p q : Nat)
    (h : number_fraction fuel n json p = some (.ok q)) (hp : p ≤ n) :
    ∃ frac, IsFrac frac ∧ Holds json p frac ∧ q = p + frac.length ∧ q ≤ n := by
  unfold number_fraction at h
  by_cases c1 : p ≠ n ∧ json p = 46
  · rw [if_pos c1] at h
    dsimp only at h
    by_cases c2 : p + 1 = n ∨ json (p + 1) < 48 ∨ json (p + 1) > 57
    · rw [if_pos c2] at h
      simp at h
    rw [if_neg c2] at h
    have hd := map_ok_inv h
    obtain ⟨ds, h1, h2, h3, h4, -⟩ := digits_inv_cons json n fuel (p + 1) q hd
      (by omega) ⟨by omega, by omega⟩
    refine ⟨46 :: json (p + 1) :: ds, Or.inr ⟨_, ds, rfl, h1⟩, ⟨c1.2, h2⟩, ?_, h4⟩
    simp only [List.length_cons]
    omega
  · rw [if_neg c1] at h
    simp only [Option.some.injEq, Except.ok.injEq] at h
    exact ⟨[], Or.inl rfl, trivial, by simpa using h.symm, by omega⟩

/-- An accepted exponent is one of the grammar, or empty. -/
theorem number_exponent_inv (json : Nat → Nat) (n fuel p q : Nat)
    (h : number_exponent fuel n json p = some (.ok q)) (hp : p ≤ n) :
    ∃ exp, IsExp exp ∧ Holds json p exp ∧ q = p + exp.length ∧ q ≤ n := by
  unfold number_exponent at h
  by_cases c1 : p ≠ n ∧ (json p = 101 ∨ json p = 69)
  · rw [if_pos c1] at h
    dsimp only at h
    by_cases c2 : p + 1 = n
    · rw [if_pos c2] at h
      simp at h
    rw [if_neg c2] at h
    have hsign : ∃ s, (s = [] ∨ s = [45]) ∧ Holds json (p + 1) s ∧
        (if json (p + 1) = 45 then p + 1 + 1 else p + 1) = p + 1 + s.length := by
      by_cases hs : json (p + 1) = 45
      · exact ⟨[45], Or.inr rfl, ⟨hs, trivial⟩, by rw [if_pos hs]; rfl⟩
      · exact ⟨[], Or.inl rfl, trivial, by rw [if_neg hs]; rfl⟩
    obtain ⟨s, hs1, hs2, hs3⟩ := hsign
    have hlen : s.length ≤ 1 := by
      rcases hs1 with rfl | rfl <;> simp
    rw [hs3] at h
    by_cases c3 : p + 1 + s.length = n
    · rw [if_pos c3] at h
      simp at h
    rw [if_neg c3] at h
    by_cases c4 : p + 1 + s.length = n ∨ json (p + 1 + s.length) < 48 ∨
        json (p + 1 + s.length) > 57
    · rw [if_pos c4] at h
      simp at h
    rw [if_neg c4] at h
    have hd := map_ok_inv h
    obtain ⟨ds, h1, h2, h3, h4, -⟩ := digits_inv_cons json n fuel (p + 1 + s.length) q hd
      (by omega) ⟨by omega, by omega⟩
    refine ⟨json p :: (s ++ json (p + 1 + s.length) :: ds),
      Or.inr ⟨_, s, _, ds, rfl, c1.2, hs1, h1⟩, ⟨rfl, ?_⟩, ?_, h4⟩
    · rw [Holds_append]
      exact ⟨hs2, h2⟩
    · simp only [List.length_cons, List.length_append]
      omega
  · rw [if_neg c1] at h
    simp only [Option.some.injEq, Except.ok.injEq] at h
    exact ⟨[], Or.inl rfl, trivial, by simpa using h.symm, by omega⟩

/-- An accepted number is a number of the grammar and lies within the input. -/
theorem number_scan_inv (json : Nat → Nat) (n fuel p q : Nat)
    (h : number_scan fuel n json p = some (.ok q)) (hp : p < n) :
    ∃ t, IsNumber t ∧ Holds json p t ∧ q = p + t.length ∧ q ≤ n := by
  unfold number_scan at h
  cases h1 : number_integer fuel n json p with
  | none => simp [h1] at h
  | some r1 =>
    cases r1 with
    | error e => simp [h1] at h
    | ok q1 =>
      simp only [h1] at h
      obtain ⟨sign, int, a1, a2, a3, a4, a5⟩ := number_integer_inv json n fuel p q1 h1 hp
      cases h2 : number_fraction fuel n json q1 with
      | none => simp [h2] at h
      | some r2 =>
        cases r2 with
        | error e => simp [h2] at h
        | ok q2 =>
          simp only [h2] at h
          obtain ⟨frac, b1, b2, b3, b4⟩ := number_fraction_inv json n fuel q1 q2 h2 a5
          obtain ⟨exp, c1, c2, c3, c4⟩ := number_exponent_inv json n fuel q2 q h b4
          refine ⟨sign ++ (int ++ (frac ++ exp)), ⟨sign, int, frac, exp, rfl, a1, a2, b1, c1⟩, ?_,
            ?_, c4⟩
          · rw [Holds_append] at a3
            rw [Holds_append, Holds_append, Holds_append]
            refine ⟨a3.1, a3.2, ?_, ?_⟩
            · rw [← a4]; exact b2
            · rw [← a4, ← b3]; exact c2
          · simp only [List.length_append]
            omega

theorem NoOverrun.shiftN {json : Nat → Nat} {n : Nat} (h : NoOverrun json n) {p : Nat}
    (hp : p ≤ n) : NoOverrun (shift json p) (n - p) := by
  by_cases h0 : n - p = 0
  · exact Or.inl h0
  · have e1 : p + (n - p - 1) = n - 1 := by omega
    have e2 : p + (n - p) = n := by omega
    rcases h with h | h | h
    · omega
    · refine Or.inr (Or.inl ?_)
      show json (p + (n - p - 1)) ≠ 92
      rw [e1]
      exact h
    · refine Or.inr (Or.inr ?_)
      show ¬ is_escape (json (p + (n - p)))
      rw [e2]
      exact h

/-- A successful recursive call made on a byte that is no whitespace has parsed
a value that starts at this byte. -/
theorem subcall_inv {self : Callee} (hs : Grammatical self) (b n : Nat) (json : Nat → Nat)
    (m pos destpos : Nat) (dest d : Nat → struct_JSON)
    (hn : n < 4294967296) (hm : m < 4294967296) (hb : NoOverrun json n) (hp : pos ≤ n)
    (hstop : pos = n ∨ ¬ is_space (json pos)) (hd : destpos ≤ m)
    (h : subcall self b n json m pos destpos dest = some (JSON_EOK, d)) :
    ∃ v ds, Derives .value v ds ∧ Holds json pos v ∧ pos + v.length ≤ n ∧
      destpos + ds.length ≤ m ∧ d = write dest destpos (ds.map (reloc (b + pos))) := by
  unfold subcall at h
  rw [usub_of_le hp hn, usub_of_le hd hm] at h
  cases hself : self (u32 (b + pos)) (n - pos) (shift json pos) (m - destpos)
      (shift dest destpos) with
  | none => simp [hself] at h
  | some r =>
    obtain ⟨e, sub⟩ := r
    simp only [hself, Option.some.injEq, Prod.mk.injEq] at h
    obtain ⟨rfl, rfl⟩ := h
    obtain ⟨w, v, ds, hw, hv, hh, hle, hds, hsub⟩ := hs _ _ _ _ _ _ (by omega) (by omega)
      (hb.shiftN hp) hself
    cases w with
    | cons c w =>
      exfalso
      have hc : json (pos + 0) = c := hh.1
      have hsp : is_space c := hw c (by simp)
      simp only [List.length_cons] at hle
      rcases hstop with h1 | h1
      · omega
      · apply h1
        rw [← hc] at hsp
        exact hsp
    | nil =>
      simp only [List.nil_append, List.length_nil, Nat.zero_add, Nat.add_zero] at hh hle hsub
      refine ⟨v, ds, hv, ?_, by omega, by omega, ?_⟩
      · have := (Holds_shift json pos v 0).1 hh
        exact this
      · rw [hsub, map_reloc_u32, unshift_write]

/-- A successful block `// value` has parsed a value of the grammar; the frame
behind it is advanced by the length of the value and of its listing. -/
theorem value_block_inv {self : Callee} (hs : Grammatical self) (b n : Nat) (json : Nat → Nat)
    (m : Nat) (s s1 : Frame)
    (hn : n < 4294967296) (hm : m < 4294967296) (hb : NoOverrun json n) (hp : s.pos ≤ n)
    (hstop : s.pos = n ∨ ¬ is_space (json s.pos)) (ht : s.treesize + 1 = s.destpos)
    (hd : s.destpos ≤ m) (h : value_block self b n json m s = some (.ok s1)) :
    ∃ v ds, Derives .value v ds ∧ Holds json s.pos v ∧ s.pos + v.length ≤ n ∧
      s.destpos + ds.length ≤ m ∧
      s1 = ⟨s.pos + v.length, s.destpos + ds.length, s.treesize + ds.length,
        write s.dest s.destpos (ds.map (reloc (b + s.pos)))⟩ := by
  unfold value_block at h
  cases hsub : subcall self b n json m s.pos s.destpos s.dest with
  | none => simp [hsub] at h
  | some r =>
    obtain ⟨e, d⟩ := r
    simp only [hsub] at h
    by_cases he : e ≠ JSON_EOK
    · rw [if_pos he] at h
      simp at h
    rw [if_neg he] at h
    have he' : e = JSON_EOK := by
      by_contra hne
      exact he hne
    subst he'
    obtain ⟨v, ds, hv, hh, hle, hds, hdw⟩ :=
      subcall_inv hs b n json m s.pos s.destpos s.dest d hn hm hb hp hstop hd hsub
    refine ⟨v, ds, hv, hh, hle, hds, ?_⟩
    obtain ⟨c, t', d0, rest, -, -, -, -, rfl, h1, h2, h3⟩ := hv.shape
    simp only [List.length_cons] at hds ⊢
    have h0 : d s.destpos = reloc (b + s.pos) d0 := by
      rw [hdw]
      have := write_at s.dest s.destpos 0 ((d0 :: rest).map (reloc (b + s.pos)))
        (reloc (b + s.pos) d0) (by simp)
      simpa using this
    simp only [Option.some.injEq, Except.ok.injEq] at h
    rw [← h, h0]
    simp only [reloc, h2, h3]
    rw [u32_of_lt (by omega : rest.length + 1 < 4294967296), u32_of_lt (by omega),
      u32_of_lt (by omega), hdw]

theorem Derives.string_inv {v : List Nat} {d0 : struct_JSON} {rest : List struct_JSON}
    (h : Derives .value v (d0 :: rest)) (hty : d0.type = JSON_STRING_TYPE) :
    IsString v ∧ d0 = ⟨0, v.length, 0, JSON_STRING_TYPE⟩ ∧ rest = [] := by
  cases h with
  | string t ht => exact ⟨ht, rfl, rfl⟩
  | null => cases hty
  | true_ => cases hty
  | false_ => cases hty
  | number t ht => cases hty
  | array_empty w hw => cases hty
  | array w t ds hw ht => cases hty
  | object_empty w hw => cases hty
  | object w t ds hw ht => cases hty

/-- A successful block `// key` has parsed a string of the grammar. -/
theorem key_block_inv {self : Callee} (hs : Grammatical self) (b n : Nat) (json : Nat → Nat)
    (m : Nat) (s s1 : Frame)
    (hn : n < 4294967296) (hm : m < 4294967296) (hb : NoOverrun json n) (hp : s.pos ≤ n)
    (hstop : s.pos = n ∨ ¬ is_space (json s.pos)) (ht : s.treesize + 1 = s.destpos)
    (hd : s.destpos ≤ m) (h : key_block self b n json m s = some (.ok s1)) :
    ∃ k, IsString k ∧ Holds json s.pos k ∧ s.pos + k.length ≤ n ∧ s.destpos + 1 ≤ m ∧
      s1 = ⟨s.pos + k.length, s.destpos + 1, s.treesize + 1,
        write s.dest s.destpos [reloc (b + s.pos) ⟨0, k.length, 0, JSON_STRING_TYPE⟩]⟩ := by
  unfold key_block at h
  cases hsub : subcall self b n json m s.pos s.destpos s.dest with
  | none => simp [hsub] at h
  | some r =>
    obtain ⟨e, d⟩ := r
    simp only [hsub] at h
    by_cases he : e ≠ JSON_EOK
    · rw [if_pos he] at h
      simp at h
    rw [if_neg he] at h
    have he' : e = JSON_EOK := by
      by_contra hne
      exact he hne
    subst he'
    by_cases hty : (d s.destpos).type ≠ JSON_STRING_TYPE
    · rw [if_pos hty] at h
      simp at h
    rw [if_neg hty] at h
    obtain ⟨v, ds, hv, hh, hle, hds, hdw⟩ :=
      subcall_inv hs b n json m s.pos s.destpos s.dest d hn hm hb hp hstop hd hsub
    obtain ⟨c, t', d0, rest, -, -, -, -, rfl, -⟩ := hv.shape
    have h0 : d s.destpos = reloc (b + s.pos) d0 := by
      rw [hdw]
      have := write_at s.dest s.destpos 0 ((d0 :: rest).map (reloc (b + s.pos)))
        (reloc (b + s.pos) d0) (by simp)
      simpa using this
    have hty0 : d0.type = JSON_STRING_TYPE := by
      rw [h0] at hty
      by_contra hne
      exact hty hne
    obtain ⟨hk, rfl, rfl⟩ := hv.string_inv hty0
    simp only [List.length_cons, List.length_nil] at hds
    refine ⟨v, hk, hh, hle, by omega, ?_⟩
    simp only [Option.some.injEq, Except.ok.injEq] at h
    rw [← h, h0]
    simp only [reloc]
    rw [u32_of_lt (by omega), u32_of_lt (by omega), hdw]
    simp only [List.map_cons, List.map_nil, reloc]

theorem value_block_ne {self : Callee} {b n : Nat} {json : Nat → Nat} {m : Nat} {s : Frame}
    {d : Nat → struct_JSON}
    (h : value_block self b n json m s = some (.error (JSON_EOK, d))) : False := by
  unfold value_block at h
  cases hsub : subcall self b n json m s.pos s.destpos s.dest with
  | none => simp [hsub] at h
  | some r =>
    obtain ⟨e, d1⟩ := r
    simp only [hsub] at h
    by_cases he : e ≠ JSON_EOK
    · rw [if_pos he] at h
      simp only [Option.some.injEq, Except.error.injEq, Prod.mk.injEq] at h
      exact he h.1
    · rw [if_neg he] at h
      simp at h

theorem key_block_ne {self : Callee} {b n : Nat} {json : Nat → Nat} {m : Nat} {s : Frame}
    {d : Nat → struct_JSON}
    (h : key_block self b n json m s = some (.error (JSON_EOK, d))) : False := by
  unfold key_block at h
  cases hsub : subcall self b n json m s.pos s.destpos s.dest with
  | none => simp [hsub] at h
  | some r =>
    obtain ⟨e, d1⟩ := r
    simp only [hsub] at h
    by_cases he : e ≠ JSON_EOK
    · rw [if_pos he] at h
      simp only [Option.some.injEq, Except.error.injEq, Prod.mk.injEq] at h
      exact he h.1
    · rw [if_neg he] at h
      by_cases hty : (d1 s.destpos).type ≠ JSON_STRING_TYPE
      · rw [if_pos hty] at h
        simp at h
      · rw [if_neg hty] at h
        simp at h

/-- A successful array loop has parsed whitespace, an element list of the
grammar and the closing bracket. -/
theorem array_loop_inv {self : Callee} (hs : Grammatical self) (fuel b n : Nat)
    (json : Nat → Nat) (m start : Nat) (hn : n < 4294967296) (hm : m < 4294967296)
    (hb : NoOverrun json n) :
    ∀ (iter : Nat) (s : Frame) (d : Nat → struct_JSON),
      s.pos ≤ n → s.treesize + 1 = s.destpos → s.destpos ≤ m →
      array_loop self fuel b n json m start iter s = some (JSON_EOK, d) →
      ∃ w t ds, WS w ∧ Derives .elements t ds ∧ Holds json s.pos (w ++ (t ++ [93])) ∧
        s.pos + w.length + t.length + 1 ≤ n ∧ s.destpos + ds.length ≤ m ∧
        d = store (write s.dest s.destpos (ds.map (reloc (b + s.pos + w.length)))) 0
          ⟨u32 (start + b), u32 (s.pos + w.length + t.length + 1 - start),
            s.treesize + ds.length, JSON_ARRAY_TYPE⟩
  | 0, _, _, _, _, _, h => by simp [array_loop] at h
  | iter + 1, s, d, hp, ht, hd, h => by
    rw [array_loop] at h
    cases hw1 : whitespace json fuel s.pos n with
    | none => simp [hw1] at h
    | some pos1 =>
      simp only [hw1] at h
      obtain ⟨w, hw, hhw, rfl, hle1, hstop1⟩ := whitespace_inv json n fuel s.pos pos1 hw1 hp
      cases hvb : value_block self b n json m { s with pos := s.pos + w.length } with
      | none => simp [hvb] at h
      | some r =>
        cases r with
        | error r =>
          exfalso
          simp only [hvb, Option.some.injEq] at h
          subst h
          exact value_block_ne hvb
        | ok s1 =>
          simp only [hvb] at h
          obtain ⟨v, ds, hv, hhv, hle2, hds, rfl⟩ := value_block_inv hs b n json m
            { s with pos := s.pos + w.length } s1 hn hm hb hle1 hstop1 ht hd hvb
          dsimp only at h hhv hle2 hds
          cases hw2 : whitespace json fuel (s.pos + w.length + v.length) n with
          | none => simp [hw2] at h
          | some pos2 =>
            simp only [hw2] at h
            obtain ⟨w2, hw2', hhw2, rfl, hle3, -⟩ :=
              whitespace_inv json n fuel _ pos2 hw2 hle2
            by_cases c1 : s.pos + w.length + v.length + w2.length = n
            · rw [if_pos c1] at h
              simp at h
            rw [if_neg c1] at h
            by_cases c2 : json (s.pos + w.length + v.length + w2.length) = 44
            · rw [if_pos c2] at h
              obtain ⟨w3, t, ds', hw3, ht', hh3, hle4, hds', rfl⟩ :=
                array_loop_inv hs fuel b n json m start hn hm hb iter _ d
                  (by dsimp only; omega) (by dsimp only; omega) (by dsimp only; omega) h
              dsimp only at hh3 hle4 hds'
              refine ⟨w, v ++ (w2 ++ 44 :: (w3 ++ t)),
                ds ++ ds'.map (move (v.length + w2.length + 1 + w3.length)), hw,
                Derives.elements_cons v w2 w3 t ds ds' hv hw2' hw3 ht', ?_, ?_, ?_, ?_⟩
              · have e : w ++ ((v ++ (w2 ++ 44 :: (w3 ++ t))) ++ [93]) =
                    w ++ (v ++ (w2 ++ 44 :: (w3 ++ (t ++ [93])))) := by simp
                rw [e, Holds_append, Holds_append, Holds_append]
                exact ⟨hhw, hhv, hhw2, c2, hh3⟩
              · simp only [List.length_append, List.length_cons]
                omega
              · simp only [List.length_append, List.length_map]
                omega
              · dsimp only
                have e1 : s.destpos + ds.length =
                    s.destpos + (ds.map (reloc (b + (s.pos + w.length)))).length := by
                  rw [List.length_map]
                rw [e1, write_append, List.map_append, map_reloc_move]
                simp only [List.length_append, List.length_cons, List.length_map]
                have e2 : b + (s.pos + w.length + v.length + w2.length + 1) + w3.length =
                    b + s.pos + w.length + (v.length + w2.length + 1 + w3.length) := by omega
                have e3 : s.pos + w.length + v.length + w2.length + 1 + w3.length + t.length + 1 =
                    s.pos + w.length + (v.length + (w2.length + (w3.length + t.length + 1))) + 1 := by
                  omega
                have e4 : s.treesize + ds.length + ds'.length =
                    s.treesize + (ds.length + ds'.length) := by omega
                have e5 : b + (s.pos + w.length) = b + s.pos + w.length := by omega
                rw [e2, e3, e4, e5]
            rw [if_neg c2] at h
            by_cases c3 : json (s.pos + w.length + v.length + w2.length) ≠ 93
            · rw [if_pos c3] at h
              simp at h
            rw [if_neg c3] at h
            have c3' : json (s.pos + w.length + v.length + w2.length) = 93 := by
              by_contra hne
              exact c3 hne
            simp only [Option.some.injEq, Prod.mk.injEq, true_and] at h
            refine ⟨w, v ++ w2, ds, hw, Derives.elements_one v w2 ds hv hw2', ?_, ?_, hds, ?_⟩
            · have e : w ++ ((v ++ w2) ++ [93]) = w ++ (v ++ (w2 ++ [93])) := by simp
              rw [e, Holds_append, Holds_append, Holds_append]
              exact ⟨hhw, hhv, hhw2, c3', trivial⟩
            · simp only [List.length_append]
              omega
            · rw [← h]
              simp only [List.length_append]
              have e3 : s.pos + w.length + v.length + w2.length + 1 =
                  s.pos + w.length + (v.length + w2.length) + 1 := by omega
              have e5 : b + (s.pos + w.length) = b + s.pos + w.length := by omega
              rw [e3, e5]

theorem write_reloc_append (dest : Nat → struct_JSON) (dp x z : Nat) (l ds' : List struct_JSON) :
    write (write dest dp (l.map (reloc x))) (dp + l.length) (ds'.map (reloc (x + z))) =
      write dest dp ((l ++ ds'.map (move z)).map (reloc x)) := by
  have e1 : dp + l.length = dp + (l.map (reloc x)).length := by rw [List.length_map]
  rw [e1, write_append, ← map_reloc_move x z ds', ← List.map_append]

/-- A successful object loop has parsed whitespace, a member list of the
grammar and the closing brace. -/
theorem object_loop_inv {self : Callee} (hs : Grammatical self) (fuel b n : Nat)
    (json : Nat → Nat) (m start : Nat) (hn : n < 4294967296) (hm : m < 4294967296)
    (hb : NoOverrun json n) :
    ∀ (iter : Nat) (s : Frame) (d : Nat → struct_JSON),
      s.pos ≤ n → s.treesize + 1 = s.destpos → s.destpos ≤ m →
      object_loop self fuel b n json m start iter s = some (JSON_EOK, d) →
      ∃ w t ds, WS w ∧ Derives .members t ds ∧ Holds json s.pos (w ++ (t ++ [125])) ∧
        s.pos + w.length + t.length + 1 ≤ n ∧ s.destpos + ds.length ≤ m ∧
        d = store (write s.dest s.destpos (ds.map (reloc (b + s.pos + w.length)))) 0
          ⟨u32 (start + b), u32 (s.pos + w.length + t.length + 1 - start),
            s.treesize + ds.length, JSON_OBJECT_TYPE⟩
  | 0, _, _, _, _, _, h => by simp [object_loop] at h
  | iter + 1, s, d, hp, ht, hd, h => by
    rw [object_loop] at h
    cases hw0 : whitespace json fuel s.pos n with
    | none => simp [hw0] at h
    | some pos1 =>
    simp only [hw0] at h
    obtain ⟨w, hw, hhw, rfl, hle1, hstop1⟩ := whitespace_inv json n fuel s.pos pos1 hw0 hp
    cases hkb : key_block self b n json m { s with pos := s.pos + w.length } with
    | none => simp [hkb] at h
    | some r =>
    cases r with
    | error r =>
      exfalso
      simp only [hkb, Option.some.injEq] at h
      subst h
      exact key_block_ne hkb
    | ok s1 =>
    simp only [hkb] at h
    obtain ⟨k, hk, hhk, hlek, hdk, rfl⟩ := key_block_inv hs b n json m
      { s with pos := s.pos + w.length } s1 hn hm hb hle1 hstop1 ht hd hkb
    dsimp only at h hhk hlek hdk
    cases hw1 : whitespace json fuel (s.pos + w.length + k.length) n with
    | none => simp [hw1] at h
    | some pos2 =>
    simp only [hw1] at h
    obtain ⟨w1, hw1', hhw1, rfl, hle2, -⟩ := whitespace_inv json n fuel _ pos2 hw1 hlek
    by_cases c1 : s.pos + w.length + k.length + w1.length = n
    · rw [if_pos c1] at h
      simp at h
    rw [if_neg c1] at h
    by_cases c2 : json (s.pos + w.length + k.length + w1.length) ≠ 58
    · rw [if_pos c2] at h
      simp at h
    rw [if_neg c2] at h
    have c2' : json (s.pos + w.length + k.length + w1.length) = 58 := by
      by_contra hne
      exact c2 hne
    cases hw2 : whitespace json fuel (s.pos + w.length + k.length + w1.length + 1) n with
    | none => simp [hw2] at h
    | some pos3 =>
    simp only [hw2] at h
    obtain ⟨w2, hw2', hhw2, rfl, hle3, hstop3⟩ :=
      whitespace_inv json n fuel _ pos3 hw2 (by omega)
    cases hvb : value_block self b n json m
        { pos := s.pos + w.length + k.length + w1.length + 1 + w2.length,
          destpos := s.destpos + 1, treesize := s.treesize + 1,
          dest := write s.dest s.destpos
            [reloc (b + (s.pos + w.length)) ⟨0, k.length, 0, JSON_STRING_TYPE⟩] } with
    | none => simp [hvb] at h
    | some r =>
    cases r with
    | error r =>
      exfalso
      simp only [hvb, Option.some.injEq] at h
      subst h
      exact value_block_ne hvb
    | ok s2 =>
    simp only [hvb] at h
    obtain ⟨v, ds, hv, hhv, hlev, hds, rfl⟩ := value_block_inv hs b n json m _ s2 hn hm hb
      (by dsimp only; exact hle3) hstop3 (by dsimp only; omega) (by dsimp only; omega) hvb
    dsimp only at h hhv hlev hds
    have hD : write (write s.dest s.destpos
          [reloc (b + (s.pos + w.length)) ⟨0, k.length, 0, JSON_STRING_TYPE⟩]) (s.destpos + 1)
          (ds.map (reloc (b + (s.pos + w.length + k.length + w1.length + 1 + w2.length)))) =
        write s.dest s.destpos
          ((⟨0, k.length, 0, JSON_STRING_TYPE⟩ ::
            ds.map (move (k.length + w1.length + 1 + w2.length))).map
              (reloc (b + (s.pos + w.length)))) := by
      have := write_reloc_append s.dest s.destpos (b + (s.pos + w.length))
        (k.length + w1.length + 1 + w2.length) [⟨0, k.length, 0, JSON_STRING_TYPE⟩] ds
      have eD : b + (s.pos + w.length) + (k.length + w1.length + 1 + w2.length) =
          b + (s.pos + w.length + k.length + w1.length + 1 + w2.length) := by omega
      rw [eD] at this
      exact this
    rw [hD] at h
    cases hw3 : whitespace json fuel
        (s.pos + w.length + k.length + w1.length + 1 + w2.length + v.length) n with
    | none => simp [hw3] at h
    | some pos4 =>
    simp only [hw3] at h
    obtain ⟨w3, hw3', hhw3, rfl, hle4, -⟩ := whitespace_inv json n fuel _ pos4 hw3 hlev
    by_cases c3 : s.pos + w.length + k.length + w1.length + 1 + w2.length + v.length
        + w3.length = n
    · rw [if_pos c3] at h
      simp at h
    rw [if_neg c3] at h
    by_cases c4 : json (s.pos + w.length + k.length + w1.length + 1 + w2.length + v.length
        + w3.length) = 44
    · rw [if_pos c4] at h
      obtain ⟨w4, t, ds', hw4, ht', hh4, hle5, hds', rfl⟩ :=
        object_loop_inv hs fuel b n json m start hn hm hb iter _ d
          (by dsimp only; omega) (by dsimp only; omega) (by dsimp only; omega) h
      dsimp only at hh4 hle5 hds'
      refine ⟨w, k ++ (w1 ++ 58 :: (w2 ++ (v ++ (w3 ++ 44 :: (w4 ++ t))))),
        ⟨0, k.length, 0, JSON_STRING_TYPE⟩ ::
          (ds.map (move (k.length + w1.length + 1 + w2.length)) ++
            ds'.map (move (k.length + w1.length + 1 + w2.length + v.length + w3.length + 1
              + w4.length))), hw,
        Derives.members_cons k w1 w2 v w3 w4 t ds ds' hk hw1' hw2' hv hw3' hw4 ht', ?_, ?_, ?_, ?_⟩
      · have e : w ++ ((k ++ (w1 ++ 58 :: (w2 ++ (v ++ (w3 ++ 44 :: (w4 ++ t)))))) ++ [125]) =
            w ++ (k ++ (w1 ++ 58 :: (w2 ++ (v ++ (w3 ++ 44 :: (w4 ++ (t ++ [125]))))))) := by
          simp
        rw [e, Holds_append, Holds_append, Holds_append]
        refine ⟨hhw, hhk, hhw1, c2', ?_⟩
        rw [Holds_append, Holds_append, Holds_append]
        exact ⟨hhw2, hhv, hhw3, c4, hh4⟩
      · simp only [List.length_append, List.length_cons]
        omega
      · simp only [List.length_append, List.length_cons, List.length_map]
        omega
      · dsimp only
        have hW := write_reloc_append s.dest s.destpos (b + (s.pos + w.length))
          (k.length + w1.length + 1 + w2.length + v.length + w3.length + 1 + w4.length)
          (⟨0, k.length, 0, JSON_STRING_TYPE⟩ ::
            ds.map (move (k.length + w1.length + 1 + w2.length))) ds'
        have eW : b + (s.pos + w.length) + (k.length + w1.length + 1 + w2.length + v.length
            + w3.length + 1 + w4.length) =
            b + (s.pos + w.length + k.length + w1.length + 1 + w2.length + v.length + w3.length
              + 1) + w4.length := by omega
        have eL : s.destpos + (ds.length + 1) = s.destpos + 1 + ds.length := by omega
        rw [eW] at hW
        simp only [List.length_cons, List.length_map] at hW
        rw [eL] at hW
        rw [hW]
        simp only [List.length_append, List.length_cons, List.length_map]
        have e3 : s.pos + w.length + k.length + w1.length + 1 + w2.length + v.length + w3.length
              + 1 + w4.length + t.length + 1 =
            s.pos + w.length + (k.length + (w1.length + (w2.length + (v.length + (w3.length
              + (w4.length + t.length + 1))) + 1))) + 1 := by omega
        have e4 : s.treesize + 1 + ds.length + ds'.length =
            s.treesize + (ds.length + ds'.length + 1) := by omega
        have e5 : b + (s.pos + w.length) = b + s.pos + w.length := by omega
        rw [e3, e4, e5]
        rfl
    rw [if_neg c4] at h
    by_cases c5 : json (s.pos + w.length + k.length + w1.length + 1 + w2.length + v.length
        + w3.length) ≠ 125
    · rw [if_pos c5] at h
      simp at h
    rw [if_neg c5] at h
    have c5' : json (s.pos + w.length + k.length + w1.length + 1 + w2.length + v.length
        + w3.length) = 125 := by
      by_contra hne
      exact c5 hne
    simp only [Option.some.injEq, Prod.mk.injEq, true_and] at h
    refine ⟨w, k ++ (w1 ++ 58 :: (w2 ++ (v ++ w3))),
      ⟨0, k.length, 0, JSON_STRING_TYPE⟩ :: ds.map (move (k.length + w1.length + 1 + w2.length)),
      hw, Derives.members_one k w1 w2 v w3 ds hk hw1' hw2' hv hw3', ?_, ?_, ?_, ?_⟩
    · have e : w ++ ((k ++ (w1 ++ 58 :: (w2 ++ (v ++ w3)))) ++ [125]) =
          w ++ (k ++ (w1 ++ 58 :: (w2 ++ (v ++ (w3 ++ [125]))))) := by simp
      rw [e, Holds_append, Holds_append, Holds_append]
      refine ⟨hhw, hhk, hhw1, c2', ?_⟩
      rw [Holds_append, Holds_append, Holds_append]
      exact ⟨hhw2, hhv, hhw3, c5', trivial⟩
    · simp only [List.length_append, List.length_cons]
      omega
    · simp only [List.length_cons, List.length_map]
      omega
    · rw [← h]
      simp only [List.length_append, List.length_cons, List.length_map]
      have e3 : s.pos + w.length + k.length + w1.length + 1 + w2.length + v.length + w3.length
            + 1 =
          s.pos + w.length + (k.length + (w1.length + (w2.length + (v.length + w3.length) + 1)))
            + 1 := by omega
      have e4 : s.treesize + 1 + ds.length = s.treesize + (ds.length + 1) := by omega
      have e5 : b + (s.pos + w.length) = b + s.pos + w.length := by omega
      rw [e3, e4, e5]

theorem Holds_of_getD (json : Nat → Nat) :
    ∀ (t : List Nat) (q : Nat), (∀ i, i < t.length → json (q + i) = t.getD i 0) → Holds json q t
  | [], _, _ => trivial
  | c :: t, q, h => by
    refine ⟨h 0 (by simp), Holds_of_getD json t (q + 1) ?_⟩
    intro i hi
    have := h (i + 1) (by simpa using hi)
    have e : q + 1 + i = q + (i + 1) := by omega
    rw [e, this]
    rfl

/-- An accepted keyword is spelled out in the input. -/
theorem JSON_keyword_inv (b n : Nat) (json : Nat → Nat) (dest d : Nat → struct_JSON) (pos : Nat)
    (rest : List Nat) (ty : JSON_type_t)
    (h : JSON_keyword b n json dest pos rest ty = (JSON_EOK, d)) :
    Holds json (pos + 1) rest ∧ pos + (rest.length + 1) ≤ n ∧
      d = store dest 0 ⟨u32 (pos + b), rest.length + 1, 0, ty⟩ := by
  unfold JSON_keyword at h
  simp only [] at h
  by_cases c1 : pos + (rest.length + 1) > n
  · rw [if_pos c1] at h
    simp at h
  rw [if_neg c1] at h
  by_cases c2 : (List.range rest.length).all (fun i => json (pos + 1 + i) == rest.getD i 0) = true
  · rw [if_pos c2] at h
    simp only [Prod.mk.injEq, true_and] at h
    refine ⟨?_, by omega, ?_⟩
    · apply Holds_of_getD
      intro i hi
      rw [List.all_eq_true] at c2
      have := c2 i (List.mem_range.2 hi)
      exact beq_iff_eq.1 this
    · rw [← h]
      have : pos + (rest.length + 1) - (rest.length + 1) + b = pos + b := by omega
      rw [this]
  · rw [if_neg c2] at h
    simp at h

/-- A leaf value found behind the whitespace `w`. -/
theorem Parsed.leafP (b n : Nat) (json : Nat → Nat) (m : Nat) (dest : Nat → struct_JSON)
    (w v : List Nat) (sz : Nat) (ty : JSON_type_t) (hw : WS w)
    (hv : Derives .value v [⟨0, sz, 0, ty⟩]) (hhw : Holds json 0 w)
    (hhv : Holds json w.length v) (hle : w.length + v.length ≤ n) (hm : 0 ≠ m) :
    Parsed b n json m dest (store dest 0 ⟨u32 (w.length + b), sz, 0, ty⟩) := by
  refine ⟨w, v, _, hw, hv, ?_, hle, ?_, ?_⟩
  · rw [Holds_append]
    simpa using And.intro hhw hhv
  · simp only [List.length_cons, List.length_nil]
    omega
  · rw [write_leaf, Nat.add_comm]

theorem JSON_string_inv (fuel b n : Nat) (json : Nat → Nat) (m : Nat)
    (dest d : Nat → struct_JSON) (w : List Nat) (hw : WS w) (hhw : Holds json 0 w)
    (hlt : w.length < n) (hn : n < 4294967296) (hm : 0 ≠ m) (hb : NoOverrun json n)
    (hc : json w.length = 34)
    (h : JSON_string fuel b n json dest w.length = some (JSON_EOK, d)) :
    Parsed b n json m dest d := by
  unfold JSON_string at h
  cases hl : string_loop json n fuel (w.length + 1) with
  | none => simp [hl] at h
  | some r =>
    cases r with
    | error e =>
      exfalso
      simp only [hl, Option.some.injEq, Prod.mk.injEq] at h
      exact string_loop_error json n fuel _ e hl h.1
    | ok q =>
      simp only [hl, Option.some.injEq, Prod.mk.injEq, true_and] at h
      obtain ⟨body, hbody, hh, rfl, hle⟩ := string_loop_inv json n hb fuel _ q hl (by omega)
      have hsz : u32 (w.length + 1 + body.length + 1 - w.length) =
          (34 :: (body ++ [34])).length := by
        rw [u32_of_lt (by omega)]
        simp only [List.length_cons, List.length_append, List.length_nil]
        omega
      rw [hsz] at h
      rw [← h]
      refine Parsed.leafP b n json m dest w (34 :: (body ++ [34])) _ _ hw
        (Derives.string _ ⟨body, rfl, hbody⟩) hhw ⟨hc, hh⟩ ?_ hm
      simp only [List.length_cons, List.length_append, List.length_nil]
      omega

theorem JSON_number_inv (fuel b n : Nat) (json : Nat → Nat) (m : Nat)
    (dest d : Nat → struct_JSON) (w : List Nat) (hw : WS w) (hhw : Holds json 0 w)
    (hlt : w.length < n) (hn : n < 4294967296) (hm : 0 ≠ m)
    (h : JSON_number fuel b n json dest w.length = some (JSON_EOK, d)) :
    Parsed b n json m dest d := by
  unfold JSON_number at h
  cases hl : number_scan fuel n json w.length with
  | none => simp [hl] at h
  | some r =>
    cases r with
    | error e =>
      exfalso
      simp only [hl, Option.some.injEq, Prod.mk.injEq] at h
      have := number_scan_error fuel n json _ e hl
      rw [this] at h
      exact absurd h.1 (by decide)
    | ok q =>
      simp only [hl, Option.some.injEq, Prod.mk.injEq, true_and] at h
      obtain ⟨t, ht, hh, rfl, hle⟩ := number_scan_inv json n fuel _ q hl hlt
      have hsz : u32 (w.length + t.length - w.length) = t.length := by
        rw [u32_of_lt (by omega)]
        omega
      rw [hsz] at h
      rw [← h]
      exact Parsed.leafP b n json m dest w t _ _ hw (Derives.number _ ht) hhw hh hle hm

theorem JSON_keyword_parsed (b n : Nat) (json : Nat → Nat) (m : Nat)
    (dest d : Nat → struct_JSON) (w : List Nat) (c : Nat) (rest : List Nat) (ty : JSON_type_t)
    (hw : WS w) (hhw : Holds json 0 w) (hm : 0 ≠ m) (hc : json w.length = c)
    (hv : Derives .value (c :: rest) [⟨0, rest.length + 1, 0, ty⟩])
    (h : JSON_keyword b n json dest w.length rest ty = (JSON_EOK, d)) :
    Parsed b n json m dest d := by
  obtain ⟨h1, h2, rfl⟩ := JSON_keyword_inv b n json dest d _ rest ty h
  refine Parsed.leafP b n json m dest w (c :: rest) _ _ hw hv hhw ⟨hc, h1⟩ ?_ hm
  simp only [List.length_cons]
  omega

theorem JSON_array_inv {self : Callee} (hs : Grammatical self) (fuel b n : Nat)
    (json : Nat → Nat) (m : Nat) (dest d : Nat → struct_JSON) (w : List Nat) (hw : WS w)
    (hhw : Holds json 0 w) (hlt : w.length < n) (hn : n < 4294967296) (hmm : m < 4294967296)
    (hm : 0 ≠ m) (hb : NoOverrun json n) (hc : json w.length = 91)
    (h : JSON_array self fuel b n json m dest w.length = some (JSON_EOK, d)) :
    Parsed b n json m dest d := by
  unfold JSON_array at h
  cases hw1 : whitespace json fuel (w.length + 1) n with
  | none => simp [hw1] at h
  | some pos1 =>
  simp only [hw1] at h
  obtain ⟨w1, hw1', hhw1, rfl, hle1, -⟩ := whitespace_inv json n fuel _ pos1 hw1 (by omega)
  by_cases c1 : w.length + 1 + w1.length = n
  · rw [if_pos c1] at h
    simp at h
  rw [if_neg c1] at h
  by_cases c2 : json (w.length + 1 + w1.length) = 93
  · rw [if_pos c2] at h
    simp only [Option.some.injEq, Prod.mk.injEq, true_and] at h
    have hsz : u32 (w.length + 1 + w1.length + 1 - w.length) = w1.length + 2 := by
      rw [u32_of_lt (by omega)]
      omega
    rw [hsz] at h
    rw [← h]
    refine Parsed.leafP b n json m dest w (91 :: (w1 ++ [93])) _ _ hw
      (Derives.array_empty w1 hw1') hhw ⟨hc, ?_⟩ ?_ hm
    · rw [Holds_append]
      exact ⟨hhw1, c2, trivial⟩
    · simp only [List.length_cons, List.length_append, List.length_nil]
      omega
  rw [if_neg c2] at h
  rw [show u32 (0 + 1) = 1 from rfl] at h
  obtain ⟨w2, t, ds, hw2, ht, hh, hle, hds, rfl⟩ :=
    array_loop_inv hs fuel b n json m w.length hn hmm hb fuel _ d (by dsimp only; omega)
      (by dsimp only) (by dsimp only; omega) h
  dsimp only at hh hle hds ⊢
  refine ⟨w, 91 :: ((w1 ++ w2) ++ (t ++ [93])), _, hw,
    Derives.array (w1 ++ w2) t ds ?_ ht, ?_, ?_, ?_, ?_⟩
  · intro c hc'
    rcases List.mem_append.1 hc' with h' | h'
    · exact hw1' c h'
    · exact hw2 c h'
  · rw [Holds_append]
    simp only [Nat.zero_add]
    refine ⟨hhw, hc, ?_⟩
    rw [List.append_assoc, Holds_append]
    exact ⟨hhw1, hh⟩
  · simp only [List.length_cons, List.length_append, List.length_nil]
    omega
  · simp only [List.length_cons, List.length_map]
    omega
  · simp only [List.map_cons, map_reloc_move, ← write_cons_zero, List.length_append,
      Nat.add_zero, Nat.zero_add, reloc]
    have e1 : w.length + b = b + w.length := by omega
    have e2 : u32 (w.length + 1 + w1.length + w2.length + t.length + 1 - w.length) =
        w1.length + w2.length + t.length + 2 := by
      rw [u32_of_lt (by omega)]
      omega
    have e3 : b + (w.length + 1 + w1.length) + w2.length =
        b + w.length + (1 + (w1.length + w2.length)) := by omega
    rw [e1, e2, e3]

theorem JSON_object_inv {self : Callee} (hs : Grammatical self) (fuel b n : Nat)
    (json : Nat → Nat) (m : Nat) (dest d : Nat → struct_JSON) (w : List Nat) (hw : WS w)
    (hhw : Holds json 0 w) (hlt : w.length < n) (hn : n < 4294967296) (hmm : m < 4294967296)
    (hm : 0 ≠ m) (hb : NoOverrun json n) (hc : json w.length = 123)
    (h : JSON_object self fuel b n json m dest w.length = some (JSON_EOK, d)) :
    Parsed b n json m dest d := by
  unfold JSON_object at h
  cases hw1 : whitespace json fuel (w.length + 1) n with
  | none => simp [hw1] at h
  | some pos1 =>
  simp only [hw1] at h
  obtain ⟨w1, hw1', hhw1, rfl, hle1, -⟩ := whitespace_inv json n fuel _ pos1 hw1 (by omega)
  by_cases c1 : w.length + 1 + w1.length = n
  · rw [if_pos c1] at h
    simp at h
  rw [if_neg c1] at h
  by_cases c2 : json (w.length + 1 + w1.length) = 125
  · rw [if_pos c2] at h
    simp only [Option.some.injEq, Prod.mk.injEq, true_and] at h
    have hsz : u32 (w.length + 1 + w1.length + 1 - w.length) = w1.length + 2 := by
      rw [u32_of_lt (by omega)]
      omega
    rw [hsz] at h
    rw [← h]
    refine Parsed.leafP b n json m dest w (123 :: (w1 ++ [125])) _ _ hw
      (Derives.object_empty w1 hw1') hhw ⟨hc, ?_⟩ ?_ hm
    · rw [Holds_append]
      exact ⟨hhw1, c2, trivial⟩
    · simp only [List.length_cons, List.length_append, List.length_nil]
      omega
  rw [if_neg c2] at h
  rw [show u32 (0 + 1) = 1 from rfl] at h
  obtain ⟨w2, t, ds, hw2, ht, hh, hle, hds, rfl⟩ :=
    object_loop_inv hs fuel b n json m w.length hn hmm hb fuel _ d (by dsimp only; omega)
      (by dsimp only) (by dsimp only; omega) h
  dsimp only at hh hle hds ⊢
  refine ⟨w, 123 :: ((w1 ++ w2) ++ (t ++ [125])), _, hw,
    Derives.object (w1 ++ w2) t ds ?_ ht, ?_, ?_, ?_, ?_⟩
  · intro c hc'
    rcases List.mem_append.1 hc' with h' | h'
    · exact hw1' c h'
    · exact hw2 c h'
  · rw [Holds_append]
    simp only [Nat.zero_add]
    refine ⟨hhw, hc, ?_⟩
    rw [List.append_assoc, Holds_append]
    exact ⟨hhw1, hh⟩
  · simp only [List.length_cons, List.length_append, List.length_nil]
    omega
  · simp only [List.length_cons, List.length_map]
    omega
  · simp only [List.map_cons, map_reloc_move, ← write_cons_zero, List.length_append,
      Nat.add_zero, Nat.zero_add, reloc]
    have e1 : w.length + b = b + w.length := by omega
    have e2 : u32 (w.length + 1 + w1.length + w2.length + t.length + 1 - w.length) =
        w1.length + w2.length + t.length + 2 := by
      rw [u32_of_lt (by omega)]
      omega
    have e3 : b + (w.length + 1 + w1.length) + w2.length =
        b + w.length + (1 + (w1.length + w2.length)) := by omega
    rw [e1, e2, e3]

theorem JSON_unfold (fuel b n : Nat) (json : Nat → Nat) (m : Nat) (dest : Nat → struct_JSON) :
    JSON (fuel + 1) b n json m dest = JSON_body (JSON fuel) fuel b n json m dest := by
  rw [JSON]
  rfl

/-- The body of `JSON` accepts only what the grammar derives when the function
called recursively does. -/
theorem JSON_body_grammatical {self : Callee} (ih : Grammatical self) (fuel : Nat) :
    Grammatical (JSON_body self fuel) := by
  intro b n json m dest d hn hm hb h
  unfold JSON_body at h
  cases hw0 : whitespace json fuel 0 n with
  | none => simp [hw0] at h
  | some pos =>
  simp only [hw0] at h
  obtain ⟨w, hw, hhw, hq, hle, -⟩ := whitespace_inv json n fuel 0 pos hw0 (Nat.zero_le _)
  rw [Nat.zero_add] at hq
  subst hq
  by_cases c1 : w.length = n
  · rw [if_pos c1] at h
    simp at h
  rw [if_neg c1] at h
  by_cases c2 : 0 = m
  · rw [if_pos c2] at h
    simp at h
  rw [if_neg c2] at h
  have hlt : w.length < n := by omega
  by_cases c3 : json w.length = 123
  · rw [if_pos c3] at h
    exact JSON_object_inv ih fuel b n json m dest d w hw hhw hlt hn hm c2 hb c3 h
  rw [if_neg c3] at h
  by_cases c4 : json w.length = 91
  · rw [if_pos c4] at h
    exact JSON_array_inv ih fuel b n json m dest d w hw hhw hlt hn hm c2 hb c4 h
  rw [if_neg c4] at h
  by_cases c5 : json w.length = 34
  · rw [if_pos c5] at h
    exact JSON_string_inv fuel b n json m dest d w hw hhw hlt hn c2 hb c5 h
  rw [if_neg c5] at h
  by_cases c6 : json w.length = 45 ∨ (48 ≤ json w.length ∧ json w.length ≤ 57)
  · rw [if_pos c6] at h
    exact JSON_number_inv fuel b n json m dest d w hw hhw hlt hn c2 h
  rw [if_neg c6] at h
  by_cases c7 : json w.length = 116
  · rw [if_pos c7] at h
    exact JSON_keyword_parsed b n json m dest d w 116 _ _ hw hhw c2 c7 Derives.true_
      (Option.some.inj h)
  rw [if_neg c7] at h
  by_cases c8 : json w.length = 102
  · rw [if_pos c8] at h
    exact JSON_keyword_parsed b n json m dest d w 102 _ _ hw hhw c2 c8 Derives.false_
      (Option.some.inj h)
  rw [if_neg c8] at h
  by_cases c9 : json w.length = 110
  · rw [if_pos c9] at h
    exact JSON_keyword_parsed b n json m dest d w 110 _ _ hw hhw c2 c9 Derives.null
      (Option.some.inj h)
  rw [if_neg c9] at h
  simp at h

/-- Soundness against the grammar, for inputs without overrun: whenever `JSON`
returns `JSON_EOK`, the input starts with whitespace and a value of the
grammar, and the descriptors written are the listing of that value. -/
theorem JSON_grammatical : ∀ fuel, Grammatical (JSON fuel)
  | 0 => by
    intro b n json m dest d _ _ _ h
    simp [JSON] at h
  | fuel + 1 => by
    intro b n json m dest d hn hm hb h
    rw [JSON_unfold] at h
    exact JSON_body_grammatical (JSON_grammatical fuel) fuel b n json m dest d hn hm hb h
/-! ### Descriptors within the input, sub-values and re-slicing -/

/-- Every descriptor of a listing delimits text inside the phrase. -/
theorem Derives.within {k : Phrase} {t : List Nat} {ds : List struct_JSON}
    (h : Derives k t ds) : ∀ s ∈ ds, s.offset + s.size ≤ t.length := by
  induction h with
  | null => intro s hs; simp only [List.mem_singleton] at hs; subst hs; simp
  | true_ => intro s hs; simp only [List.mem_singleton] at hs; subst hs; simp
  | false_ => intro s hs; simp only [List.mem_singleton] at hs; subst hs; simp
  | number t ht => intro s hs; simp only [List.mem_singleton] at hs; subst hs; simp
  | string t ht => intro s hs; simp only [List.mem_singleton] at hs; subst hs; simp
  | array_empty w _ =>
    intro s hs
    simp only [List.mem_singleton] at hs
    subst hs
    simp only [List.length_cons, List.length_append, List.length_nil]
    omega
  | object_empty w _ =>
    intro s hs
    simp only [List.mem_singleton] at hs
    subst hs
    simp only [List.length_cons, List.length_append, List.length_nil]
    omega
  | array w t ds _ _ ih =>
    intro s hs
    simp only [List.length_cons, List.length_append, List.length_nil]
    rcases List.mem_cons.1 hs with rfl | hs
    · dsimp only
      omega
    · obtain ⟨s', hs', rfl⟩ := List.mem_map.1 hs
      have := ih s' hs'
      simp only [move]
      omega
  | object w t ds _ _ ih =>
    intro s hs
    simp only [List.length_cons, List.length_append, List.length_nil]
    rcases List.mem_cons.1 hs with rfl | hs
    · dsimp only
      omega
    · obtain ⟨s', hs', rfl⟩ := List.mem_map.1 hs
      have := ih s' hs'
      simp only [move]
      omega
  | elements_one v w ds _ _ ih =>
    intro s hs
    have := ih s hs
    simp only [List.length_append]
    omega
  | elements_cons v w w' t ds ds' _ _ _ _ ih ih' =>
    intro s hs
    simp only [List.length_cons, List.length_append]
    rcases List.mem_append.1 hs with hs | hs
    · have := ih s hs
      omega
    · obtain ⟨s', hs', rfl⟩ := List.mem_map.1 hs
      have := ih' s' hs'
      simp only [move]
      omega
  | members_one k w1 w2 v w3 ds _ _ _ _ _ ih =>
    intro s hs
    simp only [List.length_cons, List.length_append]
    rcases List.mem_cons.1 hs with rfl | hs
    · dsimp only
      omega
    · obtain ⟨s', hs', rfl⟩ := List.mem_map.1 hs
      have := ih s' hs'
      simp only [move]
      omega
  | members_cons k w1 w2 v w3 w4 t ds ds' _ _ _ _ _ _ _ ih ih' =>
    intro s hs
    simp only [List.length_cons, List.length_append]
    rcases List.mem_cons.1 hs with rfl | hs
    · dsimp only
      omega
    · rcases List.mem_append.1 hs with hs | hs
      · obtain ⟨s', hs', rfl⟩ := List.mem_map.1 hs
        have := ih s' hs'
        simp only [move]
        omega
      · obtain ⟨s', hs', rfl⟩ := List.mem_map.1 hs
        have := ih' s' hs'
        simp only [move]
        omega

theorem Holds.slice_eq (json : Nat → Nat) :
    ∀ (t : List Nat) (q : Nat), Holds json q t → slice json q t.length = t
  | [], _, _ => rfl
  | c :: t, q, h => by
    have ih := Holds.slice_eq json t (q + 1) h.2
    unfold slice at ih ⊢
    rw [List.length_cons, List.range_succ_eq_map, List.map_cons, List.map_map]
    have e : (fun i => json (q + i)) ∘ Nat.succ = fun i => json (q + 1 + i) := by
      funext i
      show json (q + (i + 1)) = json (q + 1 + i)
      rw [Nat.add_right_comm, Nat.add_assoc]
    rw [e, ih]
    exact congrArg (· :: t) h.1

/-- The descriptors of a parsed value: entry `i` is the `i`-th descriptor of the
listing, relocated. -/
theorem Parsed.entry {b n : Nat} {json : Nat → Nat} {m : Nat} {dest d : Nat → struct_JSON}
    (h : Parsed b n json m dest d) :
    ∃ w v ds, WS w ∧ Derives .value v ds ∧ Holds json 0 (w ++ v) ∧ w.length + v.length ≤ n ∧
      ds.length ≤ m ∧ (d 0).treesize + 1 = ds.length ∧ (d 0).size = v.length ∧
      (d 0).offset = u32 (b + w.length) ∧
      (∀ i s, ds.get? i = some s → d i = reloc (b + w.length) s) ∧
      (∀ i, ds.length ≤ i → d i = dest i) := by
  obtain ⟨w, v, ds, hw, hv, hh, hle, hm, rfl⟩ := h
  have hget : ∀ i s, ds.get? i = some s →
      write dest 0 (ds.map (reloc (b + w.length))) i = reloc (b + w.length) s := by
    intro i s hs
    have := write_at dest 0 i (ds.map (reloc (b + w.length))) (reloc (b + w.length) s)
      (by rw [List.get?_eq_getElem?, List.getElem?_map, ← List.get?_eq_getElem?, hs]; rfl)
    rwa [Nat.zero_add] at this
  obtain ⟨c, t', d0, rest, -, -, -, -, rfl, h1, h2, h3⟩ := hv.shape
  have h0 := hget 0 d0 rfl
  refine ⟨w, v, d0 :: rest, hw, hv, hh, hle, hm, ?_, ?_, ?_, hget, ?_⟩
  · rw [h0]
    simp only [reloc, List.length_cons, h3]
  · rw [h0]
    simp only [reloc, h2]
  · rw [h0]
    simp only [reloc, h1, Nat.add_zero]
  · intro i hi
    unfold write
    rw [if_neg (by omega)]
    have : ((d0 :: rest).map (reloc (b + w.length))).get? (i - 0) = none := by
      rw [List.get?_eq_none]
      simp only [List.length_map]
      omega
    rw [this]
    rfl

/-- Without overrun every written descriptor lies within the input: when
`baseoffset + jsonsize < 2^32` and `JSON` returns `JSON_EOK`, then
`baseoffset ≤ offset` and `offset + size ≤ baseoffset + jsonsize`. -/
theorem JSON_within_input (fuel b n : Nat) (json : Nat → Nat) (m : Nat)
    (dest d : Nat → struct_JSON) (hm : m < 4294967296) (hbn : b + n < 4294967296)
    (hb : NoOverrun json n) (h : JSON fuel b n json m dest = some (JSON_EOK, d))
    (i : Nat) (hi : i ≤ (d 0).treesize) :
    b ≤ (d i).offset ∧ (d i).offset + (d i).size ≤ b + n := by
  obtain ⟨w, v, ds, -, hv, -, hle, -, hts, -, -, hget, -⟩ :=
    (JSON_grammatical fuel b n json m dest d (by omega) hm hb h).entry
  have hi' : i < ds.length := by omega
  have hs : ds.get? i = some (ds.get ⟨i, hi'⟩) := List.get?_eq_get hi'
  have hin := hv.within _ (List.get_mem ds i hi')
  rw [hget i _ hs]
  simp only [reloc]
  rw [u32_of_lt (by omega)]
  omega

/-- Without overrun `JSON` accepts only what the grammar derives: when
`baseoffset + jsonsize < 2^32` and `JSON` returns `JSON_EOK`, the bytes
delimited by `dest[0]` are a value of the grammar, they lie within the input,
and the first descriptor of the listing has the type of `dest[0]`. -/
theorem JSON_accepts_grammar (fuel b n : Nat) (json : Nat → Nat) (m : Nat)
    (dest d : Nat → struct_JSON) (hm : m < 4294967296) (hbn : b + n < 4294967296)
    (hb : NoOverrun json n) (h : JSON fuel b n json m dest = some (JSON_EOK, d)) :
    (d 0).offset - b + (d 0).size ≤ n ∧
    ∃ d0 rest, Derives .value (slice json ((d 0).offset - b) (d 0).size) (d0 :: rest) ∧
      d0.type = (d 0).type := by
  obtain ⟨w, v, ds, -, hv, hh, hle, -, -, hsz, hoff, hget, -⟩ :=
    (JSON_grammatical fuel b n json m dest d (by omega) hm hb h).entry
  rw [u32_of_lt (by omega)] at hoff
  have e : (d 0).offset - b = w.length := by omega
  rw [e, hsz]
  refine ⟨hle, ?_⟩
  rw [Holds_append, Nat.zero_add] at hh
  rw [Holds.slice_eq json v _ hh.2]
  obtain ⟨c, t', d0, rest, -, -, -, -, rfl, -⟩ := hv.shape
  refine ⟨d0, rest, hv, ?_⟩
  rw [hget 0 d0 rfl]
  rfl

theorem move_zero (s : struct_JSON) : move 0 s = s := rfl

theorem move_move (a c : Nat) (s : struct_JSON) : move c (move a s) = move (a + c) s := by
  simp only [move, Nat.add_assoc]

theorem get_map_move {ds : List struct_JSON} {c i : Nat} {s : struct_JSON}
    (h : (ds.map (move c)).get? i = some s) : ∃ s0, ds.get? i = some s0 ∧ s = move c s0 := by
  rw [List.get?_eq_getElem?, List.getElem?_map] at h
  cases h0 : ds[i]? with
  | none => simp [h0] at h
  | some s0 =>
    rw [h0] at h
    simp only [Option.map_some', Option.some.injEq] at h
    exact ⟨s0, by rw [List.get?_eq_getElem?, h0], h.symm⟩

theorem Subtree.root {v : List Nat} {ds : List struct_JSON} (h : Derives .value v ds) :
    ∃ d0 rest, ds = d0 :: rest ∧ Subtree v ds 0 d0 := by
  obtain ⟨c, t', d0, rest, -, -, -, -, rfl, h1, h2, h3⟩ := h.shape
  refine ⟨d0, rest, rfl, [], v, [], d0 :: rest, by simp, by simp [h1], h2.symm, by simp [h3], h,
    ?_⟩
  intro j s' hs'
  rw [Nat.zero_add, h1, move_zero]
  exact hs'

theorem Subtree.embed {t : List Nat} {ds : List struct_JSON} {i : Nat} {s : struct_JSON}
    (h : Subtree t ds i s) (big : List Nat) (dsbig : List struct_JSON) (δ c : Nat)
    (p q : List Nat) (ht : big = p ++ (t ++ q)) (hp : p.length = c)
    (hd : ∀ j x, ds.get? j = some x → dsbig.get? (j + δ) = some (move c x)) :
    Subtree big dsbig (i + δ) (move c s) := by
  obtain ⟨pre, v, post, dsi, h1, h2, h3, h4, h5, h6⟩ := h
  refine ⟨p ++ pre, v, post ++ q, dsi, ?_, ?_, h3, h4, h5, ?_⟩
  · rw [ht, h1]
    simp only [List.append_assoc]
  · simp only [List.length_append, move]
    omega
  · intro j s' hs'
    have := hd _ _ (h6 j s' hs')
    rw [move_move] at this
    have e : i + δ + j = i + j + δ := by omega
    rw [e, this]
    rfl

theorem get_lt_length {α : Type} {l : List α} {j : Nat} {x : α} (h : l.get? j = some x) :
    j < l.length := by
  by_contra hn
  rw [List.get?_eq_none.2 (by omega)] at h
  cases h

theorem get_append_l {α : Type} (l1 l2 : List α) {j : Nat} (h : j < l1.length) :
    (l1 ++ l2).get? j = l1.get? j := by
  rw [List.get?_eq_getElem?, List.get?_eq_getElem?, List.getElem?_append_left h]

theorem get_append_r {α : Type} (l1 l2 : List α) (j : Nat) :
    (l1 ++ l2).get? (j + l1.length) = l2.get? j := by
  rw [List.get?_eq_getElem?, List.get?_eq_getElem?, List.getElem?_append_right (by omega)]
  congr 1
  omega

theorem get_map_some {ds : List struct_JSON} {j : Nat} {x : struct_JSON} (c : Nat)
    (h : ds.get? j = some x) : (ds.map (move c)).get? j = some (move c x) := by
  rw [List.get?_eq_getElem?] at h
  rw [List.get?_eq_getElem?, List.getElem?_map, h]
  rfl

/-- Case distinction on an index into the listing of a value: the root, or an
entry of the rest. -/
theorem Subtree.of_value {v : List Nat} {d0 : struct_JSON} {rest : List struct_JSON}
    (hv : Derives .value v (d0 :: rest))
    (htail : ∀ i s, rest.get? i = some s → Subtree v (d0 :: rest) (i + 1) s) :
    ∀ i s, (d0 :: rest).get? i = some s → Subtree v (d0 :: rest) i s := by
  intro i s hs
  cases i with
  | zero =>
    obtain ⟨d0', rest', he, hr⟩ := Subtree.root hv
    simp only [List.cons.injEq] at he
    obtain ⟨rfl, rfl⟩ := he
    simp only [List.get?_cons_zero, Option.some.injEq] at hs
    subst hs
    exact hr
  | succ i =>
    rw [List.get?_cons_succ] at hs
    exact htail i s hs

/-- The entries behind the root of a composite: those of the listing of its
content, which starts `c` bytes into the composite. -/
theorem Subtree.inside {t : List Nat} {ds : List struct_JSON} (big : List Nat)
    (d0 : struct_JSON) (c : Nat) (p q : List Nat) (ht : big = p ++ (t ++ q))
    (hp : p.length = c) (ih : ∀ i s, ds.get? i = some s → Subtree t ds i s) :
    ∀ i s, (ds.map (move c)).get? i = some s →
      Subtree big (d0 :: ds.map (move c)) (i + 1) s := by
  intro i s hs
  obtain ⟨s0, hs0, rfl⟩ := get_map_move hs
  refine (ih i s0 hs0).embed big _ 1 c p q ht hp ?_
  intro j x hx
  rw [List.get?_cons_succ]
  exact get_map_some c hx

/-- Every entry of a listing is the root of a value of the grammar whose text
lies at the offset of the entry and whose listing follows the entry. -/
theorem Derives.subtree {k : Phrase} {t : List Nat} {ds : List struct_JSON}
    (h : Derives k t ds) : ∀ i s, ds.get? i = some s → Subtree t ds i s := by
  have leaf : ∀ (v : List Nat) (d0 : struct_JSON), Derives .value v [d0] →
      ∀ i s, [d0].get? i = some s → Subtree v [d0] i s := by
    intro v d0 hv
    refine Subtree.of_value hv ?_
    intro i s hs
    simp at hs
  induction h with
  | null => exact leaf _ _ Derives.null
  | true_ => exact leaf _ _ Derives.true_
  | false_ => exact leaf _ _ Derives.false_
  | number t ht => exact leaf _ _ (Derives.number t ht)
  | string t ht => exact leaf _ _ (Derives.string t ht)
  | array_empty w hw => exact leaf _ _ (Derives.array_empty w hw)
  | object_empty w hw => exact leaf _ _ (Derives.object_empty w hw)
  | array w t ds hw ht ih =>
    refine Subtree.of_value (Derives.array w t ds hw ht) ?_
    exact Subtree.inside _ _ (1 + w.length) (91 :: w) [93] (by simp)
      (by simp only [List.length_cons]; omega) ih
  | object w t ds hw ht ih =>
    refine Subtree.of_value (Derives.object w t ds hw ht) ?_
    exact Subtree.inside _ _ (1 + w.length) (123 :: w) [125] (by simp)
      (by simp only [List.length_cons]; omega) ih
  | elements_one v w ds hv hw ih =>
    intro i s hs
    have := (ih i s hs).embed (v ++ w) ds 0 0 [] w (by simp) rfl
      (fun j x hx => by rw [Nat.add_zero, move_zero]; exact hx)
    rwa [Nat.add_zero, move_zero] at this
  | elements_cons v w w' t ds ds' hv hw hw' ht ih1 ih2 =>
    intro i s hs
    by_cases hi : i < ds.length
    · rw [get_append_l _ _ hi] at hs
      have := (ih1 i s hs).embed (v ++ (w ++ 44 :: (w' ++ t)))
        (ds ++ ds'.map (move (v.length + w.length + 1 + w'.length))) 0 0 []
        (w ++ 44 :: (w' ++ t)) (by simp) rfl
        (fun j x hx => by
          show (ds ++ ds'.map (move (v.length + w.length + 1 + w'.length))).get? j = some x
          rw [get_append_l _ _ (get_lt_length hx)]
          exact hx)
      rwa [Nat.add_zero, move_zero] at this
    · have e : i = i - ds.length + ds.length := by omega
      rw [e, get_append_r] at hs
      obtain ⟨s0, hs0, rfl⟩ := get_map_move hs
      rw [e]
      refine (ih2 _ s0 hs0).embed _ _ ds.length _ (v ++ (w ++ 44 :: w')) [] (by simp)
        (by simp only [List.length_append, List.length_cons]; omega) ?_
      intro j x hx
      rw [get_append_r]
      exact get_map_some _ hx
  | members_one k w1 w2 v w3 ds hk hw1 hw2 hv hw3 ih =>
    intro i s hs
    cases i with
    | zero =>
      simp only [List.get?_cons_zero, Option.some.injEq] at hs
      subst hs
      refine ⟨[], k, w1 ++ 58 :: (w2 ++ (v ++ w3)), [⟨0, k.length, 0, JSON_STRING_TYPE⟩],
        by simp, rfl, rfl, rfl, Derives.string k hk, ?_⟩
      intro j s' hs'
      cases j with
      | zero =>
        simp only [List.get?_cons_zero, Option.some.injEq] at hs'
        subst hs'
        rfl
      | succ j => simp at hs'
    | succ i =>
      rw [List.get?_cons_succ] at hs
      exact Subtree.inside _ _ (k.length + w1.length + 1 + w2.length) (k ++ (w1 ++ 58 :: w2)) w3
        (by simp) (by simp only [List.length_append, List.length_cons]; omega) ih i s hs
  | members_cons k w1 w2 v w3 w4 t ds ds' hk hw1 hw2 hv hw3 hw4 ht ih1 ih2 =>
    intro i s hs
    cases i with
    | zero =>
      simp only [List.get?_cons_zero, Option.some.injEq] at hs
      subst hs
      refine ⟨[], k, w1 ++ 58 :: (w2 ++ (v ++ (w3 ++ 44 :: (w4 ++ t)))),
        [⟨0, k.length, 0, JSON_STRING_TYPE⟩], by simp, rfl, rfl, rfl, Derives.string k hk, ?_⟩
      intro j s' hs'
      cases j with
      | zero =>
        simp only [List.get?_cons_zero, Option.some.injEq] at hs'
        subst hs'
        rfl
      | succ j => simp at hs'
    | succ i =>
      rw [List.get?_cons_succ] at hs
      by_cases hi : i < (ds.map (move (k.length + w1.length + 1 + w2.length))).length
      · rw [get_append_l _ _ hi] at hs
        obtain ⟨s0, hs0, rfl⟩ := get_map_move hs
        refine (ih1 i s0 hs0).embed _ _ 1 _ (k ++ (w1 ++ 58 :: w2))
          (w3 ++ 44 :: (w4 ++ t)) (by simp)
          (by simp only [List.length_append, List.length_cons]; omega) ?_
        intro j x hx
        rw [List.get?_cons_succ, get_append_l _ _ (by
          rw [List.length_map]; exact get_lt_length hx)]
        exact get_map_some _ hx
      · have e : i = i - (ds.map (move (k.length + w1.length + 1 + w2.length))).length +
            (ds.map (move (k.length + w1.length + 1 + w2.length))).length := by omega
        rw [e, get_append_r] at hs
        obtain ⟨s0, hs0, rfl⟩ := get_map_move hs
        have e2 : i + 1 = i - (ds.map (move (k.length + w1.length + 1 + w2.length))).length +
            ((ds.map (move (k.length + w1.length + 1 + w2.length))).length + 1) := by omega
        rw [e2]
        refine (ih2 _ s0 hs0).embed _ _ _ _
          (k ++ (w1 ++ 58 :: (w2 ++ (v ++ (w3 ++ 44 :: w4))))) [] (by simp)
          (by simp only [List.length_append, List.length_cons]; omega) ?_
        intro j x hx
        rw [← Nat.add_assoc, List.get?_cons_succ, get_append_r]
        exact get_map_some _ hx

/-- The position of a token is recovered from its offset by an `unsigned`
subtraction of the base offset. -/
theorem usub_u32 (b : Nat) {x : Nat} (hx : x < 4294967296) : usub (u32 (b + x)) b = x := by
  unfold usub u32
  omega

/-- Re-slicing without overrun: after a call that returns `JSON_EOK`, for every
written index `i` the call of `JSON` on exactly the bytes that `dest[i]`
delimits, with `baseoffset = dest[i].offset` and capacity
`1 + dest[i].treesize`, returns `JSON_EOK` and writes descriptors equal to
`dest[i] .. dest[i + dest[i].treesize]`. -/
theorem JSON_reslice (fuel b n : Nat) (json : Nat → Nat) (m : Nat)
    (dest d : Nat → struct_JSON) (hn : n < 4294967296)
    (hm : m < 4294967296) (hb : NoOverrun json n)
    (h : JSON fuel b n json m dest = some (JSON_EOK, d)) (i : Nat) (hi : i ≤ (d 0).treesize)
    (fuel2 : Nat) (hf : (d i).size + 1 < fuel2) (dest2 : Nat → struct_JSON) :
    ∃ d2, JSON fuel2 (d i).offset (d i).size (shift json (usub (d i).offset b))
        (1 + (d i).treesize) dest2 = some (JSON_EOK, d2) ∧
      (∀ j, j ≤ (d i).treesize → d2 j = d (i + j)) ∧
      ∀ j, (d i).treesize < j → d2 j = dest2 j := by
  obtain ⟨w, v, ds, -, hv, hh, hle, hdm, hts, -, -, hget, -⟩ :=
    (JSON_grammatical fuel b n json m dest d hn hm hb h).entry
  have hi' : i < ds.length := by omega
  have hs : ds.get? i = some (ds.get ⟨i, hi'⟩) := List.get?_eq_get hi'
  generalize ds.get ⟨i, hi'⟩ = s at hs
  obtain ⟨pre, vi, post, dsi, e1, e2, e3, e4, e5, e6⟩ := hv.subtree i s hs
  have hdi := hget i s hs
  have hlen : v.length = pre.length + (vi.length + post.length) := by
    rw [e1]
    simp only [List.length_append]
  have hoff : (d i).offset = u32 (b + (w.length + s.offset)) := by
    rw [hdi]
    show u32 (b + w.length + s.offset) = _
    rw [Nat.add_assoc]
  have hsz : (d i).size = s.size := by rw [hdi]; rfl
  have htr : (d i).treesize = s.treesize := by rw [hdi]; rfl
  have hpos : usub (d i).offset b = w.length + s.offset := by
    rw [hoff]
    exact usub_u32 b (by omega)
  have hhi : Holds (shift json (w.length + s.offset)) 0 vi := by
    rw [e1, Holds_append, Holds_append, Holds_append] at hh
    simp only [Nat.zero_add] at hh
    rw [Holds_shift, Nat.add_zero, ← e2]
    exact hh.2.2.1
  have hdsi : i + dsi.length ≤ ds.length := by
    have hlast : dsi.get? (dsi.length - 1) = some (dsi.get ⟨dsi.length - 1, by omega⟩) :=
      List.get?_eq_get (by omega)
    have := get_lt_length (e6 _ _ hlast)
    omega
  have hg : ValueGoal vi dsi := e5.goal
  have hrun := hg fuel2 (d i).offset (d i).size (shift json (w.length + s.offset))
    (1 + (d i).treesize) dest2 [] (fun c hc => by cases hc) hhi
    (by simp only [List.length_nil]; omega) (Or.inl (by simp only [List.length_nil]; omega))
    (by omega) (by omega) (by omega) hf
  rw [hpos]
  refine ⟨_, hrun, ?_, ?_⟩
  · intro j hj
    have hj' : j < dsi.length := by omega
    have hsj : dsi.get? j = some (dsi.get ⟨j, hj'⟩) := List.get?_eq_get hj'
    generalize dsi.get ⟨j, hj'⟩ = s' at hsj
    rw [hget (i + j) _ (e6 j s' hsj), reloc_move]
    have := write_at dest2 0 j (dsi.map (reloc ((d i).offset + ([] : List Nat).length)))
      (reloc ((d i).offset + ([] : List Nat).length) s')
      (by rw [List.get?_eq_getElem?, List.getElem?_map, ← List.get?_eq_getElem?, hsj]; rfl)
    rw [Nat.zero_add] at this
    rw [this, hoff, List.length_nil, Nat.add_zero, reloc_u32, Nat.add_assoc]
  · intro j hj
    unfold write
    rw [if_neg (by omega)]
    have : ((dsi.map (reloc ((d i).offset + ([] : List Nat).length))).get? (j - 0)) = none := by
      rw [List.get?_eq_none]
      simp only [List.length_map]
      omega
    rw [this]
    rfl

/-! ### Dependence on the bytes of the input only -/

theorem CleanEnd.noOverrun {json : Nat → Nat} {n : Nat} (h : CleanEnd json n) :
    NoOverrun json n := by
  rcases h with h | h
  · exact Or.inl h
  · exact Or.inr (Or.inl h)

/-- The loop `whitespace` reads bytes of the input only. -/
theorem whitespace_agree {j1 j2 : Nat → Nat} {n : Nat} (hag : Agree j1 j2 n) :
    ∀ (fuel p : Nat), p ≤ n → whitespace j1 fuel p n = whitespace j2 fuel p n
  | 0, _, _ => rfl
  | fuel + 1, p, hp => by
    rw [whitespace, whitespace]
    by_cases hpn : p = n
    · rw [if_neg (fun h => h.1 hpn), if_neg (fun h => h.1 hpn)]
    · rw [← hag p (by omega), whitespace_agree hag fuel (p + 1) (by omega)]

/-- The digit loop reads bytes of the input only. -/
theorem digits_agree {j1 j2 : Nat → Nat} {n : Nat} (hag : Agree j1 j2 n) :
    ∀ (fuel p : Nat), p ≤ n → digits j1 fuel p n = digits j2 fuel p n
  | 0, _, _ => rfl
  | fuel + 1, p, hp => by
    rw [digits, digits]
    by_cases hpn : p = n
    · rw [if_neg (fun h => h.1 hpn), if_neg (fun h => h.1 hpn)]
    · rw [← hag p (by omega), digits_agree hag fuel (p + 1) (by omega)]

/-- On an input that does not end right behind a backslash the string loop
reads bytes of the input only. -/
theorem string_loop_agree {j1 j2 : Nat → Nat} {n : Nat} (hag : Agree j1 j2 n)
    (hc : CleanEnd j1 n) :
    ∀ (fuel p : Nat), p ≤ n → string_loop j1 n fuel p = string_loop j2 n fuel p
  | 0, _, _ => rfl
  | fuel + 1, p, hp => by
    rw [string_loop, string_loop]
    by_cases h1 : p = n
    · rw [if_pos h1, if_pos h1]
    rw [if_neg h1, if_neg h1, ← hag p (by omega)]
    by_cases h2 : j1 p = 34
    · rw [if_pos h2, if_pos h2]
    rw [if_neg h2, if_neg h2]
    by_cases h3 : j1 p = 92 ∧ p < n
    · rw [if_pos h3, if_pos h3]
      have hin : p + 1 < n := by
        rcases hc with hc | hc
        · omega
        · by_contra hcon
          have e : p = n - 1 := by omega
          rw [← e] at hc
          exact hc h3.1
      dsimp only
      rw [← hag (p + 1) hin]
      by_cases h4 : j1 (p + 1) = 34 ∨ j1 (p + 1) = 92 ∨ j1 (p + 1) = 47 ∨
          j1 (p + 1) = 98 ∨ j1 (p + 1) = 102 ∨ j1 (p + 1) = 110 ∨ j1 (p + 1) = 114 ∨
          j1 (p + 1) = 116
      · rw [if_pos h4, if_pos h4]
        exact string_loop_agree hag hc fuel (p + 2) (by omega)
      rw [if_neg h4, if_neg h4]
      by_cases h5 : j1 (p + 1) = 117
      · rw [if_pos h5, if_pos h5]
        by_cases h6 : p + 2 + 4 > n
        · rw [if_pos h6, if_pos h6]
        rw [if_neg h6, if_neg h6, ← hag (p + 2) (by omega), ← hag (p + 3) (by omega),
          ← hag (p + 4) (by omega), ← hag (p + 5) (by omega),
          string_loop_agree hag hc fuel (p + 6) (by omega)]
      · rw [if_neg h5, if_neg h5]
    · rw [if_neg h3, if_neg h3, string_loop_agree hag hc fuel (p + 1) (by omega)]

theorem number_integer_agree {j1 j2 : Nat → Nat} {n : Nat} (hag : Agree j1 j2 n)
    (fuel p : Nat) (hp : p < n) :
    number_integer fuel n j1 p = number_integer fuel n j2 p := by
  unfold number_integer
  rw [← hag p hp]
  dsimp only
  have hpos : (if j1 p = 45 then p + 1 else p) ≤ n := by
    split <;> omega
  generalize (if j1 p = 45 then p + 1 else p) = pos at hpos ⊢
  by_cases hA : j1 p = 45 ∧ pos = n
  · rw [if_pos hA, if_pos hA]
  rw [if_neg hA, if_neg hA]
  by_cases hB : pos = n
  · rw [if_pos hB, if_pos hB]
  rw [if_neg hB, if_neg hB, ← hag pos (by omega), digits_agree hag fuel pos hpos]

theorem number_fraction_agree {j1 j2 : Nat → Nat} {n : Nat} (hag : Agree j1 j2 n)
    (fuel p : Nat) (hp : p ≤ n) :
    number_fraction fuel n j1 p = number_fraction fuel n j2 p := by
  unfold number_fraction
  by_cases hpn : p = n
  · rw [if_neg (fun h => h.1 hpn), if_neg (fun h => h.1 hpn)]
  rw [← hag p (by omega)]
  by_cases c : p ≠ n ∧ j1 p = 46
  · rw [if_pos c, if_pos c]
    dsimp only
    by_cases hq : p + 1 = n
    · rw [if_pos (Or.inl hq), if_pos (Or.inl hq)]
    · rw [← hag (p + 1) (by omega), digits_agree hag fuel (p + 1) (by omega)]
  · rw [if_neg c, if_neg c]

theorem number_exponent_agree {j1 j2 : Nat → Nat} {n : Nat} (hag : Agree j1 j2 n)
    (fuel p : Nat) (hp : p ≤ n) :
    number_exponent fuel n j1 p = number_exponent fuel n j2 p := by
  unfold number_exponent
  by_cases hpn : p = n
  · rw [if_neg (fun h => h.1 hpn), if_neg (fun h => h.1 hpn)]
  rw [← hag p (by omega)]
  by_cases c : p ≠ n ∧ (j1 p = 101 ∨ j1 p = 69)
  · rw [if_pos c, if_pos c]
    dsimp only
    by_cases hq : p + 1 = n
    · rw [if_pos hq, if_pos hq]
    rw [if_neg hq, if_neg hq, ← hag (p + 1) (by omega)]
    have hpos : (if j1 (p + 1) = 45 then p + 1 + 1 else p + 1) ≤ n := by
      split <;> omega
    generalize (if j1 (p + 1) = 45 then p + 1 + 1 else p + 1) = pos at hpos ⊢
    by_cases hB : pos = n
    · rw [if_pos hB, if_pos hB]
    rw [if_neg hB, if_neg hB, ← hag pos (by omega), digits_agree hag fuel pos hpos]
  · rw [if_neg c, if_neg c]

/-- The scan of a number reads bytes of the input only. -/
theorem number_scan_agree {j1 j2 : Nat → Nat} {n : Nat} (hag : Agree j1 j2 n)
    (fuel p : Nat) (hp : p < n) :
    number_scan fuel n j1 p = number_scan fuel n j2 p := by
  unfold number_scan
  rw [← number_integer_agree hag fuel p hp]
  cases h1 : number_integer fuel n j1 p with
  | none => rfl
  | some r1 =>
    cases r1 with
    | error e => rfl
    | ok q1 =>
      obtain ⟨_, _, -, -, -, -, hq1⟩ := number_integer_inv j1 n fuel p q1 h1 hp
      dsimp only
      rw [← number_fraction_agree hag fuel q1 hq1]
      cases h2 : number_fraction fuel n j1 q1 with
      | none => rfl
      | some r2 =>
        cases r2 with
        | error e => rfl
        | ok q2 =>
          obtain ⟨_, -, -, -, hq2⟩ := number_fraction_inv j1 n fuel q1 q2 h2 hq1
          dsimp only
          exact number_exponent_agree hag fuel q2 hq2

theorem all_agree {l : List Nat} {f g : Nat → Bool} (h : ∀ i ∈ l, f i = g i) :
    l.all f = l.all g := by
  induction l with
  | nil => rfl
  | cons a l ih =>
    simp only [List.all_cons]
    rw [h a (List.mem_cons_self _ _), ih (fun i hi => h i (List.mem_cons_of_mem _ hi))]

/-- The keyword branches read bytes of the input only. -/
theorem JSON_keyword_agree {j1 j2 : Nat → Nat} {n : Nat} (hag : Agree j1 j2 n)
    (b : Nat) (dest : Nat → struct_JSON) (pos : Nat) (rest : List Nat) (ty : JSON_type_t) :
    JSON_keyword b n j1 dest pos rest ty = JSON_keyword b n j2 dest pos rest ty := by
  unfold JSON_keyword
  dsimp only
  by_cases c1 : pos + (rest.length + 1) > n
  · rw [if_pos c1, if_pos c1]
  rw [if_neg c1, if_neg c1]
  have : (List.range rest.length).all (fun i => j1 (pos + 1 + i) == rest.getD i 0) =
      (List.range rest.length).all (fun i => j2 (pos + 1 + i) == rest.getD i 0) := by
    apply all_agree
    intro i hi
    have hi' := List.mem_range.1 hi
    rw [hag (pos + 1 + i) (by omega)]
  rw [this]

theorem Agree.shiftA {j1 j2 : Nat → Nat} {n : Nat} (h : Agree j1 j2 n) (p : Nat) :
    Agree (shift j1 p) (shift j2 p) (n - p) := by
  intro i hi
  exact h (p + i) (by omega)

theorem CleanEnd.shiftC {json : Nat → Nat} {n : Nat} (h : CleanEnd json n) {p : Nat}
    (hp : p ≤ n) : CleanEnd (shift json p) (n - p) := by
  by_cases h0 : n - p = 0
  · exact Or.inl h0
  · rcases h with h | h
    · omega
    · refine Or.inr ?_
      show json (p + (n - p - 1)) ≠ 92
      rw [show p + (n - p - 1) = n - 1 by omega]
      exact h

theorem usub_lt (a b : Nat) : usub a b < 4294967296 := by
  unfold usub
  omega

theorem subcall_agree {self : Callee} (hs : ReadsWithin self) {j1 j2 : Nat → Nat} {n : Nat}
    (hag : Agree j1 j2 n) (hc : CleanEnd j1 n) (hn : n < 4294967296) (b m pos destpos : Nat)
    (dest : Nat → struct_JSON) (hp : pos ≤ n) :
    subcall self b n j1 m pos destpos dest = subcall self b n j2 m pos destpos dest := by
  unfold subcall
  rw [usub_of_le hp hn]
  rw [hs (u32 (b + pos)) (n - pos) (shift j1 pos) (shift j2 pos) (usub m destpos)
    (shift dest destpos) (by omega) (usub_lt _ _) (hag.shiftA pos) (hc.shiftC hp)]

theorem value_block_agree {self : Callee} (hs : ReadsWithin self) {j1 j2 : Nat → Nat} {n : Nat}
    (hag : Agree j1 j2 n) (hc : CleanEnd j1 n) (hn : n < 4294967296) (b m : Nat)
    (s : Frame) (hp : s.pos ≤ n) :
    value_block self b n j1 m s = value_block self b n j2 m s := by
  unfold value_block
  rw [subcall_agree hs hag hc hn b m s.pos s.destpos s.dest hp]

theorem key_block_agree {self : Callee} (hs : ReadsWithin self) {j1 j2 : Nat → Nat} {n : Nat}
    (hag : Agree j1 j2 n) (hc : CleanEnd j1 n) (hn : n < 4294967296) (b m : Nat)
    (s : Frame) (hp : s.pos ≤ n) :
    key_block self b n j1 m s = key_block self b n j2 m s := by
  unfold key_block
  rw [subcall_agree hs hag hc hn b m s.pos s.destpos s.dest hp]

/-- The array loop reads bytes of the input only, when the callee does. -/
theorem array_loop_agree {self : Callee} (hs : ReadsWithin self) (hg : Grammatical self)
    {j1 j2 : Nat → Nat} {n : Nat} (hag : Agree j1 j2 n) (hc : CleanEnd j1 n)
    (hn : n < 4294967296) (fuel b m start : Nat) (hm : m < 4294967296) :
    ∀ (iter : Nat) (s : Frame), s.pos ≤ n → s.treesize + 1 = s.destpos → s.destpos ≤ m →
      array_loop self fuel b n j1 m start iter s = array_loop self fuel b n j2 m start iter s
  | 0, _, _, _, _ => rfl
  | iter + 1, s, hp, ht, hd => by
    rw [array_loop, array_loop, ← whitespace_agree hag fuel s.pos hp]
    cases hw1 : whitespace j1 fuel s.pos n with
    | none => rfl
    | some pos1 =>
    obtain ⟨w, -, -, rfl, hle1, hstop1⟩ := whitespace_inv j1 n fuel s.pos pos1 hw1 hp
    dsimp only
    rw [← value_block_agree hs hag hc hn b m { s with pos := s.pos + w.length } hle1]
    cases hvb : value_block self b n j1 m { s with pos := s.pos + w.length } with
    | none => rfl
    | some r =>
    cases r with
    | error r => rfl
    | ok s1 =>
    obtain ⟨v, ds, -, -, hle2, hds, rfl⟩ := value_block_inv hg b n j1 m
      { s with pos := s.pos + w.length } s1 hn hm hc.noOverrun hle1 hstop1 ht hd hvb
    dsimp only at hle2 hds ⊢
    rw [← whitespace_agree hag fuel _ hle2]
    cases hw2 : whitespace j1 fuel (s.pos + w.length + v.length) n with
    | none => rfl
    | some pos2 =>
    obtain ⟨w2, -, -, rfl, hle3, -⟩ := whitespace_inv j1 n fuel _ pos2 hw2 hle2
    dsimp only
    by_cases c1 : s.pos + w.length + v.length + w2.length = n
    · rw [if_pos c1, if_pos c1]
    rw [if_neg c1, if_neg c1, ← hag _ (by omega : s.pos + w.length + v.length + w2.length < n)]
    by_cases c2 : j1 (s.pos + w.length + v.length + w2.length) = 44
    · rw [if_pos c2, if_pos c2]
      exact array_loop_agree hs hg hag hc hn fuel b m start hm iter _ (by dsimp only; omega)
        (by dsimp only; omega) (by dsimp only; omega)
    · rw [if_neg c2, if_neg c2]

/-- The object loop reads bytes of the input only, when the callee does. -/
theorem object_loop_agree {self : Callee} (hs : ReadsWithin self) (hg : Grammatical self)
    {j1 j2 : Nat → Nat} {n : Nat} (hag : Agree j1 j2 n) (hc : CleanEnd j1 n)
    (hn : n < 4294967296) (fuel b m start : Nat) (hm : m < 4294967296) :
    ∀ (iter : Nat) (s : Frame), s.pos ≤ n → s.treesize + 1 = s.destpos → s.destpos ≤ m →
      object_loop self fuel b n j1 m start iter s = object_loop self fuel b n j2 m start iter s
  | 0, _, _, _, _ => rfl
  | iter + 1, s, hp, ht, hd => by
    rw [object_loop, object_loop, ← whitespace_agree hag fuel s.pos hp]
    cases hw0 : whitespace j1 fuel s.pos n with
    | none => rfl
    | some pos1 =>
    obtain ⟨w, -, -, rfl, hle1, hstop1⟩ := whitespace_inv j1 n fuel s.pos pos1 hw0 hp
    dsimp only
    rw [← key_block_agree hs hag hc hn b m { s with pos := s.pos + w.length } hle1]
    cases hkb : key_block self b n j1 m { s with pos := s.pos + w.length } with
    | none => rfl
    | some r =>
    cases r with
    | error r => rfl
    | ok s1 =>
    obtain ⟨k, -, -, hlek, hdk, rfl⟩ := key_block_inv hg b n j1 m
      { s with pos := s.pos + w.length } s1 hn hm hc.noOverrun hle1 hstop1 ht hd hkb
    dsimp only at hlek hdk ⊢
    rw [← whitespace_agree hag fuel _ hlek]
    cases hw1 : whitespace j1 fuel (s.pos + w.length + k.length) n with
    | none => rfl
    | some pos2 =>
    obtain ⟨w1, -, -, rfl, hle2, -⟩ := whitespace_inv j1 n fuel _ pos2 hw1 hlek
    dsimp only
    by_cases c1 : s.pos + w.length + k.length + w1.length = n
    · rw [if_pos c1, if_pos c1]
    rw [if_neg c1, if_neg c1, ← hag _ (by omega : s.pos + w.length + k.length + w1.length < n)]
    by_cases c2 : j1 (s.pos + w.length + k.length + w1.length) ≠ 58
    · rw [if_pos c2, if_pos c2]
    rw [if_neg c2, if_neg c2, ← whitespace_agree hag fuel _ (by omega)]
    cases hw2 : whitespace j1 fuel (s.pos + w.length + k.length + w1.length + 1) n with
    | none => rfl
    | some pos3 =>
    obtain ⟨w2, -, -, rfl, hle3, hstop3⟩ := whitespace_inv j1 n fuel _ pos3 hw2 (by omega)
    dsimp only
    rw [← value_block_agree hs hag hc hn b m _ (by dsimp only; exact hle3)]
    cases hvb : value_block self b n j1 m
        { pos := s.pos + w.length + k.length + w1.length + 1 + w2.length,
          destpos := s.destpos + 1, treesize := s.treesize + 1,
          dest := write s.dest s.destpos
            [reloc (b + (s.pos + w.length)) ⟨0, k.length, 0, JSON_STRING_TYPE⟩] } with
    | none => rfl
    | some r =>
    cases r with
    | error r => rfl
    | ok s2 =>
    obtain ⟨v, ds, -, -, hlev, hds, rfl⟩ := value_block_inv hg b n j1 m _ s2 hn hm hc.noOverrun
      (by dsimp only; exact hle3) hstop3 (by dsimp only; omega) (by dsimp only; omega) hvb
    dsimp only at hlev hds ⊢
    rw [← whitespace_agree hag fuel _ hlev]
    cases hw3 : whitespace j1 fuel
        (s.pos + w.length + k.length + w1.length + 1 + w2.length + v.length) n with
    | none => rfl
    | some pos4 =>
    obtain ⟨w3, -, -, rfl, hle4, -⟩ := whitespace_inv j1 n fuel _ pos4 hw3 hlev
    dsimp only
    by_cases c3 : s.pos + w.length + k.length + w1.length + 1 + w2.length + v.length
        + w3.length = n
    · rw [if_pos c3, if_pos c3]
    rw [if_neg c3, if_neg c3, ← hag _ (by omega : s.pos + w.length + k.length + w1.length + 1
      + w2.length + v.length + w3.length < n)]
    by_cases c4 : j1 (s.pos + w.length + k.length + w1.length + 1 + w2.length + v.length
        + w3.length) = 44
    · rw [if_pos c4, if_pos c4]
      exact object_loop_agree hs hg hag hc hn fuel b m start hm iter _ (by dsimp only; omega)
        (by dsimp only; omega) (by dsimp only; omega)
    · rw [if_neg c4, if_neg c4]

theorem JSON_array_agree {self : Callee} (hs : ReadsWithin self) (hg : Grammatical self)
    {j1 j2 : Nat → Nat} {n : Nat} (hag : Agree j1 j2 n) (hc : CleanEnd j1 n)
    (hn : n < 4294967296) (fuel b m : Nat) (hm : m < 4294967296) (hm0 : 0 ≠ m)
    (dest : Nat → struct_JSON) (start : Nat) (hp : start < n) :
    JSON_array self fuel b n j1 m dest start = JSON_array self fuel b n j2 m dest start := by
  unfold JSON_array
  rw [← whitespace_agree hag fuel (start + 1) (by omega)]
  cases hw1 : whitespace j1 fuel (start + 1) n with
  | none => rfl
  | some pos1 =>
  obtain ⟨w, -, -, rfl, hle1, -⟩ := whitespace_inv j1 n fuel _ pos1 hw1 (by omega)
  dsimp only
  by_cases c1 : start + 1 + w.length = n
  · rw [if_pos c1, if_pos c1]
  rw [if_neg c1, if_neg c1, ← hag _ (by omega : start + 1 + w.length < n)]
  by_cases c2 : j1 (start + 1 + w.length) = 93
  · rw [if_pos c2, if_pos c2]
  rw [if_neg c2, if_neg c2]
  exact array_loop_agree hs hg hag hc hn fuel b m start hm fuel _ (by dsimp only; omega)
    (by dsimp only; rfl) (by dsimp only; rw [show u32 (0 + 1) = 1 from rfl]; omega)

theorem JSON_object_agree {self : Callee} (hs : ReadsWithin self) (hg : Grammatical self)
    {j1 j2 : Nat → Nat} {n : Nat} (hag : Agree j1 j2 n) (hc : CleanEnd j1 n)
    (hn : n < 4294967296) (fuel b m : Nat) (hm : m < 4294967296) (hm0 : 0 ≠ m)
    (dest : Nat → struct_JSON) (start : Nat) (hp : start < n) :
    JSON_object self fuel b n j1 m dest start = JSON_object self fuel b n j2 m dest start := by
  unfold JSON_object
  rw [← whitespace_agree hag fuel (start + 1) (by omega)]
  cases hw1 : whitespace j1 fuel (start + 1) n with
  | none => rfl
  | some pos1 =>
  obtain ⟨w, -, -, rfl, hle1, -⟩ := whitespace_inv j1 n fuel _ pos1 hw1 (by omega)
  dsimp only
  by_cases c1 : start + 1 + w.length = n
  · rw [if_pos c1, if_pos c1]
  rw [if_neg c1, if_neg c1, ← hag _ (by omega : start + 1 + w.length < n)]
  by_cases c2 : j1 (start + 1 + w.length) = 125
  · rw [if_pos c2, if_pos c2]
  rw [if_neg c2, if_neg c2]
  exact object_loop_agree hs hg hag hc hn fuel b m start hm fuel _ (by dsimp only; omega)
    (by dsimp only; rfl) (by dsimp only; rw [show u32 (0 + 1) = 1 from rfl]; omega)

/-- On an input that does not end right behind a backslash, the result of
`JSON` depends on the first `jsonsize` bytes only: two byte memories that agree
on them give the same error code and the same descriptors. -/
theorem JSON_reads_within : ∀ fuel, ReadsWithin (JSON fuel)
  | 0 => by
    intro b n j1 j2 m dest _ _ _ _
    rfl
  | fuel + 1 => by
    intro b n j1 j2 m dest hn hm hag hc
    have ih := JSON_reads_within fuel
    have hg := JSON_grammatical fuel
    rw [JSON, JSON, ← whitespace_agree hag fuel 0 (Nat.zero_le _)]
    cases hw0 : whitespace j1 fuel 0 n with
    | none => rfl
    | some pos =>
    obtain ⟨w, -, -, hq, hle, -⟩ := whitespace_inv j1 n fuel 0 pos hw0 (Nat.zero_le _)
    dsimp only
    by_cases c1 : pos = n
    · rw [if_pos c1, if_pos c1]
    rw [if_neg c1, if_neg c1]
    by_cases c2 : 0 = m
    · rw [if_pos c2, if_pos c2]
    have hlt : pos < n := by omega
    rw [if_neg c2, if_neg c2, ← hag pos hlt]
    by_cases c3 : j1 pos = 123
    · rw [if_pos c3, if_pos c3]
      exact JSON_object_agree ih hg hag hc hn fuel b m hm c2 dest pos hlt
    rw [if_neg c3, if_neg c3]
    by_cases c4 : j1 pos = 91
    · rw [if_pos c4, if_pos c4]
      exact JSON_array_agree ih hg hag hc hn fuel b m hm c2 dest pos hlt
    rw [if_neg c4, if_neg c4]
    by_cases c5 : j1 pos = 34
    · rw [if_pos c5, if_pos c5]
      unfold JSON_string
      rw [string_loop_agree hag hc fuel (pos + 1) (by omega)]
    rw [if_neg c5, if_neg c5]
    by_cases c6 : j1 pos = 45 ∨ (48 ≤ j1 pos ∧ j1 pos ≤ 57)
    · rw [if_pos c6, if_pos c6]
      unfold JSON_number
      rw [number_scan_agree hag fuel pos hlt]
    rw [if_neg c6, if_neg c6]
    rw [JSON_keyword_agree hag b dest pos [114, 117, 101] JSON_BOOLEAN_TYPE,
      JSON_keyword_agree hag b dest pos [97, 108, 115, 101] JSON_BOOLEAN_TYPE,
      JSON_keyword_agree hag b dest pos [117, 108, 108] JSON_NULL_TYPE]

/-! ### Statements of the specification on the shape of the descriptor array (C1, C9, C10) -/

/-- C1: after a call that returns `JSON_EOK`, every written descriptor of a
scalar type has `treesize` 0, and for every written array or object
descriptor the enumeration of its immediate children (start behind it, advance
by `1 + treesize`) stops exactly at `i + treesize + 1`, and its `treesize` is
the sum of `1 + treesize` over its immediate children. -/
theorem C1_treesize_exact (fuel b n : Nat) (json : Nat → Nat) (m : Nat)
    (dest d : Nat → struct_JSON) (hm : m < 4294967296)
    (h : JSON fuel b n json m dest = some (JSON_EOK, d)) (i : Nat) (hi : i ≤ (d 0).treesize) :
    (is_scalar (d i).type → (d i).treesize = 0) ∧
    (is_composite (d i).type →
      children_end d i = i + (d i).treesize + 1 ∧
      ((immediate_children d i).map (fun j => 1 + (d j).treesize)).sum = (d i).treesize) := by
  have hl := ((JSON_region hm h).2.2 i (Nat.zero_le i) (by omega)).2
  refine ⟨hl.scalar, fun hc => ?_⟩
  obtain ⟨hf, he, -⟩ := hl.children_spec hc
  exact ⟨he, by rw [hf.sum]; omega⟩

theorem C1_treesize_exact_witness :
    ∃ d, JSON 10 0 9 (bytes [91, 49, 44, 32, 50, 44, 32, 51, 93] 0) 4 junk = some (JSON_EOK, d) ∧
      (is_composite (d 0).type →
        children_end d 0 = 0 + (d 0).treesize + 1 ∧
        ((immediate_children d 0).map (fun j => 1 + (d j).treesize)).sum = (d 0).treesize) :=
  by
  refine ⟨_, rfl, ?_⟩
  exact (C1_treesize_exact 10 0 9 (bytes [91, 49, 44, 32, 50, 44, 32, 51, 93] 0) 4 junk _ (by decide) rfl 0
    (Nat.zero_le _)).2

/-- C9: after a call that returns `JSON_EOK`, the immediate children of every
written object descriptor come in key/value pairs: their number is even and
every child at an even position is of type `JSON_STRING_TYPE`. -/
theorem C9_object_keys_are_strings (fuel b n : Nat) (json : Nat → Nat) (m : Nat)
    (dest d : Nat → struct_JSON) (hm : m < 4294967296)
    (h : JSON fuel b n json m dest = some (JSON_EOK, d)) (i : Nat) (hi : i ≤ (d 0).treesize)
    (hobj : (d i).type = JSON_OBJECT_TYPE) :
    Even (immediate_children d i).length ∧
    ∀ k j, (immediate_children d i).get? (2 * k) = some j → (d j).type = JSON_STRING_TYPE := by
  have hl := ((JSON_region hm h).2.2 i (Nat.zero_le i) (by omega)).2
  obtain ⟨-, -, hk⟩ := hl.children_spec (Or.inr hobj)
  exact ⟨(hk hobj).even, (hk hobj).get⟩

theorem C9_object_keys_are_strings_witness :
    ∃ d, JSON 10 0 9 (bytes [123, 34, 97, 34, 58, 91, 49, 93, 125] 0) 4 junk
        = some (JSON_EOK, d) ∧ (d 0).type = JSON_OBJECT_TYPE ∧
      Even (immediate_children d 0).length ∧
      ∀ k j, (immediate_children d 0).get? (2 * k) = some j → (d j).type = JSON_STRING_TYPE :=
  by
  refine ⟨_, rfl, rfl, ?_⟩
  exact C9_object_keys_are_strings 10 0 9 (bytes [123, 34, 97, 34, 58, 91, 49, 93, 125] 0)
    4 junk _ (by decide) rfl 0 (Nat.zero_le _) rfl

/-- C10, as stated, fails: on the input `{"a":[1]}` the object descriptor
written at index 0 has `treesize` 3. -/
theorem C10_counterexample :
    ∃ d, JSON 10 0 9 (bytes [123, 34, 97, 34, 58, 91, 49, 93, 125] 0) 4 junk
        = some (JSON_EOK, d) ∧ (d 0).type = JSON_OBJECT_TYPE ∧ ¬ Even (d 0).treesize :=
  ⟨_, rfl, rfl, by decide⟩

/-- C10, amended: after a call that returns `JSON_EOK`, the `treesize` of every
written object descriptor is the number of its immediate children, which is
even, plus the sum of their `treesize`s; so it is even exactly when that sum
is even. -/
theorem C10_object_treesize_parity (fuel b n : Nat) (json : Nat → Nat) (m : Nat)
    (dest d : Nat → struct_JSON) (hm : m < 4294967296)
    (h : JSON fuel b n json m dest = some (JSON_EOK, d)) (i : Nat) (hi : i ≤ (d 0).treesize)
    (hobj : (d i).type = JSON_OBJECT_TYPE) :
    (d i).treesize = (immediate_children d i).length +
        ((immediate_children d i).map (fun j => (d j).treesize)).sum ∧
    Even (immediate_children d i).length ∧
    (Even (d i).treesize ↔ Even ((immediate_children d i).map (fun j => (d j).treesize)).sum) := by
  have hl := ((JSON_region hm h).2.2 i (Nat.zero_le i) (by omega)).2
  obtain ⟨hf, -, hk⟩ := hl.children_spec (Or.inr hobj)
  have hs := hf.length_add_sum
  have hev := (hk hobj).even
  have e : (d i).treesize = (immediate_children d i).length +
      ((immediate_children d i).map (fun j => (d j).treesize)).sum := by omega
  refine ⟨e, hev, ?_⟩
  rw [e, Nat.even_add]
  simp [hev]

theorem C10_object_treesize_parity_witness :
    ∃ d, JSON 10 0 9 (bytes [123, 34, 97, 34, 58, 91, 49, 93, 125] 0) 4 junk
        = some (JSON_EOK, d) ∧ (d 0).type = JSON_OBJECT_TYPE ∧
      (Even (d 0).treesize ↔ Even ((immediate_children d 0).map (fun j => (d j).treesize)).sum) :=
  by
  refine ⟨_, rfl, rfl, ?_⟩
  exact (C10_object_treesize_parity 10 0 9 (bytes [123, 34, 97, 34, 58, 91, 49, 93, 125] 0)
    4 junk _ (by decide) rfl 0 (Nat.zero_le _) rfl).2.2

/-! ### Statements of the specification on the capacity (C2, C7) -/

/-- C2: whatever the return code, a call leaves every entry of `dest` with
index `>= destsize` as it was; when it returns `JSON_EOK`,
`1 + dest[0].treesize <= destsize`, every entry with index `> dest[0].treesize`
is as it was, and the entries `0 .. dest[0].treesize` have all been written:
their final values are the same whatever `dest` held before the call. -/
theorem C2_writes_within_capacity (fuel b n : Nat) (json : Nat → Nat) (m : Nat)
    (dest d : Nat → struct_JSON) (e : JSON_errno_t) (hm : m < 4294967296)
    (h : JSON fuel b n json m dest = some (e, d)) :
    (∀ i, m ≤ i → d i = dest i) ∧
    (e = JSON_EOK →
      1 + (d 0).treesize ≤ m ∧ (∀ i, (d 0).treesize < i → d i = dest i) ∧
      ∀ dest2, ∃ d2, JSON fuel b n json m dest2 = some (JSON_EOK, d2) ∧
        ∀ i, i ≤ (d 0).treesize → d2 i = d i) := by
  have hp := JSON_sound fuel b n json m dest e d hm h
  refine ⟨hp.1, fun he => ?_⟩
  subst he
  obtain ⟨h1, h2, -⟩ := hp.2 rfl
  exact ⟨by omega, h2, fun dest2 => (JSON_indep fuel b n json m dest d hm h m dest2 hm).1 h1⟩

theorem C2_writes_within_capacity_witness :
    ∃ d, JSON 10 0 9 (bytes [91, 49, 44, 32, 50, 44, 32, 51, 93] 0) 6 junk = some (JSON_EOK, d) ∧
      (∀ i, 6 ≤ i → d i = junk i) ∧ 1 + (d 0).treesize ≤ 6 ∧
      (∀ i, (d 0).treesize < i → d i = junk i) := by
  refine ⟨_, rfl, ?_⟩
  have := C2_writes_within_capacity 10 0 9 (bytes [91, 49, 44, 32, 50, 44, 32, 51, 93] 0) 6
    junk _ JSON_EOK (by decide) rfl
  exact ⟨this.1, (this.2 rfl).1, (this.2 rfl).2.1⟩

/-- C7: if a call returns `JSON_EOK` and `N = 1 + dest[0].treesize`, then the
call on the same input with any capacity below `N` (0 included) returns
`JSON_ENOMEM`, whatever the descriptor memory holds. -/
theorem C7_nomem_below_required (fuel b n : Nat) (json : Nat → Nat) (m : Nat)
    (dest d : Nat → struct_JSON) (hm : m < 4294967296)
    (h : JSON fuel b n json m dest = some (JSON_EOK, d))
    (m2 : Nat) (hlt : m2 < 1 + (d 0).treesize) (dest2 : Nat → struct_JSON) :
    ∃ d2, JSON fuel b n json m2 dest2 = some (JSON_ENOMEM, d2) := by
  have h1 := (JSON_region hm h).1
  exact (JSON_indep fuel b n json m dest d hm h m2 dest2 (by omega)).2 (by omega)

theorem C7_nomem_below_required_witness :
    ∃ d2, JSON 20 0 13 (bytes [91, 91, 91, 91, 91, 91, 49, 93, 93, 93, 93, 93, 93] 0) 6 junk
      = some (JSON_ENOMEM, d2) :=
  C7_nomem_below_required 20 0 13 (bytes [91, 91, 91, 91, 91, 91, 49, 93, 93, 93, 93, 93, 93] 0)
    7 junk _ (by decide) rfl 6 (by decide) junk

/-! ### Statements of the specification on the grammar (C5, C6) -/

/-- C6, amended: for an input `ws ++ v ++ ws'` with `ws`, `ws'` whitespace and
`v` derivable from the grammar with listing `ds`, every capacity
`destsize >= ds.length` and enough fuel, `JSON` returns `JSON_EOK`; the
descriptors `0 .. ds.length - 1` are the pre-order listing `ds` of `v`, each
with its offset counted from `baseoffset + |ws|` modulo `2^32`; in particular
`dest[0].offset = (baseoffset + |ws|) mod 2^32`, `dest[0].size = |v|` and
`dest[0].treesize = ds.length - 1`; the entries behind are untouched. -/
theorem C6_complete (fuel b : Nat) (json : Nat → Nat) (m : Nat) (dest : Nat → struct_JSON)
    (ws v ws' : List Nat) (ds : List struct_JSON)
    (hws : WS ws) (hws' : WS ws') (hv : Derives .value v ds)
    (hh : Holds json 0 (ws ++ (v ++ ws')))
    (hn : (ws ++ (v ++ ws')).length < 4294967296) (hm : m < 4294967296)
    (hds : ds.length ≤ m) (hf : (ws ++ (v ++ ws')).length + 1 < fuel) :
    ∃ d, JSON fuel b (ws ++ (v ++ ws')).length json m dest = some (JSON_EOK, d) ∧
      (d 0).offset = u32 (b + ws.length) ∧ (d 0).size = v.length ∧
      (d 0).treesize + 1 = ds.length ∧
      (∀ i s, ds.get? i = some s →
        d i = { s with offset := u32 (b + ws.length + s.offset) }) ∧
      (∀ i, ds.length ≤ i → d i = dest i) := by
  have hg : ValueGoal v ds := hv.goal
  obtain ⟨c, t', d0, rest, hveq, -, -, -, hdeq, h1, h2, h3⟩ := hv.shape
  have hh' := hh
  rw [← List.append_assoc, Holds_append] at hh'
  simp only [List.length_append, Nat.zero_add] at hh' hn hf ⊢
  have hfo : Follow json (ws.length + (v.length + ws'.length)) (ws.length + v.length) := by
    have := follow_trailing json (ws.length + v.length) ws' hws' hh'.2
    rw [Nat.add_assoc] at this
    exact this
  have := hg fuel b (ws.length + (v.length + ws'.length)) json m dest ws hws hh'.1 (by omega)
    hfo hn hm hds hf
  refine ⟨_, this, ?_, ?_, ?_, ?_, ?_⟩
  · have := write_at dest 0 0 (ds.map (reloc (b + ws.length))) (reloc (b + ws.length) d0)
      (by rw [hdeq]; simp)
    simp only [Nat.add_zero] at this
    rw [this]
    simp only [reloc, h1, Nat.add_zero]
  · have := write_at dest 0 0 (ds.map (reloc (b + ws.length))) (reloc (b + ws.length) d0)
      (by rw [hdeq]; simp)
    simp only [Nat.add_zero] at this
    rw [this]
    simp only [reloc, h2]
  · have := write_at dest 0 0 (ds.map (reloc (b + ws.length))) (reloc (b + ws.length) d0)
      (by rw [hdeq]; simp)
    simp only [Nat.add_zero] at this
    rw [this, hdeq]
    simp only [reloc, h3, List.length_cons]
  · intro i s hs
    have := write_at dest 0 i (ds.map (reloc (b + ws.length))) (reloc (b + ws.length) s)
      (by rw [List.get?_eq_getElem?, List.getElem?_map, ← List.get?_eq_getElem?, hs]; rfl)
    simp only [Nat.zero_add] at this
    rw [this]
    rfl
  · intro i hi
    simp only [write, Nat.not_lt_zero, if_false, Nat.sub_zero]
    rw [List.get?_eq_none.2 (by simp only [List.length_map]; omega)]
    rfl

theorem C6_complete_witness :
    ∃ d, JSON 11 100 ([32] ++ ([91, 49, 44, 32, 50, 93] ++ [10])).length
        (bytes [32, 91, 49, 44, 32, 50, 93, 10] 0) 3 junk = some (JSON_EOK, d) ∧
      (d 0).offset = u32 (100 + [32].length) ∧ (d 0).size = [91, 49, 44, 32, 50, 93].length := by
  have n1 : IsNumber [49] :=
    ⟨[], [49], [], [], rfl, Or.inl rfl, Or.inr ⟨49, [], rfl, by omega, by omega,
      fun x hx => by cases hx⟩, Or.inl rfl, Or.inl rfl⟩
  have n2 : IsNumber [50] :=
    ⟨[], [50], [], [], rfl, Or.inl rfl, Or.inr ⟨50, [], rfl, by omega, by omega,
      fun x hx => by cases hx⟩, Or.inl rfl, Or.inl rfl⟩
  have wnil : WS [] := fun x hx => by cases hx
  have w32 : WS [32] := fun x hx => by
    simp only [List.mem_singleton] at hx
    subst hx
    exact Or.inl rfl
  have w10 : WS [10] := fun x hx => by
    simp only [List.mem_singleton] at hx
    subst hx
    exact Or.inr (Or.inr (Or.inr rfl))
  have hd : Derives .value [91, 49, 44, 32, 50, 93] _ :=
    Derives.array [] _ _ wnil
      (Derives.elements_cons [49] [] [32] _ _ _ (Derives.number _ n1) wnil w32
        (Derives.elements_one [50] [] _ (Derives.number _ n2) wnil))
  obtain ⟨d, h1, h2, h3, -⟩ := C6_complete 11 100 (bytes [32, 91, 49, 44, 32, 50, 93, 10] 0) 3
    junk [32] [91, 49, 44, 32, 50, 93] [10] _ w32 w10 hd
    ⟨rfl, rfl, rfl, rfl, rfl, rfl, rfl, rfl, trivial⟩ (by decide) (by decide) (by decide)
    (by decide)
  exact ⟨d, h1, h2, h3⟩

/-- C6, as stated, fails: with `baseoffset = 2^32 - 1` and the input ` 1`
(one space, then the number `1`) `JSON` returns `JSON_EOK` with
`dest[0].offset = 0`, which is not `baseoffset + |ws| = 2^32`. -/
theorem C6_counterexample :
    ∃ d, JSON 4 4294967295 2 (bytes [32, 49] 0) 1 junk = some (JSON_EOK, d) ∧
      WS [32] ∧ Derives .value [49] [⟨0, 1, 0, JSON_NUMBER_TYPE⟩] ∧
      Holds (bytes [32, 49] 0) 0 ([32] ++ ([49] ++ [])) ∧
      (d 0).offset = 0 ∧ (d 0).offset ≠ 4294967295 + [32].length := by
  refine ⟨_, rfl, ?_, ?_, ?_, rfl, by decide⟩
  · intro x hx
    simp only [List.mem_singleton] at hx
    subst hx
    exact Or.inl rfl
  · exact Derives.number [49] ⟨[], [49], [], [], rfl, Or.inl rfl,
      Or.inr ⟨49, [], rfl, by omega, by omega, fun x hx => by cases hx⟩, Or.inl rfl, Or.inl rfl⟩
  · exact ⟨rfl, rfl, trivial⟩

/-- C5 fails on the code: with `jsonsize = 2`, the input bytes `"\` and the
bytes `"\x"` behind them, the call returns `JSON_EOK` with a string descriptor
of offset 0 and size 6, and the 6 bytes it delimits, `"\"\x"`, are not
derivable from the grammar (`\x` is no escape).  (Without the read behind the
input only values of the grammar are accepted: `JSON_accepts_grammar`.) -/
theorem C5_accepts_underivable :
    ∃ d, JSON 7 0 2 (bytes [34, 92, 34, 92, 120, 34] 0) 1 junk = some (JSON_EOK, d) ∧
      (d 0).type = JSON_STRING_TYPE ∧ 2 < (d 0).size ∧
      ¬ ∃ ds, Derives .value
        (slice (bytes [34, 92, 34, 92, 120, 34] 0) ((d 0).offset - 0) (d 0).size) ds := by
  refine ⟨_, rfl, rfl, by decide, ?_⟩
  rintro ⟨ds, h⟩
  have e : slice (bytes [34, 92, 34, 92, 120, 34] 0) 0 6 = [34, 92, 34, 92, 120, 34] := by decide
  change Derives .value (slice (bytes [34, 92, 34, 92, 120, 34] 0) 0 6) ds at h
  rw [e] at h
  obtain ⟨c, t', d0, rest, hveq, -⟩ := h.shape
  generalize ht : ([34, 92, 34, 92, 120, 34] : List Nat) = t at h
  cases h with
  | null => simp at ht
  | true_ => simp at ht
  | false_ => simp at ht
  | number t hn =>
    obtain ⟨c, v, rfl, hc⟩ := hn.head
    simp only [List.cons.injEq] at ht
    omega
  | string t hs =>
    obtain ⟨body, rfl, hb⟩ := hs
    simp only [List.cons.injEq, true_and] at ht
    have : body = [92, 34, 92, 120] := by
      have h2 : [92, 34, 92, 120] ++ [34] = body ++ [34] := by simpa using ht
      exact (List.append_cancel_right h2).symm
    subst this
    exact StrBody.not_bad hb
  | array_empty w _ => simp at ht
  | array w t ds _ _ => simp at ht
  | object_empty w _ => simp at ht
  | object w t ds _ _ => simp at ht

/-! ### Statements of the specification decided by the read behind the input (C3, C4, C8) -/

/-- C4 fails on the code: with `jsonsize = 2` and the two input bytes `"\`,
the byte at index 2 decides the result.  Followed by `x` the call returns
`JSON_ESESC`; followed by `""` it returns `JSON_EOK`.  (On inputs that do not
end right behind a backslash the result depends on the input bytes only:
`JSON_reads_within`.) -/
theorem C4_reads_past_jsonsize :
    (∀ i, i < 2 → bytes [34, 92, 120] 0 i = bytes [34, 92, 34, 34] 0 i) ∧
    (JSON 3 0 2 (bytes [34, 92, 120] 0) 1 junk).map Prod.fst = some JSON_ESESC ∧
    (JSON 3 0 2 (bytes [34, 92, 34, 34] 0) 1 junk).map Prod.fst = some JSON_EOK :=
  ⟨by decide, rfl, rfl⟩

/-- C3 fails on the code: with `baseoffset = 0`, `jsonsize = 2`, the input
bytes `"\` and the bytes `""` behind them, the call returns `JSON_EOK` with a
string descriptor of offset 0 and size 4.  (Without the read behind the input
the descriptors lie within the input: `JSON_within_input`.) -/
theorem C3_descriptor_exceeds_input :
    ∃ d, JSON 3 0 2 (bytes [34, 92, 34, 34] 0) 1 junk = some (JSON_EOK, d) ∧
      0 + 2 < 4294967296 ∧ (d 0).offset = 0 ∧ (d 0).size = 4 ∧
      ¬ ((d 0).offset + (d 0).size ≤ 0 + 2) :=
  ⟨_, rfl, by decide, rfl, rfl, by decide⟩

/-- C8 fails on the code: with `jsonsize = 2`, the input bytes `"\` and the
bytes `"\x"` behind them, the call returns `JSON_EOK` with a string descriptor
of offset 0 and size 6, and the call on exactly these 6 bytes returns
`JSON_ESESC`.  (Without the read behind the input re-slicing gives the same
descriptors: `JSON_reslice`.) -/
theorem C8_reslice_differs :
    ∃ d, JSON 7 0 2 (bytes [34, 92, 34, 92, 120, 34] 0) 1 junk = some (JSON_EOK, d) ∧
      (d 0).size = 6 ∧
      (JSON 7 (d 0).offset (d 0).size (shift (bytes [34, 92, 34, 92, 120, 34] 0)
        (usub (d 0).offset 0)) (1 + (d 0).treesize) junk).map Prod.fst = some JSON_ESESC :=
  ⟨_, rfl, rfl, rfl⟩

/-! ### Two runs with different base offsets -/

theorem u32_rebase {b1 b2 c : Nat} (hb : u32 b2 = u32 (b1 + c)) (x : Nat) :
    u32 (x + b2) = u32 (u32 (x + b1) + c) := by
  unfold u32 at hb ⊢
  omega

theorem u32_rebase_sub {b1 b2 c : Nat} (hb : u32 b2 = u32 (b1 + c)) (x : Nat) :
    u32 (u32 (b2 + x)) = u32 (u32 (b1 + x) + c) := by
  unfold u32 at hb ⊢
  omega

theorem subcall_rebase {self : Callee} (hr : Rebasing self) {b1 b2 c n : Nat}
    {json : Nat → Nat} {m pos destpos : Nat} {dest1 d1 : Nat → struct_JSON} {e : JSON_errno_t}
    (dest2 : Nat → struct_JSON) (hb : u32 b2 = u32 (b1 + c))
    (h : subcall self b1 n json m pos destpos dest1 = some (e, d1)) :
    ∃ d2, subcall self b2 n json m pos destpos dest2 = some (e, d2) ∧
      (∀ i, i < destpos → d2 i = dest2 i) ∧
      (e = JSON_EOK → ∀ i, destpos ≤ i → i ≤ destpos + (d1 destpos).treesize →
        d2 i = rebase c (d1 i)) := by
  unfold subcall at h ⊢
  cases hself : self (u32 (b1 + pos)) (usub n pos) (shift json pos) (usub m destpos)
      (shift dest1 destpos) with
  | none => simp [hself] at h
  | some r =>
    obtain ⟨e', sub1⟩ := r
    simp only [hself, Option.some.injEq, Prod.mk.injEq] at h
    obtain ⟨rfl, rfl⟩ := h
    obtain ⟨sub2, h2, hag⟩ := hr _ (u32 (b2 + pos)) c _ _ _ _ (shift dest2 destpos) _ _
      (usub_lt _ _) (u32_rebase_sub hb pos) hself
    rw [h2]
    refine ⟨_, rfl, fun i hi => by simp [unshift, hi], fun he i h1 h2 => ?_⟩
    have h0 : unshift dest1 destpos sub1 destpos = sub1 0 := by simp [unshift]
    rw [h0] at h2
    simp only [unshift]
    rw [if_neg (by omega), if_neg (by omega)]
    exact hag he _ (by omega)

theorem value_block_rebase {self : Callee} (hs : Sound self) (hr : Rebasing self)
    {b1 b2 c n : Nat} {json : Nat → Nat} {m : Nat} {s1 : Frame} {l : List Nat}
    (dest2 : Nat → struct_JSON) (hm : m < 4294967296) (hb : u32 b2 = u32 (b1 + c))
    (hinv : Inv m s1 l)
    (hag : ∀ i, 1 ≤ i → i < s1.destpos → dest2 i = rebase c (s1.dest i)) :
    (∀ e d, value_block self b1 n json m s1 = some (.error (e, d)) →
      ∃ d2, value_block self b2 n json m { s1 with dest := dest2 } = some (.error (e, d2))) ∧
    (∀ s1', value_block self b1 n json m s1 = some (.ok s1') →
      ∃ d2, value_block self b2 n json m { s1 with dest := dest2 }
          = some (.ok { s1' with dest := d2 }) ∧
        ∀ i, 1 ≤ i → i < s1'.destpos → d2 i = rebase c (s1'.dest i)) := by
  constructor
  · intro e d h
    unfold value_block at h ⊢
    cases hsub : subcall self b1 n json m s1.pos s1.destpos s1.dest with
    | none => simp [hsub] at h
    | some r =>
      obtain ⟨e', d'⟩ := r
      simp only [hsub] at h
      by_cases he : e' ≠ JSON_EOK
      · rw [if_pos he] at h
        simp only [Option.some.injEq, Except.error.injEq, Prod.mk.injEq] at h
        obtain ⟨rfl, rfl⟩ := h
        obtain ⟨d2, h2, -⟩ := subcall_rebase hr dest2 hb hsub
        dsimp only
        rw [h2]
        dsimp only
        rw [if_pos he]
        exact ⟨_, rfl⟩
      · rw [if_neg he] at h
        simp at h
  · intro s1' h
    obtain ⟨hsub, hinv', hdp, hts, hpos, hlow, hfr⟩ := value_block_ok hs hm hinv h
    obtain ⟨d2, h2, hl2, hag2⟩ := subcall_rebase hr dest2 hb hsub
    have i3 := hinv.2.2.1
    have i2 := hinv'.2.1
    refine ⟨d2, ?_, fun i hi1 hi2 => ?_⟩
    · unfold value_block
      dsimp only
      rw [h2]
      dsimp only
      have e0 : d2 s1.destpos = rebase c (s1'.dest s1.destpos) :=
        hag2 rfl _ (Nat.le_refl _) (by omega)
      rw [if_neg (by simp), e0]
      simp only [rebase]
      have hu1 : u32 ((s1'.dest s1.destpos).treesize + 1) = (s1'.dest s1.destpos).treesize + 1 :=
        u32_of_lt (by omega)
      have hu2 : u32 (s1.destpos + ((s1'.dest s1.destpos).treesize + 1)) = s1'.destpos := by
        rw [u32_of_lt (by omega)]; omega
      have hu3 : u32 (s1.treesize + ((s1'.dest s1.destpos).treesize + 1)) = s1'.treesize := by
        rw [u32_of_lt (by omega)]; omega
      rw [hu1, hu2, hu3, ← hpos]
    · by_cases hlt : i < s1.destpos
      · rw [hl2 i hlt, hag i hi1 hlt, hlow i hlt]
      · exact hag2 rfl i (by omega) (by omega)

theorem key_block_rebase {self : Callee} (hs : Sound self) (hr : Rebasing self)
    {b1 b2 c n : Nat} {json : Nat → Nat} {m : Nat} {s1 : Frame} {l : List Nat}
    (dest2 : Nat → struct_JSON) (hm : m < 4294967296) (hb : u32 b2 = u32 (b1 + c))
    (hinv : Inv m s1 l)
    (hag : ∀ i, 1 ≤ i → i < s1.destpos → dest2 i = rebase c (s1.dest i)) :
    (∀ e d, key_block self b1 n json m s1 = some (.error (e, d)) →
      ∃ d2, key_block self b2 n json m { s1 with dest := dest2 } = some (.error (e, d2))) ∧
    (∀ s1', key_block self b1 n json m s1 = some (.ok s1') →
      ∃ d2, key_block self b2 n json m { s1 with dest := dest2 }
          = some (.ok { s1' with dest := d2 }) ∧
        ∀ i, 1 ≤ i → i < s1'.destpos → d2 i = rebase c (s1'.dest i)) := by
  constructor
  · intro e d h
    unfold key_block at h ⊢
    cases hsub : subcall self b1 n json m s1.pos s1.destpos s1.dest with
    | none => simp [hsub] at h
    | some r =>
      obtain ⟨e', d'⟩ := r
      simp only [hsub] at h
      obtain ⟨d2, h2, -, hag2⟩ := subcall_rebase hr dest2 hb hsub
      dsimp only
      rw [h2]
      dsimp only
      by_cases he : e' ≠ JSON_EOK
      · rw [if_pos he] at h
        simp only [Option.some.injEq, Except.error.injEq, Prod.mk.injEq] at h
        obtain ⟨rfl, rfl⟩ := h
        rw [if_pos he]
        exact ⟨_, rfl⟩
      · rw [if_neg he] at h
        rw [if_neg he]
        have he' : e' = JSON_EOK := by
          by_contra hne
          exact he hne
        have e0 : d2 s1.destpos = rebase c (d' s1.destpos) :=
          hag2 he' _ (Nat.le_refl _) (by omega)
        by_cases hty : (d' s1.destpos).type ≠ JSON_STRING_TYPE
        · rw [if_pos hty] at h
          simp only [Option.some.injEq, Except.error.injEq, Prod.mk.injEq] at h
          obtain ⟨rfl, rfl⟩ := h
          rw [e0, if_pos (by simpa [rebase] using hty)]
          exact ⟨_, rfl⟩
        · rw [if_neg hty] at h
          simp at h
  · intro s1' h
    obtain ⟨hsub, hinv', hstr, hkt, hdp, hts, hpos, hlow, hfr⟩ := key_block_ok hs hm hinv h
    obtain ⟨d2, h2, hl2, hag2⟩ := subcall_rebase hr dest2 hb hsub
    have i3 := hinv.2.2.1
    have i2 := hinv'.2.1
    refine ⟨d2, ?_, fun i hi1 hi2 => ?_⟩
    · unfold key_block
      dsimp only
      rw [h2]
      dsimp only
      have e0 : d2 s1.destpos = rebase c (s1'.dest s1.destpos) :=
        hag2 rfl _ (Nat.le_refl _) (by omega)
      rw [if_neg (by simp), e0, if_neg (by simp [rebase, hstr])]
      simp only [rebase]
      have hu2 : u32 (s1.destpos + 1) = s1'.destpos := by
        rw [u32_of_lt (by omega)]; omega
      have hu3 : u32 (s1.treesize + 1) = s1'.treesize := by
        rw [u32_of_lt (by omega)]; omega
      rw [hu2, hu3, ← hpos]
    · by_cases hlt : i < s1.destpos
      · rw [hl2 i hlt, hag i hi1 hlt, hlow i hlt]
      · exact hag2 rfl i (by omega) (by omega)

theorem array_loop_rebase {self : Callee} (hs : Sound self) (hr : Rebasing self)
    (fuel b1 b2 c n : Nat) (json : Nat → Nat) (m start : Nat) (hm : m < 4294967296)
    (hb : u32 b2 = u32 (b1 + c)) :
    ∀ (iter : Nat) (s1 : Frame) (l : List Nat) (dest2 : Nat → struct_JSON) (e : JSON_errno_t)
      (d1 : Nat → struct_JSON), Inv m s1 l →
      (∀ i, 1 ≤ i → i < s1.destpos → dest2 i = rebase c (s1.dest i)) →
      array_loop self fuel b1 n json m start iter s1 = some (e, d1) →
      ∃ d2, array_loop self fuel b2 n json m start iter { s1 with dest := dest2 } = some (e, d2) ∧
        (e = JSON_EOK → ∀ i, i ≤ (d1 0).treesize → d2 i = rebase c (d1 i))
  | 0, _, _, _, _, _, _, _, h => by simp [array_loop] at h
  | iter + 1, s1, l, dest2, e, d1, hinv, hag, h => by
    rw [array_loop] at h
    rw [array_loop]
    dsimp only
    cases hw1 : whitespace json fuel s1.pos n with
    | none => simp [hw1] at h
    | some pos1 =>
    simp only [hw1] at h
    dsimp only
    have hinv1 : Inv m { s1 with pos := pos1 } l := hinv
    obtain ⟨hve, hvo⟩ := @value_block_rebase _ hs hr b1 _ _ n json _ _ _ dest2 hm hb
      hinv1 hag
    cases hvb : value_block self b1 n json m { s1 with pos := pos1 } with
    | none => simp [hvb] at h
    | some r =>
    cases r with
    | error r =>
      obtain ⟨e', d'⟩ := r
      simp only [hvb, Option.some.injEq, Prod.mk.injEq] at h
      obtain ⟨rfl, rfl⟩ := h
      obtain ⟨d2, h2⟩ := hve _ _ hvb
      dsimp only at h2
      rw [h2]
      exact ⟨_, rfl, fun he => absurd he (value_block_error hs hm hinv1 hvb).1⟩
    | ok s1' =>
      simp only [hvb] at h
      obtain ⟨d2', h2, hag2⟩ := hvo _ hvb
      dsimp only at h2
      rw [h2]
      dsimp only
      obtain ⟨-, hinv2, -⟩ := value_block_ok hs hm hinv1 hvb
      have i3 := hinv2.2.2.1
      cases hw2 : whitespace json fuel s1'.pos n with
      | none => simp [hw2] at h
      | some pos2 =>
      simp only [hw2] at h
      dsimp only
      by_cases c1 : pos2 = n
      · rw [if_pos c1] at h
        rw [if_pos c1]
        simp only [Option.some.injEq, Prod.mk.injEq] at h
        obtain ⟨rfl, rfl⟩ := h
        exact ⟨_, rfl, fun he => by cases he⟩
      rw [if_neg c1] at h
      rw [if_neg c1]
      by_cases c2 : json pos2 = 44
      · rw [if_pos c2] at h
        rw [if_pos c2]
        have hinv3 : Inv m { s1' with pos := pos2 + 1 } (l ++ [s1.destpos]) := hinv2
        exact array_loop_rebase hs hr fuel b1 b2 c n json m start hm hb iter _ _ d2' e d1 hinv3
          hag2 h
      rw [if_neg c2] at h
      rw [if_neg c2]
      by_cases c3 : json pos2 ≠ 93
      · rw [if_pos c3] at h
        rw [if_pos c3]
        simp only [Option.some.injEq, Prod.mk.injEq] at h
        obtain ⟨rfl, rfl⟩ := h
        exact ⟨_, rfl, fun he => by cases he⟩
      rw [if_neg c3] at h
      rw [if_neg c3]
      simp only [Option.some.injEq, Prod.mk.injEq] at h
      obtain ⟨rfl, rfl⟩ := h
      refine ⟨_, rfl, fun _ i hi => ?_⟩
      rw [store_zero] at hi
      dsimp only at hi
      by_cases h0 : i = 0
      · subst h0
        rw [store_zero, store_zero]
        simp only [rebase]
        rw [u32_rebase hb]
      · rw [store_pos _ _ (by omega), store_pos _ _ (by omega)]
        exact hag2 i (by omega) (by omega)

theorem object_loop_rebase {self : Callee} (hs : Sound self) (hr : Rebasing self)
    (fuel b1 b2 c n : Nat) (json : Nat → Nat) (m start : Nat) (hm : m < 4294967296)
    (hb : u32 b2 = u32 (b1 + c)) :
    ∀ (iter : Nat) (s1 : Frame) (l : List Nat) (dest2 : Nat → struct_JSON) (e : JSON_errno_t)
      (d1 : Nat → struct_JSON), Inv m s1 l →
      (∀ i, 1 ≤ i → i < s1.destpos → dest2 i = rebase c (s1.dest i)) →
      object_loop self fuel b1 n json m start iter s1 = some (e, d1) →
      ∃ d2, object_loop self fuel b2 n json m start iter { s1 with dest := dest2 } = some (e, d2) ∧
        (e = JSON_EOK → ∀ i, i ≤ (d1 0).treesize → d2 i = rebase c (d1 i))
  | 0, _, _, _, _, _, _, _, h => by simp [object_loop] at h
  | iter + 1, s1, l, dest2, e, d1, hinv, hag, h => by
    rw [object_loop] at h
    rw [object_loop]
    dsimp only
    cases hw1 : whitespace json fuel s1.pos n with
    | none => simp [hw1] at h
    | some pos1 =>
    simp only [hw1] at h
    dsimp only
    have hinv1 : Inv m { s1 with pos := pos1 } l := hinv
    obtain ⟨hke, hko⟩ := @key_block_rebase _ hs hr b1 _ _ n json _ _ _ dest2 hm hb
      hinv1 hag
    cases hkb : key_block self b1 n json m { s1 with pos := pos1 } with
    | none => simp [hkb] at h
    | some r =>
    cases r with
    | error r =>
      obtain ⟨e', d'⟩ := r
      simp only [hkb, Option.some.injEq, Prod.mk.injEq] at h
      obtain ⟨rfl, rfl⟩ := h
      obtain ⟨d2, h2⟩ := hke _ _ hkb
      dsimp only at h2
      rw [h2]
      exact ⟨_, rfl, fun he => absurd he (key_block_error hs hm hinv1 hkb).1⟩
    | ok s1' =>
    simp only [hkb] at h
    obtain ⟨d2', h2, hag2⟩ := hko _ hkb
    dsimp only at h2
    rw [h2]
    dsimp only
    obtain ⟨-, hinv2, -⟩ := key_block_ok hs hm hinv1 hkb
    cases hw2 : whitespace json fuel s1'.pos n with
    | none => simp [hw2] at h
    | some pos2 =>
    simp only [hw2] at h
    dsimp only
    by_cases c1 : pos2 = n
    · rw [if_pos c1] at h
      rw [if_pos c1]
      simp only [Option.some.injEq, Prod.mk.injEq] at h
      obtain ⟨rfl, rfl⟩ := h
      exact ⟨_, rfl, fun he => by cases he⟩
    rw [if_neg c1] at h
    rw [if_neg c1]
    by_cases c2 : json pos2 ≠ 58
    · rw [if_pos c2] at h
      rw [if_pos c2]
      simp only [Option.some.injEq, Prod.mk.injEq] at h
      obtain ⟨rfl, rfl⟩ := h
      exact ⟨_, rfl, fun he => by cases he⟩
    rw [if_neg c2] at h
    rw [if_neg c2]
    cases hw3 : whitespace json fuel (pos2 + 1) n with
    | none => simp [hw3] at h
    | some pos3 =>
    simp only [hw3] at h
    dsimp only
    have hinv3 : Inv m { s1' with pos := pos3 } (l ++ [s1.destpos]) := hinv2
    obtain ⟨hve, hvo⟩ := @value_block_rebase _ hs hr b1 _ _ n json _ _ _ d2' hm hb
      hinv3 hag2
    cases hvb : value_block self b1 n json m { s1' with pos := pos3 } with
    | none => simp [hvb] at h
    | some r =>
    cases r with
    | error r =>
      obtain ⟨e', d'⟩ := r
      simp only [hvb, Option.some.injEq, Prod.mk.injEq] at h
      obtain ⟨rfl, rfl⟩ := h
      obtain ⟨d2, h3⟩ := hve _ _ hvb
      dsimp only at h3
      rw [h3]
      exact ⟨_, rfl, fun he => absurd he (value_block_error hs hm hinv3 hvb).1⟩
    | ok s2' =>
    simp only [hvb] at h
    obtain ⟨d3', h3, hag3⟩ := hvo _ hvb
    dsimp only at h3
    rw [h3]
    dsimp only
    obtain ⟨-, hinv4, -⟩ := value_block_ok hs hm hinv3 hvb
    have i3 := hinv4.2.2.1
    cases hw4 : whitespace json fuel s2'.pos n with
    | none => simp [hw4] at h
    | some pos4 =>
    simp only [hw4] at h
    dsimp only
    by_cases c3 : pos4 = n
    · rw [if_pos c3] at h
      rw [if_pos c3]
      simp only [Option.some.injEq, Prod.mk.injEq] at h
      obtain ⟨rfl, rfl⟩ := h
      exact ⟨_, rfl, fun he => by cases he⟩
    rw [if_neg c3] at h
    rw [if_neg c3]
    by_cases c4 : json pos4 = 44
    · rw [if_pos c4] at h
      rw [if_pos c4]
      have hinv5 : Inv m { s2' with pos := pos4 + 1 }
          (l ++ [s1.destpos] ++ [s1'.destpos]) := hinv4
      exact object_loop_rebase hs hr fuel b1 b2 c n json m start hm hb iter _ _ d3' e d1 hinv5
        hag3 h
    rw [if_neg c4] at h
    rw [if_neg c4]
    by_cases c5 : json pos4 ≠ 125
    · rw [if_pos c5] at h
      rw [if_pos c5]
      simp only [Option.some.injEq, Prod.mk.injEq] at h
      obtain ⟨rfl, rfl⟩ := h
      exact ⟨_, rfl, fun he => by cases he⟩
    rw [if_neg c5] at h
    rw [if_neg c5]
    simp only [Option.some.injEq, Prod.mk.injEq] at h
    obtain ⟨rfl, rfl⟩ := h
    refine ⟨_, rfl, fun _ i hi => ?_⟩
    rw [store_zero] at hi
    dsimp only at hi
    by_cases h0 : i = 0
    · subst h0
      rw [store_zero, store_zero]
      simp only [rebase]
      rw [u32_rebase hb]
    · rw [store_pos _ _ (by omega), store_pos _ _ (by omega)]
      exact hag3 i (by omega) (by omega)

/-- A leaf descriptor stored in slot 0 by two runs whose base offsets differ
by `c`. -/
theorem leaf_rebase {b1 b2 c : Nat} (hb : u32 b2 = u32 (b1 + c)) (dest1 dest2 : Nat → struct_JSON)
    (x sz : Nat) (ty : JSON_type_t) (i : Nat)
    (hi : i ≤ (store dest1 0 ⟨u32 (x + b1), sz, 0, ty⟩ 0).treesize) :
    store dest2 0 ⟨u32 (x + b2), sz, 0, ty⟩ i =
      rebase c (store dest1 0 ⟨u32 (x + b1), sz, 0, ty⟩ i) := by
  rw [store_zero] at hi
  have : i = 0 := by
    dsimp only at hi
    omega
  subst this
  rw [store_zero, store_zero]
  simp only [rebase]
  rw [u32_rebase hb]

theorem JSON_keyword_rebase {b1 b2 c : Nat} (hb : u32 b2 = u32 (b1 + c)) (n : Nat)
    (json : Nat → Nat) (dest1 dest2 : Nat → struct_JSON) (pos : Nat) (rest : List Nat)
    (ty : JSON_type_t) (e : JSON_errno_t) (d1 : Nat → struct_JSON)
    (h : some (JSON_keyword b1 n json dest1 pos rest ty) = some (e, d1)) :
    ∃ d2, some (JSON_keyword b2 n json dest2 pos rest ty) = some (e, d2) ∧
      (e = JSON_EOK → ∀ i, i ≤ (d1 0).treesize → d2 i = rebase c (d1 i)) := by
  unfold JSON_keyword at h ⊢
  dsimp only at h ⊢
  by_cases c1 : pos + (rest.length + 1) > n
  · rw [if_pos c1] at h
    rw [if_pos c1]
    simp only [Option.some.injEq, Prod.mk.injEq] at h
    obtain ⟨rfl, rfl⟩ := h
    exact ⟨_, rfl, fun he => by cases he⟩
  rw [if_neg c1] at h
  rw [if_neg c1]
  by_cases c2 : (List.range rest.length).all (fun i => json (pos + 1 + i) == rest.getD i 0) = true
  · rw [if_pos c2] at h
    rw [if_pos c2]
    simp only [Option.some.injEq, Prod.mk.injEq] at h
    obtain ⟨rfl, rfl⟩ := h
    exact ⟨_, rfl, fun _ i hi => leaf_rebase hb dest1 dest2 _ _ _ i hi⟩
  · rw [if_neg c2] at h
    rw [if_neg c2]
    simp only [Option.some.injEq, Prod.mk.injEq] at h
    obtain ⟨rfl, rfl⟩ := h
    exact ⟨_, rfl, fun he => by cases he⟩

/-- A change of the base offset changes nothing but the offsets stored. -/
theorem JSON_rebase : ∀ fuel, Rebasing (JSON fuel)
  | 0 => by
    intro b1 b2 c n json m dest1 dest2 e d1 _ _ h
    simp [JSON] at h
  | fuel + 1 => by
    intro b1 b2 c n json m dest1 dest2 e d1 hm hb h
    have ih := JSON_rebase fuel
    have hs := JSON_sound fuel
    rw [JSON] at h
    rw [JSON]
    cases hw0 : whitespace json fuel 0 n with
    | none => simp [hw0] at h
    | some pos =>
    simp only [hw0] at h
    dsimp only
    by_cases c1 : pos = n
    · rw [if_pos c1] at h
      rw [if_pos c1]
      simp only [Option.some.injEq, Prod.mk.injEq] at h
      obtain ⟨rfl, rfl⟩ := h
      exact ⟨_, rfl, fun he => by cases he⟩
    rw [if_neg c1] at h
    rw [if_neg c1]
    by_cases c2 : 0 = m
    · rw [if_pos c2] at h
      rw [if_pos c2]
      simp only [Option.some.injEq, Prod.mk.injEq] at h
      obtain ⟨rfl, rfl⟩ := h
      exact ⟨_, rfl, fun he => by cases he⟩
    rw [if_neg c2] at h
    rw [if_neg c2]
    have hm0 : 0 < m := by omega
    by_cases c3 : json pos = 123
    · rw [if_pos c3] at h
      rw [if_pos c3]
      unfold JSON_object at h ⊢
      cases hw1 : whitespace json fuel (pos + 1) n with
      | none => simp [hw1] at h
      | some pos1 =>
      simp only [hw1] at h
      dsimp only
      by_cases k1 : pos1 = n
      · rw [if_pos k1] at h
        rw [if_pos k1]
        simp only [Option.some.injEq, Prod.mk.injEq] at h
        obtain ⟨rfl, rfl⟩ := h
        exact ⟨_, rfl, fun he => by cases he⟩
      rw [if_neg k1] at h
      rw [if_neg k1]
      by_cases k2 : json pos1 = 125
      · rw [if_pos k2] at h
        rw [if_pos k2]
        simp only [Option.some.injEq, Prod.mk.injEq] at h
        obtain ⟨rfl, rfl⟩ := h
        exact ⟨_, rfl, fun _ i hi => leaf_rebase hb dest1 dest2 _ _ _ i hi⟩
      rw [if_neg k2] at h
      rw [if_neg k2]
      exact object_loop_rebase hs ih fuel b1 b2 c n json m pos hm hb fuel _ [] dest2 e d1
        (Inv.init m _ dest1 hm0) (fun i h1 h2 => by
          rw [show u32 (0 + 1) = 1 from rfl] at h2
          dsimp only at h2
          omega) h
    rw [if_neg c3] at h
    rw [if_neg c3]
    by_cases c4 : json pos = 91
    · rw [if_pos c4] at h
      rw [if_pos c4]
      unfold JSON_array at h ⊢
      cases hw1 : whitespace json fuel (pos + 1) n with
      | none => simp [hw1] at h
      | some pos1 =>
      simp only [hw1] at h
      dsimp only
      by_cases k1 : pos1 = n
      · rw [if_pos k1] at h
        rw [if_pos k1]
        simp only [Option.some.injEq, Prod.mk.injEq] at h
        obtain ⟨rfl, rfl⟩ := h
        exact ⟨_, rfl, fun he => by cases he⟩
      rw [if_neg k1] at h
      rw [if_neg k1]
      by_cases k2 : json pos1 = 93
      · rw [if_pos k2] at h
        rw [if_pos k2]
        simp only [Option.some.injEq, Prod.mk.injEq] at h
        obtain ⟨rfl, rfl⟩ := h
        exact ⟨_, rfl, fun _ i hi => leaf_rebase hb dest1 dest2 _ _ _ i hi⟩
      rw [if_neg k2] at h
      rw [if_neg k2]
      exact array_loop_rebase hs ih fuel b1 b2 c n json m pos hm hb fuel _ [] dest2 e d1
        (Inv.init m _ dest1 hm0) (fun i h1 h2 => by
          rw [show u32 (0 + 1) = 1 from rfl] at h2
          dsimp only at h2
          omega) h
    rw [if_neg c4] at h
    rw [if_neg c4]
    by_cases c5 : json pos = 34
    · rw [if_pos c5] at h
      rw [if_pos c5]
      unfold JSON_string at h ⊢
      cases hl : string_loop json n fuel (pos + 1) with
      | none => simp [hl] at h
      | some r =>
        cases r with
        | error e' =>
          simp only [hl, Option.some.injEq, Prod.mk.injEq] at h
          obtain ⟨rfl, rfl⟩ := h
          exact ⟨_, rfl, fun he => absurd he (string_loop_error json n fuel _ _ hl)⟩
        | ok q =>
          simp only [hl, Option.some.injEq, Prod.mk.injEq] at h
          obtain ⟨rfl, rfl⟩ := h
          exact ⟨_, rfl, fun _ i hi => leaf_rebase hb dest1 dest2 _ _ _ i hi⟩
    rw [if_neg c5] at h
    rw [if_neg c5]
    by_cases c6 : json pos = 45 ∨ (48 ≤ json pos ∧ json pos ≤ 57)
    · rw [if_pos c6] at h
      rw [if_pos c6]
      unfold JSON_number at h ⊢
      cases hl : number_scan fuel n json pos with
      | none => simp [hl] at h
      | some r =>
        cases r with
        | error e' =>
          simp only [hl, Option.some.injEq, Prod.mk.injEq] at h
          obtain ⟨rfl, rfl⟩ := h
          refine ⟨_, rfl, fun he => ?_⟩
          have := number_scan_error fuel n json _ _ hl
          rw [this] at he
          cases he
        | ok q =>
          simp only [hl, Option.some.injEq, Prod.mk.injEq] at h
          obtain ⟨rfl, rfl⟩ := h
          exact ⟨_, rfl, fun _ i hi => leaf_rebase hb dest1 dest2 _ _ _ i hi⟩
    rw [if_neg c6] at h
    rw [if_neg c6]
    by_cases c7 : json pos = 116
    · rw [if_pos c7] at h
      rw [if_pos c7]
      exact JSON_keyword_rebase hb n json dest1 dest2 pos _ _ e d1 h
    rw [if_neg c7] at h
    rw [if_neg c7]
    by_cases c8 : json pos = 102
    · rw [if_pos c8] at h
      rw [if_pos c8]
      exact JSON_keyword_rebase hb n json dest1 dest2 pos _ _ e d1 h
    rw [if_neg c8] at h
    rw [if_neg c8]
    by_cases c9 : json pos = 110
    · rw [if_pos c9] at h
      rw [if_pos c9]
      exact JSON_keyword_rebase hb n json dest1 dest2 pos _ _ e d1 h
    rw [if_neg c9] at h
    rw [if_neg c9]
    simp only [Option.some.injEq, Prod.mk.injEq] at h
    obtain ⟨rfl, rfl⟩ := h
    exact ⟨_, rfl, fun he => by cases he⟩

/-! ### The dispatcher -/

/-- The first call of `whitespace` in `JSON` on an input that starts with the
whitespace `w`. -/
theorem whitespace_first (json : Nat → Nat) (n fuel : Nat) (w : List Nat) (hw : WS w)
    (hh : Holds json 0 w) (hle : w.length ≤ n)
    (hstop : w.length = n ∨ ¬ is_space (json w.length)) (hf : w.length < fuel) :
    whitespace json fuel 0 n = some w.length := by
  have := whitespace_skip json n w fuel 0 hw hh (by simpa using hstop) (by omega) hf
  simpa using this

/-! ### The scan of a string, event by event -/

/-- The string loop on a body of ordinary bytes and legal escapes: it goes on
behind the body. -/
theorem string_loop_pre (json : Nat → Nat) (n : Nat) {pre : List Nat} (hb : StrBody pre) :
    ∃ k, k ≤ pre.length ∧ ∀ (fuel p : Nat), Holds json p pre → p + pre.length ≤ n →
      string_loop json n (fuel + k) p = string_loop json n fuel (p + pre.length) := by
  induction hb with
  | nil => exact ⟨0, Nat.le_refl _, fun fuel p _ _ => rfl⟩
  | plain c rest h1 h2 h3 h4 _ ih =>
    obtain ⟨k, hk, ih⟩ := ih
    refine ⟨k + 1, by simp only [List.length_cons]; omega, fun fuel p hh hle => ?_⟩
    simp only [Holds] at hh
    simp only [List.length_cons] at hle ⊢
    rw [← Nat.add_assoc, string_loop, if_neg (by omega), if_neg (by rw [hh.1]; exact h1),
      if_neg (by rw [hh.1]; exact fun h => h2 h.1), if_neg (by rw [hh.1]; omega),
      ih fuel (p + 1) hh.2 (by omega)]
    congr 1
    omega
  | escape c rest hc _ ih =>
    obtain ⟨k, hk, ih⟩ := ih
    refine ⟨k + 1, by simp only [List.length_cons]; omega, fun fuel p hh hle => ?_⟩
    simp only [Holds] at hh
    simp only [List.length_cons] at hle ⊢
    obtain ⟨e1, e2, hrest⟩ := hh
    rw [← Nat.add_assoc, string_loop, if_neg (by omega), if_neg (by rw [e1]; decide),
      if_pos ⟨e1, by omega⟩]
    simp only []
    have hc' : c = 34 ∨ c = 92 ∨ c = 47 ∨ c = 98 ∨ c = 102 ∨ c = 110 ∨ c = 114 ∨ c = 116 := hc
    rw [e2, if_pos hc', ih fuel (p + 2) hrest (by omega)]
    congr 1
    omega
  | unicode a b c d rest ha hb hc hd _ ih =>
    obtain ⟨k, hk, ih⟩ := ih
    refine ⟨k + 1, by simp only [List.length_cons]; omega, fun fuel p hh hle => ?_⟩
    simp only [Holds] at hh
    simp only [List.length_cons] at hle ⊢
    obtain ⟨e1, e2, e3, e4, e5, e6, hrest⟩ := hh
    rw [← Nat.add_assoc, string_loop, if_neg (by omega), if_neg (by rw [e1]; decide),
      if_pos ⟨e1, by omega⟩]
    simp only []
    rw [e2, if_neg (by decide), if_pos rfl, if_neg (by omega), e3, e4, e5, e6,
      if_neg (by simp [ishex_of_alnum ha]), if_neg (by simp [ishex_of_alnum hb]),
      if_neg (by simp [ishex_of_alnum hc]), if_neg (by simp [ishex_of_alnum hd]),
      ih fuel (p + 6) hrest (by omega)]
    congr 1
    omega

theorem ishex_false {c : Nat} (h : ¬ is_alnum c) : ishex c = false := by
  cases hx : ishex c with
  | false => rfl
  | true => exact absurd (alnum_of_ishex hx) h

/-- The string loop at the event that ends the scan. -/
theorem string_loop_event (json : Nat → Nat) (n fuel q : Nat) :
    (q = n → string_loop json n (fuel + 1) q = some (.error JSON_ESTERM)) ∧
    (q < n → json q = 34 → string_loop json n (fuel + 1) q = some (.ok (q + 1))) ∧
    (q < n → (json q ≤ 31 ∨ json q = 127) →
      string_loop json n (fuel + 1) q = some (.error JSON_ESILL)) ∧
    (q < n → json q = 92 → ¬ is_escape (json (q + 1)) → json (q + 1) ≠ 117 →
      string_loop json n (fuel + 1) q = some (.error JSON_ESESC)) ∧
    (q < n → json q = 92 → json (q + 1) = 117 → n < q + 6 →
      string_loop json n (fuel + 1) q = some (.error JSON_ESESC)) ∧
    (q < n → json q = 92 → json (q + 1) = 117 → q + 6 ≤ n →
      ¬ (is_alnum (json (q + 2)) ∧ is_alnum (json (q + 3)) ∧ is_alnum (json (q + 4)) ∧
        is_alnum (json (q + 5))) →
      string_loop json n (fuel + 1) q = some (.error JSON_ESESC)) := by
  refine ⟨fun h => ?_, fun h1 h2 => ?_, fun h1 h2 => ?_, fun h1 h2 h3 h4 => ?_,
    fun h1 h2 h3 h4 => ?_, fun h1 h2 h3 h4 h5 => ?_⟩
  · rw [string_loop, if_pos h]
  · rw [string_loop, if_neg (by omega), if_pos h2]
  · rw [string_loop, if_neg (by omega), if_neg (by omega), if_neg (by omega), if_pos h2]
  · rw [string_loop, if_neg (by omega), if_neg (by omega), if_pos ⟨h2, h1⟩]
    simp only []
    have h3' : ¬ (json (q + 1) = 34 ∨ json (q + 1) = 92 ∨ json (q + 1) = 47 ∨
        json (q + 1) = 98 ∨ json (q + 1) = 102 ∨ json (q + 1) = 110 ∨ json (q + 1) = 114 ∨
        json (q + 1) = 116) := h3
    rw [if_neg h3', if_neg h4]
  · rw [string_loop, if_neg (by omega), if_neg (by omega), if_pos ⟨h2, h1⟩]
    simp only []
    rw [if_neg (by omega), if_pos h3, if_pos (by omega)]
  · rw [string_loop, if_neg (by omega), if_neg (by omega), if_pos ⟨h2, h1⟩]
    simp only []
    rw [if_neg (by omega), if_pos h3, if_neg (by omega)]
    by_cases a1 : is_alnum (json (q + 2))
    · rw [if_neg (by simp [ishex_of_alnum a1])]
      by_cases a2 : is_alnum (json (q + 3))
      · rw [if_neg (by simp [ishex_of_alnum a2])]
        by_cases a3 : is_alnum (json (q + 4))
        · rw [if_neg (by simp [ishex_of_alnum a3])]
          by_cases a4 : is_alnum (json (q + 5))
          · exact absurd ⟨a1, a2, a3, a4⟩ h5
          · rw [if_pos (ishex_false a4)]
        · rw [if_pos (ishex_false a3)]
      · rw [if_pos (ishex_false a2)]
    · rw [if_pos (ishex_false a1)]

/-- The string loop decides as the scan of the specification does. -/
theorem string_scan_run {rest : List Nat} {r : Except JSON_errno_t Nat} (hs : StringScan rest r)
    (json : Nat → Nat) (n fuel p : Nat) (hh : Holds json p rest) (hn : n = p + rest.length)
    (hf : rest.length < fuel) :
    (∀ e, r = .error e → string_loop json n fuel p = some (.error e)) ∧
    (∀ k, r = .ok k → string_loop json n fuel p = some (.ok (p + k - 1))) := by
  have key : ∀ (pre post : List Nat), StrBody pre → rest = pre ++ post →
      ∃ f, string_loop json n fuel p = string_loop json n (f + 1) (p + pre.length) ∧
        Holds json (p + pre.length) post ∧ p + pre.length + post.length = n := by
    intro pre post hb he
    obtain ⟨k, hk, hrun⟩ := string_loop_pre json n hb
    subst he
    rw [Holds_append] at hh
    simp only [List.length_append] at hn hf
    refine ⟨fuel - k - 1, ?_, hh.2, by omega⟩
    have e : fuel - k - 1 + 1 + k = fuel := by omega
    have := hrun (fuel - k - 1 + 1) p hh.1 (by omega)
    rw [e] at this
    exact this
  cases hs with
  | control pre c post hb hc =>
    obtain ⟨f, hrun, hpost, hlen⟩ := key pre (c :: post) hb rfl
    simp only [List.length_cons] at hlen
    refine ⟨fun e he => ?_, fun k hk => by cases hk⟩
    cases he
    rw [hrun]
    exact (string_loop_event json n f _).2.2.1 (by omega) (by rw [hpost.1]; exact hc)
  | escape pre c post hb hc hu =>
    obtain ⟨f, hrun, hpost, hlen⟩ := key pre (92 :: c :: post) hb rfl
    simp only [List.length_cons] at hlen
    refine ⟨fun e he => ?_, fun k hk => by cases hk⟩
    cases he
    rw [hrun]
    exact (string_loop_event json n f _).2.2.2.1 (by omega) hpost.1
      (by rw [hpost.2.1]; exact hc) (by rw [hpost.2.1]; exact hu)
  | short pre t hb ht =>
    obtain ⟨f, hrun, hpost, hlen⟩ := key pre (92 :: 117 :: t) hb rfl
    simp only [List.length_cons] at hlen
    refine ⟨fun e he => ?_, fun k hk => by cases hk⟩
    cases he
    rw [hrun]
    exact (string_loop_event json n f _).2.2.2.2.1 (by omega) hpost.1 hpost.2.1 (by omega)
  | hex pre h1 h2 h3 h4 post hb hx =>
    obtain ⟨f, hrun, hpost, hlen⟩ := key pre (92 :: 117 :: h1 :: h2 :: h3 :: h4 :: post) hb rfl
    simp only [List.length_cons] at hlen
    refine ⟨fun e he => ?_, fun k hk => by cases hk⟩
    cases he
    rw [hrun]
    obtain ⟨e1, e2, e3, e4, e5, e6, -⟩ := hpost
    refine (string_loop_event json n f _).2.2.2.2.2 (by omega) e1 e2 (by omega) ?_
    rw [e3, e4, e5, e6]
    exact hx
  | unterminated _ hb =>
    obtain ⟨f, hrun, hpost, hlen⟩ := key rest [] hb (by simp)
    simp only [List.length_nil, Nat.add_zero] at hlen
    refine ⟨fun e he => ?_, fun k hk => by cases hk⟩
    cases he
    rw [hrun]
    exact (string_loop_event json n f _).1 hlen
  | closed pre post hb =>
    obtain ⟨f, hrun, hpost, hlen⟩ := key pre (34 :: post) hb rfl
    simp only [List.length_cons] at hlen
    refine ⟨fun e he => (by cases he), fun k hk => ?_⟩
    cases hk
    rw [hrun, (string_loop_event json n f _).2.1 (by omega) hpost.1]
    congr 2

theorem StrBody.concat {a b : List Nat} (ha : StrBody a) (hb : StrBody b) : StrBody (a ++ b) := by
  induction ha with
  | nil => exact hb
  | plain c rest h1 h2 h3 h4 _ ih => exact StrBody.plain c _ h1 h2 h3 h4 ih
  | escape c rest hc _ ih => exact StrBody.escape c _ hc ih
  | unicode h1 h2 h3 h4 rest a1 a2 a3 a4 _ ih => exact StrBody.unicode h1 h2 h3 h4 _ a1 a2 a3 a4 ih

/-- A scan behind one more item of the body. -/
theorem StringScan.behind {t : List Nat} {r : Except JSON_errno_t Nat} (h : StringScan t r)
    {a : List Nat} (ha : StrBody a) : ∃ r', StringScan (a ++ t) r' := by
  cases h with
  | control pre c post hb hc =>
    exact ⟨_, by rw [← List.append_assoc]; exact StringScan.control _ c post (ha.concat hb) hc⟩
  | escape pre c post hb hc hu =>
    exact ⟨_, by rw [← List.append_assoc]; exact StringScan.escape _ c post (ha.concat hb) hc hu⟩
  | short pre t hb ht =>
    exact ⟨_, by rw [← List.append_assoc]; exact StringScan.short _ t (ha.concat hb) ht⟩
  | hex pre h1 h2 h3 h4 post hb hx =>
    exact ⟨_, by
      rw [← List.append_assoc]; exact StringScan.hex _ h1 h2 h3 h4 post (ha.concat hb) hx⟩
  | unterminated _ hb => exact ⟨_, StringScan.unterminated _ (ha.concat hb)⟩
  | closed pre post hb =>
    exact ⟨_, by rw [← List.append_assoc]; exact StringScan.closed _ post (ha.concat hb)⟩

theorem last_behind (a t : List Nat) (h : (a ++ t).getLast? ≠ some 92) :
    t.getLast? ≠ some 92 := by
  cases t with
  | nil => simp
  | cons x t =>
    rw [List.getLast?_append] at h
    intro hc
    apply h
    rw [hc]
    rfl

/-- On bytes that do not end in a backslash the scan of the specification
always has a result. -/
theorem StringScan.total : ∀ (k : Nat) (rest : List Nat), rest.length ≤ k →
    rest.getLast? ≠ some 92 → ∃ r, StringScan rest r
  | _, [], _, _ => ⟨_, StringScan.unterminated [] StrBody.nil⟩
  | 0, _ :: _, hk, _ => by simp at hk
  | k + 1, c :: t, hk, hend => by
    simp only [List.length_cons] at hk
    by_cases c34 : c = 34
    · subst c34
      exact ⟨_, StringScan.closed [] t StrBody.nil⟩
    by_cases c92 : c = 92
    · subst c92
      cases t with
      | nil => exact absurd rfl hend
      | cons c2 t2 =>
        simp only [List.length_cons] at hk
        by_cases hesc : is_escape c2
        · obtain ⟨r, hr⟩ := StringScan.total k t2 (by omega) (last_behind [92, c2] t2 hend)
          exact hr.behind (StrBody.escape c2 [] hesc StrBody.nil)
        by_cases hu : c2 = 117
        · subst hu
          by_cases hlen : t2.length < 4
          · exact ⟨_, StringScan.short [] t2 StrBody.nil hlen⟩
          match t2, hlen, hk, hend with
          | h1 :: h2 :: h3 :: h4 :: t3, _, hk, hend =>
            simp only [List.length_cons] at hk
            by_cases hx : is_alnum h1 ∧ is_alnum h2 ∧ is_alnum h3 ∧ is_alnum h4
            · obtain ⟨r, hr⟩ := StringScan.total k t3 (by omega)
                (last_behind [92, 117, h1, h2, h3, h4] t3 hend)
              exact hr.behind (StrBody.unicode h1 h2 h3 h4 [] hx.1 hx.2.1 hx.2.2.1 hx.2.2.2
                StrBody.nil)
            · exact ⟨_, StringScan.hex [] h1 h2 h3 h4 t3 StrBody.nil hx⟩
          | [], hlen, _, _ => simp at hlen
          | [_], hlen, _, _ => simp at hlen
          | [_, _], hlen, _, _ => simp at hlen
          | [_, _, _], hlen, _, _ => simp at hlen
        · exact ⟨_, StringScan.escape [] c2 t2 StrBody.nil hesc hu⟩
    by_cases hctl : c ≤ 31 ∨ c = 127
    · exact ⟨_, StringScan.control [] c t StrBody.nil hctl⟩
    · obtain ⟨r, hr⟩ := StringScan.total k t (by omega) (last_behind [c] t hend)
      exact hr.behind (StrBody.plain c [] c34 c92 (by omega) (by omega) StrBody.nil)

/-! ### The number branch, part by part -/

theorem NoDigit.stopD {t : List Nat} (h : NoDigit t) (json : Nat → Nat) (q n : Nat)
    (hh : Holds json q t) (hn : n = q + t.length) : q = n ∨ ¬ is_digit (json q) := by
  cases t with
  | nil => exact Or.inl (by simpa using hn.symm)
  | cons c t' =>
    refine Or.inr ?_
    rw [hh.1]
    exact h c t' rfl

theorem NoHead.stopH {x : Nat} {t : List Nat} (h : NoHead x t) (json : Nat → Nat) (q n : Nat)
    (hh : Holds json q t) (hn : n = q + t.length) : q = n ∨ json q ≠ x := by
  cases t with
  | nil => exact Or.inl (by simpa using hn.symm)
  | cons c t' =>
    refine Or.inr ?_
    rw [hh.1]
    intro hc
    exact h t' (by rw [hc])

theorem IntPart.isInt {int tail : List Nat} (h : IntPart int tail) : IsInt int := by
  rcases h with h | ⟨c, ds, h1, h2, h3, h4, -⟩
  · exact Or.inl h
  · exact Or.inr ⟨c, ds, h1, h2, h3, h4⟩

theorem IntPart.length_pos {int tail : List Nat} (h : IntPart int tail) : 1 ≤ int.length := by
  rcases h with h | ⟨c, ds, h1, -⟩
  · rw [h]; simp
  · rw [h1]; simp

/-- The sign and the integer part of the number branch on a text that starts
with them. -/
theorem number_integer_part (json : Nat → Nat) (n fuel p : Nat) {sign int tail : List Nat}
    (hs : sign = [] ∨ sign = [45]) (hi : IntPart int tail)
    (hh : Holds json p (sign ++ (int ++ tail)))
    (hn : n = p + (sign.length + (int.length + tail.length))) (hf : int.length < fuel) :
    number_integer fuel n json p = some (.ok (p + sign.length + int.length)) := by
  rw [Holds_append, Holds_append] at hh
  obtain ⟨h1, h2, h3⟩ := hh
  rcases hi with rfl | ⟨c, ds, rfl, hc1, hc2, hds, hnd⟩
  · -- the integer part is `0`
    have h48 : json (p + sign.length) = 48 := h2.1
    simp only [List.length_cons, List.length_nil] at hn ⊢
    rcases hs with rfl | rfl
    · simp only [List.length_nil, Nat.add_zero] at h48 hn ⊢
      have hne : ¬ json p = 45 := by omega
      have hpn : ¬ p = n := by omega
      simp only [number_integer, hne, if_false, false_and, hpn]
      simp only [h48, if_true, Nat.zero_add]
    · have h45 : json p = 45 := h1.1
      simp only [List.length_cons, List.length_nil] at h48 hn ⊢
      have hpn : ¬ p + 1 = n := by omega
      simp only [number_integer, h45, if_true, true_and, hpn, if_false, h48]
  · have hstop := hnd.stopD json _ n h3 (by
      simp only [List.length_cons] at hn ⊢
      omega)
    exact (number_integer_ok json n fuel p hs (Or.inr ⟨c, ds, rfl, hc1, hc2, hds⟩)
      ((Holds_append json _ _ _).2 ⟨h1, h2⟩) (by omega) hstop hf).1

/-- Case (a): a `-` that is not followed by a digit. -/
theorem number_integer_sign_error (json : Nat → Nat) (n fuel p : Nat) {t : List Nat}
    (ht : NoDigit t) (hh : Holds json p (45 :: t)) (hn : n = p + (t.length + 1)) :
    number_integer fuel n json p = some (.error JSON_ENDIG) := by
  have h45 : json p = 45 := hh.1
  by_cases hpn : p + 1 = n
  · simp only [number_integer, h45, if_true, true_and, hpn]
  · rcases ht.stopD json (p + 1) n hh.2 (by omega) with h | h
    · exact absurd h hpn
    · unfold is_digit at h
      have h0 : ¬ json (p + 1) = 48 := by omega
      have h1 : ¬ (49 ≤ json (p + 1) ∧ json (p + 1) ≤ 57) := by omega
      simp only [number_integer, h45, if_true, true_and, hpn, if_false, h0, h1]

theorem FracPart.isFrac {frac tail : List Nat} (h : FracPart frac tail) : IsFrac frac := by
  obtain ⟨c, ds, h1, h2, -⟩ := h
  exact Or.inr ⟨c, ds, h1, h2⟩

theorem ExpPart.isExp {exp tail : List Nat} (h : ExpPart exp tail) : IsExp exp := by
  obtain ⟨x, s, c, ds, h1, h2, h3, h4, -⟩ := h
  exact Or.inr ⟨x, s, c, ds, h1, h2, h3, h4⟩

/-- The fraction of the number branch on a text that starts with it, or with
no `.` at all. -/
theorem number_fraction_part (json : Nat → Nat) (n fuel q : Nat) {frac tail : List Nat}
    (hfr : (frac = [] ∧ NoHead 46 tail) ∨ FracPart frac tail)
    (hh : Holds json q (frac ++ tail)) (hn : n = q + (frac.length + tail.length))
    (hf : frac.length < fuel) :
    number_fraction fuel n json q = some (.ok (q + frac.length)) := by
  rw [Holds_append] at hh
  rcases hfr with ⟨rfl, hno⟩ | hfr
  · simp only [List.length_nil, Nat.add_zero, Nat.zero_add] at hh hn ⊢
    unfold number_fraction
    rw [if_neg]
    rintro ⟨h1, h2⟩
    rcases hno.stopH json q n hh.2 hn with h | h
    · exact h1 h
    · exact h h2
  · obtain ⟨c, ds, h1, h2, h3⟩ := id hfr
    have hstop := h3.stopD json _ n hh.2 (by omega)
    refine number_fraction_ok json n fuel q hfr.isFrac hh.1 (by omega) ?_ hstop hf
    intro he
    rw [h1] at he
    cases he

/-- Case (b): a `.` that is not followed by a digit. -/
theorem number_fraction_error (json : Nat → Nat) (n fuel q : Nat) {t : List Nat}
    (ht : NoDigit t) (hh : Holds json q (46 :: t)) (hn : n = q + (t.length + 1)) :
    number_fraction fuel n json q = some (.error JSON_ENDIG) := by
  have h46 : json q = 46 := hh.1
  unfold number_fraction
  rw [if_pos ⟨by omega, h46⟩]
  dsimp only
  rw [if_pos]
  rcases ht.stopD json (q + 1) n hh.2 (by omega) with h | h
  · exact Or.inl h
  · unfold is_digit at h
    omega

/-- The exponent of the number branch on a text that starts with it, or with
neither `e` nor `E`. -/
theorem number_exponent_part (json : Nat → Nat) (n fuel q : Nat) {exp tail : List Nat}
    (hex : (exp = [] ∧ NoHead 101 tail ∧ NoHead 69 tail) ∨ ExpPart exp tail)
    (hh : Holds json q (exp ++ tail)) (hn : n = q + (exp.length + tail.length))
    (hf : exp.length < fuel) :
    number_exponent fuel n json q = some (.ok (q + exp.length)) := by
  rw [Holds_append] at hh
  rcases hex with ⟨rfl, hno1, hno2⟩ | hex
  · simp only [List.length_nil, Nat.add_zero, Nat.zero_add] at hh hn ⊢
    unfold number_exponent
    rw [if_neg]
    rintro ⟨h1, h2⟩
    rcases hno1.stopH json q n hh.2 hn with h | h
    · exact h1 h
    · rcases hno2.stopH json q n hh.2 hn with h' | h'
      · exact h1 h'
      · omega
  · obtain ⟨x, s, c, ds, h1, h2, h3, h4, h5⟩ := id hex
    have hstop := h5.stopD json _ n hh.2 (by omega)
    refine number_exponent_ok json n fuel q hex.isExp hh.1 (by omega) ?_ hstop hf
    intro he
    rw [h1] at he
    cases he

/-- Case (c): `e` or `E` that is not followed, behind a `-` if there is one,
by a digit. -/
theorem number_exponent_error (json : Nat → Nat) (n fuel q : Nat) {x : Nat} {s t : List Nat}
    (hx : x = 101 ∨ x = 69) (hs : s = [45] ∨ (s = [] ∧ NoHead 45 t)) (ht : NoDigit t)
    (hh : Holds json q (x :: (s ++ t))) (hn : n = q + (s.length + t.length + 1)) :
    number_exponent fuel n json q = some (.error JSON_ENDIG) := by
  have hx' : json q = 101 ∨ json q = 69 := by rw [hh.1]; exact hx
  have hh2 := hh.2
  rw [Holds_append] at hh2
  unfold number_exponent
  rw [if_pos ⟨by omega, hx'⟩]
  dsimp only
  by_cases hq : q + 1 = n
  · rw [if_pos hq]
  · rw [if_neg hq]
    rcases hs with rfl | ⟨rfl, hno⟩
    · have h45 : json (q + 1) = 45 := hh2.1.1
      simp only [List.length_cons, List.length_nil] at hh2 hn
      rw [if_pos h45]
      by_cases hq2 : q + 1 + 1 = n
      · rw [if_pos hq2]
      · rw [if_neg hq2, if_pos]
        rcases ht.stopD json (q + 1 + 1) n hh2.2 (by omega) with h | h
        · exact Or.inl h
        · unfold is_digit at h
          omega
    · simp only [List.length_nil, Nat.add_zero, Nat.zero_add] at hh2 hn
      rcases hno.stopH json (q + 1) n hh2.2 (by omega) with h | h
      · exact absurd h hq
      · rw [if_neg h, if_neg hq, if_pos]
        rcases ht.stopD json (q + 1) n hh2.2 (by omega) with h' | h'
        · exact Or.inl h'
        · unfold is_digit at h'
          omega

/-- The scan of the number branch on a text that starts with a number. -/
theorem number_scan_at (json : Nat → Nat) (n fuel p : Nat) {num tail : List Nat}
    (hnum : NumberAt num tail) (hh : Holds json p (num ++ tail))
    (hn : n = p + (num.length + tail.length)) (hf : num.length < fuel) :
    number_scan fuel n json p = some (.ok (p + num.length)) := by
  obtain ⟨sign, int, frac, exp, rfl, hs, hi, hfr, hex⟩ := hnum
  simp only [List.length_append] at hn hf ⊢
  have hh' : Holds json p (sign ++ (int ++ (frac ++ (exp ++ tail)))) := by
    simpa [List.append_assoc] using hh
  have k1 := number_integer_part json n fuel p hs hi hh' (by
    simp only [List.length_append]; omega) (by omega)
  rw [Holds_append, Holds_append] at hh'
  have k2 := number_fraction_part json n fuel (p + sign.length + int.length) hfr hh'.2.2 (by
    simp only [List.length_append]; omega) (by omega)
  have hh3 := hh'.2.2
  rw [Holds_append] at hh3
  have k3 := number_exponent_part json n fuel (p + sign.length + int.length + frac.length) hex
    hh3.2 (by omega) (by omega)
  unfold number_scan
  rw [k1]
  dsimp only
  rw [k2]
  dsimp only
  rw [k3]
  congr 2
  omega

/-- The scan of the number branch on a text where digits are expected and
missing. -/
theorem number_scan_missing (json : Nat → Nat) (n fuel p : Nat) {rest : List Nat}
    (herr : NumberError rest) (hh : Holds json p rest) (hn : n = p + rest.length)
    (hf : rest.length < fuel) :
    number_scan fuel n json p = some (.error JSON_ENDIG) := by
  rcases herr with ⟨t, rfl, ht⟩ | ⟨sign, int, t, hs, rfl, hi, ht⟩ |
    ⟨sign, int, frac, x, s, t, hs, rfl, hi, hfr, hx, hs', ht⟩
  · have k1 := number_integer_sign_error json n fuel p ht hh (by simpa using hn)
    unfold number_scan
    rw [k1]
  · simp only [List.length_append, List.length_cons] at hn hf
    have k1 := number_integer_part json n fuel p hs hi hh (by
      simp only [List.length_cons]; omega) (by omega)
    rw [Holds_append, Holds_append] at hh
    have k2 := number_fraction_error json n fuel (p + sign.length + int.length) ht hh.2.2
      (by omega)
    unfold number_scan
    rw [k1]
    dsimp only
    rw [k2]
  · simp only [List.length_append, List.length_cons] at hn hf
    have k1 := number_integer_part json n fuel p hs hi hh (by
      simp only [List.length_append, List.length_cons]; omega) (by omega)
    rw [Holds_append, Holds_append] at hh
    have k2 := number_fraction_part json n fuel (p + sign.length + int.length) hfr hh.2.2 (by
      simp only [List.length_append, List.length_cons]; omega) (by omega)
    have hh3 := hh.2.2
    rw [Holds_append] at hh3
    have k3 := number_exponent_error json n fuel (p + sign.length + int.length + frac.length)
      hx hs' ht hh3.2 (by omega)
    unfold number_scan
    rw [k1]
    dsimp only
    rw [k2]
    dsimp only
    rw [k3]

/-- Every text splits into the digits at its head and a rest that starts with
no digit. -/
theorem digit_run : ∀ l : List Nat, ∃ ds t, l = ds ++ t ∧ (∀ x ∈ ds, is_digit x) ∧ NoDigit t
  | [] => ⟨[], [], rfl, fun x hx => (by cases hx), fun c t' h => (by cases h)⟩
  | c :: l => by
    by_cases hc : is_digit c
    · obtain ⟨ds, t, h1, h2, h3⟩ := digit_run l
      refine ⟨c :: ds, t, by rw [h1]; rfl, ?_, h3⟩
      intro x hx
      rcases List.mem_cons.1 hx with rfl | hx
      · exact hc
      · exact h2 x hx
    · refine ⟨[], c :: l, rfl, fun x hx => (by cases hx), ?_⟩
      intro c' t' h
      cases h
      exact hc

/-- A text that starts with a digit starts with an integer part. -/
theorem int_split (d : Nat) (r : List Nat) (hd : is_digit d) :
    ∃ int r2, d :: r = int ++ r2 ∧ IntPart int r2 := by
  by_cases h0 : d = 48
  · exact ⟨[48], r, by rw [h0]; rfl, Or.inl rfl⟩
  · obtain ⟨ds, t, h1, h2, h3⟩ := digit_run r
    unfold is_digit at hd
    exact ⟨d :: ds, t, by rw [h1]; rfl, Or.inr ⟨d, ds, rfl, by omega, by omega, h2, h3⟩⟩

/-- Behind the integer part there is a `.` without digit, a fraction, or no
`.` at all. -/
theorem frac_split : ∀ r2 : List Nat, (∃ t, r2 = 46 :: t ∧ NoDigit t) ∨
    ∃ frac r3, r2 = frac ++ r3 ∧ ((frac = [] ∧ NoHead 46 r3) ∨ FracPart frac r3)
  | [] => Or.inr ⟨[], [], rfl, Or.inl ⟨rfl, fun t' h => (by cases h)⟩⟩
  | c :: r => by
    by_cases hc : c = 46
    · subst hc
      obtain ⟨ds, t, h1, h2, h3⟩ := digit_run r
      cases ds with
      | nil => exact Or.inl ⟨r, rfl, by rw [h1]; exact h3⟩
      | cons d ds => exact Or.inr ⟨46 :: d :: ds, t, by rw [h1]; rfl, Or.inr ⟨d, ds, rfl, h2, h3⟩⟩
    · refine Or.inr ⟨[], c :: r, rfl, Or.inl ⟨rfl, ?_⟩⟩
      intro t' h
      cases h
      exact hc rfl

/-- A text starts with one `-` or with none. -/
theorem minus_split : ∀ r : List Nat, ∃ s t, r = s ++ t ∧ (s = [45] ∨ (s = [] ∧ NoHead 45 t))
  | [] => ⟨[], [], rfl, Or.inr ⟨rfl, fun t' h => (by cases h)⟩⟩
  | c :: r => by
    by_cases hc : c = 45
    · exact ⟨[45], r, by rw [hc]; rfl, Or.inl rfl⟩
    · refine ⟨[], c :: r, rfl, Or.inr ⟨rfl, ?_⟩⟩
      intro t' h
      cases h
      exact hc rfl

/-- Behind the integer part and the fraction there is an `e` or `E` without
digits, an exponent, or neither `e` nor `E`. -/
theorem exp_split : ∀ r3 : List Nat,
    (∃ x s t, r3 = x :: (s ++ t) ∧ (x = 101 ∨ x = 69) ∧ (s = [45] ∨ (s = [] ∧ NoHead 45 t)) ∧
      NoDigit t) ∨
    ∃ exp tail, r3 = exp ++ tail ∧
      ((exp = [] ∧ NoHead 101 tail ∧ NoHead 69 tail) ∨ ExpPart exp tail)
  | [] => Or.inr ⟨[], [], rfl, Or.inl ⟨rfl, fun t' h => (by cases h), fun t' h => (by cases h)⟩⟩
  | x :: r => by
    by_cases hx : x = 101 ∨ x = 69
    · obtain ⟨s, r', h1, hs⟩ := minus_split r
      obtain ⟨ds, t, h2, h3, h4⟩ := digit_run r'
      cases ds with
      | nil =>
        refine Or.inl ⟨x, s, r', by rw [h1], hx, hs, ?_⟩
        rw [h2]
        exact h4
      | cons d ds =>
        refine Or.inr ⟨x :: (s ++ d :: ds), t, ?_, Or.inr ⟨x, s, d, ds, rfl, hx, ?_, h3, h4⟩⟩
        · rw [h1, h2]
          simp
        · rcases hs with h | h
          · exact Or.inr h
          · exact Or.inl h.1
    · refine Or.inr ⟨[], x :: r, rfl, Or.inl ⟨rfl, ?_, ?_⟩⟩
      · intro t' h
        cases h
        exact hx (Or.inl rfl)
      · intro t' h
        cases h
        exact hx (Or.inr rfl)

/-- A text whose first byte is `-` or a digit starts with a number, or digits
are missing in one of the three places. -/
theorem number_total (c : Nat) (r : List Nat) (hc : c = 45 ∨ is_digit c) :
    NumberError (c :: r) ∨ ∃ num tail, c :: r = num ++ tail ∧ NumberAt num tail := by
  have key : ∀ (sign : List Nat) (d : Nat) (r1 : List Nat), (sign = [] ∨ sign = [45]) →
      is_digit d → NumberError (sign ++ d :: r1) ∨
        ∃ num tail, sign ++ d :: r1 = num ++ tail ∧ NumberAt num tail := by
    intro sign d r1 hs hd
    obtain ⟨int, r2, h1, hi⟩ := int_split d r1 hd
    rw [h1]
    rcases frac_split r2 with ⟨t, rfl, ht⟩ | ⟨frac, r3, rfl, hfr⟩
    · exact Or.inl (Or.inr (Or.inl ⟨sign, int, t, hs, rfl, hi, ht⟩))
    · rcases exp_split r3 with ⟨x, s, t, rfl, hx, hs', ht⟩ | ⟨exp, tail, rfl, hex⟩
      · exact Or.inl (Or.inr (Or.inr ⟨sign, int, frac, x, s, t, hs, rfl, hi, hfr, hx, hs', ht⟩))
      · refine Or.inr ⟨sign ++ (int ++ (frac ++ exp)), tail, by simp,
          sign, int, frac, exp, rfl, hs, hi, hfr, hex⟩
  rcases hc with rfl | hc
  · cases r with
    | nil => exact Or.inl (Or.inl ⟨[], rfl, fun c t' h => (by cases h)⟩)
    | cons d r1 =>
      by_cases hd : is_digit d
      · exact key [45] d r1 (Or.inr rfl) hd
      · refine Or.inl (Or.inl ⟨d :: r1, rfl, ?_⟩)
        intro c' t' h
        cases h
        exact hd
  · exact key [] c r (Or.inl rfl) hc

/-! ### Numbers with a leading zero -/

theorem NumberAt.first {num tail : List Nat} (h : NumberAt num tail) :
    ∃ c r, num = c :: r ∧ (c = 45 ∨ is_digit c) := by
  obtain ⟨sign, int, frac, exp, rfl, hs, hi, -, -⟩ := h
  rcases hs with rfl | rfl
  · rcases hi with rfl | ⟨c, ds, rfl, h1, h2, -⟩
    · exact ⟨48, _, rfl, Or.inr (by unfold is_digit; omega)⟩
    · exact ⟨c, _, rfl, Or.inr (by unfold is_digit; omega)⟩
  · exact ⟨45, _, rfl, Or.inl rfl⟩

/-- The number branch on an input that holds whitespace and then a number. -/
theorem JSON_number_run (fuel b n : Nat) (json : Nat → Nat) (m : Nat)
    (dest : Nat → struct_JSON) (w num tail : List Nat) (hw : WS w) (hnum : NumberAt num tail)
    (hh : Holds json 0 (w ++ (num ++ tail))) (hn : n = w.length + (num.length + tail.length))
    (hn32 : n < 4294967296) (hm : 1 ≤ m) (hf : n + 1 < fuel) :
    JSON fuel b n json m dest =
      some (JSON_EOK, store dest 0 ⟨u32 (w.length + b), num.length, 0, JSON_NUMBER_TYPE⟩) := by
  obtain ⟨c, r, hcr, hc⟩ := hnum.first
  cases fuel with
  | zero => omega
  | succ fuel =>
    have hsp : ¬ is_space c := by
      unfold is_space
      unfold is_digit at hc
      omega
    have hlen : num.length = r.length + 1 := by rw [hcr]; rfl
    have hh' : Holds json 0 (w ++ c :: (r ++ tail)) := by
      rw [hcr] at hh
      exact hh
    obtain ⟨k1, k2, k3, k4⟩ := whitespace_lead json n fuel w c (r ++ tail) hw hh' hsp
      (by simp only [List.length_cons, List.length_append]; omega) (by omega)
    rw [JSON_enter fuel b n json m dest w.length k1 k2 (by omega), k3]
    unfold is_digit at hc
    rw [if_neg (by omega), if_neg (by omega), if_neg (by omega), if_pos hc]
    have k5 : Holds json w.length (num ++ tail) := by
      rw [hcr]
      exact k4
    unfold JSON_number
    rw [number_scan_at json n fuel w.length hnum k5 (by omega) (by omega)]
    dsimp only
    have e2 : u32 (w.length + num.length - w.length) = num.length := by
      rw [u32_of_lt (by omega)]
      omega
    rw [e2]

/-- The text `0` (or `-0`) in front of a digit is a number of the parser. -/
theorem zero_numberAt {sign : List Nat} (hs : sign = [] ∨ sign = [45]) (d : Nat)
    (hd : is_digit d) (rest : List Nat) : NumberAt (sign ++ [48]) (d :: rest) := by
  unfold is_digit at hd
  refine ⟨sign, [48], [], [], by simp, hs, Or.inl rfl, Or.inl ⟨rfl, ?_⟩, Or.inl ⟨rfl, ?_, ?_⟩⟩
  · intro t' h
    cases h
    omega
  · intro t' h
    cases h
    omega
  · intro t' h
    cases h
    omega

/-! ### Members and elements followed by a comma -/

theorem unshift_shift (dest : Nat → struct_JSON) (k : Nat) :
    unshift dest k (shift dest k) = dest := by
  funext i
  simp only [unshift, shift]
  by_cases h : i < k
  · rw [if_pos h]
  · rw [if_neg h]
    congr 1
    omega

/-- On an input that starts with a closing bracket or brace `JSON` takes the
default case of the dispatcher. -/
theorem JSON_closing (fuel b n : Nat) (json : Nat → Nat) (m : Nat) (dest : Nat → struct_JSON)
    (hc : json 0 = 93 ∨ json 0 = 125) (hn : 0 < n) (hm : m ≠ 0) (hf : 2 ≤ fuel) :
    JSON fuel b n json m dest = some (JSON_EILL, dest) := by
  cases fuel with
  | zero => omega
  | succ fuel =>
    have k1 := whitespace_skip json n [] fuel 0 (fun x hx => (by cases hx)) trivial
      (Or.inr (by
        simp only [List.length_nil, Nat.add_zero]
        unfold is_space
        omega)) (by simp only [List.length_nil]; omega) (by simp only [List.length_nil]; omega)
    simp only [List.length_nil, Nat.add_zero] at k1
    rw [JSON_enter fuel b n json m dest 0 k1 (by omega) (by omega)]
    rw [if_neg (by omega), if_neg (by omega), if_neg (by omega), if_neg (by omega),
      if_neg (by omega), if_neg (by omega), if_neg (by omega)]

/-- The recursive call at a closing bracket or brace. -/
theorem subcall_closing (fuel b n : Nat) (json : Nat → Nat) (m pos destpos : Nat)
    (dest : Nat → struct_JSON) (hc : json pos = 93 ∨ json pos = 125) (hp : pos < n)
    (hn : n < 4294967296) (hd : destpos < m) (hm : m < 4294967296) (hf : 2 ≤ fuel) :
    subcall (JSON fuel) b n json m pos destpos dest = some (JSON_EILL, dest) := by
  unfold subcall
  rw [usub_of_le (by omega) hn, usub_of_le (by omega) hm]
  rw [JSON_closing fuel (u32 (b + pos)) (n - pos) (shift json pos) (m - destpos)
    (shift dest destpos) (by simpa [shift] using hc) (by omega) (by omega) hf]
  dsimp only
  rw [unshift_shift]

theorem elements_one_reach {v w : List Nat} {ds : List struct_JSON} (hv : ValueGoal v ds)
    (hs : Shape .value v ds) (hw : WS w) : ElementsReach (v ++ w) ds := by
  obtain ⟨c0, v', d0, rest, hveq, -⟩ := id hs
  have hvlen : 1 ≤ v.length := by rw [hveq]; simp
  refine ⟨1, by simp only [List.length_append]; omega, ?_⟩
  intro fuel b n json m start iter s w0 r hw0 hh hle hn hm hp ht hd hf
  simp only [List.length_append] at hle
  have hh' : Holds json s.pos (w0 ++ (v ++ (w ++ 44 :: r))) := by
    simpa [List.append_assoc] using hh
  rw [array_step hv hs fuel b n json m start iter s w0 w 44 r hw0 hw hh' (by omega) (by omega)
    hn hm hp ht hd hf]
  rw [if_pos rfl]
  simp only [behindComma, List.length_append]
  have e : s.pos + w0.length + v.length + w.length + 1 =
      s.pos + w0.length + (v.length + w.length) + 1 := by omega
  rw [e]

theorem elements_cons_reach {v w w' t : List Nat} {ds ds' : List struct_JSON}
    (hv : ValueGoal v ds) (hs : Shape .value v ds) (hw : WS w) (hw' : WS w')
    (ht : ElementsReach t ds') :
    ElementsReach (v ++ (w ++ 44 :: (w' ++ t)))
      (ds ++ ds'.map (move (v.length + w.length + 1 + w'.length))) := by
  obtain ⟨c0, v', d0, rest, hveq, -⟩ := id hs
  have hvlen : 1 ≤ v.length := by rw [hveq]; simp
  obtain ⟨k, hk, ih⟩ := ht
  refine ⟨k + 1, by simp only [List.length_append, List.length_cons]; omega, ?_⟩
  intro fuel b n json m start iter s w0 r hw0 hh hle hn hm hp hts hd hf
  simp only [List.length_append, List.length_cons, List.length_map] at hle hd
  have hh' : Holds json s.pos (w0 ++ (v ++ (w ++ 44 :: (w' ++ (t ++ 44 :: r))))) := by
    simpa [List.append_assoc] using hh
  rw [← Nat.add_assoc]
  rw [array_step hv hs fuel b n json m start (iter + k) s w0 w 44 (w' ++ (t ++ 44 :: r)) hw0 hw
    hh' (by omega) (by omega) hn hm hp hts (by omega) hf]
  rw [if_pos rfl]
  rw [Holds_append, Holds_append, Holds_append] at hh'
  have hrest := hh'.2.2.2.2
  have := ih fuel b n json m start iter
    ⟨s.pos + w0.length + v.length + w.length + 1, s.destpos + ds.length,
      s.treesize + ds.length, write s.dest s.destpos (ds.map (reloc (b + s.pos + w0.length)))⟩
    w' r hw' hrest (by dsimp only; omega) hn hm (by dsimp only; omega) (by dsimp only; omega)
    (by dsimp only; omega) hf
  rw [this]
  simp only [behindComma]
  have e1 : s.destpos + ds.length = s.destpos + (ds.map (reloc (b + s.pos + w0.length))).length := by
    rw [List.length_map]
  rw [e1, write_append, List.map_append, map_reloc_move]
  simp only [List.length_append, List.length_cons, List.length_map]
  have e2 : b + (s.pos + w0.length + v.length + w.length + 1) + w'.length =
      b + s.pos + w0.length + (v.length + w.length + 1 + w'.length) := by omega
  have e3 : s.pos + w0.length + v.length + w.length + 1 + w'.length + t.length + 1 =
      s.pos + w0.length + (v.length + (w.length + (w'.length + t.length + 1))) + 1 := by omega
  have e4 : s.treesize + ds.length + ds'.length = s.treesize + (ds.length + ds'.length) := by
    omega
  have e5 : s.destpos + ds.length + ds'.length = s.destpos + (ds.length + ds'.length) := by
    omega
  rw [e2, e3, e4, e5]

theorem members_one_reach {k w1 w2 v w3 : List Nat} {ds : List struct_JSON} (hk : IsString k)
    (hw1 : WS w1) (hw2 : WS w2) (hv : ValueGoal v ds) (hs : Shape .value v ds) (hw3 : WS w3) :
    MembersReach (k ++ (w1 ++ 58 :: (w2 ++ (v ++ w3))))
      (⟨0, k.length, 0, JSON_STRING_TYPE⟩ ::
        ds.map (move (k.length + w1.length + 1 + w2.length))) := by
  obtain ⟨c0, v', d0, rest, hveq, -⟩ := id hs
  have hvlen : 1 ≤ v.length := by rw [hveq]; simp
  refine ⟨1, by simp only [List.length_append, List.length_cons]; omega, ?_⟩
  intro fuel b n json m start iter s w0 r hw0 hh hle hn hm hp ht hd hf
  simp only [List.length_append, List.length_cons, List.length_map] at hle hd
  have hh' : Holds json s.pos
      (w0 ++ (k ++ (w1 ++ 58 :: (w2 ++ (v ++ (w3 ++ 44 :: r)))))) := by
    simpa [List.append_assoc] using hh
  rw [object_step hk hv hs fuel b n json m start iter s w0 w1 w2 w3 44 r hw0 hw1 hw2 hw3 hh'
    (by omega) (by omega) hn hm hp ht (by omega) hf]
  rw [if_pos rfl]
  simp only [behindComma, List.length_append, List.length_cons, List.length_map]
  have e : s.pos + w0.length + k.length + w1.length + 1 + w2.length + v.length + w3.length + 1 =
      s.pos + w0.length + (k.length + (w1.length + (w2.length + (v.length + w3.length) + 1)))
        + 1 := by omega
  have e2 : s.treesize + 1 + ds.length = s.treesize + (ds.length + 1) := by omega
  have e3 : s.destpos + 1 + ds.length = s.destpos + (ds.length + 1) := by omega
  rw [e, e2, e3]

theorem members_cons_reach {k w1 w2 v w3 w4 t : List Nat} {ds ds' : List struct_JSON}
    (hk : IsString k) (hw1 : WS w1) (hw2 : WS w2) (hv : ValueGoal v ds)
    (hs : Shape .value v ds) (hw3 : WS w3) (hw4 : WS w4) (ht : MembersReach t ds') :
    MembersReach (k ++ (w1 ++ 58 :: (w2 ++ (v ++ (w3 ++ 44 :: (w4 ++ t))))))
      (⟨0, k.length, 0, JSON_STRING_TYPE⟩ ::
        (ds.map (move (k.length + w1.length + 1 + w2.length)) ++
          ds'.map (move (k.length + w1.length + 1 + w2.length + v.length + w3.length + 1
            + w4.length)))) := by
  obtain ⟨c0, v', d0, rest, hveq, -⟩ := id hs
  have hvlen : 1 ≤ v.length := by rw [hveq]; simp
  obtain ⟨j, hj, ih⟩ := ht
  refine ⟨j + 1, by simp only [List.length_append, List.length_cons]; omega, ?_⟩
  intro fuel b n json m start iter s w0 r hw0 hh hle hn hm hp hts hd hf
  simp only [List.length_append, List.length_cons, List.length_map] at hle hd
  have hh' : Holds json s.pos
      (w0 ++ (k ++ (w1 ++ 58 :: (w2 ++ (v ++ (w3 ++ 44 :: (w4 ++ (t ++ 44 :: r)))))))) := by
    simpa [List.append_assoc] using hh
  rw [← Nat.add_assoc]
  rw [object_step hk hv hs fuel b n json m start (iter + j) s w0 w1 w2 w3 44
    (w4 ++ (t ++ 44 :: r)) hw0 hw1 hw2 hw3 hh' (by omega) (by omega) hn hm hp hts (by omega) hf]
  rw [if_pos rfl]
  rw [Holds_append, Holds_append, Holds_append] at hh'
  have h4 := hh'.2.2.2.2
  rw [Holds_append, Holds_append, Holds_append] at h4
  have hrest := h4.2.2.2.2
  have := ih fuel b n json m start iter
    ⟨s.pos + w0.length + k.length + w1.length + 1 + w2.length + v.length + w3.length + 1,
      s.destpos + 1 + ds.length, s.treesize + 1 + ds.length,
      write s.dest s.destpos
        ((⟨0, k.length, 0, JSON_STRING_TYPE⟩ ::
          ds.map (move (k.length + w1.length + 1 + w2.length))).map
            (reloc (b + s.pos + w0.length)))⟩
    w4 r hw4 hrest (by dsimp only; omega) hn hm (by dsimp only; omega) (by dsimp only; omega)
    (by dsimp only; omega) hf
  rw [this]
  simp only [behindComma]
  have e1 : s.destpos + 1 + ds.length = s.destpos +
      ((⟨0, k.length, 0, JSON_STRING_TYPE⟩ ::
        ds.map (move (k.length + w1.length + 1 + w2.length))).map
          (reloc (b + s.pos + w0.length))).length := by
    simp only [List.length_map, List.length_cons]
    omega
  rw [e1, write_append]
  simp only [List.length_append, List.length_cons, List.length_map, List.map_cons,
    List.map_append, map_reloc_move, List.cons_append]
  have e2 : b + (s.pos + w0.length + k.length + w1.length + 1 + w2.length + v.length + w3.length
      + 1) + w4.length = b + s.pos + w0.length + (k.length + w1.length + 1 + w2.length + v.length
      + w3.length + 1 + w4.length) := by omega
  have e3 : s.pos + w0.length + k.length + w1.length + 1 + w2.length + v.length + w3.length + 1
      + w4.length + t.length + 1 = s.pos + w0.length + (k.length + (w1.length + (w2.length +
      (v.length + (w3.length + (w4.length + t.length + 1))) + 1))) + 1 := by omega
  have e4 : s.treesize + 1 + ds.length + ds'.length =
      s.treesize + (ds.length + ds'.length + 1) := by omega
  have e5 : s.destpos + (ds.length + 1) + ds'.length =
      s.destpos + (ds.length + ds'.length + 1) := by omega
  rw [e2, e3, e4, e5]

theorem Derives.reach {k : Phrase} {t : List Nat} {ds : List struct_JSON}
    (h : Derives k t ds) : Reach k t ds := by
  induction h with
  | null => exact trivial
  | true_ => exact trivial
  | false_ => exact trivial
  | number t ht => exact trivial
  | string t ht => exact trivial
  | array_empty w hw => exact trivial
  | array w t ds hw ht ih => exact trivial
  | object_empty w hw => exact trivial
  | object w t ds hw ht ih => exact trivial
  | elements_one v w ds hv hw ih => exact elements_one_reach hv.goal hv.shape hw
  | elements_cons v w w' t ds ds' hv hw hw' _ ih1 ih2 =>
    exact elements_cons_reach hv.goal hv.shape hw hw' ih2
  | members_one k w1 w2 v w3 ds hk hw1 hw2 hv hw3 ih =>
    exact members_one_reach hk hw1 hw2 hv.goal hv.shape hw3
  | members_cons k w1 w2 v w3 w4 t ds ds' hk hw1 hw2 hv hw3 hw4 _ ih1 ih2 =>
    exact members_cons_reach hk hw1 hw2 hv.goal hv.shape hw3 hw4 ih2

/-- The array branch on `[ w1 t , w2 ]`: the sub-parse behind the comma meets
the closing bracket. -/
theorem array_trailing (fuel b n : Nat) (json : Nat → Nat) (m : Nat)
    (dest : Nat → struct_JSON) (w0 w1 t w2 rest : List Nat) (ds : List struct_JSON)
    (hw0 : WS w0) (hw1 : WS w1) (hw2 : WS w2) (ht : Derives .elements t ds)
    (hh : Holds json 0 (w0 ++ 91 :: (w1 ++ (t ++ 44 :: (w2 ++ 93 :: rest)))))
    (hn : n = (w0 ++ 91 :: (w1 ++ (t ++ 44 :: (w2 ++ 93 :: rest)))).length)
    (hn32 : n < 4294967296) (hm32 : m < 4294967296) (hm : 2 + ds.length ≤ m)
    (hf : n + 2 < fuel) :
    JSON fuel b n json m dest =
      some (JSON_EILL, write dest 1 (ds.map (reloc (b + (w0.length + 1 + w1.length))))) := by
  simp only [List.length_append, List.length_cons] at hn
  obtain ⟨k, hk, hr⟩ := ht.reach
  obtain ⟨c, t', hteq, hcsp, hc93, -⟩ := ht.shape
  cases fuel with
  | zero => omega
  | succ fuel =>
    have hsp : ¬ is_space 91 := by unfold is_space; omega
    obtain ⟨k1, k2, k3, k4⟩ := whitespace_lead json n fuel w0 91 _ hw0 hh hsp
      (by simp only [List.length_append, List.length_cons]; omega) (by omega)
    rw [JSON_enter fuel b n json m dest w0.length k1 k2 (by omega), k3]
    rw [if_neg (by decide), if_pos rfl]
    have k5 := k4.2
    rw [Holds_append] at k5
    have hc : json (w0.length + 1 + w1.length) = c := by
      have := k5.2
      rw [hteq] at this
      exact this.1
    have k6 := whitespace_skip json n w1 fuel (w0.length + 1) hw1 k5.1
      (Or.inr (by rw [hc]; exact hcsp)) (by omega) (by omega)
    unfold JSON_array
    rw [k6]
    dsimp only
    rw [if_neg (by omega), if_neg (by rw [hc]; exact hc93)]
    have e : fuel = (fuel - k - 1) + 1 + k := by omega
    rw [show u32 (0 + 1) = 1 from rfl]
    have hrun := hr fuel b n json m w0.length (fuel - k - 1 + 1)
      ⟨w0.length + 1 + w1.length, 1, 0, dest⟩ [] (w2 ++ 93 :: rest)
      (fun x hx => (by cases hx)) (by simpa using k5.2)
      (by dsimp only; simp only [List.length_nil]; omega) hn32 hm32 (by dsimp only; omega)
      (by dsimp only) (by dsimp only; omega) (by omega)
    rw [← e] at hrun
    rw [hrun, array_loop]
    simp only [behindComma, List.length_nil, Nat.add_zero]
    have k7 := k5.2
    rw [Holds_append] at k7
    have k8 : Holds json (w0.length + 1 + w1.length + t.length + 1) (w2 ++ 93 :: rest) := k7.2.2
    rw [Holds_append] at k8
    have hcl : json (w0.length + 1 + w1.length + t.length + 1 + w2.length) = 93 := k8.2.1
    have k9 := whitespace_skip json n w2 fuel (w0.length + 1 + w1.length + t.length + 1) hw2 k8.1
      (Or.inr (by rw [hcl]; unfold is_space; omega)) (by omega) (by omega)
    rw [k9]
    dsimp only
    unfold value_block
    dsimp only
    rw [subcall_closing fuel b n json m _ _ _ (Or.inl hcl) (by omega) hn32 (by omega) hm32
      (by omega)]
    dsimp only
    rw [if_pos (by simp)]

/-- The object branch on `{ w1 t , w2 }`: the sub-parse in key position meets
the closing brace. -/
theorem object_trailing (fuel b n : Nat) (json : Nat → Nat) (m : Nat)
    (dest : Nat → struct_JSON) (w0 w1 t w2 rest : List Nat) (ds : List struct_JSON)
    (hw0 : WS w0) (hw1 : WS w1) (hw2 : WS w2) (ht : Derives .members t ds)
    (hh : Holds json 0 (w0 ++ 123 :: (w1 ++ (t ++ 44 :: (w2 ++ 125 :: rest)))))
    (hn : n = (w0 ++ 123 :: (w1 ++ (t ++ 44 :: (w2 ++ 125 :: rest)))).length)
    (hn32 : n < 4294967296) (hm32 : m < 4294967296) (hm : 2 + ds.length ≤ m)
    (hf : n + 2 < fuel) :
    JSON fuel b n json m dest =
      some (JSON_EILL, write dest 1 (ds.map (reloc (b + (w0.length + 1 + w1.length))))) := by
  simp only [List.length_append, List.length_cons] at hn
  obtain ⟨k, hk, hr⟩ := ht.reach
  obtain ⟨c, t', hteq, hcsp, hc93, hc125⟩ := ht.shape
  cases fuel with
  | zero => omega
  | succ fuel =>
    have hsp : ¬ is_space 123 := by unfold is_space; omega
    obtain ⟨k1, k2, k3, k4⟩ := whitespace_lead json n fuel w0 123 _ hw0 hh hsp
      (by simp only [List.length_append, List.length_cons]; omega) (by omega)
    rw [JSON_enter fuel b n json m dest w0.length k1 k2 (by omega), k3]
    rw [if_pos rfl]
    have k5 := k4.2
    rw [Holds_append] at k5
    have hc : json (w0.length + 1 + w1.length) = c := by
      have := k5.2
      rw [hteq] at this
      exact this.1
    have k6 := whitespace_skip json n w1 fuel (w0.length + 1) hw1 k5.1
      (Or.inr (by rw [hc]; exact hcsp)) (by omega) (by omega)
    unfold JSON_object
    rw [k6]
    dsimp only
    rw [if_neg (by omega), if_neg (by rw [hc]; exact hc125)]
    have e : fuel = (fuel - k - 1) + 1 + k := by omega
    rw [show u32 (0 + 1) = 1 from rfl]
    have hrun := hr fuel b n json m w0.length (fuel - k - 1 + 1)
      ⟨w0.length + 1 + w1.length, 1, 0, dest⟩ [] (w2 ++ 125 :: rest)
      (fun x hx => (by cases hx)) (by simpa using k5.2)
      (by dsimp only; simp only [List.length_nil]; omega) hn32 hm32 (by dsimp only; omega)
      (by dsimp only) (by dsimp only; omega) (by omega)
    rw [← e] at hrun
    rw [hrun, object_loop]
    simp only [behindComma, List.length_nil, Nat.add_zero]
    have k7 := k5.2
    rw [Holds_append] at k7
    have k8 : Holds json (w0.length + 1 + w1.length + t.length + 1) (w2 ++ 125 :: rest) := k7.2.2
    rw [Holds_append] at k8
    have hcl : json (w0.length + 1 + w1.length + t.length + 1 + w2.length) = 125 := k8.2.1
    have k9 := whitespace_skip json n w2 fuel (w0.length + 1 + w1.length + t.length + 1) hw2 k8.1
      (Or.inr (by rw [hcl]; unfold is_space; omega)) (by omega) (by omega)
    rw [k9]
    dsimp only
    unfold key_block
    dsimp only
    rw [subcall_closing fuel b n json m _ _ _ (Or.inr hcl) (by omega) hn32 (by omega) hm32
      (by omega)]
    dsimp only
    rw [if_pos (by simp)]

/-! ### The object loop, event by event -/

/-- One iteration of the object loop, event by event: the key sub-parse, the
separator, the value sub-parse, and what follows the value. -/
theorem object_loop_events (self : Callee) (fuel b n : Nat) (json : Nat → Nat)
    (m start iter : Nat) (s : Frame) (q : Nat) (e1 : JSON_errno_t) (d1 : Nat → struct_JSON)
    (hws : whitespace json fuel s.pos n = some q)
    (hK : subcall self b n json m q s.destpos s.dest = some (e1, d1)) :
    (e1 ≠ JSON_EOK → object_loop self fuel b n json m start (iter + 1) s = some (e1, d1)) ∧
    (e1 = JSON_EOK → (d1 s.destpos).type ≠ JSON_STRING_TYPE →
      object_loop self fuel b n json m start (iter + 1) s = some (JSON_EINVAL, d1)) ∧
    (e1 = JSON_EOK → (d1 s.destpos).type = JSON_STRING_TYPE →
      ∀ p, whitespace json fuel (q + (d1 s.destpos).size) n = some p →
        (p = n → object_loop self fuel b n json m start (iter + 1) s = some (JSON_EEOT, d1)) ∧
        (p ≠ n → json p ≠ 58 →
          object_loop self fuel b n json m start (iter + 1) s = some (JSON_EINVAL, d1)) ∧
        (p ≠ n → json p = 58 → ∀ q2 e2 d2, whitespace json fuel (p + 1) n = some q2 →
          subcall self b n json m q2 (u32 (s.destpos + 1)) d1 = some (e2, d2) →
          (e2 ≠ JSON_EOK →
            object_loop self fuel b n json m start (iter + 1) s = some (e2, d2)) ∧
          (e2 = JSON_EOK → ∀ p2,
            whitespace json fuel (q2 + (d2 (u32 (s.destpos + 1))).size) n = some p2 →
            (p2 = n →
              object_loop self fuel b n json m start (iter + 1) s = some (JSON_EEOT, d2)) ∧
            (p2 ≠ n → json p2 ≠ 44 → json p2 ≠ 125 →
              object_loop self fuel b n json m start (iter + 1) s = some (JSON_EINVAL, d2))))) := by
  refine ⟨fun he => ?_, fun he ht => ?_, fun he ht p hp => ⟨fun hpn => ?_, fun hpn hc => ?_,
    fun hpn hc q2 e2 d2 hq2 hV => ⟨fun he2 => ?_, fun he2 p2 hp2 => ⟨fun hpn2 => ?_,
      fun hpn2 hc1 hc2 => ?_⟩⟩⟩⟩
  · rw [object_loop]
    simp only [hws, key_block, hK]
    rw [if_pos he]
  · rw [object_loop]
    simp only [hws, key_block, hK]
    rw [if_neg (by simp [he]), if_pos ht]
  · rw [object_loop]
    simp only [hws, key_block, hK]
    rw [if_neg (by simp [he]), if_neg (by simp [ht])]
    simp only [hp]
    rw [if_pos hpn]
  · rw [object_loop]
    simp only [hws, key_block, hK]
    rw [if_neg (by simp [he]), if_neg (by simp [ht])]
    simp only [hp]
    rw [if_neg hpn, if_pos hc]
  · rw [object_loop]
    simp only [hws, key_block, hK]
    rw [if_neg (by simp [he]), if_neg (by simp [ht])]
    simp only [hp]
    rw [if_neg hpn, if_neg (by simp [hc])]
    simp only [hq2, value_block, hV]
    rw [if_pos he2]
  · rw [object_loop]
    simp only [hws, key_block, hK]
    rw [if_neg (by simp [he]), if_neg (by simp [ht])]
    simp only [hp]
    rw [if_neg hpn, if_neg (by simp [hc])]
    simp only [hq2, value_block, hV]
    rw [if_neg (by simp [he2])]
    simp only [hp2]
    rw [if_pos hpn2]
  · rw [object_loop]
    simp only [hws, key_block, hK]
    rw [if_neg (by simp [he]), if_neg (by simp [ht])]
    simp only [hp]
    rw [if_neg hpn, if_neg (by simp [hc])]
    simp only [hq2, value_block, hV]
    rw [if_neg (by simp [he2])]
    simp only [hp2]
    rw [if_neg hpn2, if_neg hc1, if_pos hc2]

/-- The object branch on `{ w1 pre`: the loop reaches the key position behind
the prefix. -/
theorem object_at_key (fuel b n : Nat) (json : Nat → Nat) (m : Nat) (dest : Nat → struct_JSON)
    (w0 w1 pre : List Nat) (ds : List struct_JSON) (q : Nat) (hw0 : WS w0) (hw1 : WS w1)
    (hpre : MembersPrefix pre ds) (hh : Holds json 0 (w0 ++ 123 :: (w1 ++ pre)))
    (hq : q = (w0 ++ 123 :: (w1 ++ pre)).length) (hqn : q ≤ n)
    (hstop : q = n ∨ ¬ is_space (json q)) (hfirst : pre = [] → q ≠ n ∧ json q ≠ 125)
    (hn32 : n < 4294967296) (hm32 : m < 4294967296) (hm : 1 + ds.length ≤ m)
    (hf : n + 1 < fuel) :
    ∃ i s, JSON (fuel + 1) b n json m dest =
        object_loop (JSON fuel) fuel b n json m w0.length (i + 1) s ∧
      whitespace json fuel s.pos n = some q ∧ s.destpos = 1 + ds.length ∧
      s.dest = write dest 1 (ds.map (reloc (b + (w0.length + 1 + w1.length)))) := by
  simp only [List.length_append, List.length_cons] at hq
  have hsp : ¬ is_space 123 := by unfold is_space; omega
  obtain ⟨k1, k2, k3, k4⟩ := whitespace_lead json n fuel w0 123 _ hw0 hh hsp
    (by simp only [List.length_append, List.length_cons]; omega) (by omega)
  rw [JSON_enter fuel b n json m dest w0.length k1 k2 (by omega), k3]
  rw [if_pos rfl]
  have k5 := k4.2
  rw [Holds_append] at k5
  rcases hpre with ⟨rfl, rfl⟩ | ⟨t, w, ht, hw, rfl⟩
  · simp only [List.length_nil, Nat.add_zero] at hq
    obtain ⟨h1, h2⟩ := hfirst rfl
    have hns : ¬ is_space (json q) := by
      rcases hstop with h | h
      · exact absurd h h1
      · exact h
    have k6 := whitespace_skip json n w1 fuel (w0.length + 1) hw1 k5.1
      (Or.inr (by
        have e : w0.length + 1 + w1.length = q := by omega
        rw [e]
        exact hns)) (by omega) (by omega)
    have k7 := whitespace_skip json n [] fuel q (fun x hx => (by cases hx)) trivial
      (Or.inr (by simp only [List.length_nil, Nat.add_zero]; exact hns))
      (by simp only [List.length_nil]; omega) (by simp only [List.length_nil]; omega)
    simp only [List.length_nil, Nat.add_zero] at k7
    have e : w0.length + 1 + w1.length = q := by omega
    rw [e] at k6
    unfold JSON_object
    rw [k6]
    dsimp only
    rw [if_neg h1, if_neg h2]
    refine ⟨fuel - 1, ⟨q, u32 (0 + 1), 0, dest⟩, ?_, k7, rfl, ?_⟩
    · have e2 : fuel - 1 + 1 = fuel := by omega
      rw [e2]
    · simp only [List.map_nil, write_nil]
  · simp only [List.length_append, List.length_cons] at hq
    obtain ⟨k, hk, hr⟩ := ht.reach
    obtain ⟨c, t', hteq, hcsp, hc93, hc125⟩ := ht.shape
    have k5' : Holds json (w0.length + 1 + w1.length) (t ++ 44 :: w) := k5.2
    have hc : json (w0.length + 1 + w1.length) = c := by
      have := k5'
      rw [hteq] at this
      exact this.1
    have k6 := whitespace_skip json n w1 fuel (w0.length + 1) hw1 k5.1
      (Or.inr (by rw [hc]; exact hcsp)) (by omega) (by omega)
    unfold JSON_object
    rw [k6]
    dsimp only
    rw [if_neg (by omega), if_neg (by rw [hc]; exact hc125)]
    have e : fuel = (fuel - k - 1) + 1 + k := by omega
    rw [show u32 (0 + 1) = 1 from rfl]
    have hrun := hr fuel b n json m w0.length (fuel - k - 1 + 1)
      ⟨w0.length + 1 + w1.length, 1, 0, dest⟩ [] w
      (fun x hx => (by cases hx)) (by simpa using k5')
      (by dsimp only; simp only [List.length_nil]; omega) hn32 hm32 (by dsimp only; omega)
      (by dsimp only) (by dsimp only; omega) (by omega)
    rw [← e] at hrun
    rw [hrun]
    rw [Holds_append] at k5'
    have k8 : Holds json (w0.length + 1 + w1.length + t.length + 1) w := k5'.2.2
    have k9 := whitespace_skip json n w fuel (w0.length + 1 + w1.length + t.length + 1) hw k8
      (by
        have e3 : w0.length + 1 + w1.length + t.length + 1 + w.length = q := by omega
        rw [e3]
        exact hstop) (by omega) (by omega)
    refine ⟨fuel - k - 1, _, rfl, ?_, ?_, ?_⟩
    · simp only [behindComma, List.length_nil, Nat.add_zero]
      rw [k9]
      congr 1
      omega
    · simp only [behindComma]
    · simp only [behindComma, List.length_nil, Nat.add_zero]

/-! ### What follows the value -/

/-- A value of the grammar is a number, or `JSON` parses it whatever follows. -/
theorem Derives.free {v : List Nat} {ds : List struct_JSON} (h : Derives .value v ds) :
    (∃ d rest, ds = d :: rest ∧ d.type = JSON_NUMBER_TYPE) ∨ ValueFree v ds := by
  cases h with
  | null => exact Or.inr (keyword_free 110 [117, 108, 108] JSON_NULL_TYPE (by simp))
  | true_ => exact Or.inr (keyword_free 116 [114, 117, 101] JSON_BOOLEAN_TYPE (by simp))
  | false_ => exact Or.inr (keyword_free 102 [97, 108, 115, 101] JSON_BOOLEAN_TYPE (by simp))
  | number _ _ => exact Or.inl ⟨_, [], rfl, rfl⟩
  | string _ ht => exact Or.inr (string_free ht)
  | array_empty w hw => exact Or.inr (array_empty_free hw)
  | array w t ds hw ht => exact Or.inr (array_free hw ht.goal ht.shape)
  | object_empty w hw => exact Or.inr (object_empty_free hw)
  | object w t ds hw ht => exact Or.inr (object_free hw ht.goal ht.shape)

/-- Without overrun there is no check of what follows the value: after a call
that returns `JSON_EOK`, with `e = dest[0].offset - baseoffset + dest[0].size`,
the call on the first `e` bytes followed by any bytes `t` (that do not extend
the number, when `dest[0]` is a Number), with the same base offset, capacity
and descriptor memory, returns `JSON_EOK` and leaves the same descriptors. -/
theorem JSON_trailing (fuel b n : Nat) (json : Nat → Nat) (m : Nat)
    (dest d : Nat → struct_JSON) (hn : n < 4294967296) (hm : m < 4294967296)
    (hb : NoOverrun json n) (h : JSON fuel b n json m dest = some (JSON_EOK, d))
    (t : List Nat)
    (ht : (d 0).type = JSON_NUMBER_TYPE → ∀ c t', t = c :: t' → ¬ extends_number c)
    (json2 : Nat → Nat) (n2 fuel2 : Nat)
    (hh : Holds json2 0 (slice json 0 (usub (d 0).offset b + (d 0).size) ++ t))
    (hn2 : n2 = usub (d 0).offset b + (d 0).size + t.length) (hn32 : n2 < 4294967296)
    (hf : n2 + 1 < fuel2) :
    JSON fuel2 b n2 json2 m dest = some (JSON_EOK, d) := by
  obtain ⟨w, v, ds, hw, hv, hh0, hle, hdm, rfl⟩ :=
    JSON_grammatical fuel b n json m dest d hn hm hb h
  obtain ⟨c, v', d0, rest, hveq, -, -, -, rfl, h1, h2, h3⟩ := id hv.shape
  have h0 : write dest 0 ((d0 :: rest).map (reloc (b + w.length))) 0 =
      reloc (b + w.length) d0 := by
    have := write_at dest 0 0 ((d0 :: rest).map (reloc (b + w.length)))
      (reloc (b + w.length) d0) (by simp)
    simpa using this
  rw [h0] at ht hh hn2
  simp only [reloc, h1, h2, Nat.add_zero] at ht hh hn2
  rw [usub_u32 b (by omega)] at hh hn2
  have hsl : slice json 0 (w.length + v.length) = w ++ v := by
    have := Holds.slice_eq json (w ++ v) 0 hh0
    rwa [List.length_append] at this
  rw [hsl, List.append_assoc, Holds_append] at hh
  have hwv : Holds json2 0 (w ++ v) := by
    rw [Holds_append]
    rw [Holds_append] at hh
    exact ⟨hh.1, hh.2.1⟩
  rcases hv.free with ⟨d', rest', hds, hty⟩ | hfree
  · have hfo : Follow json2 n2 (w.length + v.length) := by
      cases t with
      | nil => exact Or.inl (by simpa using hn2.symm)
      | cons c t' =>
        refine Or.inr ?_
        rw [Holds_append] at hh
        have hc : json2 (0 + w.length + v.length) = c := hh.2.2.1
        rw [Nat.zero_add] at hc
        rw [hc]
        simp only [List.cons.injEq] at hds
        exact ht (by rw [hds.1]; exact hty) c t' rfl
    exact hv.goal fuel2 b n2 json2 m dest w hw hwv (by omega) hfo hn32 hm hdm hf
  · exact hfree fuel2 b n2 json2 m dest w hw hwv (by omega) hn32 hm hdm hf

/-! ### The scan for strings -/

theorem lex_append (s : Lex) (a b : List Nat) : lex s (a ++ b) = lex (lex s a) b := by
  unfold lex
  rw [List.foldl_append]

theorem lex_cons (s : Lex) (c : Nat) (t : List Nat) : lex s (c :: t) = lex (lex_step s c) t := rfl

theorem lex_out_plain : ∀ t : List Nat, (∀ c ∈ t, c ≠ 34) → lex .out t = .out
  | [], _ => rfl
  | c :: t, h => by
    rw [lex_cons]
    have hc : c ≠ 34 := h c (by simp)
    have e : lex_step .out c = .out := by
      show (if c = 34 then Lex.str else Lex.out) = Lex.out
      rw [if_neg hc]
    rw [e]
    exact lex_out_plain t (fun x hx => h x (by simp [hx]))

theorem lex_str_plain {c : Nat} (h1 : c ≠ 34) (h2 : c ≠ 92) : lex_step .str c = .str := by
  show (if c = 34 then Lex.out else if c = 92 then Lex.esc else Lex.str) = Lex.str
  rw [if_neg h1, if_neg h2]

theorem alnum_plain {c : Nat} (h : is_alnum c) : lex_step .str c = .str := by
  unfold is_alnum at h
  exact lex_str_plain (by omega) (by omega)

theorem StrBody.lex_str {body : List Nat} (h : StrBody body) : lex .str body = .str := by
  induction h with
  | nil => rfl
  | plain c rest h1 h2 _ _ _ ih =>
    rw [lex_cons, lex_str_plain h1 h2]
    exact ih
  | escape c rest _ _ ih =>
    rw [lex_cons, lex_cons]
    exact ih
  | unicode h1 h2 h3 h4 rest a1 a2 a3 a4 _ ih =>
    rw [lex_cons, lex_cons, lex_cons, lex_cons, lex_cons, lex_cons]
    show lex (lex_step (lex_step (lex_step (lex_step Lex.str h1) h2) h3) h4) rest = Lex.str
    rw [alnum_plain a1, alnum_plain a2, alnum_plain a3, alnum_plain a4]
    exact ih

theorem IsString.lexS {t : List Nat} (h : IsString t) : lex .out t = .out := by
  obtain ⟨body, rfl, hb⟩ := h
  rw [lex_cons]
  show lex Lex.str (body ++ [34]) = Lex.out
  rw [lex_append, hb.lex_str]
  rfl

theorem WS.lexW {w : List Nat} (h : WS w) : lex .out w = .out := by
  refine lex_out_plain w ?_
  intro c hc
  have := h c hc
  unfold is_space at this
  omega

theorem IsNumber.lexN {t : List Nat} (h : IsNumber t) : lex .out t = .out := by
  obtain ⟨sign, int, frac, exp, rfl, hs, hi, hfr, hex⟩ := h
  have dig : ∀ l : List Nat, (∀ x ∈ l, is_digit x) → ∀ c ∈ l, c ≠ 34 := by
    intro l hl c hc
    have := hl c hc
    unfold is_digit at this
    omega
  have h1 : lex .out sign = .out := by
    rcases hs with rfl | rfl
    · rfl
    · rfl
  have h2 : lex .out int = .out := by
    rcases hi with rfl | ⟨c, ds, rfl, hc1, hc2, hds⟩
    · rfl
    · refine lex_out_plain _ ?_
      intro x hx
      rcases List.mem_cons.1 hx with rfl | hx
      · omega
      · exact dig ds hds x hx
  have h3 : lex .out frac = .out := by
    rcases hfr with rfl | ⟨c, ds, rfl, hall⟩
    · rfl
    · refine lex_out_plain _ ?_
      intro x hx
      rcases List.mem_cons.1 hx with rfl | hx
      · omega
      · exact dig _ hall x hx
  have h4 : lex .out exp = .out := by
    rcases hex with rfl | ⟨x, s, c, ds, rfl, hx, hs', hall⟩
    · rfl
    · refine lex_out_plain _ ?_
      intro y hy
      rcases List.mem_cons.1 hy with rfl | hy
      · omega
      · rcases List.mem_append.1 hy with hy | hy
        · rcases hs' with rfl | rfl
          · cases hy
          · simp only [List.mem_singleton] at hy
            omega
        · exact dig _ hall y hy
  rw [lex_append, h1, lex_append, h2, lex_append, h3, h4]

/-- Behind a phrase of the grammar the scan for strings is outside a string. -/
theorem Derives.lex_out {k : Phrase} {t : List Nat} {ds : List struct_JSON}
    (h : Derives k t ds) : lex .out t = .out := by
  induction h with
  | null => rfl
  | true_ => rfl
  | false_ => rfl
  | number t ht => exact ht.lexN
  | string t ht => exact ht.lexS
  | array_empty w hw =>
    rw [lex_cons]
    show lex Lex.out (w ++ [93]) = Lex.out
    rw [lex_append, hw.lexW]
    rfl
  | array w t ds hw _ ih =>
    rw [lex_cons]
    show lex Lex.out (w ++ (t ++ [93])) = Lex.out
    rw [lex_append, hw.lexW, lex_append, ih]
    rfl
  | object_empty w hw =>
    rw [lex_cons]
    show lex Lex.out (w ++ [125]) = Lex.out
    rw [lex_append, hw.lexW]
    rfl
  | object w t ds hw _ ih =>
    rw [lex_cons]
    show lex Lex.out (w ++ (t ++ [125])) = Lex.out
    rw [lex_append, hw.lexW, lex_append, ih]
    rfl
  | elements_one v w ds _ hw ih =>
    rw [lex_append, ih, hw.lexW]
  | elements_cons v w w' t ds ds' _ hw hw' _ ih1 ih2 =>
    rw [lex_append, ih1, lex_append, hw.lexW, lex_cons]
    show lex Lex.out (w' ++ t) = Lex.out
    rw [lex_append, hw'.lexW, ih2]
  | members_one k w1 w2 v w3 ds hk hw1 hw2 _ hw3 ih =>
    rw [lex_append, hk.lexS, lex_append, hw1.lexW, lex_cons]
    show lex Lex.out (w2 ++ (v ++ w3)) = Lex.out
    rw [lex_append, hw2.lexW, lex_append, ih, hw3.lexW]
  | members_cons k w1 w2 v w3 w4 t ds ds' hk hw1 hw2 _ hw3 hw4 _ ih1 ih2 =>
    rw [lex_append, hk.lexS, lex_append, hw1.lexW, lex_cons]
    show lex Lex.out (w2 ++ (v ++ (w3 ++ 44 :: (w4 ++ t)))) = Lex.out
    rw [lex_append, hw2.lexW, lex_append, ih1, lex_append, hw3.lexW, lex_cons]
    show lex Lex.out (w4 ++ t) = Lex.out
    rw [lex_append, hw4.lexW, ih2]

theorem slice_succ (json : Nat → Nat) (p k : Nat) :
    slice json p (k + 1) = json p :: slice json (p + 1) k := by
  unfold slice
  rw [List.range_succ_eq_map, List.map_cons, List.map_map]
  congr 1
  apply List.map_congr_left
  intro i _
  show json (p + (i + 1)) = json (p + 1 + i)
  congr 1
  omega

theorem slice_holds (json : Nat → Nat) :
    ∀ (t : List Nat) (p k : Nat), Holds json p t →
      slice json p (t.length + k) = t ++ slice json (p + t.length) k
  | [], p, k, _ => by simp
  | c :: t, p, k, h => by
    have e : (c :: t).length + k = (t.length + k) + 1 := by
      simp only [List.length_cons]; omega
    rw [e, slice_succ, slice_holds json t (p + 1) k h.2, h.1]
    have e2 : p + 1 + t.length = p + (c :: t).length := by
      simp only [List.length_cons]; omega
    rw [e2]
    rfl

theorem slice_agree {j1 j2 : Nat → Nat} {n : Nat} (hag : Agree j1 j2 n) (p k : Nat)
    (h : p + k ≤ n) : slice j1 p k = slice j2 p k := by
  unfold slice
  apply List.map_congr_left
  intro i hi
  exact hag (p + i) (by have := List.mem_range.1 hi; omega)

theorem slice_shift (json : Nat → Nat) (p q k : Nat) :
    slice (shift json p) q k = slice json (p + q) k := by
  unfold slice shift
  apply List.map_congr_left
  intro i _
  congr 1
  omega

theorem NoDangling.skip {json : Nat → Nat} {p n : Nat} {t : List Nat}
    (h : NoDangling json p n) (hh : Holds json p t) (hle : p + t.length ≤ n)
    (hl : lex .out t = .out) : NoDangling json (p + t.length) n := by
  unfold NoDangling at h ⊢
  have e : n - p = t.length + (n - (p + t.length)) := by omega
  rw [e, slice_holds json t p _ hh, lex_append, hl] at h
  exact h

theorem NoDangling.step {json : Nat → Nat} {p n : Nat} (h : NoDangling json p n) (hp : p < n)
    (hc : json p ≠ 34) : NoDangling json (p + 1) n := by
  have := h.skip (t := [json p]) ⟨rfl, trivial⟩ (by simpa using hp)
    (lex_out_plain _ (by simpa using hc))
  simpa using this

theorem NoDangling.shiftD {json : Nat → Nat} {p n : Nat} (h : NoDangling json p n) :
    NoDangling (shift json p) 0 (n - p) := by
  unfold NoDangling at h ⊢
  rw [slice_shift, Nat.add_zero, Nat.sub_zero]
  exact h

theorem NoDangling.agree {j1 j2 : Nat → Nat} {n : Nat} (hag : Agree j1 j2 n) {p : Nat}
    (hp : p ≤ n) (h : NoDangling j1 p n) : NoDangling j2 p n := by
  unfold NoDangling at h ⊢
  rw [← slice_agree hag p (n - p) (by omega)]
  exact h

/-- The string loop reads bytes of the input only when the scan for strings,
inside a string at `p`, does not end behind an escaping backslash. -/
theorem string_loop_safe {j1 j2 : Nat → Nat} {n : Nat} (hag : Agree j1 j2 n) :
    ∀ (fuel p : Nat), p ≤ n → lex .str (slice j2 p (n - p)) ≠ .esc →
      string_loop j1 n fuel p = string_loop j2 n fuel p
  | 0, _, _, _ => rfl
  | fuel + 1, p, hp, hl => by
    rw [string_loop, string_loop]
    by_cases h1 : p = n
    · rw [if_pos h1, if_pos h1]
    rw [if_neg h1, if_neg h1, hag p (by omega)]
    have e1 : n - p = (n - (p + 1)) + 1 := by omega
    rw [e1, slice_succ, lex_cons] at hl
    by_cases h2 : j2 p = 34
    · rw [if_pos h2, if_pos h2]
    rw [if_neg h2, if_neg h2]
    by_cases h3 : j2 p = 92 ∧ p < n
    · rw [if_pos h3, if_pos h3]
      have hst : lex_step .str (j2 p) = .esc := by
        show (if j2 p = 34 then Lex.out else if j2 p = 92 then Lex.esc else Lex.str) = Lex.esc
        rw [if_neg h2, if_pos h3.1]
      rw [hst] at hl
      have hin : p + 1 < n := by
        by_contra hcon
        have e : n - (p + 1) = 0 := by omega
        rw [e] at hl
        exact hl rfl
      have e2 : n - (p + 1) = (n - (p + 2)) + 1 := by omega
      rw [e2, slice_succ, lex_cons] at hl
      have hl2 : lex .str (slice j2 (p + 2) (n - (p + 2))) ≠ .esc := hl
      dsimp only
      rw [hag (p + 1) hin]
      by_cases h4 : j2 (p + 1) = 34 ∨ j2 (p + 1) = 92 ∨ j2 (p + 1) = 47 ∨
          j2 (p + 1) = 98 ∨ j2 (p + 1) = 102 ∨ j2 (p + 1) = 110 ∨ j2 (p + 1) = 114 ∨
          j2 (p + 1) = 116
      · rw [if_pos h4, if_pos h4]
        exact string_loop_safe hag fuel (p + 2) (by omega) hl2
      rw [if_neg h4, if_neg h4]
      by_cases h5 : j2 (p + 1) = 117
      · rw [if_pos h5, if_pos h5]
        by_cases h6 : p + 2 + 4 > n
        · rw [if_pos h6, if_pos h6]
        rw [if_neg h6, if_neg h6, hag (p + 2) (by omega), hag (p + 3) (by omega),
          hag (p + 4) (by omega), hag (p + 5) (by omega)]
        by_cases h7 : ishex (j2 (p + 2)) = false
        · rw [if_pos h7, if_pos h7]
        rw [if_neg h7, if_neg h7]
        by_cases h8 : ishex (j2 (p + 3)) = false
        · rw [if_pos h8, if_pos h8]
        rw [if_neg h8, if_neg h8]
        by_cases h9 : ishex (j2 (p + 4)) = false
        · rw [if_pos h9, if_pos h9]
        rw [if_neg h9, if_neg h9]
        by_cases h10 : ishex (j2 (p + 5)) = false
        · rw [if_pos h10, if_pos h10]
        rw [if_neg h10, if_neg h10]
        refine string_loop_safe hag fuel (p + 6) (by omega) ?_
        have e3 : n - (p + 2) = (n - (p + 6)) + 1 + 1 + 1 + 1 := by omega
        rw [e3, slice_succ, slice_succ, slice_succ, slice_succ, lex_cons, lex_cons, lex_cons,
          lex_cons] at hl2
        have a7 := alnum_plain (alnum_of_ishex (by simpa using h7))
        have a8 := alnum_plain (alnum_of_ishex (by simpa using h8))
        have a9 := alnum_plain (alnum_of_ishex (by simpa using h9))
        have a10 := alnum_plain (alnum_of_ishex (by simpa using h10))
        rw [a7] at hl2
        have e4 : p + 2 + 1 = p + 3 := by omega
        have e5 : p + 3 + 1 = p + 4 := by omega
        have e6 : p + 4 + 1 = p + 5 := by omega
        have e7 : p + 5 + 1 = p + 6 := by omega
        rw [e4] at hl2
        rw [a8] at hl2
        rw [e5] at hl2
        rw [a9] at hl2
        rw [e6] at hl2
        rw [a10] at hl2
        rw [e7] at hl2
        exact hl2
      · rw [if_neg h5, if_neg h5]
    · rw [if_neg h3, if_neg h3]
      by_cases h4 : j2 p ≤ 31 ∨ j2 p = 127
      · rw [if_pos h4, if_pos h4]
      rw [if_neg h4, if_neg h4]
      refine string_loop_safe hag fuel (p + 1) (by omega) ?_
      have h92 : j2 p ≠ 92 := fun h => h3 ⟨h, by omega⟩
      rw [lex_str_plain h2 h92] at hl
      exact hl

theorem slice_snoc (json : Nat → Nat) (p k : Nat) :
    slice json p (k + 1) = slice json p k ++ [json (p + k)] := by
  unfold slice
  rw [List.range_succ, List.map_append]
  rfl

theorem lex_step_esc {s : Lex} {c : Nat} (h : lex_step s c = .esc) : c = 92 := by
  cases s with
  | out =>
    have h' : (if c = 34 then Lex.str else Lex.out) = Lex.esc := h
    by_cases hc : c = 34
    · rw [if_pos hc] at h'; cases h'
    · rw [if_neg hc] at h'; cases h'
  | str =>
    have h' : (if c = 34 then Lex.out else if c = 92 then Lex.esc else Lex.str) = Lex.esc := h
    by_cases hc : c = 34
    · rw [if_pos hc] at h'; cases h'
    · rw [if_neg hc] at h'
      by_cases hc2 : c = 92
      · exact hc2
      · rw [if_neg hc2] at h'; cases h'
  | esc =>
    have h' : Lex.str = Lex.esc := h
    cases h'

/-- An input that does not end in a backslash has no string ending right
behind a backslash. -/
theorem CleanEnd.noDangling {json : Nat → Nat} {n : Nat} (h : CleanEnd json n) :
    NoDangling json 0 n := by
  unfold NoDangling
  rw [Nat.sub_zero]
  cases n with
  | zero =>
    intro hc
    cases hc
  | succ k =>
    rcases h with h | h
    · omega
    · rw [slice_snoc, lex_append]
      intro hc
      have := lex_step_esc hc
      rw [Nat.zero_add] at this
      exact h this

/-! ### Termination and progress -/

theorem whitespace_total (json : Nat → Nat) (n : Nat) :
    ∀ (fuel p : Nat), p ≤ n → n - p < fuel → ∃ q, whitespace json fuel p n = some q
  | 0, _, _, hf => by omega
  | fuel + 1, p, hp, hf => by
    rw [whitespace]
    by_cases hc : p ≠ n ∧ isws (json p) = true
    · rw [if_pos hc]
      exact whitespace_total json n fuel (p + 1) (by omega) (by omega)
    · rw [if_neg hc]
      exact ⟨p, rfl⟩

theorem digits_total (json : Nat → Nat) (n : Nat) :
    ∀ (fuel p : Nat), p ≤ n → n - p < fuel → ∃ q, digits json fuel p n = some q
  | 0, _, _, hf => by omega
  | fuel + 1, p, hp, hf => by
    rw [digits]
    by_cases hc : p ≠ n ∧ isdig (json p) = true
    · rw [if_pos hc]
      exact digits_total json n fuel (p + 1) (by omega) (by omega)
    · rw [if_neg hc]
      exact ⟨p, rfl⟩

theorem string_loop_total (json : Nat → Nat) (n : Nat) (hb : NoOverrun json n) :
    ∀ (fuel p : Nat), p ≤ n → n - p < fuel → ∃ r, string_loop json n fuel p = some r
  | 0, _, _, hf => by omega
  | fuel + 1, p, hp, hf => by
    rw [string_loop]
    by_cases h1 : p = n
    · rw [if_pos h1]
      exact ⟨_, rfl⟩
    rw [if_neg h1]
    by_cases h2 : json p = 34
    · rw [if_pos h2]
      exact ⟨_, rfl⟩
    rw [if_neg h2]
    by_cases h3 : json p = 92 ∧ p < n
    · rw [if_pos h3]
      dsimp only
      by_cases h4 : json (p + 1) = 34 ∨ json (p + 1) = 92 ∨ json (p + 1) = 47 ∨
          json (p + 1) = 98 ∨ json (p + 1) = 102 ∨ json (p + 1) = 110 ∨ json (p + 1) = 114 ∨
          json (p + 1) = 116
      · rw [if_pos h4]
        have hlt : p + 1 < n := by
          by_contra hge
          have e : p + 1 = n := by omega
          rcases hb with h | h | h
          · omega
          · have e2 : n - 1 = p := by omega
            rw [e2] at h
            exact h h3.1
          · rw [← e] at h
            exact h h4
        exact string_loop_total json n hb fuel (p + 2) (by omega) (by omega)
      · rw [if_neg h4]
        by_cases h5 : json (p + 1) = 117
        · rw [if_pos h5]
          by_cases h6 : p + 2 + 4 > n
          · rw [if_pos h6]
            exact ⟨_, rfl⟩
          rw [if_neg h6]
          by_cases h7 : ishex (json (p + 2)) = false
          · rw [if_pos h7]
            exact ⟨_, rfl⟩
          rw [if_neg h7]
          by_cases h8 : ishex (json (p + 3)) = false
          · rw [if_pos h8]
            exact ⟨_, rfl⟩
          rw [if_neg h8]
          by_cases h9 : ishex (json (p + 4)) = false
          · rw [if_pos h9]
            exact ⟨_, rfl⟩
          rw [if_neg h9]
          by_cases h10 : ishex (json (p + 5)) = false
          · rw [if_pos h10]
            exact ⟨_, rfl⟩
          rw [if_neg h10]
          exact string_loop_total json n hb fuel (p + 6) (by omega) (by omega)
        · rw [if_neg h5]
          exact ⟨_, rfl⟩
    · rw [if_neg h3]
      by_cases h4 : json p ≤ 31 ∨ json p = 127
      · rw [if_pos h4]
        exact ⟨_, rfl⟩
      · rw [if_neg h4]
        exact string_loop_total json n hb fuel (p + 1) (by omega) (by omega)

theorem map_total {α β : Type} (f : α → β) {o : Option α} (h : ∃ q, o = some q) :
    ∃ r, o.map f = some r := by
  obtain ⟨q, rfl⟩ := h
  exact ⟨_, rfl⟩

theorem number_integer_total (json : Nat → Nat) (n fuel p : Nat) (hp : p < n)
    (hf : n - p < fuel) : ∃ r, number_integer fuel n json p = some r := by
  unfold number_integer
  dsimp only
  by_cases c1 : json p = 45 ∧ (if json p = 45 then p + 1 else p) = n
  · rw [if_pos c1]
    exact ⟨_, rfl⟩
  rw [if_neg c1]
  by_cases c2 : (if json p = 45 then p + 1 else p) = n
  · rw [if_pos c2]
    exact ⟨_, rfl⟩
  rw [if_neg c2]
  by_cases c3 : json (if json p = 45 then p + 1 else p) = 48
  · rw [if_pos c3]
    exact ⟨_, rfl⟩
  rw [if_neg c3]
  by_cases c4 : 49 ≤ json (if json p = 45 then p + 1 else p) ∧
      json (if json p = 45 then p + 1 else p) ≤ 57
  · rw [if_pos c4]
    refine map_total _ (digits_total json n fuel _ ?_ ?_)
    · by_cases h : json p = 45
      · rw [if_pos h]; omega
      · rw [if_neg h]; omega
    · by_cases h : json p = 45
      · rw [if_pos h]; omega
      · rw [if_neg h]; omega
  · rw [if_neg c4]
    exact ⟨_, rfl⟩

theorem number_fraction_total (json : Nat → Nat) (n fuel p : Nat) (hp : p ≤ n)
    (hf : n - p < fuel) : ∃ r, number_fraction fuel n json p = some r := by
  unfold number_fraction
  by_cases c1 : p ≠ n ∧ json p = 46
  · rw [if_pos c1]
    dsimp only
    by_cases c2 : p + 1 = n ∨ json (p + 1) < 48 ∨ json (p + 1) > 57
    · rw [if_pos c2]
      exact ⟨_, rfl⟩
    · rw [if_neg c2]
      exact map_total _ (digits_total json n fuel _ (by omega) (by omega))
  · rw [if_neg c1]
    exact ⟨_, rfl⟩

theorem number_exponent_total (json : Nat → Nat) (n fuel p : Nat) (hp : p ≤ n)
    (hf : n - p < fuel) : ∃ r, number_exponent fuel n json p = some r := by
  unfold number_exponent
  by_cases c1 : p ≠ n ∧ (json p = 101 ∨ json p = 69)
  · rw [if_pos c1]
    dsimp only
    by_cases c2 : p + 1 = n
    · rw [if_pos c2]
      exact ⟨_, rfl⟩
    rw [if_neg c2]
    by_cases c3 : (if json (p + 1) = 45 then p + 1 + 1 else p + 1) = n
    · rw [if_pos c3]
      exact ⟨_, rfl⟩
    rw [if_neg c3]
    by_cases c4 : (if json (p + 1) = 45 then p + 1 + 1 else p + 1) = n ∨
        json (if json (p + 1) = 45 then p + 1 + 1 else p + 1) < 48 ∨
        json (if json (p + 1) = 45 then p + 1 + 1 else p + 1) > 57
    · rw [if_pos c4]
      exact ⟨_, rfl⟩
    · rw [if_neg c4]
      refine map_total _ (digits_total json n fuel _ ?_ ?_)
      · by_cases h : json (p + 1) = 45
        · rw [if_pos h]; rw [if_pos h] at c3; omega
        · rw [if_neg h]; omega
      · by_cases h : json (p + 1) = 45
        · rw [if_pos h]; omega
        · rw [if_neg h]; omega
  · rw [if_neg c1]
    exact ⟨_, rfl⟩

theorem number_scan_total (json : Nat → Nat) (n fuel p : Nat) (hp : p < n)
    (hf : n - p < fuel) : ∃ r, number_scan fuel n json p = some r := by
  unfold number_scan
  obtain ⟨r1, h1⟩ := number_integer_total json n fuel p hp hf
  rw [h1]
  cases r1 with
  | error e => exact ⟨_, rfl⟩
  | ok q1 =>
    dsimp only
    obtain ⟨sign, int, -, -, -, hq1, hle1⟩ := number_integer_inv json n fuel p q1 h1 hp
    obtain ⟨r2, h2⟩ := number_fraction_total json n fuel q1 hle1 (by omega)
    rw [h2]
    cases r2 with
    | error e => exact ⟨_, rfl⟩
    | ok q2 =>
      dsimp only
      obtain ⟨frac, -, -, hq2, hle2⟩ := number_fraction_inv json n fuel q1 q2 h2 hle1
      exact number_exponent_total json n fuel q2 hle2 (by omega)

theorem subcall_total {self : Callee} {k : Nat} (hr : Returns self k) (b n : Nat)
    (json : Nat → Nat) (m pos destpos : Nat) (dest : Nat → struct_JSON) (hp : pos ≤ n)
    (hk : n - pos < k) (hn : n < 4294967296) (hb : NoOverrun json n) :
    ∃ r, subcall self b n json m pos destpos dest = some r := by
  unfold subcall
  rw [usub_of_le hp hn]
  obtain ⟨r, h⟩ := hr (u32 (b + pos)) (n - pos) (shift json pos) (usub m destpos)
    (shift dest destpos) hk (by omega) (usub_lt _ _) (hb.shiftN hp)
  rw [h]
  obtain ⟨e, sub⟩ := r
  exact ⟨_, rfl⟩

theorem value_block_total {self : Callee} {k : Nat} (hr : Returns self k) (b n : Nat)
    (json : Nat → Nat) (m : Nat) (s : Frame) (hp : s.pos ≤ n) (hk : n - s.pos < k)
    (hn : n < 4294967296) (hb : NoOverrun json n) :
    ∃ r, value_block self b n json m s = some r := by
  unfold value_block
  obtain ⟨r, h⟩ := subcall_total hr b n json m s.pos s.destpos s.dest hp hk hn hb
  rw [h]
  obtain ⟨e, d⟩ := r
  dsimp only
  by_cases he : e ≠ JSON_EOK
  · rw [if_pos he]
    exact ⟨_, rfl⟩
  · rw [if_neg he]
    exact ⟨_, rfl⟩

theorem key_block_total {self : Callee} {k : Nat} (hr : Returns self k) (b n : Nat)
    (json : Nat → Nat) (m : Nat) (s : Frame) (hp : s.pos ≤ n) (hk : n - s.pos < k)
    (hn : n < 4294967296) (hb : NoOverrun json n) :
    ∃ r, key_block self b n json m s = some r := by
  unfold key_block
  obtain ⟨r, h⟩ := subcall_total hr b n json m s.pos s.destpos s.dest hp hk hn hb
  rw [h]
  obtain ⟨e, d⟩ := r
  dsimp only
  by_cases he : e ≠ JSON_EOK
  · rw [if_pos he]
    exact ⟨_, rfl⟩
  · rw [if_neg he]
    by_cases ht : (d s.destpos).type ≠ JSON_STRING_TYPE
    · rw [if_pos ht]
      exact ⟨_, rfl⟩
    · rw [if_neg ht]
      exact ⟨_, rfl⟩

/-- One iteration of the array loop returns, or goes on from a position
further to the right, behind bytes that end outside a string. -/
theorem array_loop_progress {self : Callee} (hs : Grammatical self) (fuel b n : Nat)
    (json : Nat → Nat) (m start : Nat) (hr : Returns self n) (hn : n < 4294967296)
    (hm : m < 4294967296) (hb : NoOverrun json n) (s : Frame) (h1 : 1 ≤ s.pos) (hp : s.pos ≤ n)
    (ht : s.treesize + 1 = s.destpos) (hd : s.destpos ≤ m) (hf : n < fuel) :
    (∃ r, ∀ iter, array_loop self fuel b n json m start (iter + 1) s = some r) ∨
    ∃ s', s.pos < s'.pos ∧ s'.pos ≤ n ∧ s'.treesize + 1 = s'.destpos ∧ s'.destpos ≤ m ∧
      (∃ t, Holds json s.pos t ∧ s'.pos = s.pos + t.length ∧ lex .out t = .out) ∧
      ∀ iter, array_loop self fuel b n json m start (iter + 1) s =
        array_loop self fuel b n json m start iter s' := by
  obtain ⟨p, hw⟩ := whitespace_total json n fuel s.pos hp (by omega)
  obtain ⟨w, hww, hhw, hpw, hple, hstop⟩ := whitespace_inv json n fuel s.pos p hw hp
  obtain ⟨r, hv⟩ := value_block_total hr b n json m { s with pos := p } hple
    (by dsimp only; omega) hn hb
  cases r with
  | error r =>
    refine Or.inl ⟨r, fun iter => ?_⟩
    rw [array_loop]
    simp only [hw, hv]
  | ok s1 =>
    obtain ⟨v, ds, hder, hhv, hvle, hvd, rfl⟩ := value_block_inv hs b n json m { s with pos := p }
      _ hn hm hb hple hstop ht hd hv
    dsimp only at hhv hvle hvd hv
    obtain ⟨c0, v', d0, rest, hveq, -⟩ := hder.shape
    have hvlen : 1 ≤ v.length := by rw [hveq]; simp
    obtain ⟨p2, hw2⟩ := whitespace_total json n fuel (p + v.length) hvle (by omega)
    obtain ⟨w2, hww2, hhw2, hpw2, hple2, -⟩ :=
      whitespace_inv json n fuel (p + v.length) p2 hw2 hvle
    by_cases c1 : p2 = n
    · exact Or.inl ⟨_, fun iter => by
        rw [array_loop]
        simp only [hw, hv, hw2]
        rw [if_pos c1]⟩
    by_cases c2 : json p2 = 44
    · refine Or.inr ⟨⟨p2 + 1, s.destpos + ds.length, s.treesize + ds.length,
        write s.dest s.destpos (ds.map (reloc (b + p)))⟩, by dsimp only; omega,
        by dsimp only; omega, by dsimp only; omega, by dsimp only; omega, ?_, fun iter => ?_⟩
      · refine ⟨w ++ (v ++ (w2 ++ [44])), ?_, ?_, ?_⟩
        · rw [Holds_append, Holds_append, Holds_append]
          rw [← hpw, ← hpw2]
          exact ⟨hhw, hhv, hhw2, c2, trivial⟩
        · simp only [List.length_append, List.length_cons, List.length_nil]
          omega
        · rw [lex_append, hww.lexW, lex_append, hder.lex_out, lex_append, hww2.lexW]
          rfl
      · rw [array_loop]
        simp only [hw, hv, hw2]
        rw [if_neg c1, if_pos c2]
    by_cases c3 : json p2 ≠ 93
    · exact Or.inl ⟨_, fun iter => by
        rw [array_loop]
        simp only [hw, hv, hw2]
        rw [if_neg c1, if_neg c2, if_pos c3]⟩
    · exact Or.inl ⟨_, fun iter => by
        rw [array_loop]
        simp only [hw, hv, hw2]
        rw [if_neg c1, if_neg c2, if_neg c3]⟩

/-- One iteration of the object loop returns, or goes on from a position
further to the right, behind bytes that end outside a string. -/
theorem object_loop_progress {self : Callee} (hs : Grammatical self) (fuel b n : Nat)
    (json : Nat → Nat) (m start : Nat) (hr : Returns self n) (hn : n < 4294967296)
    (hm : m < 4294967296) (hb : NoOverrun json n) (s : Frame) (h1 : 1 ≤ s.pos) (hp : s.pos ≤ n)
    (ht : s.treesize + 1 = s.destpos) (hd : s.destpos ≤ m) (hf : n < fuel) :
    (∃ r, ∀ iter, object_loop self fuel b n json m start (iter + 1) s = some r) ∨
    ∃ s', s.pos < s'.pos ∧ s'.pos ≤ n ∧ s'.treesize + 1 = s'.destpos ∧ s'.destpos ≤ m ∧
      (∃ t, Holds json s.pos t ∧ s'.pos = s.pos + t.length ∧ lex .out t = .out) ∧
      ∀ iter, object_loop self fuel b n json m start (iter + 1) s =
        object_loop self fuel b n json m start iter s' := by
  obtain ⟨p, hw⟩ := whitespace_total json n fuel s.pos hp (by omega)
  obtain ⟨w, hww, hhw, hpw, hple, hstop⟩ := whitespace_inv json n fuel s.pos p hw hp
  obtain ⟨r, hk⟩ := key_block_total hr b n json m { s with pos := p } hple
    (by dsimp only; omega) hn hb
  cases r with
  | error r =>
    refine Or.inl ⟨r, fun iter => ?_⟩
    rw [object_loop]
    simp only [hw, hk]
  | ok s1 =>
    obtain ⟨k, hkey, hhk, hkle, hkd, rfl⟩ := key_block_inv hs b n json m { s with pos := p }
      _ hn hm hb hple hstop ht hd hk
    dsimp only at hhk hkle hkd hk
    obtain ⟨body, hkeq, -⟩ := id hkey
    have hklen : 1 ≤ k.length := by rw [hkeq]; simp
    obtain ⟨p2, hw2⟩ := whitespace_total json n fuel (p + k.length) hkle (by omega)
    obtain ⟨w2, hww2, hhw2, hpw2, hple2, -⟩ :=
      whitespace_inv json n fuel (p + k.length) p2 hw2 hkle
    by_cases c1 : p2 = n
    · exact Or.inl ⟨_, fun iter => by
        rw [object_loop]
        simp only [hw, hk, hw2]
        rw [if_pos c1]⟩
    by_cases c2 : json p2 ≠ 58
    · exact Or.inl ⟨_, fun iter => by
        rw [object_loop]
        simp only [hw, hk, hw2]
        rw [if_neg c1, if_pos c2]⟩
    have c2' : json p2 = 58 := by
      by_contra h
      exact c2 h
    obtain ⟨p3, hw3⟩ := whitespace_total json n fuel (p2 + 1) (by omega) (by omega)
    obtain ⟨w3, hww3, hhw3, hpw3, hple3, hstop3⟩ := whitespace_inv json n fuel (p2 + 1) p3 hw3
      (by omega)
    obtain ⟨r, hv⟩ := value_block_total hr b n json m
      ⟨p3, s.destpos + 1, s.treesize + 1,
        write s.dest s.destpos [reloc (b + p) ⟨0, k.length, 0, JSON_STRING_TYPE⟩]⟩ hple3
      (by dsimp only; omega) hn hb
    cases r with
    | error r =>
      refine Or.inl ⟨r, fun iter => ?_⟩
      rw [object_loop]
      simp only [hw, hk, hw2, hw3, hv]
      rw [if_neg c1, if_neg c2]
    | ok s2 =>
      obtain ⟨v, ds, hder, hhv, hvle, hvd, rfl⟩ := value_block_inv hs b n json m _ _ hn hm hb
        (by dsimp only; exact hple3) (by dsimp only; exact hstop3) (by dsimp only; omega)
        (by dsimp only; exact hkd) hv
      dsimp only at hhv hvle hvd hv
      obtain ⟨p4, hw4⟩ := whitespace_total json n fuel (p3 + v.length) hvle (by omega)
      obtain ⟨w4, hww4, hhw4, hpw4, hple4, -⟩ :=
        whitespace_inv json n fuel (p3 + v.length) p4 hw4 hvle
      by_cases c3 : p4 = n
      · exact Or.inl ⟨_, fun iter => by
          rw [object_loop]
          simp only [hw, hk, hw2, hw3, hv, hw4]
          rw [if_neg c1, if_neg c2, if_pos c3]⟩
      by_cases c4 : json p4 = 44
      · refine Or.inr ⟨⟨p4 + 1, s.destpos + 1 + ds.length, s.treesize + 1 + ds.length,
          write (write s.dest s.destpos [reloc (b + p) ⟨0, k.length, 0, JSON_STRING_TYPE⟩])
            (s.destpos + 1) (ds.map (reloc (b + p3)))⟩, by dsimp only; omega,
          by dsimp only; omega, by dsimp only; omega, by dsimp only; omega, ?_, fun iter => ?_⟩
        · refine ⟨w ++ (k ++ (w2 ++ (58 :: (w3 ++ (v ++ (w4 ++ [44])))))), ?_, ?_, ?_⟩
          · rw [Holds_append, Holds_append, Holds_append]
            rw [← hpw, ← hpw2]
            refine ⟨hhw, hhk, hhw2, c2', ?_⟩
            rw [Holds_append, Holds_append, Holds_append]
            rw [← hpw3, ← hpw4]
            exact ⟨hhw3, hhv, hhw4, c4, trivial⟩
          · simp only [List.length_append, List.length_cons, List.length_nil]
            omega
          · rw [lex_append, hww.lexW, lex_append, hkey.lexS, lex_append, hww2.lexW,
              lex_cons]
            show lex Lex.out (w3 ++ (v ++ (w4 ++ [44]))) = Lex.out
            rw [lex_append, hww3.lexW, lex_append, hder.lex_out, lex_append, hww4.lexW]
            rfl
        · rw [object_loop]
          simp only [hw, hk, hw2, hw3, hv, hw4]
          rw [if_neg c1, if_neg c2, if_neg c3, if_pos c4]
      by_cases c5 : json p4 ≠ 125
      · exact Or.inl ⟨_, fun iter => by
          rw [object_loop]
          simp only [hw, hk, hw2, hw3, hv, hw4]
          rw [if_neg c1, if_neg c2, if_neg c3, if_neg c4, if_pos c5]⟩
      · exact Or.inl ⟨_, fun iter => by
          rw [object_loop]
          simp only [hw, hk, hw2, hw3, hv, hw4]
          rw [if_neg c1, if_neg c2, if_neg c3, if_neg c4, if_neg c5]⟩

theorem array_loop_total {self : Callee} (hs : Grammatical self) (fuel b n : Nat)
    (json : Nat → Nat) (m start : Nat) (hr : Returns self n) (hn : n < 4294967296)
    (hm : m < 4294967296) (hb : NoOverrun json n) (hf : n < fuel) :
    ∀ (iter : Nat) (s : Frame), 1 ≤ s.pos → s.pos ≤ n → s.treesize + 1 = s.destpos →
      s.destpos ≤ m → n - s.pos < iter →
      ∃ r, array_loop self fuel b n json m start iter s = some r
  | 0, _, _, _, _, _, hi => by omega
  | iter + 1, s, h1, hp, ht, hd, hi => by
    rcases array_loop_progress hs fuel b n json m start hr hn hm hb s h1 hp ht hd hf with
      ⟨r, h⟩ | ⟨s', a1, a2, a3, a4, -, h⟩
    · exact ⟨r, h iter⟩
    · rw [h iter]
      exact array_loop_total hs fuel b n json m start hr hn hm hb hf iter s' (by omega) a2 a3 a4
        (by omega)

theorem object_loop_total {self : Callee} (hs : Grammatical self) (fuel b n : Nat)
    (json : Nat → Nat) (m start : Nat) (hr : Returns self n) (hn : n < 4294967296)
    (hm : m < 4294967296) (hb : NoOverrun json n) (hf : n < fuel) :
    ∀ (iter : Nat) (s : Frame), 1 ≤ s.pos → s.pos ≤ n → s.treesize + 1 = s.destpos →
      s.destpos ≤ m → n - s.pos < iter →
      ∃ r, object_loop self fuel b n json m start iter s = some r
  | 0, _, _, _, _, _, hi => by omega
  | iter + 1, s, h1, hp, ht, hd, hi => by
    rcases object_loop_progress hs fuel b n json m start hr hn hm hb s h1 hp ht hd hf with
      ⟨r, h⟩ | ⟨s', a1, a2, a3, a4, -, h⟩
    · exact ⟨r, h iter⟩
    · rw [h iter]
      exact object_loop_total hs fuel b n json m start hr hn hm hb hf iter s' (by omega) a2 a3 a4
        (by omega)

theorem JSON_array_total {self : Callee} (hs : Grammatical self) (fuel b n : Nat)
    (json : Nat → Nat) (m : Nat) (dest : Nat → struct_JSON) (pos : Nat) (hr : Returns self n)
    (hn : n < 4294967296) (hm : m < 4294967296) (hb : NoOverrun json n) (hp : pos < n)
    (hm1 : 1 ≤ m) (hf : n < fuel) :
    ∃ r, JSON_array self fuel b n json m dest pos = some r := by
  unfold JSON_array
  obtain ⟨p, hw⟩ := whitespace_total json n fuel (pos + 1) (by omega) (by omega)
  obtain ⟨w, -, -, hpw, hple, -⟩ := whitespace_inv json n fuel (pos + 1) p hw (by omega)
  rw [hw]
  dsimp only
  by_cases c1 : p = n
  · rw [if_pos c1]
    exact ⟨_, rfl⟩
  rw [if_neg c1]
  by_cases c2 : json p = 93
  · rw [if_pos c2]
    exact ⟨_, rfl⟩
  rw [if_neg c2]
  exact array_loop_total hs fuel b n json m pos hr hn hm hb hf fuel ⟨p, u32 (0 + 1), 0, dest⟩
    (by dsimp only; omega) hple rfl (by dsimp only; rw [show u32 (0 + 1) = 1 from rfl]; omega)
    (by dsimp only; omega)

theorem JSON_object_total {self : Callee} (hs : Grammatical self) (fuel b n : Nat)
    (json : Nat → Nat) (m : Nat) (dest : Nat → struct_JSON) (pos : Nat) (hr : Returns self n)
    (hn : n < 4294967296) (hm : m < 4294967296) (hb : NoOverrun json n) (hp : pos < n)
    (hm1 : 1 ≤ m) (hf : n < fuel) :
    ∃ r, JSON_object self fuel b n json m dest pos = some r := by
  unfold JSON_object
  obtain ⟨p, hw⟩ := whitespace_total json n fuel (pos + 1) (by omega) (by omega)
  obtain ⟨w, -, -, hpw, hple, -⟩ := whitespace_inv json n fuel (pos + 1) p hw (by omega)
  rw [hw]
  dsimp only
  by_cases c1 : p = n
  · rw [if_pos c1]
    exact ⟨_, rfl⟩
  rw [if_neg c1]
  by_cases c2 : json p = 125
  · rw [if_pos c2]
    exact ⟨_, rfl⟩
  rw [if_neg c2]
  exact object_loop_total hs fuel b n json m pos hr hn hm hb hf fuel ⟨p, u32 (0 + 1), 0, dest⟩
    (by dsimp only; omega) hple rfl (by dsimp only; rw [show u32 (0 + 1) = 1 from rfl]; omega)
    (by dsimp only; omega)

/-- The body of `JSON` returns on an input without overrun of `n` bytes when
the function called recursively returns on inputs of fewer bytes. -/
theorem JSON_body_total {self : Callee} (hs : Grammatical self) (fuel b n : Nat)
    (json : Nat → Nat) (m : Nat) (dest : Nat → struct_JSON) (hr : Returns self n)
    (hn : n < 4294967296) (hm : m < 4294967296) (hb : NoOverrun json n) (hf : n < fuel) :
    ∃ r, JSON_body self fuel b n json m dest = some r := by
  unfold JSON_body
  obtain ⟨pos, hw⟩ := whitespace_total json n fuel 0 (Nat.zero_le _) (by omega)
  obtain ⟨w, -, -, hpw, hple, -⟩ := whitespace_inv json n fuel 0 pos hw (Nat.zero_le _)
  rw [hw]
  dsimp only
  by_cases c1 : pos = n
  · rw [if_pos c1]
    exact ⟨_, rfl⟩
  rw [if_neg c1]
  by_cases c2 : 0 = m
  · rw [if_pos c2]
    exact ⟨_, rfl⟩
  rw [if_neg c2]
  by_cases c3 : json pos = 123
  · rw [if_pos c3]
    exact JSON_object_total hs fuel b n json m dest pos hr hn hm hb (by omega) (by omega) hf
  rw [if_neg c3]
  by_cases c4 : json pos = 91
  · rw [if_pos c4]
    exact JSON_array_total hs fuel b n json m dest pos hr hn hm hb (by omega) (by omega) hf
  rw [if_neg c4]
  by_cases c5 : json pos = 34
  · rw [if_pos c5]
    unfold JSON_string
    obtain ⟨r, h⟩ := string_loop_total json n hb fuel (pos + 1) (by omega) (by omega)
    rw [h]
    cases r with
    | error e => exact ⟨_, rfl⟩
    | ok q => exact ⟨_, rfl⟩
  rw [if_neg c5]
  by_cases c6 : json pos = 45 ∨ (48 ≤ json pos ∧ json pos ≤ 57)
  · rw [if_pos c6]
    unfold JSON_number
    obtain ⟨r, h⟩ := number_scan_total json n fuel pos (by omega) (by omega)
    rw [h]
    cases r with
    | error e => exact ⟨_, rfl⟩
    | ok q => exact ⟨_, rfl⟩
  rw [if_neg c6]
  by_cases c7 : json pos = 116
  · rw [if_pos c7]
    exact ⟨_, rfl⟩
  rw [if_neg c7]
  by_cases c8 : json pos = 102
  · rw [if_pos c8]
    exact ⟨_, rfl⟩
  rw [if_neg c8]
  by_cases c9 : json pos = 110
  · rw [if_pos c9]
    exact ⟨_, rfl⟩
  rw [if_neg c9]
  exact ⟨_, rfl⟩

/-- With fuel above `jsonsize + 1` the function `JSON` returns on every input
without overrun. -/
theorem JSON_total : ∀ (fuel b n : Nat) (json : Nat → Nat) (m : Nat) (dest : Nat → struct_JSON),
    n + 1 < fuel → n < 4294967296 → m < 4294967296 → NoOverrun json n →
    ∃ r, JSON fuel b n json m dest = some r
  | 0, _, _, _, _, _, hf, _, _, _ => by omega
  | fuel + 1, b, n, json, m, dest, hf, hn, hm, hb => by
    rw [JSON_unfold]
    refine JSON_body_total (JSON_grammatical fuel) fuel b n json m dest ?_ hn hm hb (by omega)
    intro b' n' json' m' dest' hn' hn32 hm32 hb'
    exact JSON_total fuel b' n' json' m' dest' (by omega) hn32 hm32 hb'

/-- Every descriptor written by a call that returns `JSON_EOK` on an input
without overrun has a size of at least one byte. -/
theorem JSON_size_pos (fuel b n : Nat) (json : Nat → Nat) (m : Nat)
    (dest d : Nat → struct_JSON) (hn : n < 4294967296) (hm : m < 4294967296)
    (hb : NoOverrun json n) (h : JSON fuel b n json m dest = some (JSON_EOK, d)) (i : Nat)
    (hi : i ≤ (d 0).treesize) : 1 ≤ (d i).size := by
  obtain ⟨w, v, ds, -, hv, -, hle, -, hts, -, -, hget, -⟩ :=
    (JSON_grammatical fuel b n json m dest d hn hm hb h).entry
  have hi' : i < ds.length := by omega
  have hs : ds.get? i = some (ds.get ⟨i, hi'⟩) := List.get?_eq_get hi'
  generalize ds.get ⟨i, hi'⟩ = s at hs
  obtain ⟨pre, vi, post, dsi, -, -, e3, -, e5, -⟩ := hv.subtree i s hs
  obtain ⟨c, t', d0, rest, hveq, -⟩ := e5.shape
  rw [hget i s hs]
  show 1 ≤ s.size
  rw [← e3, hveq]
  simp

theorem subcall_congr {self1 self2 : Callee} {n : Nat} (ha : AgreeBelow self1 self2 n)
    (b : Nat) (json : Nat → Nat) (m pos destpos : Nat) (dest : Nat → struct_JSON)
    (h1 : 1 ≤ pos) (hp : pos ≤ n) (hn : n < 4294967296) (hb : NoOverrun json n) :
    subcall self1 b n json m pos destpos dest = subcall self2 b n json m pos destpos dest := by
  unfold subcall
  rw [usub_of_le hp hn]
  rw [ha (u32 (b + pos)) (n - pos) (shift json pos) (usub m destpos) (shift dest destpos)
    (by omega) (by omega) (usub_lt _ _) (hb.shiftN hp)]

theorem value_block_congr {self1 self2 : Callee} {n : Nat} (ha : AgreeBelow self1 self2 n)
    (b : Nat) (json : Nat → Nat) (m : Nat) (s : Frame)
    (h1 : 1 ≤ s.pos) (hp : s.pos ≤ n) (hn : n < 4294967296) (hb : NoOverrun json n) :
    value_block self1 b n json m s = value_block self2 b n json m s := by
  unfold value_block
  rw [subcall_congr ha b json m s.pos s.destpos s.dest h1 hp hn hb]

theorem key_block_congr {self1 self2 : Callee} {n : Nat} (ha : AgreeBelow self1 self2 n)
    (b : Nat) (json : Nat → Nat) (m : Nat) (s : Frame)
    (h1 : 1 ≤ s.pos) (hp : s.pos ≤ n) (hn : n < 4294967296) (hb : NoOverrun json n) :
    key_block self1 b n json m s = key_block self2 b n json m s := by
  unfold key_block
  rw [subcall_congr ha b json m s.pos s.destpos s.dest h1 hp hn hb]

/-- The array loop depends on the function called recursively only through
its results on shorter inputs. -/
theorem array_loop_congr {self1 self2 : Callee} (hs : Grammatical self1) (fuel b n : Nat)
    (json : Nat → Nat) (m start : Nat) (ha : AgreeBelow self1 self2 n) (hn : n < 4294967296)
    (hm : m < 4294967296) (hb : NoOverrun json n) :
    ∀ (iter : Nat) (s : Frame), 1 ≤ s.pos → s.pos ≤ n → s.treesize + 1 = s.destpos →
      s.destpos ≤ m →
      array_loop self1 fuel b n json m start iter s =
        array_loop self2 fuel b n json m start iter s
  | 0, _, _, _, _, _ => by rw [array_loop, array_loop]
  | iter + 1, s, h1, hp, ht, hd => by
    rw [array_loop, array_loop]
    cases hw : whitespace json fuel s.pos n with
    | none => rfl
    | some p =>
      dsimp only
      obtain ⟨w, -, -, hpw, hple, hstop⟩ := whitespace_inv json n fuel s.pos p hw hp
      rw [← value_block_congr ha b json m { s with pos := p } (by dsimp only; omega) hple hn hb]
      cases hv : value_block self1 b n json m { s with pos := p } with
      | none => rfl
      | some r =>
        cases r with
        | error r => rfl
        | ok s1 =>
          dsimp only
          obtain ⟨v, ds, hder, -, hvle, hvd, rfl⟩ := value_block_inv hs b n json m
            { s with pos := p } _ hn hm hb hple hstop ht hd hv
          dsimp only at hvle hvd ⊢
          cases hw2 : whitespace json fuel (p + v.length) n with
          | none => rfl
          | some p2 =>
            dsimp only
            obtain ⟨w2, -, -, hpw2, hple2, -⟩ :=
              whitespace_inv json n fuel (p + v.length) p2 hw2 hvle
            by_cases c1 : p2 = n
            · rw [if_pos c1, if_pos c1]
            rw [if_neg c1, if_neg c1]
            by_cases c2 : json p2 = 44
            · rw [if_pos c2, if_pos c2]
              exact array_loop_congr hs fuel b n json m start ha hn hm hb iter _
                (by dsimp only; omega) (by dsimp only; omega) (by dsimp only; omega)
                (by dsimp only; omega)
            · rw [if_neg c2, if_neg c2]

/-- The object loop depends on the function called recursively only through
its results on shorter inputs. -/
theorem object_loop_congr {self1 self2 : Callee} (hs : Grammatical self1) (fuel b n : Nat)
    (json : Nat → Nat) (m start : Nat) (ha : AgreeBelow self1 self2 n) (hn : n < 4294967296)
    (hm : m < 4294967296) (hb : NoOverrun json n) :
    ∀ (iter : Nat) (s : Frame), 1 ≤ s.pos → s.pos ≤ n → s.treesize + 1 = s.destpos →
      s.destpos ≤ m →
      object_loop self1 fuel b n json m start iter s =
        object_loop self2 fuel b n json m start iter s
  | 0, _, _, _, _, _ => by rw [object_loop, object_loop]
  | iter + 1, s, h1, hp, ht, hd => by
    rw [object_loop, object_loop]
    cases hw : whitespace json fuel s.pos n with
    | none => rfl
    | some p =>
      dsimp only
      obtain ⟨w, -, -, hpw, hple, hstop⟩ := whitespace_inv json n fuel s.pos p hw hp
      rw [← key_block_congr ha b json m { s with pos := p } (by dsimp only; omega) hple hn hb]
      cases hk : key_block self1 b n json m { s with pos := p } with
      | none => rfl
      | some r =>
        cases r with
        | error r => rfl
        | ok s1 =>
          dsimp only
          obtain ⟨k, hkey, -, hkle, hkd, rfl⟩ := key_block_inv hs b n json m
            { s with pos := p } _ hn hm hb hple hstop ht hd hk
          dsimp only at hkle hkd ⊢
          cases hw2 : whitespace json fuel (p + k.length) n with
          | none => rfl
          | some p2 =>
            dsimp only
            obtain ⟨w2, -, -, hpw2, hple2, -⟩ :=
              whitespace_inv json n fuel (p + k.length) p2 hw2 hkle
            by_cases c1 : p2 = n
            · rw [if_pos c1, if_pos c1]
            rw [if_neg c1, if_neg c1]
            by_cases c2 : json p2 ≠ 58
            · rw [if_pos c2, if_pos c2]
            rw [if_neg c2, if_neg c2]
            cases hw3 : whitespace json fuel (p2 + 1) n with
            | none => rfl
            | some p3 =>
              dsimp only
              obtain ⟨w3, -, -, hpw3, hple3, hstop3⟩ :=
                whitespace_inv json n fuel (p2 + 1) p3 hw3 (by omega)
              rw [← value_block_congr ha b json m
                ⟨p3, s.destpos + 1, s.treesize + 1,
                  write s.dest s.destpos [reloc (b + p) ⟨0, k.length, 0, JSON_STRING_TYPE⟩]⟩
                (by dsimp only; omega) hple3 hn hb]
              cases hv : value_block self1 b n json m
                ⟨p3, s.destpos + 1, s.treesize + 1,
                  write s.dest s.destpos [reloc (b + p) ⟨0, k.length, 0, JSON_STRING_TYPE⟩]⟩ with
              | none => rfl
              | some r =>
                cases r with
                | error r => rfl
                | ok s2 =>
                  dsimp only
                  obtain ⟨v, ds, hder, -, hvle, hvd, rfl⟩ := value_block_inv hs b n json m _ _
                    hn hm hb (by dsimp only; exact hple3) (by dsimp only; exact hstop3)
                    (by dsimp only; omega) (by dsimp only; exact hkd) hv
                  dsimp only at hvle hvd ⊢
                  cases hw4 : whitespace json fuel (p3 + v.length) n with
                  | none => rfl
                  | some p4 =>
                    dsimp only
                    obtain ⟨w4, -, -, hpw4, hple4, -⟩ :=
                      whitespace_inv json n fuel (p3 + v.length) p4 hw4 hvle
                    by_cases c3 : p4 = n
                    · rw [if_pos c3, if_pos c3]
                    rw [if_neg c3, if_neg c3]
                    by_cases c4 : json p4 = 44
                    · rw [if_pos c4, if_pos c4]
                      exact object_loop_congr hs fuel b n json m start ha hn hm hb iter _
                        (by dsimp only; omega) (by dsimp only; omega) (by dsimp only; omega)
                        (by dsimp only; omega)
                    · rw [if_neg c4, if_neg c4]

/-- The body of `JSON` on an input of `n` bytes without overrun depends on the
function called recursively only through its results on shorter inputs. -/
theorem JSON_body_congr {self1 self2 : Callee} (hs : Grammatical self1) (fuel b n : Nat)
    (json : Nat → Nat) (m : Nat) (dest : Nat → struct_JSON) (ha : AgreeBelow self1 self2 n)
    (hn : n < 4294967296) (hm : m < 4294967296) (hb : NoOverrun json n) :
    JSON_body self1 fuel b n json m dest = JSON_body self2 fuel b n json m dest := by
  unfold JSON_body
  cases hw : whitespace json fuel 0 n with
  | none => rfl
  | some pos =>
    dsimp only
    obtain ⟨w, -, -, hpw, hple, -⟩ := whitespace_inv json n fuel 0 pos hw (Nat.zero_le _)
    by_cases c1 : pos = n
    · rw [if_pos c1, if_pos c1]
    rw [if_neg c1, if_neg c1]
    by_cases c2 : 0 = m
    · rw [if_pos c2, if_pos c2]
    rw [if_neg c2, if_neg c2]
    by_cases c3 : json pos = 123
    · rw [if_pos c3, if_pos c3]
      unfold JSON_object
      cases hw1 : whitespace json fuel (pos + 1) n with
      | none => rfl
      | some p =>
        dsimp only
        obtain ⟨w1, -, -, hpw1, hple1, -⟩ := whitespace_inv json n fuel (pos + 1) p hw1 (by omega)
        by_cases d1 : p = n
        · rw [if_pos d1, if_pos d1]
        rw [if_neg d1, if_neg d1]
        by_cases d2 : json p = 125
        · rw [if_pos d2, if_pos d2]
        rw [if_neg d2, if_neg d2]
        exact object_loop_congr hs fuel b n json m pos ha hn hm hb fuel _
          (by dsimp only; omega) (by dsimp only; omega) rfl
          (by dsimp only; rw [show u32 (0 + 1) = 1 from rfl]; omega)
    rw [if_neg c3, if_neg c3]
    by_cases c4 : json pos = 91
    · rw [if_pos c4, if_pos c4]
      unfold JSON_array
      cases hw1 : whitespace json fuel (pos + 1) n with
      | none => rfl
      | some p =>
        dsimp only
        obtain ⟨w1, -, -, hpw1, hple1, -⟩ := whitespace_inv json n fuel (pos + 1) p hw1 (by omega)
        by_cases d1 : p = n
        · rw [if_pos d1, if_pos d1]
        rw [if_neg d1, if_neg d1]
        by_cases d2 : json p = 93
        · rw [if_pos d2, if_pos d2]
        rw [if_neg d2, if_neg d2]
        exact array_loop_congr hs fuel b n json m pos ha hn hm hb fuel _
          (by dsimp only; omega) (by dsimp only; omega) rfl
          (by dsimp only; rw [show u32 (0 + 1) = 1 from rfl]; omega)
    rw [if_neg c4, if_neg c4]

theorem never_grammatical : Grammatical (fun _ _ _ _ _ => none) := by
  intro b n json m dest d _ _ _ h
  cases h

theorem JSON_depth_grammatical : ∀ fuel k, Grammatical (JSON_depth fuel k)
  | 0, _ => by
    intro b n json m dest d _ _ _ h
    simp [JSON_depth] at h
  | fuel + 1, 0 => JSON_body_grammatical never_grammatical fuel
  | fuel + 1, k + 1 => JSON_body_grammatical (JSON_depth_grammatical fuel k) fuel

/-- On an input of at most `k` bytes without overrun the bound `k` on the depth
of the recursion changes nothing. -/
theorem JSON_depth_eq : ∀ (fuel k b n : Nat) (json : Nat → Nat) (m : Nat)
    (dest : Nat → struct_JSON), n ≤ k → n < 4294967296 → m < 4294967296 → NoOverrun json n →
    JSON_depth fuel k b n json m dest = JSON fuel b n json m dest
  | 0, _, _, _, _, _, _, _, _, _, _ => by
    rw [JSON]
    rfl
  | fuel + 1, 0, b, n, json, m, dest, hk, hn, hm, hb => by
    rw [JSON_unfold]
    show JSON_body (fun _ _ _ _ _ => none) fuel b n json m dest = _
    refine JSON_body_congr never_grammatical fuel b n json m dest ?_ hn hm hb
    intro b' n' json' m' dest' hn' _ _ _
    omega
  | fuel + 1, k + 1, b, n, json, m, dest, hk, hn, hm, hb => by
    rw [JSON_unfold]
    show JSON_body (JSON_depth fuel k) fuel b n json m dest = _
    refine JSON_body_congr (JSON_depth_grammatical fuel k) fuel b n json m dest ?_ hn hm hb
    intro b' n' json' m' dest' hn' hn32 hm32 hb'
    exact JSON_depth_eq fuel k b' n' json' m' dest' (by omega) hn32 hm32 hb'

/-! ### Inputs in which no string ends right behind a backslash -/

theorem subcall_safe {self : Callee} (hs : ReadsSafely self) {j1 j2 : Nat → Nat} {n : Nat}
    (hag : Agree j1 j2 n) (hb : NoOverrun j2 n) (hn : n < 4294967296) (b m pos destpos : Nat)
    (dest : Nat → struct_JSON) (hp : pos ≤ n) (hl : NoDangling j2 pos n) :
    subcall self b n j1 m pos destpos dest = subcall self b n j2 m pos destpos dest := by
  unfold subcall
  rw [usub_of_le hp hn]
  rw [hs (u32 (b + pos)) (n - pos) (shift j1 pos) (shift j2 pos) (usub m destpos)
    (shift dest destpos) (by omega) (usub_lt _ _) (hag.shiftA pos) (hb.shiftN hp) hl.shiftD]

theorem value_block_safe {self : Callee} (hs : ReadsSafely self) {j1 j2 : Nat → Nat} {n : Nat}
    (hag : Agree j1 j2 n) (hb : NoOverrun j2 n) (hn : n < 4294967296) (b m : Nat)
    (s : Frame) (hp : s.pos ≤ n) (hl : NoDangling j2 s.pos n) :
    value_block self b n j1 m s = value_block self b n j2 m s := by
  unfold value_block
  rw [subcall_safe hs hag hb hn b m s.pos s.destpos s.dest hp hl]

theorem key_block_safe {self : Callee} (hs : ReadsSafely self) {j1 j2 : Nat → Nat} {n : Nat}
    (hag : Agree j1 j2 n) (hb : NoOverrun j2 n) (hn : n < 4294967296) (b m : Nat)
    (s : Frame) (hp : s.pos ≤ n) (hl : NoDangling j2 s.pos n) :
    key_block self b n j1 m s = key_block self b n j2 m s := by
  unfold key_block
  rw [subcall_safe hs hag hb hn b m s.pos s.destpos s.dest hp hl]

/-- The array loop reads bytes of the input only, when the callee does and no
string of the input ends right behind a backslash. -/
theorem array_loop_safe {self : Callee} (hs : ReadsSafely self) (hg : Grammatical self)
    {j1 j2 : Nat → Nat} {n : Nat} (hag : Agree j1 j2 n) (hb : NoOverrun j2 n)
    (hn : n < 4294967296) (fuel b m start : Nat) (hm : m < 4294967296) :
    ∀ (iter : Nat) (s : Frame), s.pos ≤ n → s.treesize + 1 = s.destpos → s.destpos ≤ m →
      NoDangling j2 s.pos n →
      array_loop self fuel b n j1 m start iter s = array_loop self fuel b n j2 m start iter s
  | 0, _, _, _, _, _ => rfl
  | iter + 1, s, hp, ht, hd, hl => by
    rw [array_loop, array_loop, whitespace_agree hag fuel s.pos hp]
    cases hw1 : whitespace j2 fuel s.pos n with
    | none => rfl
    | some pos1 =>
    obtain ⟨w, hw, hhw, rfl, hle1, hstop1⟩ := whitespace_inv j2 n fuel s.pos pos1 hw1 hp
    have hl1 := hl.skip hhw hle1 hw.lexW
    dsimp only
    rw [value_block_safe hs hag hb hn b m { s with pos := s.pos + w.length } hle1 hl1]
    cases hvb : value_block self b n j2 m { s with pos := s.pos + w.length } with
    | none => rfl
    | some r =>
    cases r with
    | error r => rfl
    | ok s1 =>
    obtain ⟨v, ds, hder, hhv, hle2, hds, rfl⟩ := value_block_inv hg b n j2 m
      { s with pos := s.pos + w.length } s1 hn hm hb hle1 hstop1 ht hd hvb
    dsimp only at hhv hle2 hds ⊢
    have hl2 := hl1.skip hhv hle2 hder.lex_out
    rw [whitespace_agree hag fuel _ hle2]
    cases hw2 : whitespace j2 fuel (s.pos + w.length + v.length) n with
    | none => rfl
    | some pos2 =>
    obtain ⟨w2, hw2', hhw2, rfl, hle3, -⟩ := whitespace_inv j2 n fuel _ pos2 hw2 hle2
    have hl3 := hl2.skip hhw2 hle3 hw2'.lexW
    dsimp only
    by_cases c1 : s.pos + w.length + v.length + w2.length = n
    · rw [if_pos c1, if_pos c1]
    rw [if_neg c1, if_neg c1, hag _ (by omega : s.pos + w.length + v.length + w2.length < n)]
    by_cases c2 : j2 (s.pos + w.length + v.length + w2.length) = 44
    · rw [if_pos c2, if_pos c2]
      exact array_loop_safe hs hg hag hb hn fuel b m start hm iter _ (by dsimp only; omega)
        (by dsimp only; omega) (by dsimp only; omega)
        (hl3.step (by omega) (by rw [c2]; decide))
    · rw [if_neg c2, if_neg c2]

/-- The object loop reads bytes of the input only, when the callee does and no
string of the input ends right behind a backslash. -/
theorem object_loop_safe {self : Callee} (hs : ReadsSafely self) (hg : Grammatical self)
    {j1 j2 : Nat → Nat} {n : Nat} (hag : Agree j1 j2 n) (hb : NoOverrun j2 n)
    (hn : n < 4294967296) (fuel b m start : Nat) (hm : m < 4294967296) :
    ∀ (iter : Nat) (s : Frame), s.pos ≤ n → s.treesize + 1 = s.destpos → s.destpos ≤ m →
      NoDangling j2 s.pos n →
      object_loop self fuel b n j1 m start iter s = object_loop self fuel b n j2 m start iter s
  | 0, _, _, _, _, _ => rfl
  | iter + 1, s, hp, ht, hd, hl => by
    rw [object_loop, object_loop, whitespace_agree hag fuel s.pos hp]
    cases hw0 : whitespace j2 fuel s.pos n with
    | none => rfl
    | some pos1 =>
    obtain ⟨w, hw, hhw, rfl, hle1, hstop1⟩ := whitespace_inv j2 n fuel s.pos pos1 hw0 hp
    have hl1 := hl.skip hhw hle1 hw.lexW
    dsimp only
    rw [key_block_safe hs hag hb hn b m { s with pos := s.pos + w.length } hle1 hl1]
    cases hkb : key_block self b n j2 m { s with pos := s.pos + w.length } with
    | none => rfl
    | some r =>
    cases r with
    | error r => rfl
    | ok s1 =>
    obtain ⟨k, hkey, hhk, hlek, hdk, rfl⟩ := key_block_inv hg b n j2 m
      { s with pos := s.pos + w.length } s1 hn hm hb hle1 hstop1 ht hd hkb
    dsimp only at hhk hlek hdk ⊢
    have hl2 := hl1.skip hhk hlek hkey.lexS
    rw [whitespace_agree hag fuel _ hlek]
    cases hw1 : whitespace j2 fuel (s.pos + w.length + k.length) n with
    | none => rfl
    | some pos2 =>
    obtain ⟨w1, hw1', hhw1, rfl, hle2, -⟩ := whitespace_inv j2 n fuel _ pos2 hw1 hlek
    have hl3 := hl2.skip hhw1 hle2 hw1'.lexW
    dsimp only
    by_cases c1 : s.pos + w.length + k.length + w1.length = n
    · rw [if_pos c1, if_pos c1]
    rw [if_neg c1, if_neg c1, hag _ (by omega : s.pos + w.length + k.length + w1.length < n)]
    by_cases c2 : j2 (s.pos + w.length + k.length + w1.length) ≠ 58
    · rw [if_pos c2, if_pos c2]
    have c2' : j2 (s.pos + w.length + k.length + w1.length) = 58 := by
      by_contra h
      exact c2 h
    have hl4 := hl3.step (by omega) (by rw [c2']; decide)
    rw [if_neg c2, if_neg c2, whitespace_agree hag fuel _ (by omega)]
    cases hw2 : whitespace j2 fuel (s.pos + w.length + k.length + w1.length + 1) n with
    | none => rfl
    | some pos3 =>
    obtain ⟨w2, hw2', hhw2, rfl, hle3, hstop3⟩ := whitespace_inv j2 n fuel _ pos3 hw2 (by omega)
    have hl5 := hl4.skip hhw2 hle3 hw2'.lexW
    dsimp only
    rw [value_block_safe hs hag hb hn b m _ (by dsimp only; exact hle3)
      (by dsimp only; exact hl5)]
    cases hvb : value_block self b n j2 m
        { pos := s.pos + w.length + k.length + w1.length + 1 + w2.length,
          destpos := s.destpos + 1, treesize := s.treesize + 1,
          dest := write s.dest s.destpos
            [reloc (b + (s.pos + w.length)) ⟨0, k.length, 0, JSON_STRING_TYPE⟩] } with
    | none => rfl
    | some r =>
    cases r with
    | error r => rfl
    | ok s2 =>
    obtain ⟨v, ds, hder, hhv, hlev, hds, rfl⟩ := value_block_inv hg b n j2 m _ s2 hn hm hb
      (by dsimp only; exact hle3) hstop3 (by dsimp only; omega) (by dsimp only; omega) hvb
    dsimp only at hhv hlev hds ⊢
    have hl6 := hl5.skip hhv hlev hder.lex_out
    rw [whitespace_agree hag fuel _ hlev]
    cases hw3 : whitespace j2 fuel
        (s.pos + w.length + k.length + w1.length + 1 + w2.length + v.length) n with
    | none => rfl
    | some pos4 =>
    obtain ⟨w3, hw3', hhw3, rfl, hle4, -⟩ := whitespace_inv j2 n fuel _ pos4 hw3 hlev
    have hl7 := hl6.skip hhw3 hle4 hw3'.lexW
    dsimp only
    by_cases c3 : s.pos + w.length + k.length + w1.length + 1 + w2.length + v.length
        + w3.length = n
    · rw [if_pos c3, if_pos c3]
    rw [if_neg c3, if_neg c3, hag _ (by omega : s.pos + w.length + k.length + w1.length + 1
      + w2.length + v.length + w3.length < n)]
    by_cases c4 : j2 (s.pos + w.length + k.length + w1.length + 1 + w2.length + v.length
        + w3.length) = 44
    · rw [if_pos c4, if_pos c4]
      exact object_loop_safe hs hg hag hb hn fuel b m start hm iter _ (by dsimp only; omega)
        (by dsimp only; omega) (by dsimp only; omega)
        (hl7.step (by omega) (by rw [c4]; decide))
    · rw [if_neg c4, if_neg c4]

theorem JSON_array_safe {self : Callee} (hs : ReadsSafely self) (hg : Grammatical self)
    {j1 j2 : Nat → Nat} {n : Nat} (hag : Agree j1 j2 n) (hb : NoOverrun j2 n)
    (hn : n < 4294967296) (fuel b m : Nat) (hm : m < 4294967296) (hm0 : 0 ≠ m)
    (dest : Nat → struct_JSON) (start : Nat) (hp : start < n) (hl : NoDangling j2 (start + 1) n) :
    JSON_array self fuel b n j1 m dest start = JSON_array self fuel b n j2 m dest start := by
  unfold JSON_array
  rw [whitespace_agree hag fuel (start + 1) (by omega)]
  cases hw1 : whitespace j2 fuel (start + 1) n with
  | none => rfl
  | some pos1 =>
  obtain ⟨w, hw, hhw, rfl, hle1, -⟩ := whitespace_inv j2 n fuel _ pos1 hw1 (by omega)
  have hl1 := hl.skip hhw hle1 hw.lexW
  dsimp only
  by_cases c1 : start + 1 + w.length = n
  · rw [if_pos c1, if_pos c1]
  rw [if_neg c1, if_neg c1, hag _ (by omega : start + 1 + w.length < n)]
  by_cases c2 : j2 (start + 1 + w.length) = 93
  · rw [if_pos c2, if_pos c2]
  rw [if_neg c2, if_neg c2]
  exact array_loop_safe hs hg hag hb hn fuel b m start hm fuel _ (by dsimp only; omega)
    (by dsimp only; rfl) (by dsimp only; rw [show u32 (0 + 1) = 1 from rfl]; omega)
    (by dsimp only; exact hl1)

theorem JSON_object_safe {self : Callee} (hs : ReadsSafely self) (hg : Grammatical self)
    {j1 j2 : Nat → Nat} {n : Nat} (hag : Agree j1 j2 n) (hb : NoOverrun j2 n)
    (hn : n < 4294967296) (fuel b m : Nat) (hm : m < 4294967296) (hm0 : 0 ≠ m)
    (dest : Nat → struct_JSON) (start : Nat) (hp : start < n) (hl : NoDangling j2 (start + 1) n) :
    JSON_object self fuel b n j1 m dest start = JSON_object self fuel b n j2 m dest start := by
  unfold JSON_object
  rw [whitespace_agree hag fuel (start + 1) (by omega)]
  cases hw1 : whitespace j2 fuel (start + 1) n with
  | none => rfl
  | some pos1 =>
  obtain ⟨w, hw, hhw, rfl, hle1, -⟩ := whitespace_inv j2 n fuel _ pos1 hw1 (by omega)
  have hl1 := hl.skip hhw hle1 hw.lexW
  dsimp only
  by_cases c1 : start + 1 + w.length = n
  · rw [if_pos c1, if_pos c1]
  rw [if_neg c1, if_neg c1, hag _ (by omega : start + 1 + w.length < n)]
  by_cases c2 : j2 (start + 1 + w.length) = 125
  · rw [if_pos c2, if_pos c2]
  rw [if_neg c2, if_neg c2]
  exact object_loop_safe hs hg hag hb hn fuel b m start hm fuel _ (by dsimp only; omega)
    (by dsimp only; rfl) (by dsimp only; rw [show u32 (0 + 1) = 1 from rfl]; omega)
    (by dsimp only; exact hl1)

/-- The body of `JSON` reads bytes of the input only, when the function called
recursively does and no string of the input ends right behind a backslash. -/
theorem JSON_body_safe {self : Callee} (ih : ReadsSafely self) (hg : Grammatical self)
    (fuel : Nat) : ReadsSafely (JSON_body self fuel) := by
  intro b n j1 j2 m dest hn hm hag hb hl
  unfold JSON_body
  rw [whitespace_agree hag fuel 0 (Nat.zero_le _)]
  cases hw0 : whitespace j2 fuel 0 n with
  | none => rfl
  | some pos =>
  obtain ⟨w, hw, hhw, hq, hle, -⟩ := whitespace_inv j2 n fuel 0 pos hw0 (Nat.zero_le _)
  have hl1 : NoDangling j2 pos n := by
    have := hl.skip hhw (by omega) hw.lexW
    rw [hq]
    exact this
  dsimp only
  by_cases c1 : pos = n
  · rw [if_pos c1, if_pos c1]
  rw [if_neg c1, if_neg c1]
  by_cases c2 : 0 = m
  · rw [if_pos c2, if_pos c2]
  have hlt : pos < n := by omega
  rw [if_neg c2, if_neg c2, hag pos hlt]
  by_cases c3 : j2 pos = 123
  · rw [if_pos c3, if_pos c3]
    exact JSON_object_safe ih hg hag hb hn fuel b m hm c2 dest pos hlt
      (hl1.step hlt (by rw [c3]; decide))
  rw [if_neg c3, if_neg c3]
  by_cases c4 : j2 pos = 91
  · rw [if_pos c4, if_pos c4]
    exact JSON_array_safe ih hg hag hb hn fuel b m hm c2 dest pos hlt
      (hl1.step hlt (by rw [c4]; decide))
  rw [if_neg c4, if_neg c4]
  by_cases c5 : j2 pos = 34
  · rw [if_pos c5, if_pos c5]
    unfold JSON_string
    have hstr : lex .str (slice j2 (pos + 1) (n - (pos + 1))) ≠ .esc := by
      unfold NoDangling at hl1
      have e : n - pos = (n - (pos + 1)) + 1 := by omega
      rw [e, slice_succ, lex_cons, c5] at hl1
      exact hl1
    rw [string_loop_safe hag fuel (pos + 1) (by omega) hstr]
  rw [if_neg c5, if_neg c5]
  by_cases c6 : j2 pos = 45 ∨ (48 ≤ j2 pos ∧ j2 pos ≤ 57)
  · rw [if_pos c6, if_pos c6]
    unfold JSON_number
    rw [number_scan_agree hag fuel pos hlt]
  rw [if_neg c6, if_neg c6]
  rw [JSON_keyword_agree hag b dest pos [114, 117, 101] JSON_BOOLEAN_TYPE,
    JSON_keyword_agree hag b dest pos [97, 108, 115, 101] JSON_BOOLEAN_TYPE,
    JSON_keyword_agree hag b dest pos [117, 108, 108] JSON_NULL_TYPE]

/-- When no string of the input ends right behind a backslash, the result of
`JSON` depends on the first `jsonsize` bytes only. -/
theorem JSON_safe : ∀ fuel, ReadsSafely (JSON fuel)
  | 0 => by
    intro b n j1 j2 m dest _ _ _ _ _
    rfl
  | fuel + 1 => by
    intro b n j1 j2 m dest hn hm hag hb hl
    rw [JSON_unfold, JSON_unfold]
    exact JSON_body_safe (JSON_safe fuel) (JSON_grammatical fuel) fuel b n j1 j2 m dest hn hm
      hag hb hl

theorem never_safe : ReadsSafely (fun _ _ _ _ _ => none) := by
  intro b n j1 j2 m dest _ _ _ _ _
  rfl

theorem JSON_depth_safe : ∀ fuel k, ReadsSafely (JSON_depth fuel k)
  | 0, _ => by
    intro b n j1 j2 m dest _ _ _ _ _
    rfl
  | fuel + 1, 0 => JSON_body_safe never_safe never_grammatical fuel
  | fuel + 1, k + 1 =>
    JSON_body_safe (JSON_depth_safe fuel k) (JSON_depth_grammatical fuel k) fuel

theorem shorter_safe {self : Callee} (hs : ReadsSafely self) (k : Nat) :
    ReadsSafely (shorter k self) := by
  intro b n j1 j2 m dest hn hm hag hb hl
  unfold shorter
  by_cases h : n < k
  · rw [if_pos h, if_pos h]
    exact hs b n j1 j2 m dest hn hm hag hb hl
  · rw [if_neg h, if_neg h]

theorem shorter_grammatical {self : Callee} (hs : Grammatical self) (k : Nat) :
    Grammatical (shorter k self) := by
  intro b n json m dest d hn hm hb h
  unfold shorter at h
  by_cases c : n < k
  · rw [if_pos c] at h
    exact hs b n json m dest d hn hm hb h
  · rw [if_neg c] at h
    cases h

theorem fence_agree (json : Nat → Nat) (n : Nat) : Agree json (fence json n) n := by
  intro i hi
  unfold fence
  rw [if_pos hi]

theorem fence_noOverrun (json : Nat → Nat) (n : Nat) : NoOverrun (fence json n) n := by
  refine Or.inr (Or.inr ?_)
  unfold fence is_escape
  rw [if_neg (Nat.lt_irrefl n)]
  omega

/-! ### Statement of the specification on the base offset (C11) -/

/-- C11: for every input, capacity and base offset `b`, `JSON` with
`baseoffset = b` returns the same error code as with `baseoffset = 0` (and
returns whenever that call does); when the call with `baseoffset = 0` returns
`JSON_EOK`, every written descriptor of the call with `baseoffset = b` has the
size, treesize and type of the descriptor with `baseoffset = 0`, and its
offset increased by `b` modulo `2^32`. -/
theorem C11_baseoffset_shift (fuel b n : Nat) (json : Nat → Nat) (m : Nat)
    (dest : Nat → struct_JSON) (hm : m < 4294967296) :
    (JSON fuel b n json m dest).map Prod.fst = (JSON fuel 0 n json m dest).map Prod.fst ∧
    ∀ d0, JSON fuel 0 n json m dest = some (JSON_EOK, d0) →
      ∃ d, JSON fuel b n json m dest = some (JSON_EOK, d) ∧
        ∀ i, i ≤ (d0 0).treesize →
          d i = { d0 i with offset := ((d0 i).offset + b) % 4294967296 } := by
  have hb : u32 b = u32 (0 + b) := by rw [Nat.zero_add]
  constructor
  · cases h0 : JSON fuel 0 n json m dest with
    | some r =>
      obtain ⟨e, d0⟩ := r
      obtain ⟨d, hd, -⟩ := JSON_rebase fuel 0 b b n json m dest dest e d0 hm hb h0
      rw [hd]
      rfl
    | none =>
      cases h1 : JSON fuel b n json m dest with
      | none => rfl
      | some r =>
        obtain ⟨e, d⟩ := r
        have hb' : u32 0 = u32 (b + (4294967296 - b % 4294967296)) := by
          unfold u32
          omega
        obtain ⟨d0, hd0, -⟩ := JSON_rebase fuel b 0 _ n json m dest dest e d hm hb' h1
        rw [h0] at hd0
        cases hd0
  · intro d0 h0
    obtain ⟨d, hd, hag⟩ := JSON_rebase fuel 0 b b n json m dest dest _ d0 hm hb h0
    exact ⟨d, hd, fun i hi => hag rfl i hi⟩

theorem C11_baseoffset_shift_witness :
    ∃ d0, JSON 8 0 6 (bytes [91, 49, 44, 32, 50, 93] 0) 3 junk = some (JSON_EOK, d0) ∧
      ∃ d, JSON 8 4294967295 6 (bytes [91, 49, 44, 32, 50, 93] 0) 3 junk = some (JSON_EOK, d) ∧
        ∀ i, i ≤ (d0 0).treesize →
          d i = { d0 i with offset := ((d0 i).offset + 4294967295) % 4294967296 } := by
  refine ⟨_, rfl, ?_⟩
  exact (C11_baseoffset_shift 8 4294967295 6 (bytes [91, 49, 44, 32, 50, 93] 0) 3 junk
    (by decide)).2 _ rfl

/-! ### Statement of the specification on the dispatcher (C12) -/

/-- C12: precedence in the dispatcher.  When the input holds the whitespace
`w` and then ends or goes on with a byte that is none of space, tab, CR, LF:
the leading call of `whitespace` stops exactly behind `w`; if the input ends
there `JSON` returns `JSON_EEOT` (whatever `destsize` is); otherwise, if
`destsize = 0`, it returns `JSON_ENOMEM` (whatever the byte is); otherwise, if
the byte starts no value, it returns `JSON_EILL`. -/
theorem C12_dispatcher_precedence (fuel b n : Nat) (json : Nat → Nat) (m : Nat)
    (dest : Nat → struct_JSON) (w : List Nat) (hw : WS w) (hh : Holds json 0 w)
    (hle : w.length ≤ n) (hstop : w.length = n ∨ ¬ is_space (json w.length))
    (hf : w.length + 1 < fuel) :
    whitespace json (fuel - 1) 0 n = some w.length ∧
    (w.length = n → JSON fuel b n json m dest = some (JSON_EEOT, dest)) ∧
    (w.length < n → m = 0 → JSON fuel b n json m dest = some (JSON_ENOMEM, dest)) ∧
    (w.length < n → m ≠ 0 → ¬ is_value_start (json w.length) →
      JSON fuel b n json m dest = some (JSON_EILL, dest)) := by
  cases fuel with
  | zero => omega
  | succ fuel =>
    have k := whitespace_first json n fuel w hw hh hle hstop (by omega)
    refine ⟨k, fun h1 => ?_, fun h1 h2 => ?_, fun h1 h2 h3 => ?_⟩
    · rw [JSON]
      simp only [k]
      rw [if_pos h1]
    · rw [JSON]
      simp only [k]
      rw [if_neg (by omega), if_pos h2.symm]
    · rw [JSON_enter fuel b n json m dest w.length k (by omega) (fun h => h2 h.symm)]
      unfold is_value_start is_digit at h3
      rw [if_neg (by omega), if_neg (by omega), if_neg (by omega), if_neg (by omega),
        if_neg (by omega), if_neg (by omega), if_neg (by omega)]

theorem C12_dispatcher_precedence_witness :
    whitespace (bytes [32, 64] 0) (4 - 1) 0 2 = some [32].length ∧
    JSON 4 0 2 (bytes [32, 64] 0) 1 junk = some (JSON_EILL, junk) := by
  have w32 : WS [32] := fun x hx => by
    simp only [List.mem_singleton] at hx
    subst hx
    exact Or.inl rfl
  have h := C12_dispatcher_precedence 4 0 2 (bytes [32, 64] 0) 1 junk [32] w32 ⟨rfl, trivial⟩
    (by decide) (Or.inr (by unfold is_space; decide)) (by decide)
  exact ⟨h.1, h.2.2.2 (by decide) (by decide) (by unfold is_value_start is_digit; decide)⟩

/-! ### Statement of the specification on strings (C13) -/

/-- C13: classification of strings.  On an input that holds whitespace, an
opening quote and the bytes `rest`, and that does not end in a backslash, with
`destsize >= 1`: the scan of `rest` from left to right as the specification
describes it (`StringScan`: a body of ordinary bytes, bytes `>= 0x80` included,
and of legal escapes, then the first event) has a result, and `JSON` returns
what the scan says: the error of the first event (`JSON_ESILL` for a raw
control byte or `0x7F`, `JSON_ESESC` for an illegal or incomplete escape,
`JSON_ESTERM` for the end of the input), or `JSON_EOK` with a string descriptor
of treesize 0 whose size runs from the opening through the closing quote. -/
theorem C13_string_classification (fuel b n : Nat) (json : Nat → Nat) (m : Nat)
    (dest : Nat → struct_JSON) (w rest : List Nat) (hw : WS w)
    (hh : Holds json 0 (w ++ 34 :: rest)) (hn : n = (w ++ 34 :: rest).length)
    (hn32 : n < 4294967296) (hm : 1 ≤ m) (hend : (w ++ 34 :: rest).getLast? ≠ some 92)
    (hf : n + 1 < fuel) :
    (∃ r, StringScan rest r) ∧
    (∀ e, StringScan rest (.error e) → JSON fuel b n json m dest = some (e, dest)) ∧
    (∀ k, StringScan rest (.ok k) → JSON fuel b n json m dest =
      some (JSON_EOK, store dest 0 ⟨u32 (w.length + b), k, 0, JSON_STRING_TYPE⟩)) := by
  have hend' : rest.getLast? ≠ some 92 :=
    last_behind (w ++ [34]) rest (by simpa using hend)
  refine ⟨StringScan.total rest.length rest (Nat.le_refl _) hend', ?_⟩
  simp only [List.length_append, List.length_cons] at hn
  cases fuel with
  | zero => omega
  | succ fuel =>
    have hsp : ¬ is_space 34 := by unfold is_space; omega
    obtain ⟨k1, k2, k3, k4⟩ := whitespace_lead json n fuel w 34 rest hw hh hsp
      (by simp only [List.length_cons]; omega) (by omega)
    have hrun : JSON (fuel + 1) b n json m dest = JSON_string fuel b n json dest w.length := by
      rw [JSON_enter fuel b n json m dest w.length k1 k2 (by omega), k3]
      rw [if_neg (by decide), if_neg (by decide), if_pos rfl]
    rw [hrun]
    unfold JSON_string
    refine ⟨fun e hr => ?_, fun k hr => ?_⟩
    · rw [(string_scan_run hr json n fuel (w.length + 1) k4.2 (by omega) (by omega)).1 e rfl]
    · rw [(string_scan_run hr json n fuel (w.length + 1) k4.2 (by omega) (by omega)).2 k rfl]
      have hk2 : 2 ≤ k ∧ k ≤ rest.length + 1 := by
        generalize hx : (Except.ok k : Except JSON_errno_t Nat) = x at hr
        cases hr with
        | closed pre post hb =>
          simp only [Except.ok.injEq] at hx
          simp only [List.length_append, List.length_cons]
          omega
        | control pre c post hb hc => cases hx
        | escape pre c post hb hc hu => cases hx
        | short pre t hb ht => cases hx
        | hex pre h1 h2 h3 h4 post hb hx' => cases hx
        | unterminated _ hb => cases hx
      dsimp only
      have e2 : u32 (w.length + 1 + k - 1 - w.length) = k := by
        rw [u32_of_lt (by omega)]
        omega
      rw [e2]

theorem C13_string_classification_witness :
    StringScan [97, 31, 34] (.error JSON_ESILL) ∧
    JSON 7 0 5 (bytes [32, 34, 97, 31, 34] 0) 1 junk = some (JSON_ESILL, junk) := by
  have w32 : WS [32] := fun x hx => by
    simp only [List.mem_singleton] at hx
    subst hx
    exact Or.inl rfl
  have hs : StringScan [97, 31, 34] (.error JSON_ESILL) :=
    StringScan.control [97] 31 [34]
      (StrBody.plain 97 [] (by decide) (by decide) (by decide) (by decide) StrBody.nil)
      (Or.inl (by decide))
  have h := C13_string_classification 7 0 5 (bytes [32, 34, 97, 31, 34] 0) 1 junk [32]
    [97, 31, 34] w32 ⟨rfl, rfl, rfl, rfl, rfl, trivial⟩ rfl (by decide) (by decide) (by decide)
    (by decide)
  exact ⟨hs, h.2.1 _ hs⟩

/-! ### Statement of the specification on number errors (C14) -/

/-- C14: on an input whose first byte behind the whitespace is `-` or a digit,
with room for one descriptor, `JSON` returns `JSON_ENDIG` exactly when digits
are missing behind the sign, behind the `.` that follows the integer part, or
behind the `e` or `E` (and a `-`, if there is one) that follows the integer part
or the fraction; in every other case it returns `JSON_EOK` and stores a Number
descriptor of treesize 0 whose size is the length of sign, integer part,
fraction and exponent. -/
theorem C14_number_errors (fuel b n : Nat) (json : Nat → Nat) (m : Nat)
    (dest : Nat → struct_JSON) (w : List Nat) (c : Nat) (r : List Nat) (hw : WS w)
    (hc : c = 45 ∨ is_digit c) (hh : Holds json 0 (w ++ c :: r))
    (hn : n = (w ++ c :: r).length) (hn32 : n < 4294967296) (hm : 1 ≤ m)
    (hf : n + 1 < fuel) :
    ((∃ d, JSON fuel b n json m dest = some (JSON_ENDIG, d)) ↔ NumberError (c :: r)) ∧
    (NumberError (c :: r) → JSON fuel b n json m dest = some (JSON_ENDIG, dest)) ∧
    (¬ NumberError (c :: r) → ∃ num tail, c :: r = num ++ tail ∧ NumberAt num tail ∧
      JSON fuel b n json m dest =
        some (JSON_EOK, store dest 0 ⟨u32 (w.length + b), num.length, 0, JSON_NUMBER_TYPE⟩)) := by
  simp only [List.length_append, List.length_cons] at hn
  cases fuel with
  | zero => omega
  | succ fuel =>
    have hsp : ¬ is_space c := by
      unfold is_space
      unfold is_digit at hc
      omega
    obtain ⟨k1, k2, k3, k4⟩ := whitespace_lead json n fuel w c r hw hh hsp
      (by simp only [List.length_cons]; omega) (by omega)
    have hrun : JSON (fuel + 1) b n json m dest = JSON_number fuel b n json dest w.length := by
      rw [JSON_enter fuel b n json m dest w.length k1 k2 (by omega), k3]
      unfold is_digit at hc
      rw [if_neg (by omega), if_neg (by omega), if_neg (by omega), if_pos hc]
    rw [hrun]
    have herr : NumberError (c :: r) →
        JSON_number fuel b n json dest w.length = some (JSON_ENDIG, dest) := by
      intro he
      unfold JSON_number
      rw [number_scan_missing json n fuel w.length he k4 (by simp only [List.length_cons]; omega)
        (by simp only [List.length_cons]; omega)]
    have hok : ¬ NumberError (c :: r) → ∃ num tail, c :: r = num ++ tail ∧ NumberAt num tail ∧
        JSON_number fuel b n json dest w.length =
          some (JSON_EOK, store dest 0 ⟨u32 (w.length + b), num.length, 0, JSON_NUMBER_TYPE⟩) := by
      intro hne
      rcases number_total c r hc with h | ⟨num, tail, h1, h2⟩
      · exact absurd h hne
      · refine ⟨num, tail, h1, h2, ?_⟩
        have hlen : r.length + 1 = num.length + tail.length := by
          have := congrArg List.length h1
          simpa using this
        rw [h1] at k4
        unfold JSON_number
        rw [number_scan_at json n fuel w.length h2 k4 (by omega) (by omega)]
        dsimp only
        have e2 : u32 (w.length + num.length - w.length) = num.length := by
          rw [u32_of_lt (by omega)]
          omega
        rw [e2]
    refine ⟨⟨?_, fun he => ⟨dest, herr he⟩⟩, herr, hok⟩
    rintro ⟨d, hd⟩
    by_contra hne
    obtain ⟨num, tail, -, -, h3⟩ := hok hne
    rw [h3] at hd
    cases hd

theorem C14_number_errors_witness :
    NumberError [49, 101, 43, 53] ∧
    JSON 8 0 5 (bytes [32, 49, 101, 43, 53] 0) 1 junk = some (JSON_ENDIG, junk) := by
  have w32 : WS [32] := fun x hx => by
    simp only [List.mem_singleton] at hx
    subst hx
    exact Or.inl rfl
  have h := C14_number_errors 8 0 5 (bytes [32, 49, 101, 43, 53] 0) 1 junk [32] 49 [101, 43, 53]
    w32 (Or.inr (by unfold is_digit; decide)) ⟨rfl, rfl, rfl, rfl, rfl, trivial⟩ rfl (by decide)
    (by decide) (by decide)
  have he : NumberError [49, 101, 43, 53] := by
    refine Or.inr (Or.inr ⟨[], [49], [], 101, [], [43, 53], Or.inl rfl, rfl, ?_, ?_, Or.inl rfl,
      Or.inr ⟨rfl, ?_⟩, ?_⟩)
    · refine Or.inr ⟨49, [], rfl, by decide, by decide, fun x hx => (by cases hx), ?_⟩
      intro c t' h
      cases h
      unfold is_digit
      decide
    · refine Or.inl ⟨rfl, ?_⟩
      intro t' h
      cases h
    · intro t' h
      cases h
    · intro c t' h
      cases h
      unfold is_digit
      decide
  exact ⟨he, h.2.1 he⟩

/-! ### Statement of the specification on the structure of objects (C15) -/

/-- C15: on an input that holds, behind whitespace, `{`, whitespace and then
either a byte other than `}` or complete members each followed by a comma, with
room for the descriptors parsed so far, the object branch at the next key
position behaves as follows.  An error of the key sub-parse is returned
unchanged; a key sub-parse that succeeds with a descriptor that is no String
gives `JSON_EINVAL`; behind a String key and whitespace the end of the input
gives `JSON_EEOT` and a byte other than `:` gives `JSON_EINVAL`; an error of the
value sub-parse is returned unchanged; behind a value and whitespace the end of
the input gives `JSON_EEOT` and a byte other than `,` and `}` gives
`JSON_EINVAL`. -/
theorem C15_object_structure_errors (fuel b n : Nat) (json : Nat → Nat) (m : Nat)
    (dest : Nat → struct_JSON) (w0 w1 pre : List Nat) (ds : List struct_JSON) (q : Nat)
    (hw0 : WS w0) (hw1 : WS w1) (hpre : MembersPrefix pre ds)
    (hh : Holds json 0 (w0 ++ 123 :: (w1 ++ pre)))
    (hq : q = (w0 ++ 123 :: (w1 ++ pre)).length) (hqn : q ≤ n)
    (hstop : q = n ∨ ¬ is_space (json q)) (hfirst : pre = [] → q ≠ n ∧ json q ≠ 125)
    (hn32 : n < 4294967296) (hm32 : m < 4294967296) (hm : 1 + ds.length + 1 ≤ m)
    (hf : n + 1 < fuel) (e1 : JSON_errno_t) (d1 : Nat → struct_JSON)
    (hK : subcall (JSON fuel) b n json m q (1 + ds.length)
      (write dest 1 (ds.map (reloc (b + (w0.length + 1 + w1.length))))) = some (e1, d1)) :
    (e1 ≠ JSON_EOK → JSON (fuel + 1) b n json m dest = some (e1, d1)) ∧
    (e1 = JSON_EOK → (d1 (1 + ds.length)).type ≠ JSON_STRING_TYPE →
      JSON (fuel + 1) b n json m dest = some (JSON_EINVAL, d1)) ∧
    (e1 = JSON_EOK → (d1 (1 + ds.length)).type = JSON_STRING_TYPE →
      ∀ w2 p, WS w2 → Holds json (q + (d1 (1 + ds.length)).size) w2 →
        p = q + (d1 (1 + ds.length)).size + w2.length →
        (p = n → JSON (fuel + 1) b n json m dest = some (JSON_EEOT, d1)) ∧
        (p < n → ¬ is_space (json p) → json p ≠ 58 →
          JSON (fuel + 1) b n json m dest = some (JSON_EINVAL, d1)) ∧
        (p < n → json p = 58 → ∀ w3 q2 e2 d2, WS w3 → Holds json (p + 1) w3 →
          q2 = p + 1 + w3.length → q2 ≤ n → (q2 = n ∨ ¬ is_space (json q2)) →
          subcall (JSON fuel) b n json m q2 (1 + ds.length + 1) d1 = some (e2, d2) →
          (e2 ≠ JSON_EOK → JSON (fuel + 1) b n json m dest = some (e2, d2)) ∧
          (e2 = JSON_EOK → ∀ w4 p2, WS w4 →
            Holds json (q2 + (d2 (1 + ds.length + 1)).size) w4 →
            p2 = q2 + (d2 (1 + ds.length + 1)).size + w4.length →
            (p2 = n → JSON (fuel + 1) b n json m dest = some (JSON_EEOT, d2)) ∧
            (p2 < n → ¬ is_space (json p2) → json p2 ≠ 44 → json p2 ≠ 125 →
              JSON (fuel + 1) b n json m dest = some (JSON_EINVAL, d2))))) := by
  obtain ⟨i, s, hrun, hws, hdp, hd⟩ := object_at_key fuel b n json m dest w0 w1 pre ds q hw0 hw1
    hpre hh hq hqn hstop hfirst hn32 hm32 (by omega) hf
  rw [← hdp, ← hd] at hK
  have hu : u32 (1 + ds.length + 1) = 1 + ds.length + 1 := u32_of_lt (by omega)
  obtain ⟨ev1, ev2, ev3⟩ := object_loop_events (JSON fuel) fuel b n json m w0.length i s q e1 d1
    hws hK
  rw [hrun]
  rw [hdp] at ev2 ev3
  rw [hu] at ev3
  refine ⟨ev1, ev2, ?_⟩
  intro he ht w2 p hw2 hh2 hp
  have stopAt : ∀ x, x < n → ¬ is_space (json x) → (x = n ∨ ¬ is_space (json x)) :=
    fun x _ h => Or.inr h
  have ws2 : ∀ (hs : p = n ∨ ¬ is_space (json p)), p ≤ n →
      whitespace json fuel (q + (d1 (1 + ds.length)).size) n = some p := by
    intro hs hle
    have := whitespace_skip json n w2 fuel (q + (d1 (1 + ds.length)).size) hw2 hh2
      (by rw [← hp]; exact hs) (by omega) (by omega)
    rw [this, hp]
  refine ⟨fun hpn => ?_, fun hpn hsp hc => ?_, fun hpn hc w3 q2 e2 d2 hw3 hh3 hq2 hq2n hs3 hV => ?_⟩
  · exact (ev3 he ht p (ws2 (Or.inl hpn) (by omega))).1 hpn
  · exact (ev3 he ht p (ws2 (Or.inr hsp) (by omega))).2.1 (by omega) hc
  · have hsp : ¬ is_space (json p) := by rw [hc]; unfold is_space; omega
    have ws3 : whitespace json fuel (p + 1) n = some q2 := by
      have := whitespace_skip json n w3 fuel (p + 1) hw3 hh3 (by rw [← hq2]; exact hs3)
        (by omega) (by omega)
      rw [this, hq2]
    obtain ⟨ev4, ev5⟩ := (ev3 he ht p (ws2 (Or.inr hsp) (by omega))).2.2 (by omega) hc q2 e2 d2
      ws3 hV
    refine ⟨ev4, ?_⟩
    intro he2 w4 p2 hw4 hh4 hp2
    have ws4 : ∀ (hs : p2 = n ∨ ¬ is_space (json p2)), p2 ≤ n →
        whitespace json fuel (q2 + (d2 (1 + ds.length + 1)).size) n = some p2 := by
      intro hs hle
      have := whitespace_skip json n w4 fuel (q2 + (d2 (1 + ds.length + 1)).size) hw4 hh4
        (by rw [← hp2]; exact hs) (by omega) (by omega)
      rw [this, hp2]
    refine ⟨fun hpn2 => ?_, fun hpn2 hsp2 hc1 hc2 => ?_⟩
    · exact (ev5 he2 p2 (ws4 (Or.inl hpn2) (by omega))).1 hpn2
    · exact (ev5 he2 p2 (ws4 (Or.inr hsp2) (by omega))).2 (by omega) hc1 hc2

theorem C15_object_structure_errors_witness :
    ∃ d, JSON (7 + 1) 0 5 (bytes [123, 49, 58, 50, 125] 0) 2 junk = some (JSON_EINVAL, d) := by
  have h := C15_object_structure_errors 7 0 5 (bytes [123, 49, 58, 50, 125] 0) 2 junk [] [] [] []
    1 (fun x hx => (by cases hx)) (fun x hx => (by cases hx)) (Or.inl ⟨rfl, rfl⟩)
    ⟨rfl, trivial⟩ rfl (by decide) (Or.inr (by unfold is_space; decide))
    (fun _ => ⟨by decide, by decide⟩) (by decide) (by decide) (by decide) (by decide)
    JSON_EOK _ rfl
  exact ⟨_, h.2.1 rfl (by decide)⟩

/-! ### Statements of the specification on trailing commas (C16, C17) -/

/-- C16: on an input `[ v1 , ... , vn , ws ]` with `n >= 1` values of the
grammar, each with optional whitespace around it, and room for two descriptors
more than the values have, `JSON` returns `JSON_EILL`: the sub-parse behind the
last comma meets the closing bracket. -/
theorem C16_array_trailing_comma (fuel b n : Nat) (json : Nat → Nat) (m : Nat)
    (dest : Nat → struct_JSON) (w1 t w2 : List Nat) (ds : List struct_JSON)
    (hw1 : WS w1) (hw2 : WS w2) (ht : Derives .elements t ds)
    (hh : Holds json 0 (91 :: (w1 ++ (t ++ 44 :: (w2 ++ [93])))))
    (hn : n = (91 :: (w1 ++ (t ++ 44 :: (w2 ++ [93])))).length)
    (hn32 : n < 4294967296) (hm32 : m < 4294967296) (hm : 2 + ds.length ≤ m)
    (hf : n + 2 < fuel) :
    ∃ d, JSON fuel b n json m dest = some (JSON_EILL, d) :=
  ⟨_, array_trailing fuel b n json m dest [] w1 t w2 [] ds (fun x hx => (by cases hx)) hw1 hw2 ht
    hh hn hn32 hm32 hm hf⟩

theorem C16_array_trailing_comma_witness :
    ∃ d, JSON 8 0 4 (bytes [91, 49, 44, 93] 0) 3 junk = some (JSON_EILL, d) :=
  C16_array_trailing_comma 8 0 4 (bytes [91, 49, 44, 93] 0) 3 junk [] [49] [] _
    (fun x hx => (by cases hx)) (fun x hx => (by cases hx))
    (Derives.elements_one [49] [] _ (Derives.number [49]
      ⟨[], [49], [], [], rfl, Or.inl rfl, Or.inr ⟨49, [], rfl, by decide, by decide,
        fun x hx => (by cases hx)⟩, Or.inl rfl, Or.inl rfl⟩) (fun x hx => (by cases hx)))
    ⟨rfl, rfl, rfl, rfl, trivial⟩ rfl (by decide) (by decide) (by decide) (by decide)

/-- C17, as stated, fails: on the input `{"a":1,}` with room for four
descriptors `JSON` returns `JSON_EILL`, not `JSON_EINVAL`. -/
theorem C17_counterexample :
    ∃ d, JSON 12 0 8 (bytes [123, 34, 97, 34, 58, 49, 44, 125] 0) 4 junk = some (JSON_EILL, d) ∧
      JSON_EILL ≠ JSON_EINVAL :=
  ⟨_, rfl, by decide⟩

/-- C17, amended: on an input `{` followed by one or more members
`key : value` of the grammar separated by commas, then a comma, optional
whitespace and `}`, with room for two descriptors more than the members have,
`JSON` returns `JSON_EILL`: the sub-parse in key position meets the closing
brace and its error is returned unchanged. -/
theorem C17_object_trailing_comma (fuel b n : Nat) (json : Nat → Nat) (m : Nat)
    (dest : Nat → struct_JSON) (w1 t w2 : List Nat) (ds : List struct_JSON)
    (hw1 : WS w1) (hw2 : WS w2) (ht : Derives .members t ds)
    (hh : Holds json 0 (123 :: (w1 ++ (t ++ 44 :: (w2 ++ [125])))))
    (hn : n = (123 :: (w1 ++ (t ++ 44 :: (w2 ++ [125])))).length)
    (hn32 : n < 4294967296) (hm32 : m < 4294967296) (hm : 2 + ds.length ≤ m)
    (hf : n + 2 < fuel) :
    ∃ d, JSON fuel b n json m dest = some (JSON_EILL, d) :=
  ⟨_, object_trailing fuel b n json m dest [] w1 t w2 [] ds (fun x hx => (by cases hx)) hw1 hw2 ht
    hh hn hn32 hm32 hm hf⟩

theorem C17_object_trailing_comma_witness :
    ∃ d, JSON 12 0 8 (bytes [123, 34, 97, 34, 58, 49, 44, 125] 0) 4 junk =
      some (JSON_EILL, d) :=
  C17_object_trailing_comma 12 0 8 (bytes [123, 34, 97, 34, 58, 49, 44, 125] 0) 4 junk []
    [34, 97, 34, 58, 49] [] _ (fun x hx => (by cases hx)) (fun x hx => (by cases hx))
    (Derives.members_one [34, 97, 34] [] [] [49] [] _
      ⟨[97], rfl, StrBody.plain 97 [] (by decide) (by decide) (by decide) (by decide) StrBody.nil⟩
      (fun x hx => (by cases hx)) (fun x hx => (by cases hx))
      (Derives.number [49]
        ⟨[], [49], [], [], rfl, Or.inl rfl, Or.inr ⟨49, [], rfl, by decide, by decide,
          fun x hx => (by cases hx)⟩, Or.inl rfl, Or.inl rfl⟩) (fun x hx => (by cases hx)))
    ⟨rfl, rfl, rfl, rfl, rfl, rfl, rfl, rfl, trivial⟩ rfl (by decide) (by decide) (by decide)
    (by decide)

/-! ### Statement of the specification on trailing content (C18) -/

/-- C18 fails on the code: with `jsonsize = 2`, the input bytes `"\` and the
bytes `"\x"` behind them, the call returns `JSON_EOK` with
`e = dest[0].offset - baseoffset + dest[0].size = 6`; the call on the first `e`
bytes followed by `]`, with the same base offset, capacity and descriptor
memory, returns `JSON_ESESC`, and so does the call on the two input bytes
followed by `]`.  (Without the read behind the input what follows the value
is not looked at: `JSON_trailing`.) -/
theorem C18_trailing_content_differs :
    ∃ d, JSON 9 0 2 (bytes [34, 92, 34, 92, 120, 34] 0) 1 junk = some (JSON_EOK, d) ∧
      usub (d 0).offset 0 + (d 0).size = 6 ∧
      (JSON 9 0 (usub (d 0).offset 0 + (d 0).size + [93].length)
        (bytes (slice (bytes [34, 92, 34, 92, 120, 34] 0) 0 (usub (d 0).offset 0 + (d 0).size)
          ++ [93]) 0) 1 junk).map Prod.fst = some JSON_ESESC ∧
      (JSON 9 0 3 (bytes ([34, 92] ++ [93]) 0) 1 junk).map Prod.fst = some JSON_ESESC :=
  ⟨_, rfl, rfl, rfl, rfl⟩

/-! ### Statement of the specification on leading zeros (C19) -/

/-- C19: on an input that holds, behind whitespace, an optional `-`, then `0`,
then a digit `d` and any further bytes, with room for one descriptor, `JSON`
returns `JSON_EOK` and stores a Number descriptor of size 1 (2 with the sign):
`d` is not consumed.  The same text behind `[`, with room for two descriptors,
makes `JSON` return `JSON_EINVAL`. -/
theorem C19_leading_zero (fuel b n : Nat) (json json' : Nat → Nat) (m : Nat)
    (dest : Nat → struct_JSON) (w sign : List Nat) (d : Nat) (rest : List Nat) (hw : WS w)
    (hs : sign = [] ∨ sign = [45]) (hd : is_digit d)
    (hh : Holds json 0 (w ++ (sign ++ 48 :: d :: rest)))
    (hh' : Holds json' 0 (91 :: (w ++ (sign ++ 48 :: d :: rest))))
    (hn : n = (w ++ (sign ++ 48 :: d :: rest)).length) (hn32 : n + 1 < 4294967296)
    (hm32 : m < 4294967296) (hf : n + 2 < fuel) :
    (1 ≤ m → JSON fuel b n json m dest =
      some (JSON_EOK, store dest 0 ⟨u32 (w.length + b), sign.length + 1, 0, JSON_NUMBER_TYPE⟩)) ∧
    (2 ≤ m → JSON fuel b (n + 1) json' m dest =
      some (JSON_EINVAL, store dest 1
        ⟨u32 (1 + w.length + b), sign.length + 1, 0, JSON_NUMBER_TYPE⟩)) := by
  simp only [List.length_append, List.length_cons] at hn
  have hnum := zero_numberAt hs d hd rest
  constructor
  · intro hm
    have := JSON_number_run fuel b n json m dest w (sign ++ [48]) (d :: rest) hw hnum
      (by simpa using hh) (by simp only [List.length_append, List.length_cons, List.length_nil]; omega)
      (by omega) hm (by omega)
    simpa using this
  · intro hm
    cases fuel with
    | zero => omega
    | succ fuel =>
      have hsp : ¬ is_space 91 := by unfold is_space; omega
      obtain ⟨k1, k2, k3, k4⟩ := whitespace_lead json' (n + 1) fuel [] 91 _
        (fun x hx => (by cases hx)) hh' hsp
        (by simp only [List.length_cons, List.length_append, List.length_nil]; omega) (by omega)
      have k3' : json' 0 = 91 := k3
      rw [JSON_enter fuel b (n + 1) json' m dest 0 k1 k2 (by omega), k3']
      rw [if_neg (by decide), if_pos rfl]
      have k5 : Holds json' 1 (w ++ (sign ++ 48 :: d :: rest)) := k4.2
      rw [Holds_append] at k5
      obtain ⟨c, r, hcr, hc⟩ := hnum.first
      have hcsp : ¬ is_space c := by
        unfold is_space
        unfold is_digit at hc
        omega
      have hnumh : Holds json' (1 + w.length) ((sign ++ [48]) ++ d :: rest) := by
        simpa using k5.2
      have hc0 : json' (1 + w.length) = c := by
        have := hnumh
        rw [hcr] at this
        exact this.1
      have k6 := whitespace_skip json' (n + 1) w fuel 1 hw k5.1
        (Or.inr (by rw [hc0]; exact hcsp)) (by omega) (by omega)
      have k7 := whitespace_skip json' (n + 1) [] fuel (1 + w.length) (fun x hx => (by cases hx))
        trivial (Or.inr (by simp only [List.length_nil, Nat.add_zero]; rw [hc0]; exact hcsp))
        (by simp only [List.length_nil]; omega) (by simp only [List.length_nil]; omega)
      simp only [List.length_nil, Nat.add_zero] at k7
      -- the recursive call on the element
      have k8 := JSON_number_run fuel (u32 (b + (1 + w.length))) (n + 1 - (1 + w.length))
        (shift json' (1 + w.length)) (m - 1) (shift dest 1) [] (sign ++ [48]) (d :: rest)
        (fun x hx => (by cases hx)) hnum
        (by
          simp only [List.nil_append]
          exact (Holds_shift json' (1 + w.length) _ 0).2 hnumh)
        (by simp only [List.length_append, List.length_cons, List.length_nil]; omega)
        (by omega) (by omega) (by omega)
      have k9 : subcall (JSON fuel) b (n + 1) json' m (1 + w.length) 1 dest =
          some (JSON_EOK, store dest 1
            ⟨u32 (1 + w.length + b), sign.length + 1, 0, JSON_NUMBER_TYPE⟩) := by
        unfold subcall
        rw [usub_of_le (by omega) (by omega), usub_of_le (by omega) hm32, k8]
        dsimp only
        congr 2
        funext i
        simp only [unshift, store, shift, List.length_nil, Nat.zero_add, List.length_append,
          List.length_cons]
        have e : u32 (u32 (b + (1 + w.length))) = u32 (1 + w.length + b) := by
          unfold u32
          rw [Nat.mod_mod]
          congr 1
          omega
        rw [e]
        by_cases h0 : i < 1
        · rw [if_pos h0, if_neg (by omega)]
        · rw [if_neg h0]
          by_cases h1 : i = 1
          · rw [if_pos h1, if_pos (by omega)]
          · rw [if_neg h1, if_neg (by omega)]
            congr 1
            omega
      have hdd : json' (1 + w.length + (sign.length + 1)) = d := by
        rw [Holds_append] at hnumh
        have := hnumh.2.1
        simpa using this
      have hdsp : ¬ is_space d := by
        unfold is_space
        unfold is_digit at hd
        omega
      have k10 := whitespace_skip json' (n + 1) [] fuel (1 + w.length + (sign.length + 1))
        (fun x hx => (by cases hx)) trivial
        (Or.inr (by simp only [List.length_nil, Nat.add_zero]; rw [hdd]; exact hdsp))
        (by simp only [List.length_nil]; omega) (by simp only [List.length_nil]; omega)
      simp only [List.length_nil, Nat.add_zero] at k10
      unfold JSON_array
      rw [Nat.zero_add, k6]
      dsimp only
      rw [if_neg (by omega), if_neg (by rw [hc0]; unfold is_digit at hc; omega)]
      cases fuel with
      | zero => omega
      | succ fuel' =>
        rw [array_loop]
        dsimp only
        rw [k7]
        dsimp only
        unfold value_block
        dsimp only
        rw [show u32 (0 + 1) = 1 from rfl, k9]
        dsimp only
        rw [if_neg (by simp)]
        dsimp only
        have hst : (store dest 1 ⟨u32 (1 + w.length + b), sign.length + 1, 0, JSON_NUMBER_TYPE⟩ 1)
            = ⟨u32 (1 + w.length + b), sign.length + 1, 0, JSON_NUMBER_TYPE⟩ := by
          simp only [store, if_true]
        rw [hst]
        dsimp only
        rw [k10]
        dsimp only
        unfold is_digit at hd
        rw [if_neg (by omega), hdd, if_neg (by omega), if_pos (by omega)]

theorem C19_leading_zero_witness :
    JSON 6 0 2 (bytes [48, 49] 0) 1 junk =
      some (JSON_EOK, store junk 0 ⟨u32 (([] : List Nat).length + 0), ([] : List Nat).length + 1,
        0, JSON_NUMBER_TYPE⟩) ∧
    JSON 6 0 (2 + 1) (bytes [91, 48, 49, 93] 0) 2 junk =
      some (JSON_EINVAL, store junk 1 ⟨u32 (1 + ([] : List Nat).length + 0),
        ([] : List Nat).length + 1, 0, JSON_NUMBER_TYPE⟩) := by
  have h := C19_leading_zero 6 0 2 (bytes [48, 49] 0) (bytes [91, 48, 49, 93] 0) 1 junk [] [] 49
    [] (fun x hx => (by cases hx)) (Or.inl rfl) (by unfold is_digit; decide) ⟨rfl, rfl, trivial⟩
    ⟨rfl, rfl, rfl, trivial⟩ rfl (by decide) (by decide) (by decide)
  have h2 := C19_leading_zero 6 0 2 (bytes [48, 49] 0) (bytes [91, 48, 49, 93] 0) 2 junk [] [] 49
    [] (fun x hx => (by cases hx)) (Or.inl rfl) (by unfold is_digit; decide) ⟨rfl, rfl, trivial⟩
    ⟨rfl, rfl, rfl, trivial⟩ rfl (by decide) (by decide) (by decide)
  exact ⟨h.1 (by decide), h2.2 (by decide)⟩

/-! ### Statement of the specification on termination and progress (C20) -/

/-- C20: on every input in which no string ends right behind a backslash, with
every capacity, `JSON` terminates: with fuel above `jsonsize + 1` it returns.
Every recursive call is made on a byte range strictly shorter than the
caller's: a callee that refuses longer ranges gives the same result.  Every
descriptor written by a call that returns `JSON_EOK` has size at least 1, and
every iteration of the array loop and of the object loop returns or goes on
from a position further to the right.  The recursion never nests deeper than
`jsonsize`: the bound `jsonsize` on the depth changes nothing. -/
theorem C20_termination_progress (b n : Nat) (json : Nat → Nat) (m : Nat)
    (dest : Nat → struct_JSON) (hn : n < 4294967296) (hm : m < 4294967296)
    (hl : NoDangling json 0 n) :
    (∀ fuel, n + 1 < fuel → ∃ r, JSON fuel b n json m dest = some r) ∧
    (∀ fuel, JSON_body (shorter n (JSON fuel)) fuel b n json m dest =
      JSON (fuel + 1) b n json m dest) ∧
    (∀ fuel d, JSON fuel b n json m dest = some (JSON_EOK, d) →
      ∀ i, i ≤ (d 0).treesize → 1 ≤ (d i).size) ∧
    (∀ fuel start s, n < fuel → 1 ≤ s.pos → s.pos ≤ n → s.treesize + 1 = s.destpos →
      s.destpos ≤ m → NoDangling json s.pos n →
      ((∃ r, ∀ iter, array_loop (JSON fuel) fuel b n json m start (iter + 1) s = some r) ∨
        ∃ s', s.pos < s'.pos ∧ ∀ iter,
          array_loop (JSON fuel) fuel b n json m start (iter + 1) s =
            array_loop (JSON fuel) fuel b n json m start iter s') ∧
      ((∃ r, ∀ iter, object_loop (JSON fuel) fuel b n json m start (iter + 1) s = some r) ∨
        ∃ s', s.pos < s'.pos ∧ ∀ iter,
          object_loop (JSON fuel) fuel b n json m start (iter + 1) s =
            object_loop (JSON fuel) fuel b n json m start iter s')) ∧
    (∀ fuel, JSON_depth fuel n b n json m dest = JSON fuel b n json m dest) := by
  have hag := fence_agree json n
  have hb := fence_noOverrun json n
  have hl2 : NoDangling (fence json n) 0 n := NoDangling.agree hag (Nat.zero_le _) hl
  have hj : ∀ fuel, JSON fuel b n json m dest = JSON fuel b n (fence json n) m dest :=
    fun fuel => JSON_safe fuel b n json (fence json n) m dest hn hm hag hb hl2
  have hret : ∀ fuel, n < fuel → Returns (JSON fuel) n := by
    intro fuel hf b' n' json' m' dest' hn' hn32 hm32 hb'
    exact JSON_total fuel b' n' json' m' dest' (by omega) hn32 hm32 hb'
  refine ⟨fun fuel hf => ?_, fun fuel => ?_, fun fuel d h i hi => ?_,
    fun fuel start s hf h1 hp ht hd hls => ⟨?_, ?_⟩, fun fuel => ?_⟩
  · rw [hj]
    exact JSON_total fuel b n (fence json n) m dest hf hn hm hb
  · rw [JSON_body_safe (shorter_safe (JSON_safe fuel) n)
      (shorter_grammatical (JSON_grammatical fuel) n) fuel b n json (fence json n) m dest hn hm
      hag hb hl2, hj, JSON_unfold]
    refine (JSON_body_congr (JSON_grammatical fuel) fuel b n (fence json n) m dest ?_ hn hm
      hb).symm
    intro b' n' json' m' dest' hn' _ _ _
    unfold shorter
    rw [if_pos hn']
  · rw [hj] at h
    exact JSON_size_pos fuel b n (fence json n) m dest d hn hm hb h i hi
  · have hls2 : NoDangling (fence json n) s.pos n := NoDangling.agree hag hp hls
    have tr : ∀ iter (s0 : Frame), s0.pos ≤ n → s0.treesize + 1 = s0.destpos → s0.destpos ≤ m →
        NoDangling (fence json n) s0.pos n →
        array_loop (JSON fuel) fuel b n json m start iter s0 =
          array_loop (JSON fuel) fuel b n (fence json n) m start iter s0 :=
      array_loop_safe (JSON_safe fuel) (JSON_grammatical fuel) hag hb hn fuel b m start hm
    rcases array_loop_progress (JSON_grammatical fuel) fuel b n (fence json n) m start
      (hret fuel hf) hn hm hb s h1 hp ht hd hf with ⟨r, h⟩ | ⟨s', a1, a2, a3, a4, ⟨t, t1, t2, t3⟩, h⟩
    · exact Or.inl ⟨r, fun iter => by rw [tr (iter + 1) s hp ht hd hls2]; exact h iter⟩
    · refine Or.inr ⟨s', a1, fun iter => ?_⟩
      have hls' : NoDangling (fence json n) s'.pos n := by
        rw [t2]
        exact hls2.skip t1 (by omega) t3
      rw [tr (iter + 1) s hp ht hd hls2, tr iter s' a2 a3 a4 hls']
      exact h iter
  · have hls2 : NoDangling (fence json n) s.pos n := NoDangling.agree hag hp hls
    have tr : ∀ iter (s0 : Frame), s0.pos ≤ n → s0.treesize + 1 = s0.destpos → s0.destpos ≤ m →
        NoDangling (fence json n) s0.pos n →
        object_loop (JSON fuel) fuel b n json m start iter s0 =
          object_loop (JSON fuel) fuel b n (fence json n) m start iter s0 :=
      object_loop_safe (JSON_safe fuel) (JSON_grammatical fuel) hag hb hn fuel b m start hm
    rcases object_loop_progress (JSON_grammatical fuel) fuel b n (fence json n) m start
      (hret fuel hf) hn hm hb s h1 hp ht hd hf with ⟨r, h⟩ | ⟨s', a1, a2, a3, a4, ⟨t, t1, t2, t3⟩, h⟩
    · exact Or.inl ⟨r, fun iter => by rw [tr (iter + 1) s hp ht hd hls2]; exact h iter⟩
    · refine Or.inr ⟨s', a1, fun iter => ?_⟩
      have hls' : NoDangling (fence json n) s'.pos n := by
        rw [t2]
        exact hls2.skip t1 (by omega) t3
      rw [tr (iter + 1) s hp ht hd hls2, tr iter s' a2 a3 a4 hls']
      exact h iter
  · rw [JSON_depth_safe fuel n b n json (fence json n) m dest hn hm hag hb hl2, hj]
    exact JSON_depth_eq fuel n b n (fence json n) m dest (Nat.le_refl n) hn hm hb

theorem C20_termination_progress_witness :
    (∃ r, JSON 5 0 3 (bytes [91, 49, 93] 0) 2 junk = some r) ∧
    JSON_depth 5 3 0 3 (bytes [91, 49, 93] 0) 2 junk = JSON 5 0 3 (bytes [91, 49, 93] 0) 2 junk := by
  have h := C20_termination_progress 0 3 (bytes [91, 49, 93] 0) 2 junk (by decide) (by decide)
    (by unfold NoDangling; decide)
  exact ⟨h.1 5 (by decide), h.2.2.2.2 5⟩

end SJson
